import Mathlib

/-!
# MiniVSFS: a verification development

A shallow embedding of the two tools of the repository, `mkfs_builder.c` (the
formatter) and `mkfs_adder.c` (the inserter), followed by theorems about them.

Conventions of the embedding.

* A byte is a `Nat` below 256; a `uintN_t` value is a `Nat` below `2 ^ N`.  Where C
  arithmetic truncates, the embedding writes the `% 2 ^ N` explicitly.
* A file (the image, the file to insert) is the `List Nat` of its bytes.
* A packed C struct is a Lean structure of its field values.  Its in-memory bytes
  (what `fwrite (&s, sizeof s, ...)` emits and what `crc32 ((void *) &s, ...)` reads)
  are given by a `*_mem` function, and `*_of_mem` is the struct `fread` leaves behind.
  Both depend on the byte order of the host, a parameter `Endian` of the embedding.
* `time (NULL)` is a parameter: the value returned by each call.
-/

namespace MiniVSFS

/-! ## Constants (`#define`s of both source files) -/

def BS : Nat := 4096
def INODE_SIZE : Nat := 128
def ROOT_INO : Nat := 1
def DIRECT_MAX : Nat := 12
def PROJECT_ID : Nat := 9

/-! ## Byte-order helpers (`to_le16` ... `from_le64`) -/

/-- Source `to_le16`: the two bytes of `x` exchanged, truncated to `uint16_t`. -/
def to_le16 (x : Nat) : Nat :=
  (((x &&& 0x00FF) <<< 8) ||| ((x &&& 0xFF00) >>> 8)) % 2 ^ 16

/-- Source `to_le32`: the four bytes of `x` in reverse order. -/
def to_le32 (x : Nat) : Nat :=
  (((x &&& 0x000000FF) <<< 24) ||| ((x &&& 0x0000FF00) <<< 8) |||
    ((x &&& 0x00FF0000) >>> 8) ||| ((x &&& 0xFF000000) >>> 24)) % 2 ^ 32

/-- Source `to_le64`: `to_le32` of the low half shifted up, or-ed with `to_le32` of the
high half. -/
def to_le64 (x : Nat) : Nat :=
  (((to_le32 ((x &&& 0xFFFFFFFF) % 2 ^ 32)) <<< 32) % 2 ^ 64) ||| to_le32 ((x >>> 32) % 2 ^ 32)

def from_le16 (x : Nat) : Nat := to_le16 x
def from_le32 (x : Nat) : Nat := to_le32 x
def from_le64 (x : Nat) : Nat := to_le64 x

/-! ## Host memory representation of integers -/

/-- Byte order of the machine the tools run on. -/
inductive Endian where
  | little
  | big
  deriving DecidableEq, Repr

/-- The `w` bytes of `x`, least significant first. -/
def le_bytes : Nat → Nat → List Nat
  | 0, _ => []
  | w + 1, x => (x % 256) :: le_bytes w (x / 256)

/-- The number whose bytes, least significant first, are `bs`. -/
def le_val : List Nat → Nat
  | [] => 0
  | b :: bs => b + 256 * le_val bs

/-- The bytes a `w`-byte unsigned integer of value `x` occupies in memory on host `h`,
lowest address first. -/
def host_bytes (h : Endian) (w x : Nat) : List Nat :=
  match h with
  | Endian.little => le_bytes w x
  | Endian.big => (le_bytes w x).reverse

/-- The value of the unsigned integer stored in the memory bytes `bs` on host `h`. -/
def host_val (h : Endian) (bs : List Nat) : Nat :=
  match h with
  | Endian.little => le_val bs
  | Endian.big => le_val bs.reverse

/-! ## CRC32 (`crc32_init`, `crc32`) -/

/-- One iteration of the inner loop of `crc32_init`:
`c = (c & 1) ? (0xEDB88320u ^ (c >> 1)) : (c >> 1)`. -/
def crc32_init_step (c : Nat) : Nat :=
  if c &&& 1 ≠ 0 then 0xEDB88320 ^^^ (c >>> 1) else c >>> 1

/-- The body of the outer loop of `crc32_init` for index `i`: eight steps from `c = i`. -/
def crc32_init_entry (i : Nat) : Nat :=
  crc32_init_step (crc32_init_step (crc32_init_step (crc32_init_step
    (crc32_init_step (crc32_init_step (crc32_init_step (crc32_init_step i)))))))

/-- The global `CRC32_TAB` after `crc32_init ()`. -/
def CRC32_TAB : List Nat := (List.range 256).map crc32_init_entry

/-- The loop of `crc32`: `c = CRC32_TAB[(c ^ p[i]) & 0xFF] ^ (c >> 8)` for each byte. -/
def crc32_loop (c : Nat) : List Nat → Nat
  | [] => c
  | p :: ps => crc32_loop (CRC32_TAB.getD ((c ^^^ p) &&& 0xFF) 0 ^^^ (c >>> 8)) ps

/-- Source `crc32 (data, n)`: the first `n` bytes of the memory `data` points to. -/
def crc32 (data : List Nat) (n : Nat) : Nat :=
  crc32_loop 0xFFFFFFFF (data.take n) ^^^ 0xFFFFFFFF

/-! ## Bitmap helpers (`find_free_bit`, `set_bit`) -/

/-- The inner loop of `find_free_bit` on byte `b`, from bit `j` with `fuel = 8 - j`
iterations left: the first `j' ≥ j` with `!(b & (1 << j'))`. -/
def find_free_bit_inner (b : Nat) : Nat → Nat → Option Nat
  | 0, _ => none
  | fuel + 1, j => if b &&& (1 <<< j) = 0 then some j else find_free_bit_inner b fuel (j + 1)

/-- The outer loop of `find_free_bit` from byte index `i` over the remaining bytes. -/
def find_free_bit_loop : List Nat → Nat → Int
  | [], _ => -1
  | b :: bs, i =>
    if b ≠ 0xFF then
      match find_free_bit_inner b 8 0 with
      | some j => ((i * 8 + j : Nat) : Int)
      | none => find_free_bit_loop bs (i + 1)
    else find_free_bit_loop bs (i + 1)

/-- Source `find_free_bit (bitmap, bitmap_size)`. -/
def find_free_bit (bitmap : List Nat) (bitmap_size : Nat) : Int :=
  find_free_bit_loop (bitmap.take bitmap_size) 0

/-- Source `set_bit (bitmap, bit)`: `bitmap[bit / 8] |= (1 << (bit % 8))`, the result
stored into a `uint8_t`. -/
def set_bit (bitmap : List Nat) (bit : Nat) : List Nat :=
  bitmap.set (bit / 8) ((bitmap.getD (bit / 8) 0 ||| (1 <<< (bit % 8))) % 256)

/-- Source `is_bit_set (bitmap, bit)`: `(bitmap[bit / 8] & (1 << (bit % 8))) != 0`. -/
def is_bit_set (bitmap : List Nat) (bit : Nat) : Bool :=
  decide (bitmap.getD (bit / 8) 0 &&& (1 <<< (bit % 8)) ≠ 0)

/-! ## The on-disk records (`superblock_t`, `inode_t`, `dirent64_t`) -/

/-- Source `superblock_t` (packed, 116 bytes): three `uint32_t`, twelve `uint64_t`, two
`uint32_t`. -/
structure superblock_t where
  magic : Nat
  version : Nat
  block_size : Nat
  total_blocks : Nat
  inode_count : Nat
  inode_bitmap_start : Nat
  inode_bitmap_blocks : Nat
  data_bitmap_start : Nat
  data_bitmap_blocks : Nat
  inode_table_start : Nat
  inode_table_blocks : Nat
  data_region_start : Nat
  data_region_blocks : Nat
  root_inode : Nat
  mtime_epoch : Nat
  flags : Nat
  checksum : Nat
  deriving DecidableEq, Repr

/-- Source `inode_t` (packed, 128 bytes); `direct` is the array `uint32_t direct[12]`. -/
structure inode_t where
  mode : Nat
  links : Nat
  uid : Nat
  gid : Nat
  size_bytes : Nat
  atime : Nat
  mtime : Nat
  ctime : Nat
  direct : List Nat
  reserved_0 : Nat
  reserved_1 : Nat
  reserved_2 : Nat
  proj_id : Nat
  uid16_gid16 : Nat
  xattr_ptr : Nat
  inode_crc : Nat
  deriving DecidableEq, Repr

/-- Source `dirent64_t` (packed, 64 bytes); `name` is the array `char name[58]`. -/
structure dirent64_t where
  ino : Nat
  type : Nat
  name : List Nat
  checksum : Nat
  deriving DecidableEq, Repr

/-- Every field of the superblock fits its C type. -/
def superblock_t.wf (sb : superblock_t) : Prop :=
  sb.magic < 2 ^ 32 ∧ sb.version < 2 ^ 32 ∧ sb.block_size < 2 ^ 32 ∧
  sb.total_blocks < 2 ^ 64 ∧ sb.inode_count < 2 ^ 64 ∧
  sb.inode_bitmap_start < 2 ^ 64 ∧ sb.inode_bitmap_blocks < 2 ^ 64 ∧
  sb.data_bitmap_start < 2 ^ 64 ∧ sb.data_bitmap_blocks < 2 ^ 64 ∧
  sb.inode_table_start < 2 ^ 64 ∧ sb.inode_table_blocks < 2 ^ 64 ∧
  sb.data_region_start < 2 ^ 64 ∧ sb.data_region_blocks < 2 ^ 64 ∧
  sb.root_inode < 2 ^ 64 ∧ sb.mtime_epoch < 2 ^ 64 ∧
  sb.flags < 2 ^ 32 ∧ sb.checksum < 2 ^ 32

/-- Every field of the inode fits its C type, and `direct` has its twelve elements. -/
def inode_t.wf (ino : inode_t) : Prop :=
  ino.mode < 2 ^ 16 ∧ ino.links < 2 ^ 16 ∧ ino.uid < 2 ^ 32 ∧ ino.gid < 2 ^ 32 ∧
  ino.size_bytes < 2 ^ 64 ∧ ino.atime < 2 ^ 64 ∧ ino.mtime < 2 ^ 64 ∧ ino.ctime < 2 ^ 64 ∧
  ino.direct.length = 12 ∧ (∀ d ∈ ino.direct, d < 2 ^ 32) ∧
  ino.reserved_0 < 2 ^ 32 ∧ ino.reserved_1 < 2 ^ 32 ∧ ino.reserved_2 < 2 ^ 32 ∧
  ino.proj_id < 2 ^ 32 ∧ ino.uid16_gid16 < 2 ^ 32 ∧
  ino.xattr_ptr < 2 ^ 64 ∧ ino.inode_crc < 2 ^ 64

/-- Every field of the directory entry fits its C type, and `name` has its 58 bytes. -/
def dirent64_t.wf (de : dirent64_t) : Prop :=
  de.ino < 2 ^ 32 ∧ de.type < 2 ^ 8 ∧ de.name.length = 58 ∧ (∀ c ∈ de.name, c < 2 ^ 8) ∧
  de.checksum < 2 ^ 8

/-- The memory of an array of `w`-byte unsigned integers. -/
def array_mem (h : Endian) (w : Nat) (xs : List Nat) : List Nat :=
  (xs.map (host_bytes h w)).flatten

/-- The unsigned `w`-byte integer at byte offset `off` of the memory `m`. -/
def field_at (h : Endian) (m : List Nat) (off w : Nat) : Nat :=
  host_val h ((m.drop off).take w)

/-- The `sizeof (superblock_t) = 116` bytes of a superblock in memory. -/
def superblock_mem (h : Endian) (sb : superblock_t) : List Nat :=
  host_bytes h 4 sb.magic ++ host_bytes h 4 sb.version ++ host_bytes h 4 sb.block_size ++
  host_bytes h 8 sb.total_blocks ++ host_bytes h 8 sb.inode_count ++
  host_bytes h 8 sb.inode_bitmap_start ++ host_bytes h 8 sb.inode_bitmap_blocks ++
  host_bytes h 8 sb.data_bitmap_start ++ host_bytes h 8 sb.data_bitmap_blocks ++
  host_bytes h 8 sb.inode_table_start ++ host_bytes h 8 sb.inode_table_blocks ++
  host_bytes h 8 sb.data_region_start ++ host_bytes h 8 sb.data_region_blocks ++
  host_bytes h 8 sb.root_inode ++ host_bytes h 8 sb.mtime_epoch ++
  host_bytes h 4 sb.flags ++ host_bytes h 4 sb.checksum

/-- The superblock whose memory is the first 116 bytes of `m` (the struct after
`fread (&sb, sizeof (sb), 1, f)`). -/
def superblock_of_mem (h : Endian) (m : List Nat) : superblock_t where
  magic := field_at h m 0 4
  version := field_at h m 4 4
  block_size := field_at h m 8 4
  total_blocks := field_at h m 12 8
  inode_count := field_at h m 20 8
  inode_bitmap_start := field_at h m 28 8
  inode_bitmap_blocks := field_at h m 36 8
  data_bitmap_start := field_at h m 44 8
  data_bitmap_blocks := field_at h m 52 8
  inode_table_start := field_at h m 60 8
  inode_table_blocks := field_at h m 68 8
  data_region_start := field_at h m 76 8
  data_region_blocks := field_at h m 84 8
  root_inode := field_at h m 92 8
  mtime_epoch := field_at h m 100 8
  flags := field_at h m 108 4
  checksum := field_at h m 112 4

/-- The `sizeof (inode_t) = 128` bytes of an inode in memory. -/
def inode_mem (h : Endian) (ino : inode_t) : List Nat :=
  host_bytes h 2 ino.mode ++ host_bytes h 2 ino.links ++ host_bytes h 4 ino.uid ++
  host_bytes h 4 ino.gid ++ host_bytes h 8 ino.size_bytes ++ host_bytes h 8 ino.atime ++
  host_bytes h 8 ino.mtime ++ host_bytes h 8 ino.ctime ++ array_mem h 4 ino.direct ++
  host_bytes h 4 ino.reserved_0 ++ host_bytes h 4 ino.reserved_1 ++
  host_bytes h 4 ino.reserved_2 ++ host_bytes h 4 ino.proj_id ++
  host_bytes h 4 ino.uid16_gid16 ++ host_bytes h 8 ino.xattr_ptr ++
  host_bytes h 8 ino.inode_crc

/-- The inode whose memory is the first 128 bytes of `m`. -/
def inode_of_mem (h : Endian) (m : List Nat) : inode_t where
  mode := field_at h m 0 2
  links := field_at h m 2 2
  uid := field_at h m 4 4
  gid := field_at h m 8 4
  size_bytes := field_at h m 12 8
  atime := field_at h m 20 8
  mtime := field_at h m 28 8
  ctime := field_at h m 36 8
  direct := (List.range 12).map (fun i => field_at h m (44 + 4 * i) 4)
  reserved_0 := field_at h m 92 4
  reserved_1 := field_at h m 96 4
  reserved_2 := field_at h m 100 4
  proj_id := field_at h m 104 4
  uid16_gid16 := field_at h m 108 4
  xattr_ptr := field_at h m 112 8
  inode_crc := field_at h m 120 8

/-- The `sizeof (dirent64_t) = 64` bytes of a directory entry in memory. -/
def dirent_mem (h : Endian) (de : dirent64_t) : List Nat :=
  host_bytes h 4 de.ino ++ host_bytes h 1 de.type ++ de.name ++ host_bytes h 1 de.checksum

/-- The directory entry whose memory is the first 64 bytes of `m`. -/
def dirent_of_mem (h : Endian) (m : List Nat) : dirent64_t where
  ino := field_at h m 0 4
  type := field_at h m 4 1
  name := (m.drop 5).take 58
  checksum := field_at h m 63 1

/-! ## Checksums (`superblock_crc_finalize`, `inode_crc_finalize`,
`dirent_checksum_finalize`) -/

/-- Source `superblock_crc_finalize (sb)`.  `crc32 ((void *) sb, BS - 4)` reads `BS - 4`
bytes starting at the struct: its own 116 bytes and then whatever follows it in memory,
the parameter `after`. -/
def superblock_crc_finalize (h : Endian) (after : List Nat) (sb : superblock_t) :
    superblock_t :=
  let sb0 := { sb with checksum := 0 }
  let s := crc32 (superblock_mem h sb0 ++ after) (BS - 4)
  { sb0 with checksum := s }

/-- Source `inode_crc_finalize (ino)`. -/
def inode_crc_finalize (h : Endian) (ino : inode_t) : inode_t :=
  let tmp := (inode_mem h ino).take INODE_SIZE
  let tmp := tmp.take 120 ++ List.replicate 8 0
  let c := crc32 tmp 120
  { ino with inode_crc := c }

/-- Source `dirent_checksum_finalize (de)`: the `uint8_t` xor of the first 63 bytes. -/
def dirent_checksum_finalize (h : Endian) (de : dirent64_t) : dirent64_t :=
  let p := dirent_mem h de
  let x := (p.take 63).foldl (fun x b => (x ^^^ b) % 256) 0
  { de with checksum := x }

/-! ## Record conversion (`*_to_host`, `*_to_disk`; `*_to_le` in the formatter) -/

/-- Source `superblock_to_host`. -/
def superblock_to_host (sb : superblock_t) : superblock_t where
  magic := from_le32 sb.magic
  version := from_le32 sb.version
  block_size := from_le32 sb.block_size
  total_blocks := from_le64 sb.total_blocks
  inode_count := from_le64 sb.inode_count
  inode_bitmap_start := from_le64 sb.inode_bitmap_start
  inode_bitmap_blocks := from_le64 sb.inode_bitmap_blocks
  data_bitmap_start := from_le64 sb.data_bitmap_start
  data_bitmap_blocks := from_le64 sb.data_bitmap_blocks
  inode_table_start := from_le64 sb.inode_table_start
  inode_table_blocks := from_le64 sb.inode_table_blocks
  data_region_start := from_le64 sb.data_region_start
  data_region_blocks := from_le64 sb.data_region_blocks
  root_inode := from_le64 sb.root_inode
  mtime_epoch := from_le64 sb.mtime_epoch
  flags := from_le32 sb.flags
  checksum := from_le32 sb.checksum

/-- Source `superblock_to_disk` (the inserter) and `superblock_to_le` (the formatter),
which have the same body: every field but `checksum` is converted. -/
def superblock_to_disk (sb : superblock_t) : superblock_t where
  magic := to_le32 sb.magic
  version := to_le32 sb.version
  block_size := to_le32 sb.block_size
  total_blocks := to_le64 sb.total_blocks
  inode_count := to_le64 sb.inode_count
  inode_bitmap_start := to_le64 sb.inode_bitmap_start
  inode_bitmap_blocks := to_le64 sb.inode_bitmap_blocks
  data_bitmap_start := to_le64 sb.data_bitmap_start
  data_bitmap_blocks := to_le64 sb.data_bitmap_blocks
  inode_table_start := to_le64 sb.inode_table_start
  inode_table_blocks := to_le64 sb.inode_table_blocks
  data_region_start := to_le64 sb.data_region_start
  data_region_blocks := to_le64 sb.data_region_blocks
  root_inode := to_le64 sb.root_inode
  mtime_epoch := to_le64 sb.mtime_epoch
  flags := to_le32 sb.flags
  checksum := sb.checksum

/-- Source `inode_to_host`. -/
def inode_to_host (ino : inode_t) : inode_t where
  mode := from_le16 ino.mode
  links := from_le16 ino.links
  uid := from_le32 ino.uid
  gid := from_le32 ino.gid
  size_bytes := from_le64 ino.size_bytes
  atime := from_le64 ino.atime
  mtime := from_le64 ino.mtime
  ctime := from_le64 ino.ctime
  direct := ino.direct.map from_le32
  reserved_0 := from_le32 ino.reserved_0
  reserved_1 := from_le32 ino.reserved_1
  reserved_2 := from_le32 ino.reserved_2
  proj_id := from_le32 ino.proj_id
  uid16_gid16 := from_le32 ino.uid16_gid16
  xattr_ptr := from_le64 ino.xattr_ptr
  inode_crc := from_le64 ino.inode_crc

/-- Source `inode_to_disk` (the inserter) and `inode_to_le` (the formatter), which have
the same body: every field but `inode_crc` is converted. -/
def inode_to_disk (ino : inode_t) : inode_t where
  mode := to_le16 ino.mode
  links := to_le16 ino.links
  uid := to_le32 ino.uid
  gid := to_le32 ino.gid
  size_bytes := to_le64 ino.size_bytes
  atime := to_le64 ino.atime
  mtime := to_le64 ino.mtime
  ctime := to_le64 ino.ctime
  direct := ino.direct.map to_le32
  reserved_0 := to_le32 ino.reserved_0
  reserved_1 := to_le32 ino.reserved_1
  reserved_2 := to_le32 ino.reserved_2
  proj_id := to_le32 ino.proj_id
  uid16_gid16 := to_le32 ino.uid16_gid16
  xattr_ptr := to_le64 ino.xattr_ptr
  inode_crc := ino.inode_crc

/-- Source `dirent_to_host`. -/
def dirent_to_host (de : dirent64_t) : dirent64_t :=
  { de with ino := from_le32 de.ino }

/-- Source `dirent_to_disk` (the inserter) and `dirent_to_le` (the formatter). -/
def dirent_to_disk (de : dirent64_t) : dirent64_t :=
  { de with ino := to_le32 de.ino }

/-! ## Files and positioned I/O -/

/-- The zero-filled block `memset (block, 0, BS)` leaves. -/
def zero_block : List Nat := List.replicate BS 0

/-- An `fseek` to `off` followed by an `fread` of one item of `n` bytes: the bytes, or
`none` when the file ends before `off + n` (the `fread (...) != 1` branch). -/
def pread (img : List Nat) (off n : Nat) : Option (List Nat) :=
  if off + n ≤ img.length then some ((img.drop off).take n) else none

/-- An `fseek` to `off` followed by an `fwrite` of `data`: the bytes at `off` are replaced,
the file grows when the write ends past its end, and a gap between the old end and `off`
reads as zeros. -/
def pwrite (img : List Nat) (off : Nat) (data : List Nat) : List Nat :=
  (img ++ List.replicate (off - img.length) 0).take off ++ data ++
    img.drop (off + data.length)

/-- The copy loop of the inserter: `fread` up to `BS` bytes, `fwrite` what was read, until
`fread` returns 0.  `fuel` bounds the number of iterations. -/
def copy_loop : Nat → List Nat → List Nat → List Nat
  | 0, _, out => out
  | fuel + 1, input, out =>
    let copy_buffer := input.take BS
    if copy_buffer.length > 0 then copy_loop fuel (input.drop BS) (out ++ copy_buffer)
    else out

/-- The output file after the copy loop and `fclose (output_img)`. -/
def copy_image (input_img : List Nat) : List Nat :=
  copy_loop (input_img.length + 1) input_img []

/-! ## The formatter (`main` of `mkfs_builder.c`) -/

/-- The geometry the formatter derives (lines 205-213), in `uint64_t` arithmetic. -/
structure geometry_t where
  total_blocks : Nat
  inode_table_blocks : Nat
  inode_bitmap_start : Nat
  inode_bitmap_blocks : Nat
  data_bitmap_start : Nat
  data_bitmap_blocks : Nat
  inode_table_start : Nat
  data_region_start : Nat
  data_region_blocks : Nat
  deriving DecidableEq, Repr

/-- Lines 205-213 of `mkfs_builder.c`. -/
def builder_geometry (size_kib inode_count : Nat) : geometry_t :=
  let total_blocks := (size_kib * 1024) % 2 ^ 64 / BS
  let inode_table_blocks := ((inode_count * INODE_SIZE) % 2 ^ 64 + BS - 1) % 2 ^ 64 / BS
  let inode_table_start := 3
  let data_region_start := (inode_table_start + inode_table_blocks) % 2 ^ 64
  let data_region_blocks := (total_blocks + 2 ^ 64 - data_region_start) % 2 ^ 64
  { total_blocks := total_blocks
    inode_table_blocks := inode_table_blocks
    inode_bitmap_start := 1
    inode_bitmap_blocks := 1
    data_bitmap_start := 2
    data_bitmap_blocks := 1
    inode_table_start := inode_table_start
    data_region_start := data_region_start
    data_region_blocks := data_region_blocks }

/-- The validation of the formatter (lines 188-202): `true` when `main` goes on to build
the image. -/
def builder_valid (size_kib inode_count : Nat) : Bool :=
  if size_kib < 180 ∨ size_kib > 4096 then false
  else if size_kib % 4 ≠ 0 then false
  else if inode_count < 128 ∨ inode_count > 512 then false
  else true

/-- The superblock of the formatter after `superblock_to_le` and
`superblock_crc_finalize` (lines 216-236); `now` is `time (NULL)`. -/
def builder_superblock (h : Endian) (after : List Nat) (now size_kib inode_count : Nat) :
    superblock_t :=
  let g := builder_geometry size_kib inode_count
  let sb : superblock_t :=
    { magic := 0x4D565346
      version := 1
      block_size := BS
      total_blocks := g.total_blocks
      inode_count := inode_count
      inode_bitmap_start := g.inode_bitmap_start
      inode_bitmap_blocks := g.inode_bitmap_blocks
      data_bitmap_start := g.data_bitmap_start
      data_bitmap_blocks := g.data_bitmap_blocks
      inode_table_start := g.inode_table_start
      inode_table_blocks := g.inode_table_blocks
      data_region_start := g.data_region_start
      data_region_blocks := g.data_region_blocks
      root_inode := ROOT_INO
      mtime_epoch := now % 2 ^ 64
      flags := 0
      checksum := 0 }
  superblock_crc_finalize h after (superblock_to_disk sb)

/-- The root inode of the formatter after `inode_to_le` and `inode_crc_finalize`
(lines 260-275).  Its timestamps are copied from `sb.mtime_epoch`, which
`superblock_to_le` has already converted. -/
def builder_root_inode (h : Endian) (sb : superblock_t) (data_region_start : Nat) : inode_t :=
  let root : inode_t :=
    { mode := 0o040000
      links := 2
      uid := 0
      gid := 0
      size_bytes := 2 * 64
      atime := sb.mtime_epoch
      mtime := sb.mtime_epoch
      ctime := sb.mtime_epoch
      direct := (List.replicate 12 0).set 0 (data_region_start % 2 ^ 32)
      reserved_0 := 0
      reserved_1 := 0
      reserved_2 := 0
      proj_id := PROJECT_ID
      uid16_gid16 := 0
      xattr_ptr := 0
      inode_crc := 0 }
  inode_crc_finalize h (inode_to_disk root)

/-- Source `strncpy (dst, src, n)` into a zeroed array of `size ≥ n` chars: the first `n`
bytes of the string `src`, then NULs. -/
def strncpy_into (size : Nat) (src : List Nat) (n : Nat) : List Nat :=
  src.take n ++ List.replicate (size - (src.take n).length) 0

/-- A directory entry of the formatter (lines 286-291 and 294-299): `ino = ROOT_INO`,
`type = 2`, the name copied by `strncpy (name, s, sizeof name)`. -/
def builder_dirent (h : Endian) (s : List Nat) : dirent64_t :=
  let de : dirent64_t :=
    { ino := ROOT_INO, type := 2, name := strncpy_into 58 s 58, checksum := 0 }
  dirent_checksum_finalize h (dirent_to_disk de)

/-- The blocks the formatter writes, in order (lines 241-307). -/
def builder_image (h : Endian) (after : List Nat) (now size_kib inode_count : Nat) :
    List Nat :=
  let g := builder_geometry size_kib inode_count
  let sb := builder_superblock h after now size_kib inode_count
  -- Block 0: superblock
  let block0 := superblock_mem h sb ++ zero_block.drop 116
  -- Block 1: inode bitmap, Block 2: data bitmap
  let block1 := zero_block.set 0 ((zero_block.getD 0 0 ||| 0x01) % 256)
  let block2 := zero_block.set 0 ((zero_block.getD 0 0 ||| 0x01) % 256)
  -- Inode table
  let root := builder_root_inode h sb g.data_region_start
  let itable0 := inode_mem h root ++ zero_block.drop 128
  let itable_rest := (List.replicate (g.inode_table_blocks - 1) zero_block).flatten
  -- Data region
  let dot := builder_dirent h [46]
  let dotdot := builder_dirent h [46, 46]
  let data0 := dirent_mem h dot ++ dirent_mem h dotdot ++ zero_block.drop 128
  let data_rest := (List.replicate (g.data_region_blocks - 1) zero_block).flatten
  block0 ++ block1 ++ block2 ++ itable0 ++ itable_rest ++ data0 ++ data_rest

/-- The formatter: `none` when validation fails (exit status 1, no image written),
otherwise the image written to `image_name` (exit status 0). -/
def mkfs_builder (h : Endian) (after : List Nat) (now size_kib inode_count : Nat) :
    Option (List Nat) :=
  if builder_valid size_kib inode_count then
    some (builder_image h after now size_kib inode_count)
  else none

/-- A bitmap block with bit 0 set and every other bit clear. -/
def first_bit_block : List Nat := 1 :: List.replicate (BS - 1) 0

/-! ## The inserter (`main` of `mkfs_adder.c`) -/

/-- The ways the inserter exits with status 1. -/
inductive adder_error where
  | name_too_long
  | read_failed
  | bad_magic
  | no_free_inode
  | open_failed
  | file_too_large
  | no_free_data
  | duplicate_name
  | dir_full
  deriving DecidableEq, Repr

/-- A `memcpy (buf + off, src, src.length)` inside the buffer `buf`. -/
def mem_store (buf : List Nat) (off : Nat) (src : List Nat) : List Nat :=
  buf.take off ++ src ++ buf.drop (off + src.length)

/-- The C string that starts at the beginning of `m`: the bytes before the first NUL. -/
def c_str (m : List Nat) : List Nat :=
  m.takeWhile (fun c => c ≠ 0)

/-- The allocation loop (lines 379-390) with `n` iterations left, at index `i`:
the data bitmap and `data_blocks` after the loop, or `none` when `find_free_bit`
reports exhaustion.  The sum is a `uint64_t` stored into a `uint32_t`. -/
def alloc_data_blocks (data_region_start : Nat) :
    Nat → Nat → List Nat → List Nat → Option (List Nat × List Nat)
  | 0, _, data_bitmap, data_blocks => some (data_bitmap, data_blocks)
  | n + 1, i, data_bitmap, data_blocks =>
    let free_block := find_free_bit data_bitmap BS
    if free_block = -1 then none
    else
      let data_blocks :=
        data_blocks.set i (((data_region_start + free_block.toNat) % 2 ^ 64) % 2 ^ 32)
      let data_bitmap := set_bit data_bitmap free_block.toNat
      alloc_data_blocks data_region_start n (i + 1) data_bitmap data_blocks

/-- Source `dirent_to_host (&entries[i])` on the buffer `entries` points into: the four
bytes of `entries[i].ino` are replaced by those of `from_le32 (entries[i].ino)`. -/
def dirent_to_host_at (h : Endian) (block : List Nat) (i : Nat) : List Nat :=
  mem_store block (64 * i) (host_bytes h 4 (from_le32 (field_at h block (64 * i) 4)))

/-- The directory scan (lines 419-432) with `n` iterations left, at index `i`:
the block as the scan leaves it, `free_entry` and `file_exists`.  `strcmp` reads the name
from its first byte up to the first NUL. -/
def scan_root_dir (h : Endian) (file_name : List Nat) :
    Nat → Nat → List Nat → Int → List Nat × Int × Bool
  | 0, _, block, free_entry => (block, free_entry, false)
  | n + 1, i, block, free_entry =>
    let block := dirent_to_host_at h block i
    let ino := field_at h block (64 * i) 4
    if ino ≠ 0 ∧ c_str (block.drop (64 * i + 5)) = file_name then (block, free_entry, true)
    else
      let free_entry := if ino = 0 ∧ free_entry = -1 then (i : Int) else free_entry
      scan_root_dir h file_name n (i + 1) block free_entry

/-- What the inserter holds in memory when it reaches line 448, all checks passed. -/
structure adder_plan where
  sb : superblock_t
  inode_bitmap : List Nat
  data_bitmap : List Nat
  free_inode : Nat
  file : List Nat
  file_size : Nat
  blocks_needed : Nat
  data_blocks : List Nat
  root_inode : inode_t
  root_dir_block : List Nat
  free_entry : Nat
  deriving DecidableEq, Repr

/-- Lines 314-446 of `mkfs_adder.c`: everything between the copy and the first write.
`img` is the output file after the copy, `file` the content of the file to add (`none`
when it cannot be opened).  Offsets are computed in the C types of the operands. -/
def adder_read_phase (h : Endian) (img file_name : List Nat) (file : Option (List Nat)) :
    Except adder_error adder_plan :=
  match pread img 0 116 with
  | none => Except.error adder_error.read_failed
  | some sb_mem =>
  let sb := superblock_to_host (superblock_of_mem h sb_mem)
  if sb.magic ≠ 0x4D565346 then Except.error adder_error.bad_magic else
  match pread img ((sb.inode_bitmap_start * BS) % 2 ^ 64) BS with
  | none => Except.error adder_error.read_failed
  | some inode_bitmap =>
  match pread img ((sb.data_bitmap_start * BS) % 2 ^ 64) BS with
  | none => Except.error adder_error.read_failed
  | some data_bitmap =>
  let free_inode := find_free_bit inode_bitmap BS
  if free_inode = -1 then Except.error adder_error.no_free_inode else
  match file with
  | none => Except.error adder_error.open_failed
  | some content =>
  let file_size := content.length % 2 ^ 64
  let blocks_needed := ((file_size + BS - 1) % 2 ^ 64) / BS
  if blocks_needed > DIRECT_MAX then Except.error adder_error.file_too_large else
  match alloc_data_blocks sb.data_region_start blocks_needed 0 data_bitmap
      (List.replicate DIRECT_MAX 0) with
  | none => Except.error adder_error.no_free_data
  | some (data_bitmap, data_blocks) =>
  match pread img ((sb.inode_table_start * BS) % 2 ^ 64) 128 with
  | none => Except.error adder_error.read_failed
  | some root_mem =>
  let root_inode := inode_to_host (inode_of_mem h root_mem)
  match pread img ((root_inode.direct.getD 0 0 * BS) % 2 ^ 32) BS with
  | none => Except.error adder_error.read_failed
  | some root_dir_block =>
  match scan_root_dir h file_name (BS / 64) 0 root_dir_block (-1) with
  | (root_dir_block, free_entry, file_exists) =>
  if file_exists then Except.error adder_error.duplicate_name else
  if free_entry = -1 then Except.error adder_error.dir_full else
  Except.ok
    { sb := sb
      inode_bitmap := inode_bitmap
      data_bitmap := data_bitmap
      free_inode := free_inode.toNat
      file := content
      file_size := file_size
      blocks_needed := blocks_needed
      data_blocks := data_blocks
      root_inode := root_inode
      root_dir_block := root_dir_block
      free_entry := free_entry.toNat }

/-- The new inode as written (lines 448-464); `clock k` is the value of the `k`-th call of
`time (NULL)`. -/
def adder_new_inode (h : Endian) (clock : Nat → Nat) (p : adder_plan) : inode_t :=
  let new_inode : inode_t :=
    { mode := 0o100000
      links := 1
      uid := 0
      gid := 0
      size_bytes := p.file_size
      atime := clock 0 % 2 ^ 64
      mtime := clock 1 % 2 ^ 64
      ctime := clock 2 % 2 ^ 64
      direct := p.data_blocks
      reserved_0 := 0
      reserved_1 := 0
      reserved_2 := 0
      proj_id := PROJECT_ID
      uid16_gid16 := 0
      xattr_ptr := 0
      inode_crc := 0 }
  inode_crc_finalize h (inode_to_disk new_inode)

/-- The loop that writes the file (lines 486-508) with `n` iterations left, at index `i`,
`rest` being the unread part of the file.  `fread` fills the front of `file_buffer`, the
`memset` zeroes what it did not fill, so the buffer written is the chunk read followed by
zeros, whatever the buffer held before. -/
def write_file_data (data_blocks : List Nat) : Nat → Nat → List Nat → List Nat → List Nat
  | 0, _, _, img => img
  | n + 1, i, rest, img =>
    let chunk := rest.take BS
    let file_buffer := chunk ++ List.replicate (BS - chunk.length) 0
    let img := pwrite img ((data_blocks.getD i 0 * BS) % 2 ^ 32) file_buffer
    write_file_data data_blocks n (i + 1) (rest.drop BS) img

/-- The new directory entry as written (lines 520-527). -/
def adder_new_entry (h : Endian) (file_name : List Nat) (p : adder_plan) : dirent64_t :=
  let new_entry : dirent64_t :=
    { ino := (p.free_inode + 1) % 2 ^ 32
      type := 1
      name := (strncpy_into 58 file_name 57).set 57 0
      checksum := 0 }
  dirent_checksum_finalize h (dirent_to_disk new_entry)

/-- The root inode as rewritten (lines 539-545). -/
def adder_root_inode (h : Endian) (clock : Nat → Nat) (p : adder_plan) : inode_t :=
  let root_inode : inode_t :=
    { p.root_inode with
      size_bytes := (p.root_inode.size_bytes + 64) % 2 ^ 64
      links := (p.root_inode.links + 1) % 2 ^ 16
      mtime := clock 3 % 2 ^ 64
      ctime := clock 4 % 2 ^ 64 }
  inode_crc_finalize h (inode_to_disk root_inode)

/-- The superblock as rewritten (lines 556-558). -/
def adder_superblock (h : Endian) (after : List Nat) (clock : Nat → Nat) (p : adder_plan) :
    superblock_t :=
  let sb : superblock_t := { p.sb with mtime_epoch := clock 5 % 2 ^ 64 }
  superblock_crc_finalize h after (superblock_to_disk sb)

/-- Lines 448-567 of `mkfs_adder.c`: the seven writes, in order (every `fwrite`
succeeding). -/
def adder_write_phase (h : Endian) (after : List Nat) (clock : Nat → Nat)
    (file_name : List Nat) (p : adder_plan) (img : List Nat) : List Nat :=
  -- new inode into the inode table
  let img := pwrite img
    ((p.sb.inode_table_start * BS + (p.free_inode * INODE_SIZE) % 2 ^ 32) % 2 ^ 64)
    (inode_mem h (adder_new_inode h clock p))
  -- inode bitmap
  let inode_bitmap := set_bit p.inode_bitmap p.free_inode
  let img := pwrite img ((p.sb.inode_bitmap_start * BS) % 2 ^ 64) inode_bitmap
  -- file data
  let img := write_file_data p.data_blocks p.blocks_needed 0 p.file img
  -- data bitmap
  let img := pwrite img ((p.sb.data_bitmap_start * BS) % 2 ^ 64) p.data_bitmap
  -- directory entry, whole directory block
  let root_dir_block :=
    mem_store p.root_dir_block (64 * p.free_entry) (dirent_mem h (adder_new_entry h file_name p))
  let img := pwrite img ((p.root_inode.direct.getD 0 0 * BS) % 2 ^ 32) root_dir_block
  -- root inode
  let img := pwrite img ((p.sb.inode_table_start * BS) % 2 ^ 64)
    (inode_mem h (adder_root_inode h clock p))
  -- superblock
  pwrite img 0 (superblock_mem h (adder_superblock h after clock p))

/-- The outcome of one run of the inserter: `status` is `none` for exit status 0, and
`output` is the content of the output file when the process exits (`none` when it was
never created). -/
structure adder_result where
  status : Option adder_error
  output : Option (List Nat)
  deriving DecidableEq, Repr

/-- The inserter.  `file_name` is the argument of `--file` (the bytes of the C string,
none of them NUL), `file` the content of that file (`none` when it cannot be opened),
`after` the memory that follows `sb` on the stack, `clock` the values of `time (NULL)`. -/
def mkfs_adder (h : Endian) (after : List Nat) (clock : Nat → Nat)
    (input_img file_name : List Nat) (file : Option (List Nat)) : adder_result :=
  if file_name.length > 57 then { status := some adder_error.name_too_long, output := none }
  else
    let img := copy_image input_img
    match adder_read_phase h img file_name file with
    | Except.error e => { status := some e, output := some img }
    | Except.ok p =>
      { status := none, output := some (adder_write_phase h after clock file_name p img) }

/-- An image the tools can produce on host `h`: a formatter output for valid parameters,
followed by any number of successful inserts. -/
inductive Reachable (h : Endian) : List Nat → Prop where
  | format (after : List Nat) (now size_kib inode_count : Nat) (img : List Nat) :
      mkfs_builder h after now size_kib inode_count = some img → Reachable h img
  | insert (after : List Nat) (clock : Nat → Nat) (img file_name : List Nat)
      (file : Option (List Nat)) (out : List Nat) :
      Reachable h img →
      mkfs_adder h after clock img file_name file = { status := none, output := some out } →
      Reachable h out

/-! ## Specification-level notions -/

/-- Block `k` of a file as it must appear in the image: bytes `k * BS ..` of the file, the
last block padded with zeros to `BS` bytes. -/
def file_block (file : List Nat) (k : Nat) : List Nat :=
  (file.drop (k * BS)).take BS ++
    List.replicate (BS - ((file.drop (k * BS)).take BS).length) 0

/-- The byte offset at which the loop of lines 486-508 writes block `k`. -/
def data_block_offset (data_blocks : List Nat) (k : Nat) : Nat :=
  (data_blocks.getD k 0 * BS) % 2 ^ 32

/-! ## The invariant of reachable images -/

/-- The superblock of an image formatted with `(size_kib, inode_count)`, in host form
(after `superblock_to_host`), with modification time `t` and checksum field `c`. -/
def host_superblock (size_kib inode_count t c : Nat) : superblock_t where
  magic := 0x4D565346
  version := 1
  block_size := BS
  total_blocks := (builder_geometry size_kib inode_count).total_blocks
  inode_count := inode_count
  inode_bitmap_start := 1
  inode_bitmap_blocks := 1
  data_bitmap_start := 2
  data_bitmap_blocks := 1
  inode_table_start := 3
  inode_table_blocks := (builder_geometry size_kib inode_count).inode_table_blocks
  data_region_start := (builder_geometry size_kib inode_count).data_region_start
  data_region_blocks := (builder_geometry size_kib inode_count).data_region_blocks
  root_inode := ROOT_INO
  mtime_epoch := t
  flags := 0
  checksum := c

/-- The four bytes of `entries[i].ino` in the directory block `d`. -/
def dir_ino_bytes (d : List Nat) (i : Nat) : List Nat :=
  (d.drop (64 * i)).take 4

/-- The slots of the directory block `d` whose inode number is not zero are slots
`0..j+1`, and each inode number field holds the bytes of a 32-bit value. -/
def dir_inv (h : Endian) (j : Nat) (d : List Nat) : Prop :=
  ∀ i, i < 64 → ∃ v, v < 2 ^ 32 ∧ dir_ino_bytes d i = host_bytes h 4 v ∧ (v ≠ 0 ↔ i ≤ j + 1)

/-- What holds of an image formatted with valid `(size_kib, inode_count)` after `j`
successful inserts: the superblock carries the geometry of the formatter, inode bits
`0..j` are the set bits of the inode bitmap, bit 0 of the data bitmap is set, the root
inode points at the first block of the data region, and the slots of the root directory
with a non-zero inode number are slots `0..j+1`. -/
structure image_inv (h : Endian) (size_kib inode_count j : Nat) (img : List Nat) : Prop where
  valid : builder_valid size_kib inode_count = true
  j_le : j ≤ 62
  sb : ∃ sbd t c, sbd.wf ∧ pread img 0 116 = some (superblock_mem h sbd) ∧
    superblock_to_host sbd = host_superblock size_kib inode_count t c
  ibm : ∃ bm, pread img BS BS = some bm ∧ (∀ b ∈ bm, b < 256) ∧
    ∀ k, k < 8 * BS → is_bit_set bm k = decide (k ≤ j)
  dbm : ∃ bm, pread img (2 * BS) BS = some bm ∧ (∀ b ∈ bm, b < 256) ∧ is_bit_set bm 0 = true
  root : ∃ rd : inode_t, rd.wf ∧ pread img (3 * BS) 128 = some (inode_mem h rd) ∧
    (inode_to_host rd).direct.getD 0 0 = (builder_geometry size_kib inode_count).data_region_start
  dir : ∃ d, pread img ((builder_geometry size_kib inode_count).data_region_start * BS) BS =
      some d ∧ dir_inv h j d

/-- A plan produced from an image that satisfies the invariant. -/
structure plan_facts (h : Endian) (size_kib inode_count j : Nat) (img : List Nat)
    (p : adder_plan) : Prop where
  j_le : j ≤ 61
  sb : ∃ t c, p.sb = host_superblock size_kib inode_count t c
  sb_wf : p.sb.wf
  ibm : pread img BS BS = some p.inode_bitmap
  ibm_lt : ∀ b ∈ p.inode_bitmap, b < 256
  ibm_bits : ∀ k, k < 8 * BS → is_bit_set p.inode_bitmap k = decide (k ≤ j)
  free_inode : p.free_inode = j + 1
  free_entry : p.free_entry = j + 2
  root : ∃ rd : inode_t, rd.wf ∧ pread img (3 * BS) 128 = some (inode_mem h rd) ∧
    p.root_inode = inode_to_host rd
  root_direct : p.root_inode.direct.getD 0 0 =
    (builder_geometry size_kib inode_count).data_region_start
  dir_len : p.root_dir_block.length = BS
  dir : dir_inv h j p.root_dir_block
  dbm_len : p.data_bitmap.length = BS
  dbm_lt : ∀ b ∈ p.data_bitmap, b < 256
  dbm_zero : is_bit_set p.data_bitmap 0 = true
  blocks_len : p.data_blocks.length = 12
  blocks : ∃ f : Nat → Nat,
    (∀ k, k < p.blocks_needed → 1 ≤ f k ∧ f k < 8 * BS ∧
      p.data_blocks.getD k 0 = (builder_geometry size_kib inode_count).data_region_start + f k) ∧
    (∀ k k2, k < k2 → k2 < p.blocks_needed → f k < f k2)
  blocks_rest : ∀ k, p.blocks_needed ≤ k → p.data_blocks.getD k 0 = 0
  needed_le : p.blocks_needed ≤ 12
  file_size : p.file_size = p.file.length % 2 ^ 64
  needed : p.blocks_needed = ((p.file_size + BS - 1) % 2 ^ 64) / BS

/-! ## The classic CRC-32, bit by bit -/

/-- One bit of the reflected CRC with polynomial `0xEDB88320`: shift right by one, and xor
the polynomial in when the bit shifted out is 1. -/
def crc32_bit_step (c : Nat) : Nat :=
  if c % 2 = 1 then (c / 2) ^^^ 0xEDB88320 else c / 2

/-- One byte of the bit-by-bit CRC: xor the byte into the low end of the register, then
eight bit steps. -/
def crc32_bitwise_byte (c b : Nat) : Nat :=
  Nat.iterate crc32_bit_step 8 (c ^^^ b)

/-- The classic CRC-32 of a byte sequence, bit by bit: reflected polynomial `0xEDB88320`,
initial value `0xFFFFFFFF`, final xor `0xFFFFFFFF`. -/
def crc32_bitwise (data : List Nat) : Nat :=
  data.foldl crc32_bitwise_byte 0xFFFFFFFF ^^^ 0xFFFFFFFF

/-- Counts that hold of an image formatted with valid parameters after `j` successful
inserts: no data bit from `1 + 12 * j` on is set, and the root inode decodes to a size of
`2 + j` entries and a link count of `2 + j`. -/
structure image_counts (h : Endian) (j : Nat) (img : List Nat) : Prop where
  dbm_free : ∃ bm, pread img (2 * BS) BS = some bm ∧
    ∀ k, 1 + 12 * j ≤ k → is_bit_set bm k = false
  root : ∃ m, pread img (3 * BS) 128 = some m ∧
    (inode_to_host (inode_of_mem h m)).size_bytes = 128 + 64 * j ∧
    (inode_to_host (inode_of_mem h m)).links = 2 + j

/-- The value of `entries[i].ino` in the directory block `d` as it is stored, before
`dirent_to_host`. -/
def dir_entry_ino (h : Endian) (d : List Nat) (i : Nat) : Nat :=
  field_at h d (64 * i) 4

/-- The string `strcmp` reads at `entries[i].name` in the directory block `d`. -/
def dir_entry_name (d : List Nat) (i : Nat) : List Nat :=
  c_str (d.drop (64 * i + 5))

/-- An image obtained on host `h` from a formatter output for valid parameters by exactly
`k` successful inserts. -/
inductive ReachableIn (h : Endian) : Nat → List Nat → Prop where
  | format (after : List Nat) (now size_kib inode_count : Nat) (img : List Nat) :
      mkfs_builder h after now size_kib inode_count = some img → ReachableIn h 0 img
  | insert (after : List Nat) (clock : Nat → Nat) (img file_name : List Nat)
      (file : Option (List Nat)) (out : List Nat) (k : Nat) :
      ReachableIn h k img →
      mkfs_adder h after clock img file_name file = { status := none, output := some out } →
      ReachableIn h (k + 1) out

/-- The 64 bytes of `entries[i]` in the directory block `d`. -/
def dir_slot (d : List Nat) (i : Nat) : List Nat :=
  (d.drop (64 * i)).take 64

/-- The checksum byte of the 64-byte directory entry `e` is the XOR of its first 63
bytes. -/
def dirent_checksum_ok (e : List Nat) : Prop :=
  e.getD 63 0 = (e.take 63).foldl (fun x b => x ^^^ b) 0

/-- The name field of `entries[i]` in the directory block `d` holds the C string `name`:
its bytes, none of them NUL, and a NUL after them, all within the entry. -/
def slot_name (d : List Nat) (i : Nat) (name : List Nat) : Prop :=
  (∀ c ∈ name, c ≠ 0) ∧ ∃ rest, (dir_slot d i).drop 5 = name ++ 0 :: rest

/-- An image after `j` successful inserts, with what the allocation of the next insert
depends on: the set bits of the data bitmap are bits `0..n-1`, and the names of the
entries in slots `0..j+1` of the root directory are `names`. -/
structure insert_state (h : Endian) (size_kib inode_count j n : Nat)
    (names : List (List Nat)) (img : List Nat) : Prop where
  inv : image_inv h size_kib inode_count j img
  counts : image_counts h j img
  data_bits : ∃ bm, pread img (2 * BS) BS = some bm ∧ ∀ k, is_bit_set bm k = true ↔ k < n
  names_len : names.length = j + 2
  names : ∃ d, pread img ((builder_geometry size_kib inode_count).data_region_start * BS) BS =
      some d ∧ ∀ i name, names[i]? = some name → slot_name d i name

/-! # Theorems -/

/-! ## Byte order -/

theorem and_shifted_mask (x m k : Nat) : x &&& (m <<< k) = ((x >>> k) &&& m) <<< k := by
  apply Nat.eq_of_testBit_eq
  intro i
  simp only [Nat.testBit_and, Nat.testBit_shiftLeft, Nat.testBit_shiftRight]
  by_cases hik : k ≤ i
  · have : k + (i - k) = i := by omega
    simp [hik, this, Bool.and_comm]
  · simp [hik]

theorem and_byte_mask (x k : Nat) : x &&& (255 <<< k) = (x / 2 ^ k % 256) * 2 ^ k := by
  rw [and_shifted_mask, Nat.shiftLeft_eq, Nat.shiftRight_eq_div_pow]
  congr 1
  exact Nat.and_pow_two_sub_one_eq_mod _ 8

theorem or_eq_add_of_lt (a b k : Nat) (hb : b < 2 ^ k) : a * 2 ^ k ||| b = a * 2 ^ k + b := by
  rw [Nat.mul_comm]
  exact (Nat.mul_add_lt_is_or hb a).symm

theorem and_mask_0 (x : Nat) : x &&& 0xFF = x % 256 := Nat.and_pow_two_sub_one_eq_mod x 8
theorem and_mask_1 (x : Nat) : x &&& 0xFF00 = (x / 256 % 256) * 256 := and_byte_mask x 8
theorem and_mask_2 (x : Nat) : x &&& 0xFF0000 = (x / 65536 % 256) * 65536 := and_byte_mask x 16
theorem and_mask_3 (x : Nat) : x &&& 0xFF000000 = (x / 16777216 % 256) * 16777216 :=
  and_byte_mask x 24

theorem to_le16_eq (x : Nat) : to_le16 x = (x % 256) * 256 + x / 256 % 256 := by
  unfold to_le16
  rw [and_mask_0, and_mask_1, Nat.shiftLeft_eq, Nat.shiftRight_eq_div_pow]
  have e : x / 256 % 256 * 256 / 2 ^ 8 = x / 256 % 256 := by omega
  rw [e, or_eq_add_of_lt _ _ 8 (by omega)]
  omega

theorem to_le32_eq (x : Nat) :
    to_le32 x = (x % 256) * 16777216 + (x / 256 % 256) * 65536 + (x / 256 / 256 % 256) * 256 +
      x / 256 / 256 / 256 % 256 := by
  unfold to_le32
  rw [and_mask_0, and_mask_1, and_mask_2, and_mask_3]
  simp only [Nat.shiftLeft_eq, Nat.shiftRight_eq_div_pow]
  have d2 : x / 65536 = x / 256 / 256 := by rw [Nat.div_div_eq_div_mul]
  have d3 : x / 16777216 = x / 256 / 256 / 256 := by
    rw [Nat.div_div_eq_div_mul, Nat.div_div_eq_div_mul]
  rw [d2, d3]
  have e1 : x / 256 % 256 * 256 * 2 ^ 8 = (x / 256 % 256) * 2 ^ 16 := by omega
  have e2 : x / 256 / 256 % 256 * 65536 / 2 ^ 8 = (x / 256 / 256 % 256) * 2 ^ 8 := by omega
  have e3 : x / 256 / 256 / 256 % 256 * 16777216 / 2 ^ 24 = x / 256 / 256 / 256 % 256 := by
    omega
  rw [e1, e2, e3]
  rw [or_eq_add_of_lt _ _ 24 (by omega)]
  have s1 : x % 256 * 2 ^ 24 + x / 256 % 256 * 2 ^ 16 =
      (x % 256 * 256 + x / 256 % 256) * 2 ^ 16 := by omega
  rw [s1, or_eq_add_of_lt _ _ 16 (by omega)]
  have s2 : (x % 256 * 256 + x / 256 % 256) * 2 ^ 16 + x / 256 / 256 % 256 * 2 ^ 8 =
      ((x % 256 * 256 + x / 256 % 256) * 256 + x / 256 / 256 % 256) * 2 ^ 8 := by omega
  rw [s2, or_eq_add_of_lt _ _ 8 (by omega)]
  omega

theorem to_le32_lt (x : Nat) : to_le32 x < 2 ^ 32 := by
  rw [to_le32_eq]; omega

theorem to_le16_lt (x : Nat) : to_le16 x < 2 ^ 16 := by
  rw [to_le16_eq]; omega

theorem to_le64_eq (x : Nat) :
    to_le64 x = to_le32 (x % 2 ^ 32) * 2 ^ 32 + to_le32 (x / 2 ^ 32 % 2 ^ 32) := by
  unfold to_le64
  have h1 : x &&& 0xFFFFFFFF = x % 2 ^ 32 := Nat.and_pow_two_sub_one_eq_mod x 32
  rw [h1, Nat.shiftLeft_eq, Nat.shiftRight_eq_div_pow, Nat.mod_mod]
  have hlt := to_le32_lt (x % 2 ^ 32)
  have hlt2 := to_le32_lt (x / 2 ^ 32 % 2 ^ 32)
  have e : to_le32 (x % 2 ^ 32) * 2 ^ 32 % 2 ^ 64 = to_le32 (x % 2 ^ 32) * 2 ^ 32 := by
    apply Nat.mod_eq_of_lt
    omega
  rw [e, or_eq_add_of_lt _ _ 32 hlt2]

theorem to_le64_lt (x : Nat) : to_le64 x < 2 ^ 64 := by
  rw [to_le64_eq]
  have := to_le32_lt (x % 2 ^ 32)
  have := to_le32_lt (x / 2 ^ 32 % 2 ^ 32)
  omega

theorem to_le16_bytes (a b : Nat) (ha : a < 256) (hb : b < 256) :
    to_le16 (a + 256 * b) = b + 256 * a := by
  rw [to_le16_eq]; omega

theorem to_le32_bytes (a b c d : Nat) (ha : a < 256) (hb : b < 256) (hc : c < 256)
    (hd : d < 256) :
    to_le32 (a + 256 * b + 65536 * c + 16777216 * d) =
      d + 256 * c + 65536 * b + 16777216 * a := by
  rw [to_le32_eq]; omega

theorem to_le16_to_le16 (x : Nat) (hx : x < 2 ^ 16) : to_le16 (to_le16 x) = x := by
  have hd : x = x % 256 + 256 * (x / 256) := by omega
  have h1 : x % 256 < 256 := by omega
  have h2 : x / 256 < 256 := by omega
  generalize x % 256 = a at hd h1
  generalize x / 256 = b at hd h2
  subst hd
  rw [to_le16_bytes a b h1 h2, to_le16_bytes b a h2 h1]

theorem to_le32_to_le32 (x : Nat) (hx : x < 2 ^ 32) : to_le32 (to_le32 x) = x := by
  have hd : x = x % 256 + 256 * (x / 256 % 256) + 65536 * (x / 256 / 256 % 256) +
      16777216 * (x / 256 / 256 / 256) := by omega
  have h1 : x % 256 < 256 := by omega
  have h2 : x / 256 % 256 < 256 := by omega
  have h3 : x / 256 / 256 % 256 < 256 := by omega
  have h4 : x / 256 / 256 / 256 < 256 := by omega
  generalize x % 256 = a at hd h1
  generalize x / 256 % 256 = b at hd h2
  generalize x / 256 / 256 % 256 = c at hd h3
  generalize x / 256 / 256 / 256 = d at hd h4
  subst hd
  rw [to_le32_bytes a b c d h1 h2 h3 h4, to_le32_bytes d c b a h4 h3 h2 h1]

theorem to_le64_to_le64 (x : Nat) (hx : x < 2 ^ 64) : to_le64 (to_le64 x) = x := by
  rw [to_le64_eq (to_le64 x), to_le64_eq x]
  have h1 := to_le32_lt (x % 2 ^ 32)
  have h2 := to_le32_lt (x / 2 ^ 32 % 2 ^ 32)
  have e1 : (to_le32 (x % 2 ^ 32) * 2 ^ 32 + to_le32 (x / 2 ^ 32 % 2 ^ 32)) % 2 ^ 32 =
      to_le32 (x / 2 ^ 32 % 2 ^ 32) := by omega
  have e2 : (to_le32 (x % 2 ^ 32) * 2 ^ 32 + to_le32 (x / 2 ^ 32 % 2 ^ 32)) / 2 ^ 32 % 2 ^ 32 =
      to_le32 (x % 2 ^ 32) := by omega
  rw [e1, e2, to_le32_to_le32 _ (by omega), to_le32_to_le32 _ (by omega)]
  omega

theorem le_bytes_two (x : Nat) : le_bytes 2 x = [x % 256, x / 256 % 256] := by
  simp [le_bytes]

theorem le_bytes_four (x : Nat) :
    le_bytes 4 x = [x % 256, x / 256 % 256, x / 256 / 256 % 256, x / 256 / 256 / 256 % 256] := by
  simp [le_bytes]

theorem le_bytes_eight (x : Nat) :
    le_bytes 8 x = le_bytes 4 (x % 2 ^ 32) ++ le_bytes 4 (x / 2 ^ 32 % 2 ^ 32) := by
  simp only [le_bytes, Nat.div_div_eq_div_mul, List.cons_append, List.nil_append]
  simp only [List.cons.injEq, and_true]
  omega

theorem le_bytes_to_le16 (x : Nat) : le_bytes 2 (to_le16 x) = (le_bytes 2 x).reverse := by
  rw [le_bytes_two, le_bytes_two, to_le16_eq]
  simp only [List.reverse_cons, List.reverse_nil, List.nil_append, List.cons_append,
    List.cons.injEq, and_true]
  have h1 : x % 256 < 256 := by omega
  have h2 : x / 256 % 256 < 256 := by omega
  generalize x % 256 = a at h1
  generalize x / 256 % 256 = b at h2
  omega

theorem le_bytes_to_le32 (x : Nat) : le_bytes 4 (to_le32 x) = (le_bytes 4 x).reverse := by
  rw [le_bytes_four, le_bytes_four, to_le32_eq]
  simp only [List.reverse_cons, List.reverse_nil, List.nil_append, List.cons_append,
    List.cons.injEq, and_true]
  have h1 : x % 256 < 256 := by omega
  have h2 : x / 256 % 256 < 256 := by omega
  have h3 : x / 256 / 256 % 256 < 256 := by omega
  have h4 : x / 256 / 256 / 256 % 256 < 256 := by omega
  generalize x % 256 = a at h1
  generalize x / 256 % 256 = b at h2
  generalize x / 256 / 256 % 256 = c at h3
  generalize x / 256 / 256 / 256 % 256 = d at h4
  omega

theorem le_bytes_to_le64 (x : Nat) : le_bytes 8 (to_le64 x) = (le_bytes 8 x).reverse := by
  rw [le_bytes_eight, le_bytes_eight x, List.reverse_append, to_le64_eq]
  have h1 := to_le32_lt (x % 2 ^ 32)
  have h2 := to_le32_lt (x / 2 ^ 32 % 2 ^ 32)
  have e1 : (to_le32 (x % 2 ^ 32) * 2 ^ 32 + to_le32 (x / 2 ^ 32 % 2 ^ 32)) % 2 ^ 32 =
      to_le32 (x / 2 ^ 32 % 2 ^ 32) := by omega
  have e2 : (to_le32 (x % 2 ^ 32) * 2 ^ 32 + to_le32 (x / 2 ^ 32 % 2 ^ 32)) / 2 ^ 32 % 2 ^ 32 =
      to_le32 (x % 2 ^ 32) := by omega
  rw [e1, e2, le_bytes_to_le32, le_bytes_to_le32]

theorem length_le_bytes (w x : Nat) : (le_bytes w x).length = w := by
  induction w generalizing x with
  | zero => rfl
  | succ w ih => simp [le_bytes, ih]

theorem length_host_bytes (h : Endian) (w x : Nat) : (host_bytes h w x).length = w := by
  cases h <;> simp [host_bytes, length_le_bytes]

theorem le_val_le_bytes (w x : Nat) : le_val (le_bytes w x) = x % 256 ^ w := by
  induction w generalizing x with
  | zero => simp [le_bytes, le_val, Nat.mod_one]
  | succ w ih =>
    simp only [le_bytes, le_val, ih]
    rw [Nat.pow_succ, Nat.mul_comm (256 ^ w) 256, Nat.mod_mul]

theorem le_bytes_le_val (bs : List Nat) (hb : ∀ b ∈ bs, b < 256) :
    le_bytes bs.length (le_val bs) = bs := by
  induction bs with
  | nil => rfl
  | cons b bs ih =>
    have hb0 : b < 256 := hb b (List.mem_cons_self _ _)
    have ih1 := ih (fun c hc => hb c (List.mem_cons_of_mem _ hc))
    simp only [List.length_cons, le_bytes, le_val]
    have e1 : (b + 256 * le_val bs) % 256 = b := by omega
    have e2 : (b + 256 * le_val bs) / 256 = le_val bs := by omega
    rw [e1, e2, ih1]

theorem le_bytes_lt (w x : Nat) : ∀ b ∈ le_bytes w x, b < 256 := by
  induction w generalizing x with
  | zero => simp [le_bytes]
  | succ w ih =>
    intro b hb
    simp only [le_bytes, List.mem_cons] at hb
    rcases hb with hb | hb
    · omega
    · exact ih _ b hb

theorem host_bytes_lt (h : Endian) (w x : Nat) : ∀ b ∈ host_bytes h w x, b < 256 := by
  cases h
  · exact le_bytes_lt w x
  · intro b hb
    exact le_bytes_lt w x b (by simpa [host_bytes] using hb)

theorem host_val_host_bytes (h : Endian) (w x : Nat) :
    host_val h (host_bytes h w x) = x % 256 ^ w := by
  cases h <;> simp [host_val, host_bytes, le_val_le_bytes]

theorem host_val_host_bytes_of_lt (h : Endian) (w x : Nat) (hx : x < 256 ^ w) :
    host_val h (host_bytes h w x) = x := by
  rw [host_val_host_bytes, Nat.mod_eq_of_lt hx]

theorem host_bytes_host_val (h : Endian) (bs : List Nat) (hb : ∀ b ∈ bs, b < 256) :
    host_bytes h bs.length (host_val h bs) = bs := by
  cases h
  · exact le_bytes_le_val bs hb
  · simp only [host_bytes, host_val]
    have := le_bytes_le_val bs.reverse (by simpa using hb)
    rw [List.length_reverse] at this
    rw [this, List.reverse_reverse]

theorem host_bytes_to_le16 (h : Endian) (x : Nat) :
    host_bytes h 2 (to_le16 x) = (host_bytes h 2 x).reverse := by
  cases h <;> simp [host_bytes, le_bytes_to_le16]

theorem host_bytes_to_le32 (h : Endian) (x : Nat) :
    host_bytes h 4 (to_le32 x) = (host_bytes h 4 x).reverse := by
  cases h <;> simp [host_bytes, le_bytes_to_le32]

theorem host_bytes_to_le64 (h : Endian) (x : Nat) :
    host_bytes h 8 (to_le64 x) = (host_bytes h 8 x).reverse := by
  cases h <;> simp [host_bytes, le_bytes_to_le64]

/-! ## Record codec -/

theorem superblock_to_host_to_disk (r : superblock_t) (hr : r.wf) :
    superblock_to_host (superblock_to_disk r) = { r with checksum := from_le32 r.checksum } := by
  obtain ⟨h1, h2, h3, h4, h5, h6, h7, h8, h9, h10, h11, h12, h13, h14, h15, h16, _⟩ := hr
  simp only [superblock_to_host, superblock_to_disk, from_le32, from_le64]
  rw [to_le32_to_le32 _ h1, to_le32_to_le32 _ h2, to_le32_to_le32 _ h3, to_le64_to_le64 _ h4,
    to_le64_to_le64 _ h5, to_le64_to_le64 _ h6, to_le64_to_le64 _ h7, to_le64_to_le64 _ h8,
    to_le64_to_le64 _ h9, to_le64_to_le64 _ h10, to_le64_to_le64 _ h11, to_le64_to_le64 _ h12,
    to_le64_to_le64 _ h13, to_le64_to_le64 _ h14, to_le64_to_le64 _ h15, to_le32_to_le32 _ h16]

theorem map_from_le32_to_le32 (ds : List Nat) (hd : ∀ d ∈ ds, d < 2 ^ 32) :
    (ds.map to_le32).map from_le32 = ds := by
  rw [List.map_map]
  conv => rhs; rw [← List.map_id ds]
  apply List.map_congr_left
  intro d hdm
  exact to_le32_to_le32 d (hd d hdm)

theorem map_to_le32_from_le32 (ds : List Nat) (hd : ∀ d ∈ ds, d < 2 ^ 32) :
    (ds.map from_le32).map to_le32 = ds := by
  rw [List.map_map]
  conv => rhs; rw [← List.map_id ds]
  apply List.map_congr_left
  intro d hdm
  exact to_le32_to_le32 d (hd d hdm)

theorem inode_to_host_to_disk (r : inode_t) (hr : r.wf) :
    inode_to_host (inode_to_disk r) = { r with inode_crc := from_le64 r.inode_crc } := by
  obtain ⟨h1, h2, h3, h4, h5, h6, h7, h8, _, h10, h11, h12, h13, h14, h15, h16, _⟩ := hr
  simp only [inode_to_host, inode_to_disk]
  rw [map_from_le32_to_le32 _ h10]
  simp only [from_le16, from_le32, from_le64]
  rw [to_le16_to_le16 _ h1, to_le16_to_le16 _ h2, to_le32_to_le32 _ h3, to_le32_to_le32 _ h4,
    to_le64_to_le64 _ h5, to_le64_to_le64 _ h6, to_le64_to_le64 _ h7, to_le64_to_le64 _ h8,
    to_le32_to_le32 _ h11, to_le32_to_le32 _ h12,
    to_le32_to_le32 _ h13, to_le32_to_le32 _ h14, to_le32_to_le32 _ h15, to_le64_to_le64 _ h16]

theorem inode_to_disk_to_host (r : inode_t) (hr : r.wf) :
    inode_to_disk (inode_to_host r) = { r with inode_crc := from_le64 r.inode_crc } := by
  obtain ⟨h1, h2, h3, h4, h5, h6, h7, h8, _, h10, h11, h12, h13, h14, h15, h16, _⟩ := hr
  simp only [inode_to_host, inode_to_disk]
  rw [map_to_le32_from_le32 _ h10]
  simp only [from_le16, from_le32, from_le64]
  rw [to_le16_to_le16 _ h1, to_le16_to_le16 _ h2, to_le32_to_le32 _ h3, to_le32_to_le32 _ h4,
    to_le64_to_le64 _ h5, to_le64_to_le64 _ h6, to_le64_to_le64 _ h7, to_le64_to_le64 _ h8,
    to_le32_to_le32 _ h11, to_le32_to_le32 _ h12,
    to_le32_to_le32 _ h13, to_le32_to_le32 _ h14, to_le32_to_le32 _ h15, to_le64_to_le64 _ h16]

theorem dirent_to_host_to_disk (r : dirent64_t) (hr : r.wf) :
    dirent_to_host (dirent_to_disk r) = r := by
  obtain ⟨h1, _⟩ := hr
  simp only [dirent_to_host, dirent_to_disk, from_le32]
  rw [to_le32_to_le32 _ h1]

/-- C6 (code defect).  The superblock and inode codecs do not round-trip the checksum
fields: `superblock_to_host` and `inode_to_host` convert `checksum` / `inode_crc`, while
`superblock_to_disk` and `inode_to_disk` leave them alone.  On the well-formed records
whose fields are all zero except a checksum of 1, decoding the encoded record yields
checksum `0x01000000` (resp. `inode_crc = 0x0100000000000000`), not 1; the directory entry
codec does round-trip. -/
theorem codec_roundtrip_breaks_checksum :
    (superblock_to_host (superblock_to_disk
      { magic := 0, version := 0, block_size := 0, total_blocks := 0, inode_count := 0,
        inode_bitmap_start := 0, inode_bitmap_blocks := 0, data_bitmap_start := 0,
        data_bitmap_blocks := 0, inode_table_start := 0, inode_table_blocks := 0,
        data_region_start := 0, data_region_blocks := 0, root_inode := 0, mtime_epoch := 0,
        flags := 0, checksum := 1 })).checksum = 0x01000000 ∧
    (inode_to_host (inode_to_disk
      { mode := 0, links := 0, uid := 0, gid := 0, size_bytes := 0, atime := 0, mtime := 0,
        ctime := 0, direct := List.replicate 12 0, reserved_0 := 0, reserved_1 := 0,
        reserved_2 := 0, proj_id := 0, uid16_gid16 := 0, xattr_ptr := 0,
        inode_crc := 1 })).inode_crc = 0x0100000000000000 ∧
    dirent_to_host (dirent_to_disk
      { ino := 1, type := 1, name := List.replicate 58 0, checksum := 1 }) =
      { ino := 1, type := 1, name := List.replicate 58 0, checksum := 1 } := by
  decide

/-! ## Byte order on disk -/

/-- C7 (code defect).  `to_le32` exchanges the bytes whatever the host is, so on a
little-endian host the bytes that reach the disk are the big-endian encoding: for `x = 1`
they are `00 00 00 01`, while the little-endian encoding is `01 00 00 00`; the same happens
for 16 and 64 bits, and the bytes written differ between the two hosts. -/
theorem to_le_big_endian_on_little_host :
    host_bytes Endian.little 4 (to_le32 1) = [0, 0, 0, 1] ∧
    le_bytes 4 1 = [1, 0, 0, 0] ∧
    host_bytes Endian.little 2 (to_le16 1) = [0, 1] ∧
    le_bytes 2 1 = [1, 0] ∧
    host_bytes Endian.little 8 (to_le64 1) = [0, 0, 0, 0, 0, 0, 0, 1] ∧
    le_bytes 8 1 = [1, 0, 0, 0, 0, 0, 0, 0] ∧
    host_bytes Endian.big 4 (to_le32 1) = [1, 0, 0, 0] ∧
    host_bytes Endian.little 4 (to_le32 1) ≠ host_bytes Endian.big 4 (to_le32 1) := by
  decide

/-! ## Bitmaps -/

theorem find_free_bit_inner_spec (b : Nat) :
    ∀ fuel j, match find_free_bit_inner b fuel j with
      | some r => j ≤ r ∧ r < j + fuel ∧ b &&& (1 <<< r) = 0 ∧
          ∀ k, j ≤ k → k < r → b &&& (1 <<< k) ≠ 0
      | none => ∀ k, j ≤ k → k < j + fuel → b &&& (1 <<< k) ≠ 0 := by
  intro fuel
  induction fuel with
  | zero =>
    intro j
    simp only [find_free_bit_inner]
    intro k h1 h2
    omega
  | succ fuel ih =>
    intro j
    simp only [find_free_bit_inner]
    by_cases hz : b &&& (1 <<< j) = 0
    · rw [if_pos hz]
      refine ⟨Nat.le_refl _, by omega, hz, ?_⟩
      intro k h1 h2
      omega
    · rw [if_neg hz]
      have := ih (j + 1)
      cases hr : find_free_bit_inner b fuel (j + 1) with
      | some r =>
        rw [hr] at this
        obtain ⟨h1, h2, h3, h4⟩ := this
        refine ⟨by omega, by omega, h3, ?_⟩
        intro k hk1 hk2
        by_cases hkj : k = j
        · subst hkj; exact hz
        · exact h4 k (by omega) hk2
      | none =>
        rw [hr] at this
        intro k hk1 hk2
        by_cases hkj : k = j
        · subst hkj; exact hz
        · exact this k (by omega) (by omega)

theorem byte_all_bits_set (b : Nat) (hb : b < 256)
    (hall : ∀ k, k < 8 → b &&& (1 <<< k) ≠ 0) : b = 255 := by
  apply Nat.eq_of_testBit_eq
  intro i
  by_cases hi : i < 8
  · have h1 := hall i hi
    have h2 : Nat.testBit 255 i = true := by
      have : (255 : Nat) = 2 ^ 8 - 1 := by norm_num
      rw [this, Nat.testBit_two_pow_sub_one]
      simpa using hi
    rw [h2]
    rw [Nat.one_shiftLeft] at h1
    by_contra hc
    apply h1
    apply Nat.eq_of_testBit_eq
    intro k
    simp only [Nat.testBit_and, Nat.testBit_two_pow, Nat.zero_testBit]
    by_cases hk : i = k
    · subst hk; simpa using hc
    · simp [hk]
  · have hp : (2 : Nat) ^ 8 ≤ 2 ^ i := Nat.pow_le_pow_right (by norm_num) (by omega)
    have h1 : Nat.testBit b i = false :=
      Nat.testBit_lt_two_pow (Nat.lt_of_lt_of_le (by norm_num; exact hb) hp)
    have h2 : Nat.testBit 255 i = false :=
      Nat.testBit_lt_two_pow (Nat.lt_of_lt_of_le (by norm_num) hp)
    rw [h1, h2]

theorem byte_255_bit (k : Nat) (hk : k < 8) : 255 &&& (1 <<< k) ≠ 0 := by
  interval_cases k <;> decide

theorem find_free_bit_inner_some (b : Nat) (hb : b < 256) (hne : b ≠ 255) :
    ∃ j, j < 8 ∧ find_free_bit_inner b 8 0 = some j ∧ b &&& (1 <<< j) = 0 ∧
      ∀ k, k < j → b &&& (1 <<< k) ≠ 0 := by
  have := find_free_bit_inner_spec b 8 0
  cases hr : find_free_bit_inner b 8 0 with
  | some r =>
    rw [hr] at this
    obtain ⟨_, h2, h3, h4⟩ := this
    exact ⟨r, by omega, rfl, h3, fun k hk => h4 k (Nat.zero_le _) hk⟩
  | none =>
    rw [hr] at this
    exact absurd (byte_all_bits_set b hb (fun k hk => this k (Nat.zero_le _) (by omega))) hne

theorem find_free_bit_loop_spec (l : List Nat) (hb : ∀ b ∈ l, b < 256) :
    ∀ i0, (find_free_bit_loop l i0 = -1 ∧ ∀ b ∈ l, b = 255) ∨
      ∃ i j, i < l.length ∧ j < 8 ∧ find_free_bit_loop l i0 = (((i0 + i) * 8 + j : Nat) : Int) ∧
        l.getD i 0 &&& (1 <<< j) = 0 ∧ (∀ i2, i2 < i → l.getD i2 0 = 255) ∧
        ∀ k, k < j → l.getD i 0 &&& (1 <<< k) ≠ 0 := by
  induction l with
  | nil =>
    intro i0
    left
    exact ⟨rfl, by simp⟩
  | cons b bs ih =>
    intro i0
    have hb0 : b < 256 := hb b (List.mem_cons_self _ _)
    have ih1 := ih (fun c hc => hb c (List.mem_cons_of_mem _ hc)) (i0 + 1)
    by_cases hne : b = 255
    · subst hne
      have e : find_free_bit_loop (255 :: bs) i0 = find_free_bit_loop bs (i0 + 1) := by
        simp [find_free_bit_loop]
      rw [e]
      rcases ih1 with ⟨h1, h2⟩ | ⟨i, j, h1, h2, h3, h4, h5, h6⟩
      · left
        refine ⟨h1, ?_⟩
        intro c hc
        rcases List.mem_cons.1 hc with hc | hc
        · exact hc
        · exact h2 c hc
      · right
        refine ⟨i + 1, j, by simpa using h1, h2, ?_, by simpa using h4, ?_, by simpa using h6⟩
        · rw [h3]
          congr 1
          omega
        · intro i2 hi2
          cases i2 with
          | zero => simp
          | succ i2 => simpa using h5 i2 (by omega)
    · right
      obtain ⟨j, hj, hr, hz, hlow⟩ := find_free_bit_inner_some b hb0 hne
      refine ⟨0, j, by simp, hj, ?_, by simpa using hz, ?_, by simpa using hlow⟩
      · simp [find_free_bit_loop, hne, hr]
      · intro i2 hi2
        omega

theorem getD_take_of_lt (l : List Nat) (n i : Nat) (hi : i < n) :
    (l.take n).getD i 0 = l.getD i 0 := by
  simp [List.getD_eq_getElem?_getD, List.getElem?_take, hi]

/-- The outcome of `find_free_bit`: exhaustion, or the lowest clear bit. -/
theorem find_free_bit_cases (bitmap : List Nat) (n : Nat) (hn : n ≤ bitmap.length)
    (hb : ∀ b ∈ bitmap, b < 256) :
    (find_free_bit bitmap n = -1 ∧ ∀ i, i < n → bitmap.getD i 0 = 255) ∨
      ∃ i j, i < n ∧ j < 8 ∧ find_free_bit bitmap n = ((i * 8 + j : Nat) : Int) ∧
        bitmap.getD i 0 &&& (1 <<< j) = 0 ∧ (∀ i2, i2 < i → bitmap.getD i2 0 = 255) ∧
        ∀ k, k < j → bitmap.getD i 0 &&& (1 <<< k) ≠ 0 := by
  have hlen : (bitmap.take n).length = n := by simp [hn]
  have hb2 : ∀ b ∈ bitmap.take n, b < 256 := fun b hm => hb b (List.mem_of_mem_take hm)
  rcases find_free_bit_loop_spec (bitmap.take n) hb2 0 with ⟨h1, h2⟩ | ⟨i, j, h1, h2, h3, h4, h5, h6⟩
  · left
    refine ⟨h1, ?_⟩
    intro i hi
    rw [← getD_take_of_lt bitmap n i hi]
    apply h2
    rw [List.getD_eq_getElem?_getD, List.getElem?_eq_getElem (by omega)]
    exact List.getElem_mem _
  · right
    rw [hlen] at h1
    refine ⟨i, j, h1, h2, ?_, ?_, ?_, ?_⟩
    · unfold find_free_bit
      rw [h3]
      simp
    · rw [← getD_take_of_lt bitmap n i h1]; exact h4
    · intro i2 hi2
      rw [← getD_take_of_lt bitmap n i2 (by omega)]
      exact h5 i2 hi2
    · intro k hk
      rw [← getD_take_of_lt bitmap n i h1]
      exact h6 k hk

theorem find_free_bit_loop_replicate_ff (n i0 : Nat) :
    find_free_bit_loop (List.replicate n 0xFF) i0 = -1 := by
  induction n generalizing i0 with
  | zero => rfl
  | succ n ih => simp [List.replicate_succ, find_free_bit_loop, ih]

/-- C3.  `find_free_bit (bitmap, n)` on `n` bytes of a bitmap: it returns -1 if and only if
every one of the `n` bytes is `0xFF`; otherwise it returns `8 * i + j` with `i < n`, bit `j`
of byte `i` clear and every bit of lower index set (`is_bit_set`), the lowest clear bit.
On a non-empty all-zero bitmap it returns 0, on an all-ones bitmap -1. -/
theorem find_free_bit_lowest_clear (bitmap : List Nat) (n : Nat) (hn : n ≤ bitmap.length)
    (hb : ∀ b ∈ bitmap, b < 256) :
    (find_free_bit bitmap n = -1 ↔ ∀ i, i < n → bitmap.getD i 0 = 0xFF) ∧
    (find_free_bit bitmap n ≠ -1 →
      ∃ i j, i < n ∧ j < 8 ∧ find_free_bit bitmap n = ((8 * i + j : Nat) : Int) ∧
        bitmap.getD i 0 &&& (1 <<< j) = 0 ∧ is_bit_set bitmap (8 * i + j) = false ∧
        ∀ k, k < 8 * i + j → is_bit_set bitmap k = true) ∧
    (0 < n → find_free_bit (List.replicate n 0) n = 0) ∧
    find_free_bit (List.replicate n 0xFF) n = -1 := by
  have hcases := find_free_bit_cases bitmap n hn hb
  refine ⟨?_, ?_, ?_, ?_⟩
  · constructor
    · intro h
      rcases hcases with ⟨_, h2⟩ | ⟨i, j, _, _, h3, _⟩
      · exact h2
      · rw [h3] at h
        omega
    · intro h
      rcases hcases with ⟨h1, _⟩ | ⟨i, j, h1, h2, _, h4, _, _⟩
      · exact h1
      · exfalso
        rw [h i h1] at h4
        exact byte_255_bit j h2 h4
  · intro hne
    rcases hcases with ⟨h1, _⟩ | ⟨i, j, h1, h2, h3, h4, h5, h6⟩
    · exact absurd h1 hne
    · refine ⟨i, j, h1, h2, ?_, h4, ?_, ?_⟩
      · rw [h3]; congr 1; omega
      · have e1 : (8 * i + j) / 8 = i := by omega
        have e2 : (8 * i + j) % 8 = j := by omega
        unfold is_bit_set
        rw [e1, e2, h4]
        simp
      · intro k hk
        by_cases hki : k / 8 < i
        · simp only [is_bit_set, h5 _ hki]
          have := byte_255_bit (k % 8) (Nat.mod_lt _ (by norm_num))
          simpa using this
        · have e1 : k / 8 = i := by omega
          have := h6 (k % 8) (by omega)
          simp only [is_bit_set, e1]
          simpa using this
  · intro hpos
    obtain ⟨m, rfl⟩ : ∃ m, n = m + 1 := ⟨n - 1, by omega⟩
    simp [find_free_bit, List.replicate_succ, find_free_bit_loop, find_free_bit_inner]
  · unfold find_free_bit
    rw [List.take_replicate, find_free_bit_loop_replicate_ff]

/-- Witness for C3: a two-byte bitmap whose lowest clear bit is bit 9. -/
theorem find_free_bit_lowest_clear_witness :
    find_free_bit [0xFF, 0x01] 2 ≠ -1 ∧ find_free_bit [0xFF, 0x01] 2 = 9 ∧
    ((find_free_bit [0xFF, 0x01] 2 = -1 ↔ ∀ i, i < 2 → [0xFF, 0x01].getD i 0 = 0xFF) ∧
    (find_free_bit [0xFF, 0x01] 2 ≠ -1 →
      ∃ i j, i < 2 ∧ j < 8 ∧ find_free_bit [0xFF, 0x01] 2 = ((8 * i + j : Nat) : Int) ∧
        [0xFF, 0x01].getD i 0 &&& (1 <<< j) = 0 ∧ is_bit_set [0xFF, 0x01] (8 * i + j) = false ∧
        ∀ k, k < 8 * i + j → is_bit_set [0xFF, 0x01] k = true) ∧
    (0 < 2 → find_free_bit (List.replicate 2 0) 2 = 0) ∧
    find_free_bit (List.replicate 2 0xFF) 2 = -1) :=
  ⟨by decide, by decide,
    find_free_bit_lowest_clear [0xFF, 0x01] 2 (by decide) (by decide)⟩

/-! ## Formatter geometry -/

theorem builder_geometry_eq (size_kib inode_count : Nat) (h2 : size_kib ≤ 4096)
    (h5 : inode_count ≤ 512) (h1 : 180 ≤ size_kib) :
    builder_geometry size_kib inode_count =
      { total_blocks := size_kib * 1024 / 4096
        inode_table_blocks := (inode_count * 128 + 4095) / 4096
        inode_bitmap_start := 1
        inode_bitmap_blocks := 1
        data_bitmap_start := 2
        data_bitmap_blocks := 1
        inode_table_start := 3
        data_region_start := 3 + (inode_count * 128 + 4095) / 4096
        data_region_blocks := size_kib * 1024 / 4096 - (3 + (inode_count * 128 + 4095) / 4096) } := by
  simp only [builder_geometry, BS, INODE_SIZE]
  have e1 : size_kib * 1024 % 2 ^ 64 = size_kib * 1024 := by omega
  have e2 : inode_count * 128 % 2 ^ 64 = inode_count * 128 := by omega
  have e3 : (inode_count * 128 + 4096 - 1) % 2 ^ 64 = inode_count * 128 + 4095 := by omega
  rw [e1, e2, e3]
  have e4 : (3 + (inode_count * 128 + 4095) / 4096) % 2 ^ 64 =
      3 + (inode_count * 128 + 4095) / 4096 := by omega
  rw [e4]
  have e5 : (size_kib * 1024 / 4096 + 2 ^ 64 - (3 + (inode_count * 128 + 4095) / 4096)) % 2 ^ 64 =
      size_kib * 1024 / 4096 - (3 + (inode_count * 128 + 4095) / 4096) := by omega
  rw [e5]

/-- C4.  For every `size_kib` in [180, 4096] that is a multiple of 4 and every `inode_count`
in [128, 512], the geometry the formatter derives is `total_blocks = size_kib * 1024 / 4096`,
`inode_table_start = 3`, `inode_table_blocks = ceil (inode_count * 128 / 4096)` (the least
number of blocks that hold the table), `data_region_start = inode_table_start +
inode_table_blocks`, and `data_region_start + data_region_blocks = total_blocks` with the
subtraction not wrapping (`data_region_start ≤ total_blocks`, `data_region_blocks ≥ 1`).
For (180, 128): 45, 4, 7 and 38. -/
theorem builder_geometry_correct (size_kib inode_count : Nat)
    (h1 : 180 ≤ size_kib) (h2 : size_kib ≤ 4096) (h3 : size_kib % 4 = 0)
    (h4 : 128 ≤ inode_count) (h5 : inode_count ≤ 512) :
    builder_valid size_kib inode_count = true ∧
    (builder_geometry size_kib inode_count).total_blocks = size_kib * 1024 / 4096 ∧
    (builder_geometry size_kib inode_count).total_blocks * 4096 = size_kib * 1024 ∧
    (builder_geometry size_kib inode_count).inode_table_start = 3 ∧
    inode_count * 128 ≤ (builder_geometry size_kib inode_count).inode_table_blocks * 4096 ∧
    ((builder_geometry size_kib inode_count).inode_table_blocks - 1) * 4096 < inode_count * 128 ∧
    (builder_geometry size_kib inode_count).data_region_start =
      (builder_geometry size_kib inode_count).inode_table_start +
        (builder_geometry size_kib inode_count).inode_table_blocks ∧
    (builder_geometry size_kib inode_count).data_region_start +
        (builder_geometry size_kib inode_count).data_region_blocks =
      (builder_geometry size_kib inode_count).total_blocks ∧
    (builder_geometry size_kib inode_count).data_region_start ≤
      (builder_geometry size_kib inode_count).total_blocks ∧
    1 ≤ (builder_geometry size_kib inode_count).data_region_blocks ∧
    (builder_geometry 180 128).total_blocks = 45 ∧
    (builder_geometry 180 128).inode_table_blocks = 4 ∧
    (builder_geometry 180 128).data_region_start = 7 ∧
    (builder_geometry 180 128).data_region_blocks = 38 := by
  rw [builder_geometry_eq size_kib inode_count h2 h5 h1]
  refine ⟨?_, ?_, ?_, ?_, ?_, ?_, ?_, ?_, ?_, ?_, ?_, ?_, ?_, ?_⟩
  · simp [builder_valid]
    omega
  · rfl
  · show size_kib * 1024 / 4096 * 4096 = size_kib * 1024
    omega
  · rfl
  · show inode_count * 128 ≤ (inode_count * 128 + 4095) / 4096 * 4096
    omega
  · show ((inode_count * 128 + 4095) / 4096 - 1) * 4096 < inode_count * 128
    omega
  · rfl
  · show 3 + (inode_count * 128 + 4095) / 4096 +
      (size_kib * 1024 / 4096 - (3 + (inode_count * 128 + 4095) / 4096)) = size_kib * 1024 / 4096
    omega
  · show 3 + (inode_count * 128 + 4095) / 4096 ≤ size_kib * 1024 / 4096
    omega
  · show 1 ≤ size_kib * 1024 / 4096 - (3 + (inode_count * 128 + 4095) / 4096)
    omega
  · decide
  · decide
  · decide
  · decide

/-- Witness for C4: the geometry of the smallest valid image. -/
theorem builder_geometry_correct_witness :
    (builder_geometry 180 128).data_region_start + (builder_geometry 180 128).data_region_blocks =
      (builder_geometry 180 128).total_blocks ∧
    1 ≤ (builder_geometry 180 128).data_region_blocks :=
  ⟨(builder_geometry_correct 180 128 (by decide) (by decide) (by decide) (by decide)
      (by decide)).2.2.2.2.2.2.2.1,
    (builder_geometry_correct 180 128 (by decide) (by decide) (by decide) (by decide)
      (by decide)).2.2.2.2.2.2.2.2.2.1⟩

/-! ## Memory images of the records -/

theorem length_array_mem (h : Endian) (w : Nat) (xs : List Nat) :
    (array_mem h w xs).length = w * xs.length := by
  induction xs with
  | nil => simp [array_mem]
  | cons x xs ih =>
    simp only [array_mem, List.map_cons, List.flatten_cons, List.length_append,
      length_host_bytes, List.length_cons] at ih ⊢
    rw [ih]
    ring

theorem length_superblock_mem (h : Endian) (sb : superblock_t) :
    (superblock_mem h sb).length = 116 := by
  simp [superblock_mem, length_host_bytes]

theorem length_inode_mem (h : Endian) (ino : inode_t) (hd : ino.direct.length = 12) :
    (inode_mem h ino).length = 128 := by
  simp [inode_mem, length_host_bytes, length_array_mem, hd]

theorem length_dirent_mem (h : Endian) (de : dirent64_t) (hn : de.name.length = 58) :
    (dirent_mem h de).length = 64 := by
  simp [dirent_mem, length_host_bytes, hn]

/-! ## Directory-entry checksum -/

theorem xor_fold_lt (l : List Nat) (hl : ∀ b ∈ l, b < 256) :
    ∀ x, x < 256 → l.foldl (fun x b => (x ^^^ b) % 256) x = l.foldl (fun x b => x ^^^ b) x ∧
      l.foldl (fun x b => x ^^^ b) x < 256 := by
  induction l with
  | nil => intro x hx; exact ⟨rfl, hx⟩
  | cons b bs ih =>
    intro x hx
    have hb : b < 256 := hl b (List.mem_cons_self _ _)
    have hxb : x ^^^ b < 2 ^ 8 := Nat.xor_lt_two_pow (by simpa using hx) (by simpa using hb)
    have hm : (x ^^^ b) % 256 = x ^^^ b := Nat.mod_eq_of_lt (by simpa using hxb)
    simp only [List.foldl_cons, hm]
    exact ih (fun c hc => hl c (List.mem_cons_of_mem _ hc)) _ (by simpa using hxb)

theorem dirent_mem_take_63 (h : Endian) (de : dirent64_t) (hn : de.name.length = 58) :
    (dirent_mem h de).take 63 = host_bytes h 4 de.ino ++ host_bytes h 1 de.type ++ de.name := by
  unfold dirent_mem
  apply List.take_left'
  simp [length_host_bytes, hn]

theorem host_bytes_one (h : Endian) (x : Nat) : host_bytes h 1 x = [x % 256] := by
  cases h <;> simp [host_bytes, le_bytes]

theorem dirent_checksum_finalize_spec (h : Endian) (de : dirent64_t) (hn : de.name.length = 58)
    (hc : ∀ c ∈ de.name, c < 256) :
    (dirent_checksum_finalize h de).checksum =
        ((dirent_mem h de).take 63).foldl (fun x b => x ^^^ b) 0 ∧
    (dirent_checksum_finalize h de).checksum < 256 ∧
    dirent_mem h (dirent_checksum_finalize h de) =
      (dirent_mem h de).take 63 ++ [((dirent_mem h de).take 63).foldl (fun x b => x ^^^ b) 0] := by
  have hbytes : ∀ b ∈ (dirent_mem h de).take 63, b < 256 := by
    rw [dirent_mem_take_63 h de hn]
    intro b hb
    simp only [List.mem_append] at hb
    rcases hb with (hb | hb) | hb
    · exact host_bytes_lt h 4 _ b hb
    · exact host_bytes_lt h 1 _ b hb
    · exact hc b hb
  have hx := xor_fold_lt _ hbytes 0 (by norm_num)
  have e1 : (dirent_checksum_finalize h de).checksum =
      ((dirent_mem h de).take 63).foldl (fun x b => x ^^^ b) 0 := by
    simp only [dirent_checksum_finalize]
    exact hx.1
  refine ⟨e1, by rw [e1]; exact hx.2, ?_⟩
  have e2 : dirent_mem h (dirent_checksum_finalize h de) =
      host_bytes h 4 de.ino ++ host_bytes h 1 de.type ++ de.name ++
        host_bytes h 1 (dirent_checksum_finalize h de).checksum := rfl
  rw [e2, e1, host_bytes_one (x := List.foldl _ _ _), Nat.mod_eq_of_lt hx.2,
    dirent_mem_take_63 h de hn]

/-- C10.  For every 64-byte directory entry, `dirent_checksum_finalize` leaves bytes 0..62
unchanged and sets byte 63 to the XOR of bytes 0..62, whatever the checksum byte was
before; after it the XOR of all 64 bytes of the entry is 0. -/
theorem dirent_checksum_finalize_xor (h : Endian) (de : dirent64_t) (hwf : de.wf) :
    (dirent_mem h (dirent_checksum_finalize h de)).length = 64 ∧
    (dirent_mem h (dirent_checksum_finalize h de)).take 63 = (dirent_mem h de).take 63 ∧
    (dirent_mem h (dirent_checksum_finalize h de)).getD 63 0 =
      ((dirent_mem h de).take 63).foldl (fun x b => x ^^^ b) 0 ∧
    (∀ c, dirent_checksum_finalize h { de with checksum := c } =
      dirent_checksum_finalize h de) ∧
    (dirent_mem h (dirent_checksum_finalize h de)).foldl (fun x b => x ^^^ b) 0 = 0 := by
  obtain ⟨_, _, hn, hc, _⟩ := hwf
  have hc2 : ∀ c ∈ de.name, c < 256 := fun c hm => by simpa using hc c hm
  obtain ⟨_, _, hm⟩ := dirent_checksum_finalize_spec h de hn hc2
  have hlen : ((dirent_mem h de).take 63).length = 63 := by
    rw [dirent_mem_take_63 h de hn]; simp [length_host_bytes, hn]
  refine ⟨?_, ?_, ?_, ?_, ?_⟩
  · rw [hm]; simp [hlen]
  · rw [hm]; exact List.take_left' hlen
  · rw [hm, List.getD_eq_getElem?_getD, List.getElem?_append_right (by omega), hlen]
    simp
  · intro c
    have e : (dirent_mem h { de with checksum := c }).take 63 = (dirent_mem h de).take 63 := by
      rw [dirent_mem_take_63 h de hn]
      exact dirent_mem_take_63 h { de with checksum := c } hn
    simp only [dirent_checksum_finalize, e]
  · rw [hm, List.foldl_append]
    simp

/-- Witness for C10: the entry `{ino = 2, type = 1, name = "a", checksum = 7}`. -/
theorem dirent_checksum_finalize_xor_witness :
    (dirent_mem Endian.little (dirent_checksum_finalize Endian.little
      { ino := 2, type := 1, name := 97 :: List.replicate 57 0, checksum := 7 })).foldl
        (fun x b => x ^^^ b) 0 = 0 :=
  (dirent_checksum_finalize_xor Endian.little
    { ino := 2, type := 1, name := 97 :: List.replicate 57 0, checksum := 7 }
    ⟨by decide, by decide, by decide, by decide, by decide⟩).2.2.2.2

/-! ## CRC32 -/

theorem crc32_init_step_lt (c : Nat) (hc : c < 2 ^ 32) : crc32_init_step c < 2 ^ 32 := by
  unfold crc32_init_step
  have h1 : c >>> 1 < 2 ^ 32 := by
    rw [Nat.shiftRight_eq_div_pow]
    exact Nat.lt_of_le_of_lt (Nat.div_le_self _ _) hc
  split
  · exact Nat.xor_lt_two_pow (by norm_num) h1
  · exact h1

theorem crc32_init_entry_lt (i : Nat) (hi : i < 2 ^ 32) : crc32_init_entry i < 2 ^ 32 := by
  unfold crc32_init_entry
  repeat apply crc32_init_step_lt
  exact hi

theorem CRC32_TAB_getD_lt (i : Nat) : CRC32_TAB.getD i 0 < 2 ^ 32 := by
  unfold CRC32_TAB
  rw [List.getD_eq_getElem?_getD, List.getElem?_map]
  by_cases hi : i < 256
  · rw [List.getElem?_range hi]
    exact crc32_init_entry_lt i (by omega)
  · rw [List.getElem?_eq_none (by simpa using hi)]
    norm_num

theorem crc32_loop_lt (l : List Nat) : ∀ c, c < 2 ^ 32 → crc32_loop c l < 2 ^ 32 := by
  induction l with
  | nil => intro c hc; exact hc
  | cons p ps ih =>
    intro c hc
    simp only [crc32_loop]
    apply ih
    apply Nat.xor_lt_two_pow (CRC32_TAB_getD_lt _)
    rw [Nat.shiftRight_eq_div_pow]
    exact Nat.lt_of_le_of_lt (Nat.div_le_self _ _) hc

theorem crc32_lt (data : List Nat) (n : Nat) : crc32 data n < 2 ^ 32 := by
  unfold crc32
  exact Nat.xor_lt_two_pow (crc32_loop_lt _ _ (by norm_num)) (by norm_num)

theorem crc32_loop_append (l1 l2 : List Nat) :
    ∀ c, crc32_loop c (l1 ++ l2) = crc32_loop (crc32_loop c l1) l2 := by
  induction l1 with
  | nil => intro c; rfl
  | cons p ps ih =>
    intro c
    rw [List.cons_append]
    simp only [crc32_loop]
    exact ih _

theorem crc32_of_take (data : List Nat) (n : Nat) : crc32 (data.take n) n = crc32 data n := by
  unfold crc32
  rw [List.take_take, Nat.min_self]

theorem CRC32_TAB_flip : ∀ a, a < 256 → CRC32_TAB.getD a 0 ≠ CRC32_TAB.getD (a ^^^ 1) 0 := by
  decide!

/-- The CRC of a message changes when its last byte changes from 0 to 1. -/
theorem crc32_last_byte (l : List Nat) :
    crc32 (l ++ [0]) (l.length + 1) ≠ crc32 (l ++ [1]) (l.length + 1) := by
  unfold crc32
  rw [List.take_of_length_le (by simp), List.take_of_length_le (by simp),
    crc32_loop_append, crc32_loop_append]
  simp only [crc32_loop]
  intro heq
  have h1 := Nat.xor_left_inj.1 heq
  have h2 := Nat.xor_left_inj.1 h1
  have hlt : (crc32_loop 4294967295 l ^^^ 0) &&& 255 < 256 := by
    have := Nat.and_lt_two_pow (crc32_loop 4294967295 l ^^^ 0) (by norm_num : 255 < 2 ^ 8)
    simpa using this
  have h3 := CRC32_TAB_flip _ hlt
  apply h3
  rw [h2]
  congr 1
  rw [Nat.and_xor_distrib_right, Nat.and_xor_distrib_right]
  simp

/-! ## Positioned reads and writes -/

theorem getElem?_pwrite (img : List Nat) (off : Nat) (data : List Nat) (i : Nat) :
    (pwrite img off data)[i]? =
      if i < off then (if i < img.length then img[i]? else some 0)
      else if i < off + data.length then data[i - off]?
      else img[i]? := by
  unfold pwrite
  have hlen : ((img ++ List.replicate (off - img.length) 0).take off).length = off := by
    simp only [List.length_take, List.length_append, List.length_replicate]
    omega
  by_cases h1 : i < off
  · rw [if_pos h1, List.append_assoc, List.getElem?_append_left (by omega),
      List.getElem?_take, if_pos h1, List.getElem?_append]
    by_cases h2 : i < img.length
    · rw [if_pos h2, if_pos h2]
    · rw [if_neg h2, if_neg h2, List.getElem?_replicate, if_pos (by omega)]
  · rw [if_neg h1, List.append_assoc, List.getElem?_append_right (by omega), hlen,
      List.getElem?_append]
    by_cases h2 : i < off + data.length
    · rw [if_pos h2, if_pos (by omega)]
    · rw [if_neg h2, if_neg (by omega), List.getElem?_drop]
      congr 1
      omega

theorem length_pwrite (img : List Nat) (off : Nat) (data : List Nat) :
    (pwrite img off data).length = max img.length (off + data.length) := by
  unfold pwrite
  simp only [List.length_append, List.length_take, List.length_replicate, List.length_drop]
  omega

theorem length_le_pwrite (img : List Nat) (off : Nat) (data : List Nat) :
    img.length ≤ (pwrite img off data).length := by
  rw [length_pwrite]; omega

theorem pread_eq_some (img : List Nat) (off n : Nat) (bs : List Nat) :
    pread img off n = some bs ↔ off + n ≤ img.length ∧ bs = (img.drop off).take n := by
  unfold pread
  by_cases h : off + n ≤ img.length
  · rw [if_pos h]
    constructor
    · intro e; exact ⟨h, (Option.some.inj e).symm⟩
    · intro e; rw [e.2]
  · rw [if_neg h]
    constructor
    · intro e; exact absurd e (by simp)
    · intro e; exact absurd e.1 h

theorem length_pread (img : List Nat) (off n : Nat) (bs : List Nat)
    (h : pread img off n = some bs) : bs.length = n := by
  obtain ⟨h1, h2⟩ := (pread_eq_some img off n bs).1 h
  rw [h2, List.length_take, List.length_drop]
  omega

theorem pread_pwrite_same (img : List Nat) (off : Nat) (data : List Nat) :
    pread (pwrite img off data) off data.length = some data := by
  rw [pread_eq_some]
  refine ⟨by rw [length_pwrite]; omega, ?_⟩
  apply List.ext_getElem?
  intro i
  rw [List.getElem?_take, List.getElem?_drop, getElem?_pwrite]
  by_cases hi : i < data.length
  · rw [if_pos hi, if_neg (by omega), if_pos (by omega)]
    congr 1
    omega
  · rw [if_neg hi]
    exact List.getElem?_eq_none (by omega)

theorem pread_pwrite_disjoint (img : List Nat) (off : Nat) (data : List Nat) (o n : Nat)
    (hd : o + n ≤ off ∨ off + data.length ≤ o) (hin : o + n ≤ img.length) :
    pread (pwrite img off data) o n = pread img o n := by
  have hlen := length_le_pwrite img off data
  unfold pread
  rw [if_pos (by omega), if_pos hin]
  congr 1
  apply List.ext_getElem?
  intro i
  rw [List.getElem?_take, List.getElem?_take, List.getElem?_drop, List.getElem?_drop,
    getElem?_pwrite]
  by_cases hi : i < n
  · rw [if_pos hi, if_pos hi]
    rcases hd with hd | hd
    · rw [if_pos (by omega), if_pos (by omega)]
    · rw [if_neg (by omega), if_neg (by omega)]
  · rw [if_neg hi, if_neg hi]

theorem pread_append_left (x y : List Nat) (o n : Nat) (h : o + n ≤ x.length) :
    pread (x ++ y) o n = pread x o n := by
  unfold pread
  rw [if_pos (by rw [List.length_append]; omega), if_pos h]
  congr 1
  apply List.ext_getElem?
  intro i
  rw [List.getElem?_take, List.getElem?_take, List.getElem?_drop, List.getElem?_drop]
  by_cases hi : i < n
  · rw [if_pos hi, if_pos hi, List.getElem?_append_left (by omega)]
  · rw [if_neg hi, if_neg hi]

theorem pread_append_right (x y : List Nat) (o n : Nat) :
    pread (x ++ y) (x.length + o) n = pread y o n := by
  unfold pread
  by_cases h : o + n ≤ y.length
  · rw [if_pos (by rw [List.length_append]; omega), if_pos h]
    congr 1
    rw [← List.drop_drop, List.drop_left]
  · rw [if_neg (by rw [List.length_append]; omega), if_neg h]

theorem pread_all (x : List Nat) : pread x 0 x.length = some x := by
  unfold pread
  simp

theorem pread_prefix (x y : List Nat) : pread (x ++ y) 0 x.length = some x := by
  rw [pread_append_left x y 0 x.length (by omega), pread_all]

theorem pread_sub (img : List Nat) (off n : Nat) (bs : List Nat) (o m : Nat)
    (h : pread img off n = some bs) (hm : o + m ≤ n) :
    pread img (off + o) m = some ((bs.drop o).take m) := by
  obtain ⟨h1, h2⟩ := (pread_eq_some img off n bs).1 h
  rw [pread_eq_some]
  refine ⟨by omega, ?_⟩
  rw [h2]
  apply List.ext_getElem?
  intro i
  simp only [List.getElem?_take, List.getElem?_drop]
  by_cases hi : i < m
  · rw [if_pos hi, if_pos hi, if_pos (by omega)]
    congr 1
    omega
  · rw [if_neg hi, if_neg hi]

/-! ## Reading fields back from memory -/

theorem field_at_skip (h : Endian) (a b : List Nat) (off w : Nat) (ha : a.length ≤ off) :
    field_at h (a ++ b) off w = field_at h b (off - a.length) w := by
  unfold field_at
  congr 2
  have : off = a.length + (off - a.length) := by omega
  conv => lhs; rw [this, ← List.drop_drop, List.drop_left]

theorem field_at_head (h : Endian) (w x : Nat) (rest : List Nat) :
    field_at h (host_bytes h w x ++ rest) 0 w = x % 256 ^ w := by
  unfold field_at
  rw [List.drop_zero, List.take_left' (length_host_bytes h w x), host_val_host_bytes]

theorem field_at_append_left (h : Endian) (a b : List Nat) (off w : Nat)
    (ha : off + w ≤ a.length) : field_at h (a ++ b) off w = field_at h a off w := by
  unfold field_at
  congr 1
  apply List.ext_getElem?
  intro i
  rw [List.getElem?_take, List.getElem?_take, List.getElem?_drop, List.getElem?_drop]
  by_cases hi : i < w
  · rw [if_pos hi, if_pos hi, List.getElem?_append_left (by omega)]
  · rw [if_neg hi, if_neg hi]

theorem list_length_twelve (l : List Nat) (hl : l.length = 12) :
    ∃ d0 d1 d2 d3 d4 d5 d6 d7 d8 d9 d10 d11, l = [d0, d1, d2, d3, d4, d5, d6, d7, d8, d9, d10, d11] := by
  match l, hl with
  | [d0, d1, d2, d3, d4, d5, d6, d7, d8, d9, d10, d11], _ =>
    exact ⟨d0, d1, d2, d3, d4, d5, d6, d7, d8, d9, d10, d11, rfl⟩

theorem superblock_of_mem_mem (h : Endian) (sb : superblock_t) (hwf : sb.wf) (rest : List Nat) :
    superblock_of_mem h (superblock_mem h sb ++ rest) = sb := by
  obtain ⟨h1, h2, h3, h4, h5, h6, h7, h8, h9, h10, h11, h12, h13, h14, h15, h16, h17⟩ := hwf
  simp only [superblock_of_mem, superblock_mem, List.append_assoc]
  simp only [field_at_skip, field_at_head, length_host_bytes, Nat.le_refl, Nat.sub_self,
    Nat.reduceLeDiff, Nat.reduceSub, Nat.reducePow] at *
  rw [Nat.mod_eq_of_lt h1, Nat.mod_eq_of_lt h2, Nat.mod_eq_of_lt h3, Nat.mod_eq_of_lt h4,
    Nat.mod_eq_of_lt h5, Nat.mod_eq_of_lt h6, Nat.mod_eq_of_lt h7, Nat.mod_eq_of_lt h8,
    Nat.mod_eq_of_lt h9, Nat.mod_eq_of_lt h10, Nat.mod_eq_of_lt h11, Nat.mod_eq_of_lt h12,
    Nat.mod_eq_of_lt h13, Nat.mod_eq_of_lt h14, Nat.mod_eq_of_lt h15, Nat.mod_eq_of_lt h16,
    Nat.mod_eq_of_lt h17]

theorem inode_of_mem_mem (h : Endian) (ino : inode_t) (hwf : ino.wf) (rest : List Nat) :
    inode_of_mem h (inode_mem h ino ++ rest) = ino := by
  obtain ⟨mode, links, uid, gid, size_bytes, atime, mtime, ctime, direct, r0, r1, r2, proj,
    ug, xattr, crc⟩ := ino
  obtain ⟨h1, h2, h3, h4, h5, h6, h7, h8, hlen, hd, h11, h12, h13, h14, h15, h16, h17⟩ := hwf
  simp only at h1 h2 h3 h4 h5 h6 h7 h8 hlen hd h11 h12 h13 h14 h15 h16 h17
  obtain ⟨d0, d1, d2, d3, d4, d5, d6, d7, d8, d9, d10, d11, rfl⟩ := list_length_twelve direct hlen
  have e0 := hd d0 (by simp)
  have e1 := hd d1 (by simp)
  have e2 := hd d2 (by simp)
  have e3 := hd d3 (by simp)
  have e4 := hd d4 (by simp)
  have e5 := hd d5 (by simp)
  have e6 := hd d6 (by simp)
  have e7 := hd d7 (by simp)
  have e8 := hd d8 (by simp)
  have e9 := hd d9 (by simp)
  have e10 := hd d10 (by simp)
  have e11 := hd d11 (by simp)
  have hr : List.range 12 = [0, 1, 2, 3, 4, 5, 6, 7, 8, 9, 10, 11] := by decide
  simp only [inode_of_mem, inode_mem, array_mem, hr, List.map_cons, List.map_nil,
    List.flatten_cons, List.flatten_nil, List.append_nil, List.append_assoc]
  simp only [field_at_skip, field_at_head, length_host_bytes, Nat.le_refl, Nat.sub_self,
    Nat.reduceLeDiff, Nat.reduceSub, Nat.reducePow, Nat.reduceMul, Nat.reduceAdd] at *
  rw [Nat.mod_eq_of_lt h1, Nat.mod_eq_of_lt h2, Nat.mod_eq_of_lt h3, Nat.mod_eq_of_lt h4,
    Nat.mod_eq_of_lt h5, Nat.mod_eq_of_lt h6, Nat.mod_eq_of_lt h7, Nat.mod_eq_of_lt h8,
    Nat.mod_eq_of_lt h11, Nat.mod_eq_of_lt h12, Nat.mod_eq_of_lt h13, Nat.mod_eq_of_lt h14,
    Nat.mod_eq_of_lt h15, Nat.mod_eq_of_lt h16, Nat.mod_eq_of_lt h17,
    Nat.mod_eq_of_lt e0, Nat.mod_eq_of_lt e1, Nat.mod_eq_of_lt e2, Nat.mod_eq_of_lt e3,
    Nat.mod_eq_of_lt e4, Nat.mod_eq_of_lt e5, Nat.mod_eq_of_lt e6, Nat.mod_eq_of_lt e7,
    Nat.mod_eq_of_lt e8, Nat.mod_eq_of_lt e9, Nat.mod_eq_of_lt e10, Nat.mod_eq_of_lt e11]

theorem dirent_of_mem_mem (h : Endian) (de : dirent64_t) (hwf : de.wf) (rest : List Nat) :
    dirent_of_mem h (dirent_mem h de ++ rest) = de := by
  obtain ⟨ino, type, name, checksum⟩ := de
  obtain ⟨h1, h2, hlen, hc, h5⟩ := hwf
  simp only at h1 h2 hlen hc h5
  simp only [dirent_of_mem, dirent_mem, List.append_assoc]
  have hname : List.take 58 (List.drop 5 (host_bytes h 4 ino ++ (host_bytes h 1 type ++
      (name ++ (host_bytes h 1 checksum ++ rest))))) = name := by
    rw [← List.append_assoc (host_bytes h 4 ino), List.drop_left' (by simp [length_host_bytes]),
      List.take_left' hlen]
  have hck : field_at h (host_bytes h 4 ino ++ (host_bytes h 1 type ++
      (name ++ (host_bytes h 1 checksum ++ rest)))) 63 1 = checksum := by
    rw [field_at_skip _ _ _ _ _ (by simp [length_host_bytes]),
      field_at_skip _ _ _ _ _ (by simp [length_host_bytes]),
      field_at_skip _ _ _ _ _ (by simp [length_host_bytes, hlen])]
    simp only [length_host_bytes, hlen, Nat.reduceSub, field_at_head]
    exact Nat.mod_eq_of_lt (by simpa using h5)
  rw [hname, hck]
  simp only [field_at_skip, field_at_head, length_host_bytes, Nat.le_refl, Nat.sub_self,
    Nat.reduceLeDiff, Nat.reduceSub, Nat.reducePow] at *
  rw [Nat.mod_eq_of_lt h1, Nat.mod_eq_of_lt h2]

/-! ## Well-formedness of converted records -/

theorem superblock_to_host_wf (sb : superblock_t) : (superblock_to_host sb).wf := by
  simp only [superblock_t.wf, superblock_to_host, from_le32, from_le64]
  exact ⟨to_le32_lt _, to_le32_lt _, to_le32_lt _, to_le64_lt _, to_le64_lt _, to_le64_lt _,
    to_le64_lt _, to_le64_lt _, to_le64_lt _, to_le64_lt _, to_le64_lt _, to_le64_lt _,
    to_le64_lt _, to_le64_lt _, to_le64_lt _, to_le32_lt _, to_le32_lt _⟩

theorem superblock_to_disk_wf (sb : superblock_t) (hc : sb.checksum < 2 ^ 32) :
    (superblock_to_disk sb).wf := by
  simp only [superblock_t.wf, superblock_to_disk]
  exact ⟨to_le32_lt _, to_le32_lt _, to_le32_lt _, to_le64_lt _, to_le64_lt _, to_le64_lt _,
    to_le64_lt _, to_le64_lt _, to_le64_lt _, to_le64_lt _, to_le64_lt _, to_le64_lt _,
    to_le64_lt _, to_le64_lt _, to_le64_lt _, to_le32_lt _, hc⟩

theorem superblock_crc_finalize_wf (h : Endian) (after : List Nat) (sb : superblock_t)
    (hwf : sb.wf) : (superblock_crc_finalize h after sb).wf := by
  obtain ⟨h1, h2, h3, h4, h5, h6, h7, h8, h9, h10, h11, h12, h13, h14, h15, h16, _⟩ := hwf
  simp only [superblock_t.wf, superblock_crc_finalize]
  exact ⟨h1, h2, h3, h4, h5, h6, h7, h8, h9, h10, h11, h12, h13, h14, h15, h16, crc32_lt _ _⟩

theorem inode_to_host_wf (ino : inode_t) (hd : ino.direct.length = 12) :
    (inode_to_host ino).wf := by
  simp only [inode_t.wf, inode_to_host, from_le16, from_le32, from_le64]
  refine ⟨to_le16_lt _, to_le16_lt _, to_le32_lt _, to_le32_lt _, to_le64_lt _, to_le64_lt _,
    to_le64_lt _, to_le64_lt _, by simpa using hd, ?_, to_le32_lt _, to_le32_lt _, to_le32_lt _,
    to_le32_lt _, to_le32_lt _, to_le64_lt _, to_le64_lt _⟩
  intro d hm
  obtain ⟨x, _, rfl⟩ := List.mem_map.1 hm
  exact to_le32_lt _

theorem inode_to_disk_wf (ino : inode_t) (hd : ino.direct.length = 12)
    (hc : ino.inode_crc < 2 ^ 64) : (inode_to_disk ino).wf := by
  simp only [inode_t.wf, inode_to_disk]
  refine ⟨to_le16_lt _, to_le16_lt _, to_le32_lt _, to_le32_lt _, to_le64_lt _, to_le64_lt _,
    to_le64_lt _, to_le64_lt _, by simpa using hd, ?_, to_le32_lt _, to_le32_lt _, to_le32_lt _,
    to_le32_lt _, to_le32_lt _, to_le64_lt _, hc⟩
  intro d hm
  obtain ⟨x, _, rfl⟩ := List.mem_map.1 hm
  exact to_le32_lt _

theorem inode_crc_finalize_wf (h : Endian) (ino : inode_t) (hwf : ino.wf) :
    (inode_crc_finalize h ino).wf := by
  obtain ⟨h1, h2, h3, h4, h5, h6, h7, h8, h9, h10, h11, h12, h13, h14, h15, h16, _⟩ := hwf
  simp only [inode_t.wf, inode_crc_finalize]
  exact ⟨h1, h2, h3, h4, h5, h6, h7, h8, h9, h10, h11, h12, h13, h14, h15, h16,
    Nat.lt_of_lt_of_le (crc32_lt _ _) (by norm_num)⟩

/-! ## Inode checksum -/

theorem inode_mem_split (h : Endian) (ino : inode_t) (hd : ino.direct.length = 12) :
    (inode_mem h ino).take 120 =
      host_bytes h 2 ino.mode ++ host_bytes h 2 ino.links ++ host_bytes h 4 ino.uid ++
      host_bytes h 4 ino.gid ++ host_bytes h 8 ino.size_bytes ++ host_bytes h 8 ino.atime ++
      host_bytes h 8 ino.mtime ++ host_bytes h 8 ino.ctime ++ array_mem h 4 ino.direct ++
      host_bytes h 4 ino.reserved_0 ++ host_bytes h 4 ino.reserved_1 ++
      host_bytes h 4 ino.reserved_2 ++ host_bytes h 4 ino.proj_id ++
      host_bytes h 4 ino.uid16_gid16 ++ host_bytes h 8 ino.xattr_ptr := by
  unfold inode_mem
  apply List.take_left'
  simp [length_host_bytes, length_array_mem, hd]

theorem inode_mem_drop_120 (h : Endian) (ino : inode_t) (hd : ino.direct.length = 12) :
    (inode_mem h ino).drop 120 = host_bytes h 8 ino.inode_crc := by
  unfold inode_mem
  refine @List.drop_left' _ _ (host_bytes h 8 ino.inode_crc) 120 ?_
  simp [length_host_bytes, length_array_mem, hd]

theorem inode_mem_eq_take_append (h : Endian) (ino : inode_t) (hd : ino.direct.length = 12) :
    inode_mem h ino = (inode_mem h ino).take 120 ++ host_bytes h 8 ino.inode_crc := by
  have := (List.take_append_drop 120 (inode_mem h ino)).symm
  rw [inode_mem_drop_120 h ino hd] at this
  exact this

theorem inode_crc_finalize_eq (h : Endian) (ino : inode_t) (hd : ino.direct.length = 12) :
    inode_crc_finalize h ino =
      { ino with inode_crc := crc32 ((inode_mem h ino).take 120) 120 } := by
  have hlen : ((inode_mem h ino).take 120).length = 120 := by
    rw [List.length_take, length_inode_mem h ino hd]; rfl
  have hc : crc32 (((inode_mem h ino).take 128).take 120 ++ List.replicate 8 0) 120 =
      crc32 ((inode_mem h ino).take 120) 120 := by
    rw [List.take_take]
    have : min 120 128 = 120 := by norm_num
    rw [this, ← crc32_of_take, List.take_left' hlen, crc32_of_take]
  simp only [inode_crc_finalize, INODE_SIZE, hc]

theorem inode_crc_finalize_props (h : Endian) (ino : inode_t) (hd : ino.direct.length = 12) :
    (inode_mem h (inode_crc_finalize h ino)).length = 128 ∧
    (inode_mem h (inode_crc_finalize h ino)).take 120 = (inode_mem h ino).take 120 ∧
    (inode_crc_finalize h ino).inode_crc = crc32 ((inode_mem h ino).take 120) 120 ∧
    (inode_crc_finalize h ino).inode_crc < 2 ^ 32 ∧
    (inode_mem h (inode_crc_finalize h ino)).drop 120 =
      host_bytes h 8 (crc32 ((inode_mem h ino).take 120) 120) ∧
    field_at h (inode_mem h (inode_crc_finalize h ino)) 120 8 =
      crc32 (inode_mem h (inode_crc_finalize h ino)) 120 := by
  have hlen : ((inode_mem h ino).take 120).length = 120 := by
    rw [List.length_take, length_inode_mem h ino hd]; rfl
  have e := inode_crc_finalize_eq h ino hd
  have hd2 : (inode_crc_finalize h ino).direct.length = 12 := by rw [e]; exact hd
  have hsame : (inode_mem h (inode_crc_finalize h ino)).take 120 = (inode_mem h ino).take 120 := by
    rw [inode_mem_split h _ hd2, inode_mem_split h ino hd, e]
  have hcrc : (inode_crc_finalize h ino).inode_crc = crc32 ((inode_mem h ino).take 120) 120 := by
    rw [e]
  have hmem := inode_mem_eq_take_append h _ hd2
  rw [hsame, hcrc] at hmem
  refine ⟨length_inode_mem h _ hd2, hsame, hcrc, by rw [hcrc]; exact crc32_lt _ _, ?_, ?_⟩
  · rw [hmem, List.drop_left' hlen]
  · rw [← crc32_of_take (inode_mem h (inode_crc_finalize h ino)), hsame]
    rw [hmem, field_at_skip _ _ _ _ _ (by omega), hlen]
    have := field_at_head h 8 (crc32 ((inode_mem h ino).take 120) 120) []
    rw [List.append_nil] at this
    rw [Nat.sub_self, this]
    exact Nat.mod_eq_of_lt (Nat.lt_of_lt_of_le (crc32_lt _ _) (by norm_num))

theorem inode_crc_finalize_idem (h : Endian) (ino : inode_t) (hd : ino.direct.length = 12) :
    (∀ c, inode_crc_finalize h { ino with inode_crc := c } = inode_crc_finalize h ino) ∧
    inode_crc_finalize h (inode_crc_finalize h ino) = inode_crc_finalize h ino := by
  have key : ∀ c, inode_crc_finalize h { ino with inode_crc := c } = inode_crc_finalize h ino := by
    intro c
    rw [inode_crc_finalize_eq h ino hd, inode_crc_finalize_eq h { ino with inode_crc := c } hd]
    have : (inode_mem h { ino with inode_crc := c }).take 120 = (inode_mem h ino).take 120 := by
      rw [inode_mem_split h ino hd]
      exact inode_mem_split h { ino with inode_crc := c } hd
    rw [this]
  refine ⟨key, ?_⟩
  have e := inode_crc_finalize_eq h ino hd
  have := key (crc32 ((inode_mem h ino).take 120) 120)
  rw [← e] at this
  exact this

/-! ## The image the formatter writes -/

theorem flatten_replicate_zero_block (n : Nat) :
    (List.replicate n zero_block).flatten = List.replicate (n * BS) 0 := by
  induction n with
  | zero => simp
  | succ n ih =>
    rw [List.replicate_succ, List.flatten_cons, ih, zero_block, ← List.replicate_add]
    congr 1
    ring

theorem bitmap_block_eq :
    zero_block.set 0 ((zero_block.getD 0 0 ||| 0x01) % 256) = 1 :: List.replicate (BS - 1) 0 := by
  have : zero_block = 0 :: List.replicate (BS - 1) 0 := by
    simp only [zero_block, BS]
    rfl
  rw [this]
  rfl

theorem length_first_bit_block : first_bit_block.length = BS := by
  simp only [first_bit_block, List.length_cons, List.length_replicate, BS]

theorem builder_root_direct_length (h : Endian) (sb : superblock_t) (d : Nat) :
    (builder_root_inode h sb d).direct.length = 12 := by
  simp [builder_root_inode, inode_crc_finalize, inode_to_disk]

theorem builder_dirent_name_length (h : Endian) (s : List Nat) (hs : s.length ≤ 58) :
    (builder_dirent h s).name.length = 58 := by
  simp only [builder_dirent, dirent_checksum_finalize, dirent_to_disk, strncpy_into,
    List.length_append, List.length_take, List.length_replicate]
  omega

/-- The seven regions of the image, in order. -/
theorem builder_image_eq (h : Endian) (after : List Nat) (now size_kib inode_count : Nat) :
    builder_image h after now size_kib inode_count =
      (superblock_mem h (builder_superblock h after now size_kib inode_count) ++
        List.replicate (BS - 116) 0) ++
      first_bit_block ++ first_bit_block ++
      (inode_mem h (builder_root_inode h (builder_superblock h after now size_kib inode_count)
          (builder_geometry size_kib inode_count).data_region_start) ++
        List.replicate (BS - 128) 0) ++
      List.replicate (((builder_geometry size_kib inode_count).inode_table_blocks - 1) * BS) 0 ++
      (dirent_mem h (builder_dirent h [46]) ++ dirent_mem h (builder_dirent h [46, 46]) ++
        List.replicate (BS - 128) 0) ++
      List.replicate (((builder_geometry size_kib inode_count).data_region_blocks - 1) * BS) 0 := by
  simp only [builder_image, bitmap_block_eq, flatten_replicate_zero_block, first_bit_block]
  simp only [zero_block, List.drop_replicate]

theorem seven_regions (r0 r1 r2 r3 r4 r5 r6 : List Nat) (n4 : Nat)
    (h0 : r0.length = BS) (h1 : r1.length = BS) (h2 : r2.length = BS) (h3 : r3.length = BS)
    (h4 : r4.length = n4 * BS) (h5 : r5.length = BS) :
    pread (r0 ++ r1 ++ r2 ++ r3 ++ r4 ++ r5 ++ r6) 0 BS = some r0 ∧
    pread (r0 ++ r1 ++ r2 ++ r3 ++ r4 ++ r5 ++ r6) BS BS = some r1 ∧
    pread (r0 ++ r1 ++ r2 ++ r3 ++ r4 ++ r5 ++ r6) (2 * BS) BS = some r2 ∧
    pread (r0 ++ r1 ++ r2 ++ r3 ++ r4 ++ r5 ++ r6) (3 * BS) BS = some r3 ∧
    pread (r0 ++ r1 ++ r2 ++ r3 ++ r4 ++ r5 ++ r6) (4 * BS) (n4 * BS) = some r4 ∧
    pread (r0 ++ r1 ++ r2 ++ r3 ++ r4 ++ r5 ++ r6) ((4 + n4) * BS) BS = some r5 ∧
    pread (r0 ++ r1 ++ r2 ++ r3 ++ r4 ++ r5 ++ r6) ((5 + n4) * BS) r6.length = some r6 ∧
    (r0 ++ r1 ++ r2 ++ r3 ++ r4 ++ r5 ++ r6).length = (5 + n4) * BS + r6.length := by
  simp only [BS] at *
  have l1 : (r0 ++ r1).length = 2 * 4096 := by rw [List.length_append]; omega
  have l2 : (r0 ++ r1 ++ r2).length = 3 * 4096 := by rw [List.length_append]; omega
  have l3 : (r0 ++ r1 ++ r2 ++ r3).length = 4 * 4096 := by rw [List.length_append]; omega
  have l4 : (r0 ++ r1 ++ r2 ++ r3 ++ r4).length = (4 + n4) * 4096 := by
    rw [List.length_append, l3, h4]; ring
  have l5 : (r0 ++ r1 ++ r2 ++ r3 ++ r4 ++ r5).length = (5 + n4) * 4096 := by
    rw [List.length_append, l4, h5]; ring
  refine ⟨?_, ?_, ?_, ?_, ?_, ?_, ?_, ?_⟩
  · rw [pread_append_left _ _ _ _ (by omega), pread_append_left _ _ _ _ (by omega),
      pread_append_left _ _ _ _ (by omega), pread_append_left _ _ _ _ (by omega),
      pread_append_left _ _ _ _ (by omega), pread_append_left _ _ _ _ (by omega), ← h0]
    exact pread_all r0
  · rw [pread_append_left _ _ _ _ (by omega), pread_append_left _ _ _ _ (by omega),
      pread_append_left _ _ _ _ (by omega), pread_append_left _ _ _ _ (by omega),
      pread_append_left _ _ _ _ (by omega)]
    have := pread_append_right r0 r1 0 4096
    rw [h0] at this
    rw [this, ← h1]
    exact pread_all r1
  · rw [pread_append_left _ _ _ _ (by omega), pread_append_left _ _ _ _ (by omega),
      pread_append_left _ _ _ _ (by omega), pread_append_left _ _ _ _ (by omega)]
    have := pread_append_right (r0 ++ r1) r2 0 4096
    rw [l1] at this
    rw [this, ← h2]
    exact pread_all r2
  · rw [pread_append_left _ _ _ _ (by omega), pread_append_left _ _ _ _ (by omega),
      pread_append_left _ _ _ _ (by omega)]
    have := pread_append_right (r0 ++ r1 ++ r2) r3 0 4096
    rw [l2] at this
    rw [this, ← h3]
    exact pread_all r3
  · rw [pread_append_left _ _ _ _ (by omega),
      pread_append_left _ _ _ _ (by omega)]
    have := pread_append_right (r0 ++ r1 ++ r2 ++ r3) r4 0 (n4 * 4096)
    rw [l3] at this
    rw [this, ← h4]
    exact pread_all r4
  · rw [pread_append_left _ _ _ _ (by omega)]
    have := pread_append_right (r0 ++ r1 ++ r2 ++ r3 ++ r4) r5 0 4096
    rw [l4, Nat.add_zero] at this
    rw [this, ← h5]
    exact pread_all r5
  · have := pread_append_right (r0 ++ r1 ++ r2 ++ r3 ++ r4 ++ r5) r6 0 r6.length
    rw [l5, Nat.add_zero] at this
    rw [this]
    exact pread_all r6
  · rw [List.length_append, l5]

/-! ## Bits of a bitmap -/

theorem and_one_shiftLeft_eq_zero (b j : Nat) : b &&& (1 <<< j) = 0 ↔ b.testBit j = false := by
  rw [Nat.one_shiftLeft]
  constructor
  · intro hz
    have := congrArg (fun x => Nat.testBit x j) hz
    simpa [Nat.testBit_and, Nat.testBit_two_pow] using this
  · intro hf
    apply Nat.eq_of_testBit_eq
    intro i
    simp only [Nat.testBit_and, Nat.testBit_two_pow, Nat.zero_testBit]
    by_cases hij : j = i
    · subst hij; simp [hf]
    · simp [hij]

theorem is_bit_set_eq_testBit (bm : List Nat) (k : Nat) :
    is_bit_set bm k = (bm.getD (k / 8) 0).testBit (k % 8) := by
  unfold is_bit_set
  generalize bm.getD (k / 8) 0 = b
  by_cases ht : b.testBit (k % 8) = true
  · rw [ht]
    have : ¬ (b &&& (1 <<< (k % 8)) = 0) := by
      rw [and_one_shiftLeft_eq_zero]; simp [ht]
    simpa using this
  · have hf : b.testBit (k % 8) = false := by simpa using ht
    rw [hf]
    have := (and_one_shiftLeft_eq_zero b (k % 8)).2 hf
    simp [this]

theorem length_set_bit (bm : List Nat) (k : Nat) : (set_bit bm k).length = bm.length := by
  simp [set_bit]

theorem set_bit_lt (bm : List Nat) (k : Nat) (hb : ∀ b ∈ bm, b < 256) :
    ∀ b ∈ set_bit bm k, b < 256 := by
  intro b hm
  unfold set_bit at hm
  rcases List.mem_or_eq_of_mem_set hm with hm | hm
  · exact hb b hm
  · rw [hm]
    exact Nat.mod_lt _ (by norm_num)

theorem getD_set_bit (bm : List Nat) (k i : Nat) (hk : k / 8 < bm.length) :
    (set_bit bm k).getD i 0 =
      if i = k / 8 then (bm.getD (k / 8) 0 ||| (1 <<< (k % 8))) % 256 else bm.getD i 0 := by
  unfold set_bit
  rw [List.getD_eq_getElem?_getD, List.getElem?_set]
  by_cases hi : i = k / 8
  · subst hi
    simp [hk]
  · rw [if_neg (fun e => hi e.symm), if_neg hi, List.getD_eq_getElem?_getD]

theorem is_bit_set_set_bit (bm : List Nat) (k k2 : Nat) (hk : k / 8 < bm.length) :
    is_bit_set (set_bit bm k) k2 = (decide (k2 = k) || is_bit_set bm k2) := by
  rw [is_bit_set_eq_testBit, is_bit_set_eq_testBit, getD_set_bit bm k _ hk]
  by_cases hb : k2 / 8 = k / 8
  · rw [if_pos hb]
    have h8 : (256 : Nat) = 2 ^ 8 := by norm_num
    rw [h8, Nat.testBit_mod_two_pow, Nat.testBit_or, Nat.one_shiftLeft, Nat.testBit_two_pow, hb]
    have hlt : k2 % 8 < 8 := Nat.mod_lt _ (by norm_num)
    by_cases he : k2 = k
    · subst he; simp [hlt]
    · have hne : ¬ (k % 8 = k2 % 8) := by omega
      simp [hlt, he, hne]
  · rw [if_neg hb]
    have he : ¬ (k2 = k) := fun e => hb (by rw [e])
    simp [he]

theorem is_bit_set_first_bit_block (k : Nat) : is_bit_set first_bit_block k = decide (k = 0) := by
  rw [is_bit_set_eq_testBit]
  unfold first_bit_block
  by_cases h0 : k / 8 = 0
  · rw [h0]
    simp only [List.getD_cons_zero]
    by_cases hk : k = 0
    · subst hk; simp
    · have h1 : k % 8 ≠ 0 := by omega
      have : Nat.testBit 1 (k % 8) = false := by
        have := @Nat.testBit_two_pow 0 (k % 8)
        simp only [pow_zero] at this
        rw [this]
        simpa using (fun e => h1 e.symm)
      rw [this]
      simp [hk]
  · obtain ⟨m, hm⟩ : ∃ m, k / 8 = m + 1 := ⟨k / 8 - 1, by omega⟩
    rw [hm, List.getD_cons_succ]
    have hz : (List.replicate (BS - 1) 0).getD m 0 = 0 := by
      rw [List.getD_eq_getElem?_getD, List.getElem?_replicate]
      split <;> rfl
    rw [hz]
    have hk : ¬ (k = 0) := by omega
    simp [hk]

theorem first_bit_block_lt : ∀ b ∈ first_bit_block, b < 256 := by
  intro b hb
  unfold first_bit_block at hb
  rcases List.mem_cons.1 hb with hb | hb
  · omega
  · rw [List.eq_of_mem_replicate hb]; norm_num

/-- The outcome of `find_free_bit` in terms of `is_bit_set`. -/
theorem find_free_bit_lowest (bm : List Nat) (n : Nat) (hn : n ≤ bm.length)
    (hb : ∀ b ∈ bm, b < 256) :
    (find_free_bit bm n = -1 ∧ ∀ k, k < 8 * n → is_bit_set bm k = true) ∨
      ∃ r, r < 8 * n ∧ find_free_bit bm n = (r : Int) ∧ is_bit_set bm r = false ∧
        ∀ k, k < r → is_bit_set bm k = true := by
  rcases find_free_bit_cases bm n hn hb with ⟨h1, h2⟩ | ⟨i, j, h1, h2, h3, h4, h5, h6⟩
  · left
    refine ⟨h1, ?_⟩
    intro k hk
    unfold is_bit_set
    rw [h2 (k / 8) (by omega)]
    have := byte_255_bit (k % 8) (Nat.mod_lt _ (by norm_num))
    simpa using this
  · right
    refine ⟨i * 8 + j, by omega, h3, ?_, ?_⟩
    · have e1 : (i * 8 + j) / 8 = i := by omega
      have e2 : (i * 8 + j) % 8 = j := by omega
      unfold is_bit_set
      rw [e1, e2, h4]
      simp
    · intro k hk
      unfold is_bit_set
      by_cases hki : k / 8 < i
      · rw [h5 _ hki]
        have := byte_255_bit (k % 8) (Nat.mod_lt _ (by norm_num))
        simpa using this
      · have e1 : k / 8 = i := by omega
        have := h6 (k % 8) (by omega)
        rw [e1]
        simpa using this

/-! ## Decoding what the tools encode -/

theorem superblock_decode_finalized (h : Endian) (after : List Nat) (r : superblock_t)
    (hr : r.wf) :
    superblock_to_host (superblock_crc_finalize h after (superblock_to_disk r)) =
      { r with
        checksum :=
          from_le32 ((superblock_crc_finalize h after (superblock_to_disk r)).checksum) } := by
  obtain ⟨h1, h2, h3, h4, h5, h6, h7, h8, h9, h10, h11, h12, h13, h14, h15, h16, _⟩ := hr
  simp only [superblock_to_host, superblock_crc_finalize, superblock_to_disk, from_le32,
    from_le64]
  rw [to_le32_to_le32 _ h1, to_le32_to_le32 _ h2, to_le32_to_le32 _ h3, to_le64_to_le64 _ h4,
    to_le64_to_le64 _ h5, to_le64_to_le64 _ h6, to_le64_to_le64 _ h7, to_le64_to_le64 _ h8,
    to_le64_to_le64 _ h9, to_le64_to_le64 _ h10, to_le64_to_le64 _ h11, to_le64_to_le64 _ h12,
    to_le64_to_le64 _ h13, to_le64_to_le64 _ h14, to_le64_to_le64 _ h15, to_le32_to_le32 _ h16]

theorem inode_decode_finalized (h : Endian) (r : inode_t) (hr : r.wf) :
    inode_to_host (inode_crc_finalize h (inode_to_disk r)) =
      { r with
        inode_crc := from_le64 ((inode_crc_finalize h (inode_to_disk r)).inode_crc) } := by
  obtain ⟨h1, h2, h3, h4, h5, h6, h7, h8, _, h10, h11, h12, h13, h14, h15, h16, _⟩ := hr
  simp only [inode_to_host, inode_crc_finalize, inode_to_disk]
  rw [map_from_le32_to_le32 _ h10]
  simp only [from_le16, from_le32, from_le64]
  rw [to_le16_to_le16 _ h1, to_le16_to_le16 _ h2, to_le32_to_le32 _ h3, to_le32_to_le32 _ h4,
    to_le64_to_le64 _ h5, to_le64_to_le64 _ h6, to_le64_to_le64 _ h7, to_le64_to_le64 _ h8,
    to_le32_to_le32 _ h11, to_le32_to_le32 _ h12, to_le32_to_le32 _ h13,
    to_le32_to_le32 _ h14, to_le32_to_le32 _ h15, to_le64_to_le64 _ h16]

theorem written_inode_wf (h : Endian) (r : inode_t) (hd : r.direct.length = 12)
    (hc : r.inode_crc < 2 ^ 64) : (inode_crc_finalize h (inode_to_disk r)).wf :=
  inode_crc_finalize_wf h _ (inode_to_disk_wf r hd hc)

theorem written_superblock_wf (h : Endian) (after : List Nat) (r : superblock_t)
    (hc : r.checksum < 2 ^ 32) : (superblock_crc_finalize h after (superblock_to_disk r)).wf :=
  superblock_crc_finalize_wf h after _ (superblock_to_disk_wf r hc)

/-! ## The formatter's output satisfies the invariant -/

theorem builder_valid_iff (size_kib inode_count : Nat) :
    builder_valid size_kib inode_count = true ↔
      180 ≤ size_kib ∧ size_kib ≤ 4096 ∧ size_kib % 4 = 0 ∧ 128 ≤ inode_count ∧
        inode_count ≤ 512 := by
  unfold builder_valid
  by_cases h1 : size_kib < 180 ∨ size_kib > 4096
  · rw [if_pos h1]
    constructor
    · intro hf; exact absurd hf (by simp)
    · intro hf; omega
  · rw [if_neg h1]
    by_cases h2 : size_kib % 4 ≠ 0
    · rw [if_pos h2]
      constructor
      · intro hf; exact absurd hf (by simp)
      · intro hf; omega
    · rw [if_neg h2]
      by_cases h3 : inode_count < 128 ∨ inode_count > 512
      · rw [if_pos h3]
        constructor
        · intro hf; exact absurd hf (by simp)
        · intro hf; omega
      · rw [if_neg h3]
        constructor
        · intro _; omega
        · intro _; rfl

theorem builder_geometry_bounds (size_kib inode_count : Nat)
    (hv : builder_valid size_kib inode_count = true) :
    (builder_geometry size_kib inode_count).inode_bitmap_start = 1 ∧
    (builder_geometry size_kib inode_count).inode_bitmap_blocks = 1 ∧
    (builder_geometry size_kib inode_count).data_bitmap_start = 2 ∧
    (builder_geometry size_kib inode_count).data_bitmap_blocks = 1 ∧
    (builder_geometry size_kib inode_count).inode_table_start = 3 ∧
    4 ≤ (builder_geometry size_kib inode_count).inode_table_blocks ∧
    (builder_geometry size_kib inode_count).inode_table_blocks ≤ 16 ∧
    (builder_geometry size_kib inode_count).data_region_start =
      3 + (builder_geometry size_kib inode_count).inode_table_blocks ∧
    (builder_geometry size_kib inode_count).total_blocks * 4 = size_kib ∧
    (builder_geometry size_kib inode_count).data_region_start +
      (builder_geometry size_kib inode_count).data_region_blocks =
        (builder_geometry size_kib inode_count).total_blocks ∧
    26 ≤ (builder_geometry size_kib inode_count).data_region_blocks := by
  obtain ⟨h1, h2, h3, h4, h5⟩ := (builder_valid_iff size_kib inode_count).1 hv
  rw [builder_geometry_eq size_kib inode_count h2 h5 h1]
  refine ⟨rfl, rfl, rfl, rfl, rfl, ?_, ?_, rfl, ?_, ?_, ?_⟩
  · show 4 ≤ (inode_count * 128 + 4095) / 4096
    omega
  · show (inode_count * 128 + 4095) / 4096 ≤ 16
    omega
  · show size_kib * 1024 / 4096 * 4 = size_kib
    omega
  · show 3 + (inode_count * 128 + 4095) / 4096 +
      (size_kib * 1024 / 4096 - (3 + (inode_count * 128 + 4095) / 4096)) = size_kib * 1024 / 4096
    omega
  · show 26 ≤ size_kib * 1024 / 4096 - (3 + (inode_count * 128 + 4095) / 4096)
    omega

theorem host_bytes_zero (h : Endian) : host_bytes h 4 0 = [0, 0, 0, 0] := by
  cases h <;> rfl

theorem to_le32_ne_zero (v : Nat) (hv : v < 2 ^ 32) (hne : v ≠ 0) : to_le32 v ≠ 0 := by
  intro hz
  have := to_le32_to_le32 v hv
  rw [hz] at this
  apply hne
  rw [← this]
  decide

theorem seven_regions_of_eq (img r0 r1 r2 r3 r4 r5 r6 : List Nat) (n4 : Nat)
    (h0 : r0.length = BS) (h1 : r1.length = BS) (h2 : r2.length = BS) (h3 : r3.length = BS)
    (h4 : r4.length = n4 * BS) (h5 : r5.length = BS)
    (himg : img = r0 ++ r1 ++ r2 ++ r3 ++ r4 ++ r5 ++ r6) :
    pread img 0 BS = some r0 ∧ pread img BS BS = some r1 ∧ pread img (2 * BS) BS = some r2 ∧
    pread img (3 * BS) BS = some r3 ∧ pread img (4 * BS) (n4 * BS) = some r4 ∧
    pread img ((4 + n4) * BS) BS = some r5 ∧
    pread img ((5 + n4) * BS) r6.length = some r6 ∧
    img.length = (5 + n4) * BS + r6.length := by
  subst himg
  exact seven_regions r0 r1 r2 r3 r4 r5 r6 n4 h0 h1 h2 h3 h4 h5

/-- The regions of the formatter's image, read back. -/
theorem builder_image_reads (h : Endian) (after : List Nat) (now size_kib inode_count : Nat)
    (hv : builder_valid size_kib inode_count = true) :
    pread (builder_image h after now size_kib inode_count) 0 BS =
      some (superblock_mem h (builder_superblock h after now size_kib inode_count) ++
        List.replicate (BS - 116) 0) ∧
    pread (builder_image h after now size_kib inode_count) BS BS = some first_bit_block ∧
    pread (builder_image h after now size_kib inode_count) (2 * BS) BS = some first_bit_block ∧
    pread (builder_image h after now size_kib inode_count) (3 * BS) BS =
      some (inode_mem h (builder_root_inode h
          (builder_superblock h after now size_kib inode_count)
          (builder_geometry size_kib inode_count).data_region_start) ++
        List.replicate (BS - 128) 0) ∧
    pread (builder_image h after now size_kib inode_count) (4 * BS)
        (((builder_geometry size_kib inode_count).inode_table_blocks - 1) * BS) =
      some (List.replicate
        (((builder_geometry size_kib inode_count).inode_table_blocks - 1) * BS) 0) ∧
    pread (builder_image h after now size_kib inode_count)
        ((builder_geometry size_kib inode_count).data_region_start * BS) BS =
      some (dirent_mem h (builder_dirent h [46]) ++ dirent_mem h (builder_dirent h [46, 46]) ++
        List.replicate (BS - 128) 0) ∧
    pread (builder_image h after now size_kib inode_count)
        (((builder_geometry size_kib inode_count).data_region_start + 1) * BS)
        (((builder_geometry size_kib inode_count).data_region_blocks - 1) * BS) =
      some (List.replicate
        (((builder_geometry size_kib inode_count).data_region_blocks - 1) * BS) 0) ∧
    (builder_image h after now size_kib inode_count).length =
      (builder_geometry size_kib inode_count).total_blocks * BS := by
  obtain ⟨_, _, _, _, _, g6, g7, g8, _, g10, g11⟩ := builder_geometry_bounds size_kib inode_count hv
  have key := seven_regions_of_eq (builder_image h after now size_kib inode_count)
    (superblock_mem h (builder_superblock h after now size_kib inode_count) ++
        List.replicate (BS - 116) 0)
    first_bit_block first_bit_block
    (inode_mem h (builder_root_inode h (builder_superblock h after now size_kib inode_count)
          (builder_geometry size_kib inode_count).data_region_start) ++
        List.replicate (BS - 128) 0)
    (List.replicate (((builder_geometry size_kib inode_count).inode_table_blocks - 1) * BS) 0)
    (dirent_mem h (builder_dirent h [46]) ++ dirent_mem h (builder_dirent h [46, 46]) ++
        List.replicate (BS - 128) 0)
    (List.replicate (((builder_geometry size_kib inode_count).data_region_blocks - 1) * BS) 0)
    ((builder_geometry size_kib inode_count).inode_table_blocks - 1)
    (by rw [List.length_append, length_superblock_mem, List.length_replicate]; rfl)
    length_first_bit_block length_first_bit_block
    (by rw [List.length_append, length_inode_mem _ _ (builder_root_direct_length _ _ _),
          List.length_replicate]; rfl)
    (by rw [List.length_replicate])
    (by rw [List.length_append, List.length_append,
          length_dirent_mem _ _ (builder_dirent_name_length _ _ (by decide)),
          length_dirent_mem _ _ (builder_dirent_name_length _ _ (by decide)),
          List.length_replicate]; rfl)
    (builder_image_eq h after now size_kib inode_count)
  obtain ⟨k0, k1, k2, k3, k4, k5, k6, k7⟩ := key
  have e1 : 4 + ((builder_geometry size_kib inode_count).inode_table_blocks - 1) =
      (builder_geometry size_kib inode_count).data_region_start := by omega
  have e2 : 5 + ((builder_geometry size_kib inode_count).inode_table_blocks - 1) =
      (builder_geometry size_kib inode_count).data_region_start + 1 := by omega
  rw [e1] at k5
  rw [e2, List.length_replicate] at k6 k7
  refine ⟨k0, k1, k2, k3, k4, k5, k6, ?_⟩
  have e3 : (builder_geometry size_kib inode_count).data_region_start + 1 +
      ((builder_geometry size_kib inode_count).data_region_blocks - 1) =
      (builder_geometry size_kib inode_count).total_blocks := by omega
  rw [k7, ← Nat.add_mul, e3]

theorem builder_superblock_wf (h : Endian) (after : List Nat) (now size_kib inode_count : Nat) :
    (builder_superblock h after now size_kib inode_count).wf := by
  unfold builder_superblock
  exact written_superblock_wf h after _ (by norm_num)

theorem builder_superblock_decode (h : Endian) (after : List Nat)
    (now size_kib inode_count : Nat) (hv : builder_valid size_kib inode_count = true) :
    superblock_to_host (builder_superblock h after now size_kib inode_count) =
      host_superblock size_kib inode_count (now % 2 ^ 64)
        (from_le32 (builder_superblock h after now size_kib inode_count).checksum) := by
  obtain ⟨g1, g2, g3, g4, g5, g6, g7, g8, g9, g10, g11⟩ :=
    builder_geometry_bounds size_kib inode_count hv
  obtain ⟨h1, h2, h3, h4, h5⟩ := (builder_valid_iff size_kib inode_count).1 hv
  unfold builder_superblock
  simp only []
  rw [superblock_decode_finalized]
  · simp only [host_superblock, g1, g2, g3, g4, g5]
  · simp only [superblock_t.wf, BS, ROOT_INO]
    refine ⟨by norm_num, by norm_num, by norm_num, by omega, by omega, by omega, by omega,
      by omega, by omega, by omega, by omega, by omega, by omega, by omega, ?_, by norm_num,
      by norm_num⟩
    exact Nat.mod_lt _ (by norm_num)

theorem builder_root_inode_wf (h : Endian) (sb : superblock_t) (d : Nat) :
    (builder_root_inode h sb d).wf := by
  unfold builder_root_inode
  exact written_inode_wf h _ (by simp) (by norm_num)

theorem builder_root_inode_decode (h : Endian) (sb : superblock_t) (d : Nat)
    (hsb : sb.mtime_epoch < 2 ^ 64) (hd : d < 2 ^ 32) :
    inode_to_host (builder_root_inode h sb d) =
      { mode := 0o040000, links := 2, uid := 0, gid := 0, size_bytes := 128,
        atime := sb.mtime_epoch, mtime := sb.mtime_epoch, ctime := sb.mtime_epoch,
        direct := d :: List.replicate 11 0,
        reserved_0 := 0, reserved_1 := 0, reserved_2 := 0, proj_id := 9, uid16_gid16 := 0,
        xattr_ptr := 0,
        inode_crc := from_le64 ((builder_root_inode h sb d).inode_crc) } := by
  unfold builder_root_inode
  simp only []
  rw [inode_decode_finalized]
  · simp only [PROJECT_ID, Nat.mod_eq_of_lt hd]
    rfl
  · simp only [inode_t.wf, PROJECT_ID]
    refine ⟨by norm_num, by norm_num, by norm_num, by norm_num, by norm_num, hsb, hsb, hsb,
      by simp, ?_, by norm_num, by norm_num, by norm_num, by norm_num, by norm_num,
      by norm_num, by norm_num⟩
    intro x hx
    rcases List.mem_or_eq_of_mem_set hx with hx | hx
    · rw [List.eq_of_mem_replicate hx]; norm_num
    · rw [hx]; exact Nat.mod_lt _ (by norm_num)

theorem dir_ino_bytes_zero_tail (h : Endian) (a : List Nat) (ha : a.length = 128) (i : Nat)
    (h2 : 2 ≤ i) (h64 : i < 64) :
    dir_ino_bytes (a ++ List.replicate (BS - 128) 0) i = host_bytes h 4 0 := by
  unfold dir_ino_bytes
  have e : 64 * i = a.length + (64 * i - 128) := by omega
  rw [host_bytes_zero, e, ← List.drop_drop, List.drop_left, List.drop_replicate,
    List.take_replicate]
  have : min 4 (BS - 128 - (64 * i - 128)) = 4 := by
    simp only [BS]; omega
  rw [this]
  rfl

theorem builder_dirent_mem (h : Endian) (s : List Nat) (hs : s.length ≤ 58) :
    ∃ rest, rest.length = 60 ∧
      dirent_mem h (builder_dirent h s) = host_bytes h 4 (to_le32 1) ++ rest := by
  refine ⟨host_bytes h 1 2 ++ (builder_dirent h s).name ++
    host_bytes h 1 (builder_dirent h s).checksum, ?_, ?_⟩
  · simp [length_host_bytes, builder_dirent_name_length h s hs]
  · simp only [dirent_mem, builder_dirent, dirent_checksum_finalize, dirent_to_disk, ROOT_INO,
      List.append_assoc]

/-- The image the formatter writes satisfies the invariant with no file inserted. -/
theorem builder_image_inv (h : Endian) (after : List Nat) (now size_kib inode_count : Nat)
    (hv : builder_valid size_kib inode_count = true) :
    image_inv h size_kib inode_count 0 (builder_image h after now size_kib inode_count) := by
  obtain ⟨k0, k1, k2, k3, _, k5, _, _⟩ := builder_image_reads h after now size_kib inode_count hv
  obtain ⟨g1, g2, g3, g4, g5, g6, g7, g8, g9, g10, g11⟩ :=
    builder_geometry_bounds size_kib inode_count hv
  have hsbwf := builder_superblock_wf h after now size_kib inode_count
  refine ⟨hv, by norm_num, ?_, ?_, ?_, ?_, ?_⟩
  · refine ⟨_, _, _, hsbwf, ?_, builder_superblock_decode h after now size_kib inode_count hv⟩
    have := pread_sub _ 0 BS _ 0 116 k0 (by simp only [BS]; omega)
    rw [List.drop_zero, List.take_left' (length_superblock_mem h _)] at this
    exact this
  · refine ⟨first_bit_block, k1, first_bit_block_lt, ?_⟩
    intro k _
    rw [is_bit_set_first_bit_block]
    by_cases hk : k = 0
    · subst hk; rfl
    · have : ¬ (k ≤ 0) := by omega
      simp [hk, this]
  · exact ⟨first_bit_block, k2, first_bit_block_lt, by rw [is_bit_set_first_bit_block]; rfl⟩
  · refine ⟨builder_root_inode h (builder_superblock h after now size_kib inode_count)
      (builder_geometry size_kib inode_count).data_region_start,
      builder_root_inode_wf h _ _, ?_, ?_⟩
    · have := pread_sub _ (3 * BS) BS _ 0 128 k3 (by simp only [BS]; omega)
      rw [List.drop_zero,
        List.take_left' (length_inode_mem h _ (builder_root_direct_length _ _ _))] at this
      exact this
    · rw [builder_root_inode_decode h _ _ hsbwf.2.2.2.2.2.2.2.2.2.2.2.2.2.2.1 (by omega)]
      rfl
  · refine ⟨_, k5, ?_⟩
    intro i hi
    obtain ⟨r1, hr1, e1⟩ := builder_dirent_mem h [46] (by decide)
    obtain ⟨r2, hr2, e2⟩ := builder_dirent_mem h [46, 46] (by decide)
    have hv1 : to_le32 1 ≠ 0 := to_le32_ne_zero 1 (by norm_num) (by norm_num)
    by_cases h0 : i = 0
    · subst h0
      refine ⟨to_le32 1, to_le32_lt 1, ?_, by simp [hv1]⟩
      unfold dir_ino_bytes
      rw [e1, List.append_assoc, List.append_assoc, Nat.mul_zero, List.drop_zero,
        List.take_left' (length_host_bytes h 4 _)]
    · by_cases h1 : i = 1
      · subst h1
        refine ⟨to_le32 1, to_le32_lt 1, ?_, by simp [hv1]⟩
        unfold dir_ino_bytes
        rw [List.append_assoc, e2, List.append_assoc,
          List.drop_left' (length_dirent_mem h _ (builder_dirent_name_length _ _ (by decide))),
          List.take_left' (length_host_bytes h 4 _)]
      · refine ⟨0, by norm_num, ?_, ?_⟩
        · apply dir_ino_bytes_zero_tail h _ _ i (by omega) hi
          rw [List.length_append,
            length_dirent_mem h _ (builder_dirent_name_length _ _ (by decide)),
            length_dirent_mem h _ (builder_dirent_name_length _ _ (by decide))]
        · constructor
          · intro hne; exact absurd rfl hne
          · intro hle; omega

theorem pread_join (img : List Nat) (o n m : Nat) (a b : List Nat)
    (ha : pread img o n = some a) (hb : pread img (o + n) m = some b) :
    pread img o (n + m) = some (a ++ b) := by
  obtain ⟨h1, h2⟩ := (pread_eq_some img o n a).1 ha
  obtain ⟨h3, h4⟩ := (pread_eq_some img (o + n) m b).1 hb
  rw [pread_eq_some]
  refine ⟨by omega, ?_⟩
  rw [h2, h4]
  apply List.ext_getElem?
  intro i
  simp only [List.getElem?_append, List.getElem?_take, List.getElem?_drop, List.length_take,
    List.length_drop]
  have hmin : min n (img.length - o) = n := by omega
  rw [hmin]
  by_cases hi : i < n
  · have hi2 : i < n + m := by omega
    simp [hi, hi2]
  · by_cases hi2 : i < n + m
    · have hi3 : i - n < m := by omega
      have e : o + n + (i - n) = o + i := by omega
      simp [hi, hi2, hi3, e]
    · have hi3 : ¬ (i - n < m) := by omega
      simp [hi, hi2, hi3]

theorem builder_dirent_wf (h : Endian) (s : List Nat) (hs : s.length ≤ 58)
    (hc : ∀ c ∈ s, c < 256) : (builder_dirent h s).wf := by
  have hn := builder_dirent_name_length h s hs
  have hname : ∀ c ∈ strncpy_into 58 s 58, c < 256 := by
    intro c hm
    unfold strncpy_into at hm
    rcases List.mem_append.1 hm with hm | hm
    · exact hc c (List.mem_of_mem_take hm)
    · rw [List.eq_of_mem_replicate hm]; norm_num
  have hspec := dirent_checksum_finalize_spec h
    (dirent_to_disk { ino := ROOT_INO, type := 2, name := strncpy_into 58 s 58, checksum := 0 })
    hn hname
  refine ⟨?_, ?_, hn, ?_, ?_⟩
  · exact to_le32_lt _
  · show (2 : Nat) < 2 ^ 8
    norm_num
  · intro c hm
    have := hname c hm
    simpa using this
  · have := hspec.2.1
    simpa [builder_dirent] using this

theorem builder_dirent_decode (h : Endian) (s : List Nat) (hs : s.length ≤ 58)
    (hc : ∀ c ∈ s, c < 256) (rest : List Nat) :
    dirent_to_host (dirent_of_mem h (dirent_mem h (builder_dirent h s) ++ rest)) =
      { ino := 1, type := 2, name := strncpy_into 58 s 58,
        checksum := (builder_dirent h s).checksum } := by
  rw [dirent_of_mem_mem h _ (builder_dirent_wf h s hs hc)]
  simp only [dirent_to_host, builder_dirent, dirent_checksum_finalize, dirent_to_disk, from_le32,
    ROOT_INO]
  rw [to_le32_to_le32 1 (by norm_num)]

/-- C5.  For every valid `(size_kib, inode_count)` the formatter writes an image in which:
the inode bitmap block and the data bitmap block have exactly bit 0 set; inode table slot 0
decodes to a directory inode with mode 040000, links 2, size 128, `direct[0]` the start of
the data region, `direct[1..11] = 0` and project id 9; every other byte of the inode table is
zero; the first data block holds `.` in slot 0 and `..` in slot 1, both with inode number 1
and type 2, its other 62 slots being zero; and every other data block is zero. -/
theorem builder_image_content (h : Endian) (after : List Nat) (now size_kib inode_count : Nat)
    (h1 : 180 ≤ size_kib) (h2 : size_kib ≤ 4096) (h3 : size_kib % 4 = 0)
    (h4 : 128 ≤ inode_count) (h5 : inode_count ≤ 512) :
    ∃ img, mkfs_builder h after now size_kib inode_count = some img ∧
      pread img ((builder_geometry size_kib inode_count).inode_bitmap_start * BS) BS =
        some first_bit_block ∧
      pread img ((builder_geometry size_kib inode_count).data_bitmap_start * BS) BS =
        some first_bit_block ∧
      (∀ k, is_bit_set first_bit_block k = decide (k = 0)) ∧
      (∃ m, pread img ((builder_geometry size_kib inode_count).inode_table_start * BS)
            INODE_SIZE = some m ∧
        (inode_to_host (inode_of_mem h m)).mode = 0o040000 ∧
        (inode_to_host (inode_of_mem h m)).links = 2 ∧
        (inode_to_host (inode_of_mem h m)).size_bytes = 128 ∧
        (inode_to_host (inode_of_mem h m)).direct =
          (builder_geometry size_kib inode_count).data_region_start :: List.replicate 11 0 ∧
        (inode_to_host (inode_of_mem h m)).proj_id = 9) ∧
      pread img ((builder_geometry size_kib inode_count).inode_table_start * BS + INODE_SIZE)
          ((builder_geometry size_kib inode_count).inode_table_blocks * BS - INODE_SIZE) =
        some (List.replicate
          ((builder_geometry size_kib inode_count).inode_table_blocks * BS - INODE_SIZE) 0) ∧
      (∃ d c0 c1, pread img ((builder_geometry size_kib inode_count).data_region_start * BS) BS =
            some d ∧
        dirent_to_host (dirent_of_mem h d) =
          { ino := 1, type := 2, name := 46 :: List.replicate 57 0, checksum := c0 } ∧
        dirent_to_host (dirent_of_mem h (d.drop 64)) =
          { ino := 1, type := 2, name := 46 :: 46 :: List.replicate 56 0, checksum := c1 } ∧
        d.drop 128 = List.replicate (BS - 128) 0) ∧
      pread img (((builder_geometry size_kib inode_count).data_region_start + 1) * BS)
          (((builder_geometry size_kib inode_count).data_region_blocks - 1) * BS) =
        some (List.replicate
          (((builder_geometry size_kib inode_count).data_region_blocks - 1) * BS) 0) := by
  have hv : builder_valid size_kib inode_count = true :=
    (builder_valid_iff size_kib inode_count).2 ⟨h1, h2, h3, h4, h5⟩
  obtain ⟨k0, k1, k2, k3, k4, k5, k6, _⟩ := builder_image_reads h after now size_kib inode_count hv
  obtain ⟨g1, g2, g3, g4, g5, g6, g7, g8, g9, g10, g11⟩ :=
    builder_geometry_bounds size_kib inode_count hv
  have hsbwf := builder_superblock_wf h after now size_kib inode_count
  have hrlen := length_inode_mem h _ (builder_root_direct_length h
    (builder_superblock h after now size_kib inode_count)
    (builder_geometry size_kib inode_count).data_region_start)
  refine ⟨builder_image h after now size_kib inode_count, by simp [mkfs_builder, hv], ?_, ?_,
    is_bit_set_first_bit_block, ?_, ?_, ?_, k6⟩
  · rw [g1, Nat.one_mul]; exact k1
  · rw [g3]; exact k2
  · refine ⟨inode_mem h (builder_root_inode h (builder_superblock h after now size_kib inode_count)
      (builder_geometry size_kib inode_count).data_region_start), ?_, ?_⟩
    · have := pread_sub _ (3 * BS) BS _ 0 128 k3 (by simp only [BS]; omega)
      rw [List.drop_zero, List.take_left' hrlen] at this
      rw [g5]
      exact this
    · have hdec := builder_root_inode_decode h
        (builder_superblock h after now size_kib inode_count)
        (builder_geometry size_kib inode_count).data_region_start
        hsbwf.2.2.2.2.2.2.2.2.2.2.2.2.2.2.1 (by omega)
      have hof := inode_of_mem_mem h _ (builder_root_inode_wf h
        (builder_superblock h after now size_kib inode_count)
        (builder_geometry size_kib inode_count).data_region_start) []
      rw [List.append_nil] at hof
      rw [hof, hdec]
      exact ⟨rfl, rfl, rfl, rfl, rfl⟩
  · have hrest := pread_sub _ (3 * BS) BS _ 128 (BS - 128) k3 (by simp only [BS]; omega)
    rw [List.drop_left' hrlen, List.take_of_length_le (by simp)] at hrest
    have e4 : 3 * BS + 128 + (BS - 128) = 4 * BS := by simp only [BS]
    have hj := pread_join _ (3 * BS + 128) (BS - 128)
      (((builder_geometry size_kib inode_count).inode_table_blocks - 1) * BS) _ _ hrest
      (by rw [e4]; exact k4)
    rw [← List.replicate_add] at hj
    have e5 : BS - 128 + ((builder_geometry size_kib inode_count).inode_table_blocks - 1) * BS =
        (builder_geometry size_kib inode_count).inode_table_blocks * BS - INODE_SIZE := by
      simp only [BS, INODE_SIZE]; omega
    rw [e5] at hj
    rw [g5]
    exact hj
  · refine ⟨_, (builder_dirent h [46]).checksum, (builder_dirent h [46, 46]).checksum, k5, ?_,
      ?_, ?_⟩
    · rw [List.append_assoc, builder_dirent_decode h [46] (by decide) (by decide)]
      rfl
    · rw [List.append_assoc,
        List.drop_left' (length_dirent_mem h _ (builder_dirent_name_length _ _ (by decide))),
        builder_dirent_decode h [46, 46] (by decide) (by decide)]
      rfl
    · rw [List.drop_left']
      rw [List.length_append, length_dirent_mem h _ (builder_dirent_name_length _ _ (by decide)),
        length_dirent_mem h _ (builder_dirent_name_length _ _ (by decide))]

/-- Witness for C5: the smallest valid image, formatted on a little-endian host. -/
theorem builder_image_content_witness :
    ∃ img, mkfs_builder Endian.little [] 0 180 128 = some img ∧
      pread img ((builder_geometry 180 128).inode_bitmap_start * BS) BS = some first_bit_block ∧
      pread img ((builder_geometry 180 128).data_bitmap_start * BS) BS = some first_bit_block := by
  obtain ⟨img, h1, h2, h3, _⟩ := builder_image_content Endian.little [] 0 180 128
    (by decide) (by decide) (by decide) (by decide) (by decide)
  exact ⟨img, h1, h2, h3⟩

/-! ## The loops of the inserter -/

theorem copy_loop_eq (fuel : Nat) :
    ∀ input out : List Nat, input.length < fuel → copy_loop fuel input out = out ++ input := by
  induction fuel with
  | zero => intro input out hf; omega
  | succ fuel ih =>
    intro input out hf
    simp only [copy_loop]
    by_cases he : (input.take BS).length > 0
    · rw [if_pos he, ih _ _ (by
        rw [List.length_take] at he
        rw [List.length_drop]
        simp only [BS] at he ⊢
        omega), List.append_assoc, List.take_append_drop]
    · rw [if_neg he]
      have : input = [] := by
        rw [List.length_take] at he
        simp only [BS] at he
        have : input.length = 0 := by omega
        exact List.length_eq_zero.1 this
      rw [this, List.append_nil]

theorem copy_image_eq (input_img : List Nat) : copy_image input_img = input_img := by
  unfold copy_image
  rw [copy_loop_eq _ _ _ (Nat.lt_succ_self _), List.nil_append]

theorem getD_set (l : List Nat) (i k v : Nat) :
    (l.set i v).getD k 0 = if k = i ∧ i < l.length then v else l.getD k 0 := by
  rw [List.getD_eq_getElem?_getD, List.getElem?_set, List.getD_eq_getElem?_getD]
  by_cases hk : i = k
  · subst hk
    by_cases hl : i < l.length
    · simp [hl]
    · have : l[i]? = none := List.getElem?_eq_none (by omega)
      simp [hl, this]
  · rw [if_neg hk, if_neg (fun e => hk e.1.symm)]

theorem alloc_data_blocks_spec (D : Nat) :
    ∀ n i bm blocks bm2 blocks2, bm.length = BS → (∀ b ∈ bm, b < 256) →
      alloc_data_blocks D n i bm blocks = some (bm2, blocks2) →
      bm2.length = BS ∧ (∀ b ∈ bm2, b < 256) ∧
      (∀ k, is_bit_set bm k = true → is_bit_set bm2 k = true) ∧
      blocks2.length = blocks.length ∧
      (∀ k, k < i ∨ i + n ≤ k → blocks2.getD k 0 = blocks.getD k 0) ∧
      ∃ f : Nat → Nat,
        (∀ k, i ≤ k → k < i + n → f k < 8 * BS ∧ is_bit_set bm (f k) = false ∧
          is_bit_set bm2 (f k) = true ∧
          (k < blocks.length → blocks2.getD k 0 = (D + f k) % 2 ^ 64 % 2 ^ 32)) ∧
        (∀ k k2, i ≤ k → k < k2 → k2 < i + n → f k < f k2) := by
  intro n
  induction n with
  | zero =>
    intro i bm blocks bm2 blocks2 hlen hb hal
    simp only [alloc_data_blocks, Option.some.injEq, Prod.mk.injEq] at hal
    obtain ⟨rfl, rfl⟩ := hal
    refine ⟨hlen, hb, fun k hk => hk, rfl, fun k _ => rfl, fun _ => 0, ?_, ?_⟩
    · intro k h1 h2; omega
    · intro k k2 h1 h2 h3; omega
  | succ n ih =>
    intro i bm blocks bm2 blocks2 hlen hb hal
    simp only [alloc_data_blocks] at hal
    rcases find_free_bit_lowest bm BS (by omega) hb with ⟨h1, _⟩ | ⟨r, hr1, hr2, hr3, hr4⟩
    · rw [if_pos h1] at hal
      exact absurd hal (by simp)
    · have hne : ¬ (find_free_bit bm BS = -1) := by rw [hr2]; omega
      rw [if_neg hne, hr2, Int.toNat_ofNat] at hal
      have hr8 : r / 8 < bm.length := by rw [hlen]; omega
      obtain ⟨a1, a2, a3, a4, a5, f, a6, a7⟩ := ih (i + 1) (set_bit bm r)
        (blocks.set i ((D + r) % 2 ^ 64 % 2 ^ 32)) bm2 blocks2
        (by rw [length_set_bit]; exact hlen) (set_bit_lt bm r hb) hal
      have hmono : ∀ k, is_bit_set bm k = true → is_bit_set (set_bit bm r) k = true := by
        intro k hk
        rw [is_bit_set_set_bit bm r k hr8, hk]
        simp
      have hrset : is_bit_set (set_bit bm r) r = true := by
        rw [is_bit_set_set_bit bm r r hr8]
        simp
      refine ⟨a1, a2, fun k hk => a3 k (hmono k hk), ?_, ?_, fun k => if k = i then r else f k,
        ?_, ?_⟩
      · rw [a4, List.length_set]
      · intro k hk
        rw [a5 k (by omega), getD_set, if_neg (by omega)]
      · intro k hk1 hk2
        beta_reduce
        by_cases hki : k = i
        · subst hki
          rw [if_pos rfl]
          refine ⟨hr1, hr3, a3 r hrset, ?_⟩
          intro hkl
          rw [a5 k (by omega), getD_set, if_pos ⟨rfl, hkl⟩]
        · rw [if_neg hki]
          obtain ⟨b1, b2, b3, b4⟩ := a6 k (by omega) (by omega)
          refine ⟨b1, ?_, b3, ?_⟩
          · rw [is_bit_set_set_bit bm r _ hr8] at b2
            cases hbs : is_bit_set bm (f k) with
            | false => rfl
            | true => rw [hbs] at b2; simp at b2
          · intro hkl
            exact b4 (by rw [List.length_set]; exact hkl)
      · intro k k2 hk1 hk2 hk3
        beta_reduce
        have hk2i : ¬ (k2 = i) := by omega
        rw [if_neg hk2i]
        by_cases hki : k = i
        · rw [if_pos hki]
          obtain ⟨_, b2, _, _⟩ := a6 k2 (by omega) (by omega)
          by_contra hle
          have hle2 : f k2 ≤ r := by omega
          have hset : is_bit_set (set_bit bm r) (f k2) = true := by
            by_cases heq : f k2 = r
            · rw [heq]; exact hrset
            · exact hmono _ (hr4 _ (by omega))
          rw [hset] at b2
          exact absurd b2 (by simp)
        · rw [if_neg hki]
          exact a7 k k2 (by omega) hk2 (by omega)

theorem mem_store_eq_pwrite (buf : List Nat) (off : Nat) (src : List Nat)
    (ho : off ≤ buf.length) : mem_store buf off src = pwrite buf off src := by
  unfold mem_store pwrite
  have : off - buf.length = 0 := by omega
  rw [this, List.replicate_zero, List.append_nil]

theorem length_mem_store (buf : List Nat) (off : Nat) (src : List Nat)
    (ho : off + src.length ≤ buf.length) : (mem_store buf off src).length = buf.length := by
  rw [mem_store_eq_pwrite buf off src (by omega), length_pwrite]
  omega

theorem pread_dir_ino_bytes (d : List Nat) (i : Nat) (hd : d.length = BS) (hi : i < 64) :
    pread d (64 * i) 4 = some (dir_ino_bytes d i) := by
  rw [pread_eq_some]
  refine ⟨by rw [hd]; simp only [BS]; omega, rfl⟩

theorem dir_ino_bytes_of_pread (d : List Nat) (i : Nat) (v : List Nat)
    (hp : pread d (64 * i) 4 = some v) : dir_ino_bytes d i = v := by
  obtain ⟨_, h2⟩ := (pread_eq_some d (64 * i) 4 v).1 hp
  rw [h2]
  rfl

theorem dir_ino_bytes_store_same (d : List Nat) (i : Nat) (src : List Nat) (hd : d.length = BS)
    (hi : i < 64) (hs : 4 ≤ src.length) (hs2 : src.length ≤ 64) :
    dir_ino_bytes (mem_store d (64 * i) src) i = src.take 4 := by
  apply dir_ino_bytes_of_pread
  rw [mem_store_eq_pwrite _ _ _ (by rw [hd]; simp only [BS]; omega)]
  have := pread_sub _ (64 * i) src.length src 0 4 (pread_pwrite_same d (64 * i) src) (by omega)
  rw [Nat.add_zero, List.drop_zero] at this
  exact this

theorem dir_ino_bytes_store_other (d : List Nat) (i i2 : Nat) (src : List Nat)
    (hd : d.length = BS) (hi : i < 64) (hi2 : i2 < 64) (hne : i2 ≠ i) (hs : src.length ≤ 64) :
    dir_ino_bytes (mem_store d (64 * i) src) i2 = dir_ino_bytes d i2 := by
  apply dir_ino_bytes_of_pread
  rw [mem_store_eq_pwrite _ _ _ (by rw [hd]; simp only [BS]; omega),
    pread_pwrite_disjoint _ _ _ _ _ (by omega) (by rw [hd]; simp only [BS]; omega)]
  exact pread_dir_ino_bytes d i2 hd hi2

theorem field_at_dir (h : Endian) (d : List Nat) (i : Nat) :
    field_at h d (64 * i) 4 = host_val h (dir_ino_bytes d i) := rfl

theorem from_le32_eq_zero (v : Nat) (hv : v < 2 ^ 32) : from_le32 v = 0 ↔ v = 0 := by
  unfold from_le32
  constructor
  · intro hz
    by_contra hne
    exact to_le32_ne_zero v hv hne hz
  · intro hz
    rw [hz]
    decide

theorem dirent_to_host_at_spec (h : Endian) (j : Nat) (d : List Nat) (i : Nat)
    (hd : d.length = BS) (hP : dir_inv h j d) (hi : i < 64) :
    (dirent_to_host_at h d i).length = BS ∧ dir_inv h j (dirent_to_host_at h d i) ∧
    (field_at h (dirent_to_host_at h d i) (64 * i) 4 = 0 ↔ j + 1 < i) := by
  obtain ⟨v, hv, hbytes, hiff⟩ := hP i hi
  have hfield : field_at h d (64 * i) 4 = v := by
    rw [field_at_dir, hbytes]
    exact host_val_host_bytes_of_lt h 4 v (by simpa using hv)
  have hstore : dirent_to_host_at h d i = mem_store d (64 * i) (host_bytes h 4 (from_le32 v)) := by
    unfold dirent_to_host_at
    rw [hfield]
  have hlenb : (host_bytes h 4 (from_le32 v)).length = 4 := length_host_bytes _ _ _
  have hself : dir_ino_bytes (dirent_to_host_at h d i) i = host_bytes h 4 (from_le32 v) := by
    rw [hstore, dir_ino_bytes_store_same d i _ hd hi (by omega) (by omega),
      List.take_of_length_le (by omega)]
  have hlt : from_le32 v < 2 ^ 32 := to_le32_lt v
  refine ⟨?_, ?_, ?_⟩
  · rw [hstore, length_mem_store _ _ _ (by rw [hd, hlenb]; simp only [BS]; omega), hd]
  · intro i2 hi2
    by_cases he : i2 = i
    · subst he
      refine ⟨from_le32 v, hlt, hself, ?_⟩
      rw [← hiff, Ne, Ne, from_le32_eq_zero v hv]
    · obtain ⟨v2, hv2, hb2, hiff2⟩ := hP i2 hi2
      refine ⟨v2, hv2, ?_, hiff2⟩
      rw [hstore, dir_ino_bytes_store_other d i i2 _ hd hi hi2 he (by omega)]
      exact hb2
  · rw [field_at_dir, hself, host_val_host_bytes_of_lt h 4 _ (by simpa using hlt),
      from_le32_eq_zero v hv]
    constructor
    · intro hz
      by_contra hle
      exact (hiff.2 (by omega)) hz
    · intro hlt2
      by_contra hne
      have := hiff.1 hne
      omega

theorem scan_root_dir_spec (h : Endian) (file_name : List Nat) (j : Nat) :
    ∀ n i blk (fe : Int), blk.length = BS → dir_inv h j blk → i + n = 64 →
      fe = (if i ≤ j + 2 then -1 else ((j + 2 : Nat) : Int)) →
      (scan_root_dir h file_name n i blk fe).1.length = BS ∧
      dir_inv h j (scan_root_dir h file_name n i blk fe).1 ∧
      ((scan_root_dir h file_name n i blk fe).2.2 = false →
        (scan_root_dir h file_name n i blk fe).2.1 =
          if 64 ≤ j + 2 then -1 else ((j + 2 : Nat) : Int)) := by
  intro n
  induction n with
  | zero =>
    intro i blk fe hlen hP hin hfe
    simp only [scan_root_dir]
    refine ⟨hlen, hP, fun _ => ?_⟩
    have : i = 64 := by omega
    rw [hfe, this]
  | succ n ih =>
    intro i blk fe hlen hP hin hfe
    obtain ⟨s1, s2, s3⟩ := dirent_to_host_at_spec h j blk i hlen hP (by omega)
    simp only [scan_root_dir]
    split
    · exact ⟨s1, s2, fun hf => absurd hf (by simp)⟩
    · apply ih (i + 1) _ _ s1 s2 (by omega)
      by_cases hz : field_at h (dirent_to_host_at h blk i) (64 * i) 4 = 0
      · have hji := s3.1 hz
        by_cases hfe1 : fe = -1
        · rw [if_pos ⟨hz, hfe1⟩]
          rw [hfe] at hfe1
          have : i ≤ j + 2 := by
            by_contra hc
            rw [if_neg hc] at hfe1
            omega
          have e : i = j + 2 := by omega
          rw [if_neg (by omega), e]
        · rw [if_neg (fun hc => hfe1 hc.2), hfe]
          have : ¬ (i ≤ j + 2) := by
            intro hc
            apply hfe1
            rw [hfe, if_pos hc]
          rw [if_neg this, if_neg (by omega)]
      · rw [if_neg (fun hc => hz hc.1), hfe]
        have hji : ¬ (j + 1 < i) := fun hc => hz (s3.2 hc)
        rw [if_pos (by omega), if_pos (by omega)]

theorem length_file_block (file : List Nat) (k : Nat) : (file_block file k).length = BS := by
  unfold file_block
  rw [List.length_append, List.length_replicate]
  have : ((file.drop (k * BS)).take BS).length ≤ BS := by
    rw [List.length_take]; omega
  omega

theorem file_block_drop (file : List Nat) (k : Nat) :
    file_block (file.drop BS) k = file_block file (k + 1) := by
  unfold file_block
  rw [List.drop_drop]
  have : BS + k * BS = (k + 1) * BS := by ring
  rw [this]

theorem pread_pwrite_keep (img : List Nat) (off : Nat) (data : List Nat) (o n : Nat)
    (v : List Nat) (hp : pread img o n = some v)
    (hd : o + n ≤ off ∨ off + data.length ≤ o) :
    pread (pwrite img off data) o n = some v := by
  rw [pread_pwrite_disjoint img off data o n hd ((pread_eq_some img o n v).1 hp).1]
  exact hp

theorem write_file_data_spec (blocks : List Nat) :
    ∀ n i rest img,
      img.length ≤ (write_file_data blocks n i rest img).length ∧
      (∀ o len v, pread img o len = some v →
        (∀ k, i ≤ k → k < i + n →
          o + len ≤ data_block_offset blocks k ∨ data_block_offset blocks k + BS ≤ o) →
        pread (write_file_data blocks n i rest img) o len = some v) ∧
      (∀ k, i ≤ k → k < i + n →
        (∀ k2, k < k2 → k2 < i + n →
          data_block_offset blocks k + BS ≤ data_block_offset blocks k2 ∨
            data_block_offset blocks k2 + BS ≤ data_block_offset blocks k) →
        pread (write_file_data blocks n i rest img) (data_block_offset blocks k) BS =
          some (file_block rest (k - i))) := by
  intro n
  induction n with
  | zero =>
    intro i rest img
    simp only [write_file_data]
    refine ⟨Nat.le_refl _, fun o len v hp _ => hp, ?_⟩
    intro k h1 h2
    omega
  | succ n ih =>
    intro i rest img
    simp only [write_file_data]
    have hbuf : rest.take BS ++ List.replicate (BS - (rest.take BS).length) 0 =
        file_block rest 0 := by
      unfold file_block
      rw [Nat.zero_mul, List.drop_zero]
    rw [hbuf]
    have hoff : (blocks.getD i 0 * BS) % 2 ^ 32 = data_block_offset blocks i := rfl
    rw [hoff]
    obtain ⟨a1, a2, a3⟩ := ih (i + 1) (rest.drop BS)
      (pwrite img (data_block_offset blocks i) (file_block rest 0))
    refine ⟨Nat.le_trans (length_le_pwrite _ _ _) a1, ?_, ?_⟩
    · intro o len v hp hdis
      apply a2 o len v
      · apply pread_pwrite_keep _ _ _ _ _ _ hp
        rw [length_file_block]
        exact hdis i (Nat.le_refl _) (by omega)
      · intro k hk1 hk2
        exact hdis k (by omega) (by omega)
    · intro k hk1 hk2 hdis
      by_cases hki : k = i
      · subst hki
        rw [Nat.sub_self]
        apply a2
        · have := pread_pwrite_same img (data_block_offset blocks k) (file_block rest 0)
          rw [length_file_block] at this
          exact this
        · intro k2 hk21 hk22
          exact hdis k2 (by omega) (by omega)
      · have := a3 k (by omega) (by omega) (fun k2 h1 h2 => hdis k2 h1 (by omega))
        rw [this, file_block_drop]
        have : k - (i + 1) + 1 = k - i := by omega
        rw [this]

theorem flatMap_file_block (file : List Nat) (m : Nat) :
    (List.range m).flatMap (file_block file) =
      file.take (m * BS) ++ List.replicate (m * BS - file.length) 0 := by
  induction m with
  | zero => simp
  | succ m ih =>
    rw [List.range_succ, List.flatMap_append, ih]
    simp only [List.flatMap_cons, List.flatMap_nil, List.append_nil]
    unfold file_block
    have hBS : BS = 4096 := rfl
    by_cases hle : m * BS ≤ file.length
    · have z : m * BS - file.length = 0 := by omega
      rw [z, List.replicate_zero, List.append_nil, ← List.append_assoc]
      have e1 : (m + 1) * BS = m * BS + BS := by ring
      rw [e1, List.take_add]
      congr 1
      rw [List.length_take, List.length_drop]
      congr 1
      omega
    · have hge : file.length ≤ m * BS := by omega
      have hd : file.drop (m * BS) = [] := List.drop_of_length_le hge
      rw [hd, List.take_nil, List.nil_append, List.length_nil, Nat.sub_zero,
        List.take_of_length_le hge, List.take_of_length_le (by
          have : (m + 1) * BS = m * BS + BS := by ring
          omega), List.append_assoc, ← List.replicate_add]
      congr 2
      have : (m + 1) * BS = m * BS + BS := by ring
      omega

theorem flatMap_file_block_take (file : List Nat) (m : Nat) (hm : file.length ≤ m * BS) :
    ((List.range m).flatMap (file_block file)).take file.length = file := by
  rw [flatMap_file_block, List.take_of_length_le hm, List.take_left' rfl]

/-! ## The inserter, step by step -/

/-- What a successful read phase tells about its plan. -/
theorem adder_read_phase_ok (h : Endian) (img file_name : List Nat) (file : Option (List Nat))
    (p : adder_plan) (hok : adder_read_phase h img file_name file = Except.ok p) :
    ∃ sb_mem data_bitmap0 root_mem root_dir_block0 free_entry,
      pread img 0 116 = some sb_mem ∧
      p.sb = superblock_to_host (superblock_of_mem h sb_mem) ∧
      p.sb.magic = 0x4D565346 ∧
      pread img ((p.sb.inode_bitmap_start * BS) % 2 ^ 64) BS = some p.inode_bitmap ∧
      pread img ((p.sb.data_bitmap_start * BS) % 2 ^ 64) BS = some data_bitmap0 ∧
      find_free_bit p.inode_bitmap BS ≠ -1 ∧
      p.free_inode = (find_free_bit p.inode_bitmap BS).toNat ∧
      file = some p.file ∧
      p.file_size = p.file.length % 2 ^ 64 ∧
      p.blocks_needed = ((p.file_size + BS - 1) % 2 ^ 64) / BS ∧
      p.blocks_needed ≤ DIRECT_MAX ∧
      alloc_data_blocks p.sb.data_region_start p.blocks_needed 0 data_bitmap0
        (List.replicate DIRECT_MAX 0) = some (p.data_bitmap, p.data_blocks) ∧
      pread img ((p.sb.inode_table_start * BS) % 2 ^ 64) 128 = some root_mem ∧
      p.root_inode = inode_to_host (inode_of_mem h root_mem) ∧
      pread img ((p.root_inode.direct.getD 0 0 * BS) % 2 ^ 32) BS = some root_dir_block0 ∧
      scan_root_dir h file_name (BS / 64) 0 root_dir_block0 (-1) =
        (p.root_dir_block, free_entry, false) ∧
      free_entry ≠ -1 ∧
      p.free_entry = free_entry.toNat := by
  unfold adder_read_phase at hok
  cases h1 : pread img 0 116 with
  | none => rw [h1] at hok; exact absurd hok (by simp)
  | some sb_mem =>
    rw [h1] at hok
    simp only [] at hok
    by_cases hm : (superblock_to_host (superblock_of_mem h sb_mem)).magic ≠ 0x4D565346
    · rw [if_pos hm] at hok; exact absurd hok (by simp)
    · rw [if_neg hm] at hok
      cases h2 : pread img (((superblock_to_host (superblock_of_mem h sb_mem)).inode_bitmap_start
          * BS) % 2 ^ 64) BS with
      | none => rw [h2] at hok; exact absurd hok (by simp)
      | some inode_bitmap =>
        rw [h2] at hok
        simp only [] at hok
        cases h3 : pread img (((superblock_to_host (superblock_of_mem h sb_mem)).data_bitmap_start
            * BS) % 2 ^ 64) BS with
        | none => rw [h3] at hok; exact absurd hok (by simp)
        | some data_bitmap0 =>
          rw [h3] at hok
          simp only [] at hok
          by_cases hfi : find_free_bit inode_bitmap BS = -1
          · rw [if_pos hfi] at hok; exact absurd hok (by simp)
          · rw [if_neg hfi] at hok
            cases file with
            | none => exact absurd hok (by simp)
            | some content =>
              simp only [] at hok
              by_cases hbn : ((content.length % 2 ^ 64 + BS - 1) % 2 ^ 64) / BS > DIRECT_MAX
              · rw [if_pos hbn] at hok; exact absurd hok (by simp)
              · rw [if_neg hbn] at hok
                cases h4 : alloc_data_blocks
                    (superblock_to_host (superblock_of_mem h sb_mem)).data_region_start
                    (((content.length % 2 ^ 64 + BS - 1) % 2 ^ 64) / BS) 0 data_bitmap0
                    (List.replicate DIRECT_MAX 0) with
                | none => rw [h4] at hok; exact absurd hok (by simp)
                | some pr =>
                  obtain ⟨data_bitmap, data_blocks⟩ := pr
                  rw [h4] at hok
                  simp only [] at hok
                  cases h5 : pread img
                      (((superblock_to_host (superblock_of_mem h sb_mem)).inode_table_start * BS)
                        % 2 ^ 64) 128 with
                  | none => rw [h5] at hok; exact absurd hok (by simp)
                  | some root_mem =>
                    rw [h5] at hok
                    simp only [] at hok
                    cases h6 : pread img
                        (((inode_to_host (inode_of_mem h root_mem)).direct.getD 0 0 * BS)
                          % 2 ^ 32) BS with
                    | none => rw [h6] at hok; exact absurd hok (by simp)
                    | some root_dir_block0 =>
                      rw [h6] at hok
                      simp only [] at hok
                      cases h7 : scan_root_dir h file_name (BS / 64) 0 root_dir_block0 (-1) with
                      | mk blk rest =>
                        obtain ⟨fe, ex⟩ := rest
                        rw [h7] at hok
                        simp only [] at hok
                        cases ex with
                        | true => exact absurd hok (by simp)
                        | false =>
                          simp only [Bool.false_eq_true, if_false] at hok
                          by_cases hfe : fe = -1
                          · rw [if_pos hfe] at hok; exact absurd hok (by simp)
                          · rw [if_neg hfe] at hok
                            have hp := (Except.ok.inj hok).symm
                            subst hp
                            exact ⟨sb_mem, data_bitmap0, root_mem, root_dir_block0, fe, rfl, rfl,
                              by simpa using hm, h2, h3, hfi, rfl, rfl, rfl, rfl,
                              by simpa using hbn, h4, h5, rfl, h6, h7, hfe, rfl⟩

theorem host_superblock_fields (size_kib inode_count t c : Nat) :
    (host_superblock size_kib inode_count t c).magic = 0x4D565346 ∧
    (host_superblock size_kib inode_count t c).inode_bitmap_start = 1 ∧
    (host_superblock size_kib inode_count t c).data_bitmap_start = 2 ∧
    (host_superblock size_kib inode_count t c).inode_table_start = 3 ∧
    (host_superblock size_kib inode_count t c).data_region_start =
      (builder_geometry size_kib inode_count).data_region_start :=
  ⟨rfl, rfl, rfl, rfl, rfl⟩

theorem free_inode_of_inv (bm : List Nat) (j : Nat) (hlen : bm.length = BS)
    (hb : ∀ b ∈ bm, b < 256) (hj : j ≤ 62)
    (hbits : ∀ k, k < 8 * BS → is_bit_set bm k = decide (k ≤ j)) :
    find_free_bit bm BS = ((j + 1 : Nat) : Int) := by
  have hBS : BS = 4096 := rfl
  rcases find_free_bit_lowest bm BS (by omega) hb with ⟨_, h2⟩ | ⟨r, hr1, hr2, hr3, hr4⟩
  · have h3 := h2 (j + 1) (by omega)
    rw [hbits (j + 1) (by omega)] at h3
    have : ¬ (j + 1 ≤ j) := by omega
    simp [this] at h3
  · rw [hbits r hr1] at hr3
    have h5 : ¬ (r ≤ j) := by simpa using hr3
    have h6 : r ≤ j + 1 := by
      by_contra hc
      have h7 := hr4 (j + 1) (by omega)
      rw [hbits (j + 1) (by omega)] at h7
      have : ¬ (j + 1 ≤ j) := by omega
      simp [this] at h7
    have : r = j + 1 := by omega
    rw [hr2, this]

theorem superblock_of_mem_self (h : Endian) (sb : superblock_t) (hwf : sb.wf) :
    superblock_of_mem h (superblock_mem h sb) = sb := by
  have := superblock_of_mem_mem h sb hwf []
  rw [List.append_nil] at this
  exact this

theorem inode_of_mem_self (h : Endian) (ino : inode_t) (hwf : ino.wf) :
    inode_of_mem h (inode_mem h ino) = ino := by
  have := inode_of_mem_mem h ino hwf []
  rw [List.append_nil] at this
  exact this

theorem plan_facts_of_inv (h : Endian) (size_kib inode_count j : Nat)
    (img file_name : List Nat) (file : Option (List Nat)) (p : adder_plan)
    (hinv : image_inv h size_kib inode_count j img)
    (hok : adder_read_phase h img file_name file = Except.ok p) :
    plan_facts h size_kib inode_count j img p ∧ file = some p.file := by
  have hBS : BS = 4096 := rfl
  obtain ⟨sb_mem, dbm0, root_mem, dir0, fe, r1, r2, r3, r4, r5, r6, r7, r8, r9, r10, r11, r12, r13,
    r14, r15, r16, r17, r18⟩ := adder_read_phase_ok h img file_name file p hok
  obtain ⟨hv, hj, ⟨sbd, t, c, i1, i2, i3⟩, ⟨ibm, i4, i5, i6⟩, ⟨dbm, i7, i8, i9⟩,
    ⟨rd, i10, i11, i12⟩, ⟨d, i13, i14⟩⟩ := hinv
  obtain ⟨g1, g2, g3, g4, g5, g6, g7, g8, g9, g10, g11⟩ :=
    builder_geometry_bounds size_kib inode_count hv
  -- superblock
  rw [i2] at r1
  have e1 : sb_mem = superblock_mem h sbd := (Option.some.inj r1).symm
  have hsb : p.sb = host_superblock size_kib inode_count t c := by
    rw [r2, e1, superblock_of_mem_self h sbd i1, i3]
  obtain ⟨_, f2, f3, f4, f5⟩ := host_superblock_fields size_kib inode_count t c
  -- inode bitmap
  have o1 : (p.sb.inode_bitmap_start * BS) % 2 ^ 64 = BS := by rw [hsb, f2, hBS]; norm_num
  rw [o1, i4] at r4
  have e2 : p.inode_bitmap = ibm := (Option.some.inj r4).symm
  have hfree := free_inode_of_inv ibm j (length_pread _ _ _ _ i4) i5 hj i6
  rw [← e2] at hfree
  -- data bitmap
  have o2 : (p.sb.data_bitmap_start * BS) % 2 ^ 64 = 2 * BS := by rw [hsb, f3, hBS]; norm_num
  rw [o2, i7] at r5
  have e3 : dbm0 = dbm := (Option.some.inj r5).symm
  rw [e3, hsb, f5] at r12
  obtain ⟨a1, a2, a3, a4, a5, f, a6, a7⟩ := alloc_data_blocks_spec _ _ _ _ _ _ _
    (length_pread _ _ _ _ i7) i8 r12
  -- root inode
  have o3 : (p.sb.inode_table_start * BS) % 2 ^ 64 = 3 * BS := by rw [hsb, f4, hBS]; norm_num
  rw [o3, i11] at r13
  have e4 : root_mem = inode_mem h rd := (Option.some.inj r13).symm
  have hroot : p.root_inode = inode_to_host rd := by
    rw [r14, e4, inode_of_mem_self h rd i10]
  have hdirect : p.root_inode.direct.getD 0 0 =
      (builder_geometry size_kib inode_count).data_region_start := by rw [hroot, i12]
  -- root directory
  have o4 : (p.root_inode.direct.getD 0 0 * BS) % 2 ^ 32 =
      (builder_geometry size_kib inode_count).data_region_start * BS := by
    rw [hdirect, hBS]; omega
  rw [o4, i13] at r15
  have e5 : dir0 = d := (Option.some.inj r15).symm
  have h64 : BS / 64 = 64 := by rw [hBS]
  rw [e5, h64] at r16
  obtain ⟨s1, s2, s3⟩ := scan_root_dir_spec h file_name j 64 0 d (-1) (length_pread _ _ _ _ i13)
    i14 (by omega) (by rw [if_pos (by omega)])
  rw [r16] at s1 s2 s3
  have s4 := s3 rfl
  simp only at s1 s2 s4
  have hj61 : j ≤ 61 := by
    by_contra hc
    rw [if_pos (by omega)] at s4
    exact r17 s4
  rw [if_neg (by omega)] at s4
  have hlen12 : p.data_blocks.length = 12 := by
    rw [a4, List.length_replicate]; rfl
  refine ⟨⟨hj61, ⟨t, c, hsb⟩, by rw [r2]; exact superblock_to_host_wf _, by rw [e2]; exact i4, by rw [e2]; exact i5, by rw [e2]; exact i6,
    ?_, ?_, ⟨rd, i10, i11, hroot⟩, hdirect, s1, s2, a1, a2, a3 0 i9, hlen12, ?_, ?_,
    by simpa [DIRECT_MAX] using r11, r9, r10⟩, r8⟩
  · rw [r7, hfree, Int.toNat_ofNat]
  · rw [r18, s4, Int.toNat_ofNat]
  · refine ⟨f, ?_, fun k k2 hk1 hk2 => a7 k k2 (Nat.zero_le _) hk1 (by omega)⟩
    intro k hk
    obtain ⟨b1, b2, b3, b4⟩ := a6 k (Nat.zero_le _) (by omega)
    have hk12 : k < 12 := by
      have : p.blocks_needed ≤ 12 := by simpa [DIRECT_MAX] using r11
      omega
    refine ⟨?_, b1, ?_⟩
    · by_contra hc
      have : f k = 0 := by omega
      rw [this, i9] at b2
      exact absurd b2 (by simp)
    · rw [b4 (by rw [List.length_replicate]; exact hk12)]
      omega
  · intro k hk
    rw [a5 k (Or.inr (by omega)), List.getD_eq_getElem?_getD, List.getElem?_replicate]
    split <;> rfl

theorem adder_new_inode_direct_length (h : Endian) (clock : Nat → Nat) (p : adder_plan)
    (hl : p.data_blocks.length = 12) : (adder_new_inode h clock p).direct.length = 12 := by
  simp [adder_new_inode, inode_crc_finalize, inode_to_disk, hl]

theorem adder_root_inode_direct_length (h : Endian) (clock : Nat → Nat) (p : adder_plan)
    (hl : p.root_inode.direct.length = 12) : (adder_root_inode h clock p).direct.length = 12 := by
  simp [adder_root_inode, inode_crc_finalize, inode_to_disk, hl]

theorem adder_new_entry_name_length (h : Endian) (file_name : List Nat) (p : adder_plan) :
    (adder_new_entry h file_name p).name.length = 58 := by
  simp only [adder_new_entry, dirent_checksum_finalize, dirent_to_disk, strncpy_into,
    List.length_set, List.length_append, List.length_take, List.length_replicate]
  omega

theorem plan_root_direct_length (h : Endian) (size_kib inode_count j : Nat) (img : List Nat)
    (p : adder_plan) (hp : plan_facts h size_kib inode_count j img p) :
    p.root_inode.direct.length = 12 := by
  obtain ⟨rd, hwf, _, hr⟩ := hp.root
  rw [hr]
  exact (inode_to_host_wf rd hwf.2.2.2.2.2.2.2.2.1).2.2.2.2.2.2.2.2.1

/-- The write phase with its offsets evaluated. -/
theorem adder_write_phase_eq (h : Endian) (after : List Nat) (clock : Nat → Nat)
    (size_kib inode_count j : Nat) (img file_name : List Nat) (p : adder_plan)
    (hv : builder_valid size_kib inode_count = true)
    (hp : plan_facts h size_kib inode_count j img p) :
    adder_write_phase h after clock file_name p img =
      pwrite (pwrite (pwrite (pwrite
        (write_file_data p.data_blocks p.blocks_needed 0 p.file
          (pwrite (pwrite img (3 * BS + (j + 1) * 128) (inode_mem h (adder_new_inode h clock p)))
            BS (set_bit p.inode_bitmap (j + 1))))
        (2 * BS) p.data_bitmap)
        ((builder_geometry size_kib inode_count).data_region_start * BS)
        (mem_store p.root_dir_block (64 * (j + 2))
          (dirent_mem h (adder_new_entry h file_name p))))
        (3 * BS) (inode_mem h (adder_root_inode h clock p)))
        0 (superblock_mem h (adder_superblock h after clock p)) := by
  have hBS : BS = 4096 := rfl
  obtain ⟨g1, g2, g3, g4, g5, g6, g7, g8, g9, g10, g11⟩ :=
    builder_geometry_bounds size_kib inode_count hv
  obtain ⟨t, c, hsb⟩ := hp.sb
  obtain ⟨_, f2, f3, f4, f5⟩ := host_superblock_fields size_kib inode_count t c
  have hj := hp.j_le
  have o0 : (p.sb.inode_table_start * BS + (p.free_inode * INODE_SIZE) % 2 ^ 32) % 2 ^ 64 =
      3 * BS + (j + 1) * 128 := by
    rw [hsb, f4, hp.free_inode, hBS]
    simp only [INODE_SIZE]
    omega
  have o1 : (p.sb.inode_bitmap_start * BS) % 2 ^ 64 = BS := by rw [hsb, f2, hBS]; norm_num
  have o2 : (p.sb.data_bitmap_start * BS) % 2 ^ 64 = 2 * BS := by rw [hsb, f3, hBS]; norm_num
  have o3 : (p.sb.inode_table_start * BS) % 2 ^ 64 = 3 * BS := by rw [hsb, f4, hBS]; norm_num
  have o4 : (p.root_inode.direct.getD 0 0 * BS) % 2 ^ 32 =
      (builder_geometry size_kib inode_count).data_region_start * BS := by
    rw [hp.root_direct, hBS]; omega
  unfold adder_write_phase
  simp only []
  rw [o0, o1, o2, o3, o4, hp.free_inode, hp.free_entry]

/-- What can be read back after the seven writes of the inserter, when the regions written
do not overlap. -/
theorem write_chain_reads (img ni ibm dbm dir root sb blocks file : List Nat)
    (n dstart j : Nat) (f : Nat → Nat)
    (hni : ni.length = 128) (hibm : ibm.length = BS) (hdbm : dbm.length = BS)
    (hdir : dir.length = BS) (hroot : root.length = 128) (hsb : sb.length = 116)
    (hD : 7 ≤ dstart) (hj : j ≤ 61)
    (hoff : ∀ k, k < n → 1 ≤ f k ∧ data_block_offset blocks k = (dstart + f k) * BS)
    (hinc : ∀ k k2, k < k2 → k2 < n → f k < f k2) :
    pread (pwrite (pwrite (pwrite (pwrite (write_file_data blocks n 0 file
        (pwrite (pwrite img (3 * BS + (j + 1) * 128) ni) BS ibm))
        (2 * BS) dbm) (dstart * BS) dir) (3 * BS) root) 0 sb) 0 116 = some sb ∧
    pread (pwrite (pwrite (pwrite (pwrite (write_file_data blocks n 0 file
        (pwrite (pwrite img (3 * BS + (j + 1) * 128) ni) BS ibm))
        (2 * BS) dbm) (dstart * BS) dir) (3 * BS) root) 0 sb) BS BS = some ibm ∧
    pread (pwrite (pwrite (pwrite (pwrite (write_file_data blocks n 0 file
        (pwrite (pwrite img (3 * BS + (j + 1) * 128) ni) BS ibm))
        (2 * BS) dbm) (dstart * BS) dir) (3 * BS) root) 0 sb) (2 * BS) BS = some dbm ∧
    pread (pwrite (pwrite (pwrite (pwrite (write_file_data blocks n 0 file
        (pwrite (pwrite img (3 * BS + (j + 1) * 128) ni) BS ibm))
        (2 * BS) dbm) (dstart * BS) dir) (3 * BS) root) 0 sb) (3 * BS) 128 = some root ∧
    pread (pwrite (pwrite (pwrite (pwrite (write_file_data blocks n 0 file
        (pwrite (pwrite img (3 * BS + (j + 1) * 128) ni) BS ibm))
        (2 * BS) dbm) (dstart * BS) dir) (3 * BS) root) 0 sb)
      (3 * BS + (j + 1) * 128) 128 = some ni ∧
    pread (pwrite (pwrite (pwrite (pwrite (write_file_data blocks n 0 file
        (pwrite (pwrite img (3 * BS + (j + 1) * 128) ni) BS ibm))
        (2 * BS) dbm) (dstart * BS) dir) (3 * BS) root) 0 sb) (dstart * BS) BS = some dir ∧
    ∀ k, k < n →
      pread (pwrite (pwrite (pwrite (pwrite (write_file_data blocks n 0 file
        (pwrite (pwrite img (3 * BS + (j + 1) * 128) ni) BS ibm))
        (2 * BS) dbm) (dstart * BS) dir) (3 * BS) root) 0 sb)
        (data_block_offset blocks k) BS = some (file_block file k) := by
  have hBS : BS = 4096 := rfl
  obtain ⟨w1, w2, w3⟩ := write_file_data_spec blocks n 0 file
    (pwrite (pwrite img (3 * BS + (j + 1) * 128) ni) BS ibm)
  generalize write_file_data blocks n 0 file
    (pwrite (pwrite img (3 * BS + (j + 1) * 128) ni) BS ibm) = img3 at w1 w2 w3 ⊢
  have hoffge : ∀ k, k < n → (dstart + 1) * 4096 ≤ data_block_offset blocks k := by
    intro k hk
    obtain ⟨h1, h2⟩ := hoff k hk
    rw [h2, hBS]
    have : dstart + 1 ≤ dstart + f k := by omega
    exact Nat.mul_le_mul_right _ this
  rw [hBS] at hibm hdbm hdir w2 w3 ⊢
  refine ⟨?_, ?_, ?_, ?_, ?_, ?_, ?_⟩
  · have := pread_pwrite_same (pwrite (pwrite (pwrite img3 (2 * 4096) dbm) (dstart * 4096) dir)
      (3 * 4096) root) 0 sb
    rw [hsb] at this
    exact this
  · apply pread_pwrite_keep _ _ _ _ _ _ _ (by omega)
    apply pread_pwrite_keep _ _ _ _ _ _ _ (by omega)
    apply pread_pwrite_keep _ _ _ _ _ _ _ (by omega)
    apply pread_pwrite_keep _ _ _ _ _ _ _ (by omega)
    apply w2
    · have := pread_pwrite_same (pwrite img (3 * 4096 + (j + 1) * 128) ni) 4096 ibm
      rw [hibm] at this
      exact this
    · intro k _ hk
      have := hoffge k (by omega)
      omega
  · apply pread_pwrite_keep _ _ _ _ _ _ _ (by omega)
    apply pread_pwrite_keep _ _ _ _ _ _ _ (by omega)
    apply pread_pwrite_keep _ _ _ _ _ _ _ (by omega)
    have := pread_pwrite_same img3 (2 * 4096) dbm
    rw [hdbm] at this
    exact this
  · apply pread_pwrite_keep _ _ _ _ _ _ _ (by omega)
    have := pread_pwrite_same (pwrite (pwrite img3 (2 * 4096) dbm) (dstart * 4096) dir)
      (3 * 4096) root
    rw [hroot] at this
    exact this
  · apply pread_pwrite_keep _ _ _ _ _ _ _ (by omega)
    apply pread_pwrite_keep _ _ _ _ _ _ _ (by omega)
    apply pread_pwrite_keep _ _ _ _ _ _ _ (by omega)
    apply pread_pwrite_keep _ _ _ _ _ _ _ (by omega)
    apply w2
    · apply pread_pwrite_keep _ _ _ _ _ _ _ (by omega)
      have := pread_pwrite_same img (3 * 4096 + (j + 1) * 128) ni
      rw [hni] at this
      exact this
    · intro k _ hk
      have := hoffge k (by omega)
      omega
  · apply pread_pwrite_keep _ _ _ _ _ _ _ (by omega)
    apply pread_pwrite_keep _ _ _ _ _ _ _ (by omega)
    have := pread_pwrite_same (pwrite img3 (2 * 4096) dbm) (dstart * 4096) dir
    rw [hdir] at this
    exact this
  · intro k hk
    have hge := hoffge k hk
    apply pread_pwrite_keep _ _ _ _ _ _ _ (by omega)
    apply pread_pwrite_keep _ _ _ _ _ _ _ (by omega)
    apply pread_pwrite_keep _ _ _ _ _ _ _ (by omega)
    apply pread_pwrite_keep _ _ _ _ _ _ _ (by omega)
    have := w3 k (Nat.zero_le _) (by omega) (by
      intro k2 hk1 hk2
      left
      obtain ⟨_, e1⟩ := hoff k hk
      obtain ⟨_, e2⟩ := hoff k2 (by omega)
      have hlt := hinc k k2 hk1 (by omega)
      rw [e1, e2, hBS]
      have : dstart + f k + 1 ≤ dstart + f k2 := by omega
      have := Nat.mul_le_mul_right 4096 this
      omega)
    rw [Nat.sub_zero] at this
    exact this

/-! ## One successful insert -/

theorem plan_blocks_lt (h : Endian) (size_kib inode_count j : Nat) (img : List Nat)
    (p : adder_plan) (hv : builder_valid size_kib inode_count = true)
    (hp : plan_facts h size_kib inode_count j img p) : ∀ d ∈ p.data_blocks, d < 2 ^ 32 := by
  have hBS : BS = 4096 := rfl
  obtain ⟨g1, g2, g3, g4, g5, g6, g7, g8, g9, g10, g11⟩ :=
    builder_geometry_bounds size_kib inode_count hv
  obtain ⟨f, hf, _⟩ := hp.blocks
  intro d hd
  obtain ⟨k, hk, rfl⟩ := List.getElem_of_mem hd
  have e : p.data_blocks[k] = p.data_blocks.getD k 0 := by
    rw [List.getD_eq_getElem?_getD, List.getElem?_eq_getElem hk]
    rfl
  rw [e]
  by_cases hkn : k < p.blocks_needed
  · obtain ⟨_, h2, h3⟩ := hf k hkn
    rw [h3]
    omega
  · rw [hp.blocks_rest k (by omega)]
    norm_num

theorem adder_new_inode_decode (h : Endian) (clock : Nat → Nat) (size_kib inode_count j : Nat)
    (img : List Nat) (p : adder_plan) (hv : builder_valid size_kib inode_count = true)
    (hp : plan_facts h size_kib inode_count j img p) :
    (adder_new_inode h clock p).wf ∧
    (inode_to_host (adder_new_inode h clock p)).size_bytes = p.file_size ∧
    (inode_to_host (adder_new_inode h clock p)).direct = p.data_blocks ∧
    (inode_to_host (adder_new_inode h clock p)).mode = 0o100000 ∧
    (inode_to_host (adder_new_inode h clock p)).links = 1 ∧
    (inode_to_host (adder_new_inode h clock p)).proj_id = PROJECT_ID := by
  have hwf0 : (adder_new_inode h clock p).wf := by
    unfold adder_new_inode
    exact written_inode_wf h _ hp.blocks_len (by norm_num)
  refine ⟨hwf0, ?_⟩
  unfold adder_new_inode
  simp only []
  rw [inode_decode_finalized]
  · exact ⟨rfl, rfl, rfl, rfl, rfl⟩
  · simp only [inode_t.wf, PROJECT_ID]
    refine ⟨by norm_num, by norm_num, by norm_num, by norm_num, ?_, Nat.mod_lt _ (by norm_num),
      Nat.mod_lt _ (by norm_num), Nat.mod_lt _ (by norm_num), hp.blocks_len,
      plan_blocks_lt h size_kib inode_count j img p hv hp, by norm_num, by norm_num,
      by norm_num, by norm_num, by norm_num, by norm_num, by norm_num⟩
    rw [hp.file_size]
    exact Nat.mod_lt _ (by norm_num)

theorem adder_root_inode_decode (h : Endian) (clock : Nat → Nat) (size_kib inode_count j : Nat)
    (img : List Nat) (p : adder_plan) (hp : plan_facts h size_kib inode_count j img p) :
    (adder_root_inode h clock p).wf ∧
    inode_to_host (adder_root_inode h clock p) =
      { p.root_inode with
        size_bytes := (p.root_inode.size_bytes + 64) % 2 ^ 64
        links := (p.root_inode.links + 1) % 2 ^ 16
        mtime := clock 3 % 2 ^ 64
        ctime := clock 4 % 2 ^ 64
        inode_crc := from_le64 ((adder_root_inode h clock p).inode_crc) } := by
  obtain ⟨rd, hrd, _, hr⟩ := hp.root
  have hwfr : p.root_inode.wf := by
    rw [hr]
    exact inode_to_host_wf rd hrd.2.2.2.2.2.2.2.2.1
  obtain ⟨h1, h2, h3, h4, h5, h6, h7, h8, h9, h10, h11, h12, h13, h14, h15, h16, h17⟩ := hwfr
  refine ⟨?_, ?_⟩
  · unfold adder_root_inode
    exact written_inode_wf h _ h9 h17
  · unfold adder_root_inode
    simp only []
    rw [inode_decode_finalized]
    exact ⟨h1, Nat.mod_lt _ (by norm_num), h3, h4, Nat.mod_lt _ (by norm_num), h6,
      Nat.mod_lt _ (by norm_num), Nat.mod_lt _ (by norm_num), h9, h10, h11, h12, h13, h14, h15,
      h16, h17⟩

theorem adder_superblock_decode (h : Endian) (after : List Nat) (clock : Nat → Nat)
    (size_kib inode_count j : Nat) (img : List Nat) (p : adder_plan)
    (hp : plan_facts h size_kib inode_count j img p) :
    (adder_superblock h after clock p).wf ∧
    superblock_to_host (adder_superblock h after clock p) =
      host_superblock size_kib inode_count (clock 5 % 2 ^ 64)
        (from_le32 ((adder_superblock h after clock p).checksum)) := by
  obtain ⟨t, c, hsb⟩ := hp.sb
  obtain ⟨h1, h2, h3, h4, h5, h6, h7, h8, h9, h10, h11, h12, h13, h14, h15, h16, h17⟩ := hp.sb_wf
  refine ⟨?_, ?_⟩
  · unfold adder_superblock
    exact written_superblock_wf h after _ h17
  · unfold adder_superblock
    simp only []
    rw [superblock_decode_finalized]
    · rw [hsb]
      rfl
    · exact ⟨h1, h2, h3, h4, h5, h6, h7, h8, h9, h10, h11, h12, h13, h14,
        Nat.mod_lt _ (by norm_num), h16, h17⟩

theorem adder_new_entry_mem (h : Endian) (file_name : List Nat) (p : adder_plan) :
    ∃ rest, rest.length = 60 ∧
      dirent_mem h (adder_new_entry h file_name p) =
        host_bytes h 4 (to_le32 ((p.free_inode + 1) % 2 ^ 32)) ++ rest := by
  refine ⟨host_bytes h 1 1 ++ (adder_new_entry h file_name p).name ++
    host_bytes h 1 (adder_new_entry h file_name p).checksum, ?_, ?_⟩
  · simp [length_host_bytes, adder_new_entry_name_length h file_name p]
  · simp only [dirent_mem, adder_new_entry, dirent_checksum_finalize, dirent_to_disk,
      List.append_assoc]

/-- What can be read back from the output of the write phase. -/
theorem adder_write_reads (h : Endian) (after : List Nat) (clock : Nat → Nat)
    (size_kib inode_count j : Nat) (img file_name : List Nat) (p : adder_plan)
    (hv : builder_valid size_kib inode_count = true)
    (hp : plan_facts h size_kib inode_count j img p) :
    pread (adder_write_phase h after clock file_name p img) 0 116 =
      some (superblock_mem h (adder_superblock h after clock p)) ∧
    pread (adder_write_phase h after clock file_name p img) BS BS =
      some (set_bit p.inode_bitmap (j + 1)) ∧
    pread (adder_write_phase h after clock file_name p img) (2 * BS) BS = some p.data_bitmap ∧
    pread (adder_write_phase h after clock file_name p img) (3 * BS) 128 =
      some (inode_mem h (adder_root_inode h clock p)) ∧
    pread (adder_write_phase h after clock file_name p img) (3 * BS + (j + 1) * 128) 128 =
      some (inode_mem h (adder_new_inode h clock p)) ∧
    pread (adder_write_phase h after clock file_name p img)
        ((builder_geometry size_kib inode_count).data_region_start * BS) BS =
      some (mem_store p.root_dir_block (64 * (j + 2))
        (dirent_mem h (adder_new_entry h file_name p))) ∧
    ∀ k, k < p.blocks_needed →
      pread (adder_write_phase h after clock file_name p img)
        (p.data_blocks.getD k 0 * BS) BS = some (file_block p.file k) := by
  have hBS : BS = 4096 := rfl
  obtain ⟨g1, g2, g3, g4, g5, g6, g7, g8, g9, g10, g11⟩ :=
    builder_geometry_bounds size_kib inode_count hv
  obtain ⟨f, hf1, hf2⟩ := hp.blocks
  have hoffs : ∀ k, k < p.blocks_needed →
      data_block_offset p.data_blocks k = p.data_blocks.getD k 0 * BS := by
    intro k hk
    obtain ⟨_, b2, b3⟩ := hf1 k hk
    unfold data_block_offset
    rw [b3, hBS]
    rw [hBS] at b2
    omega
  have hlenibm : p.inode_bitmap.length = BS := length_pread _ _ _ _ hp.ibm
  have hentry := length_dirent_mem h _ (adder_new_entry_name_length h file_name p)
  have hj := hp.j_le
  have key := write_chain_reads img (inode_mem h (adder_new_inode h clock p))
    (set_bit p.inode_bitmap (j + 1)) p.data_bitmap
    (mem_store p.root_dir_block (64 * (j + 2)) (dirent_mem h (adder_new_entry h file_name p)))
    (inode_mem h (adder_root_inode h clock p))
    (superblock_mem h (adder_superblock h after clock p)) p.data_blocks p.file
    p.blocks_needed (builder_geometry size_kib inode_count).data_region_start j f
    (length_inode_mem h _ (adder_new_inode_direct_length h clock p hp.blocks_len))
    (by rw [length_set_bit]; exact hlenibm) hp.dbm_len
    (by rw [length_mem_store _ _ _ (by rw [hentry, hp.dir_len, hBS]; omega)]; exact hp.dir_len)
    (length_inode_mem h _ (adder_root_inode_direct_length h clock p
      (plan_root_direct_length h size_kib inode_count j img p hp)))
    (length_superblock_mem h _) (by omega) hj
    (by
      intro k hk
      obtain ⟨b1, _, b3⟩ := hf1 k hk
      exact ⟨b1, by rw [hoffs k hk, b3]⟩)
    hf2
  rw [← adder_write_phase_eq h after clock size_kib inode_count j img file_name p hv hp] at key
  obtain ⟨k1, k2, k3, k4, k5, k6, k7⟩ := key
  refine ⟨k1, k2, k3, k4, k5, k6, ?_⟩
  intro k hk
  rw [← hoffs k hk]
  exact k7 k hk

/-- A successful insert takes an image that satisfies the invariant for `j` files to one
that satisfies it for `j + 1`. -/
theorem adder_write_inv (h : Endian) (after : List Nat) (clock : Nat → Nat)
    (size_kib inode_count j : Nat) (img file_name : List Nat) (p : adder_plan)
    (hv : builder_valid size_kib inode_count = true)
    (hp : plan_facts h size_kib inode_count j img p) :
    image_inv h size_kib inode_count (j + 1)
      (adder_write_phase h after clock file_name p img) := by
  have hBS : BS = 4096 := rfl
  obtain ⟨k1, k2, k3, k4, _, k6, _⟩ :=
    adder_write_reads h after clock size_kib inode_count j img file_name p hv hp
  have hj := hp.j_le
  have hlenibm : p.inode_bitmap.length = BS := length_pread _ _ _ _ hp.ibm
  obtain ⟨s1, s2⟩ := adder_superblock_decode h after clock size_kib inode_count j img p hp
  obtain ⟨t1, t2⟩ := adder_root_inode_decode h clock size_kib inode_count j img p hp
  refine ⟨hv, by omega, ⟨_, _, _, s1, k1, s2⟩, ⟨_, k2, set_bit_lt _ _ hp.ibm_lt, ?_⟩,
    ⟨_, k3, hp.dbm_lt, hp.dbm_zero⟩, ⟨_, t1, k4, ?_⟩, ⟨_, k6, ?_⟩⟩
  · intro k hk
    rw [is_bit_set_set_bit _ _ _ (by rw [hlenibm, hBS]; omega), hp.ibm_bits k hk]
    by_cases h1 : k = j + 1
    · have : ¬ (k ≤ j) := by omega
      simp [h1]
    · by_cases h2 : k ≤ j
      · have : k ≤ j + 1 := by omega
        simp [h1, h2, this]
      · have : ¬ (k ≤ j + 1) := by omega
        simp [h1, h2, this]
  · rw [t2]
    exact hp.root_direct
  · intro i hi
    obtain ⟨rest, hrest, hmem⟩ := adder_new_entry_mem h file_name p
    have hentry := length_dirent_mem h _ (adder_new_entry_name_length h file_name p)
    by_cases he : i = j + 2
    · subst he
      refine ⟨to_le32 ((p.free_inode + 1) % 2 ^ 32), to_le32_lt _, ?_, ?_⟩
      · rw [dir_ino_bytes_store_same _ _ _ hp.dir_len hi (by omega) (by omega), hmem,
          List.take_left' (length_host_bytes h 4 _)]
      · have : to_le32 ((p.free_inode + 1) % 2 ^ 32) ≠ 0 := by
          apply to_le32_ne_zero _ (Nat.mod_lt _ (by norm_num))
          rw [hp.free_inode]
          omega
        exact ⟨fun _ => Nat.le_refl _, fun _ => this⟩
    · obtain ⟨v, hv1, hv2, hv3⟩ := hp.dir i hi
      refine ⟨v, hv1, ?_, ?_⟩
      · rw [dir_ino_bytes_store_other _ _ _ _ hp.dir_len (by omega) hi he (by omega)]
        exact hv2
      · rw [hv3]
        omega

/-- A successful run of the inserter, taken apart. -/
theorem mkfs_adder_ok (h : Endian) (after : List Nat) (clock : Nat → Nat)
    (img file_name : List Nat) (file : Option (List Nat)) (out : List Nat)
    (hs : mkfs_adder h after clock img file_name file = { status := none, output := some out }) :
    file_name.length ≤ 57 ∧ ∃ p, adder_read_phase h img file_name file = Except.ok p ∧
      out = adder_write_phase h after clock file_name p img := by
  unfold mkfs_adder at hs
  by_cases hn : file_name.length > 57
  · rw [if_pos hn] at hs
    exact absurd (congrArg adder_result.status hs) (by simp)
  · rw [if_neg hn, copy_image_eq] at hs
    simp only [] at hs
    refine ⟨by omega, ?_⟩
    cases hr : adder_read_phase h img file_name file with
    | error e =>
      rw [hr] at hs
      exact absurd (congrArg adder_result.status hs) (by simp)
    | ok p =>
      rw [hr] at hs
      refine ⟨p, rfl, ?_⟩
      have := congrArg adder_result.output hs
      simp only [Option.some.injEq] at this
      exact this.symm

/-- Every reachable image satisfies the invariant, for some parameters of the formatter and
some number of inserted files. -/
theorem reachable_inv (h : Endian) (img : List Nat) (hr : Reachable h img) :
    ∃ size_kib inode_count j, image_inv h size_kib inode_count j img := by
  induction hr with
  | format after now size_kib inode_count img hb =>
    unfold mkfs_builder at hb
    by_cases hv : builder_valid size_kib inode_count = true
    · rw [if_pos hv] at hb
      have := Option.some.inj hb
      subst this
      exact ⟨size_kib, inode_count, 0, builder_image_inv h after now size_kib inode_count hv⟩
    · rw [if_neg hv] at hb
      exact absurd hb (by simp)
  | insert after clock img file_name file out _ hs ih =>
    obtain ⟨size_kib, inode_count, j, hinv⟩ := ih
    obtain ⟨_, p, hp1, hp2⟩ := mkfs_adder_ok h after clock img file_name file out hs
    obtain ⟨hpf, _⟩ := plan_facts_of_inv h size_kib inode_count j img file_name file p hinv hp1
    rw [hp2]
    exact ⟨size_kib, inode_count, j + 1,
      adder_write_inv h after clock size_kib inode_count j img file_name p hinv.valid hpf⟩

/-! ## When the inserter succeeds -/

/-- The read phase succeeds when each of its steps does. -/
theorem adder_read_phase_intro (h : Endian) (img file_name content : List Nat)
    (sb_mem inode_bitmap data_bitmap0 data_bitmap data_blocks root_mem root_dir_block0
      root_dir_block : List Nat) (free_entry : Int)
    (h1 : pread img 0 116 = some sb_mem)
    (h2 : (superblock_to_host (superblock_of_mem h sb_mem)).magic = 0x4D565346)
    (h3 : pread img (((superblock_to_host (superblock_of_mem h sb_mem)).inode_bitmap_start * BS)
      % 2 ^ 64) BS = some inode_bitmap)
    (h4 : pread img (((superblock_to_host (superblock_of_mem h sb_mem)).data_bitmap_start * BS)
      % 2 ^ 64) BS = some data_bitmap0)
    (h5 : find_free_bit inode_bitmap BS ≠ -1)
    (h6 : ((content.length % 2 ^ 64 + BS - 1) % 2 ^ 64) / BS ≤ DIRECT_MAX)
    (h7 : alloc_data_blocks (superblock_to_host (superblock_of_mem h sb_mem)).data_region_start
      (((content.length % 2 ^ 64 + BS - 1) % 2 ^ 64) / BS) 0 data_bitmap0
      (List.replicate DIRECT_MAX 0) = some (data_bitmap, data_blocks))
    (h8 : pread img (((superblock_to_host (superblock_of_mem h sb_mem)).inode_table_start * BS)
      % 2 ^ 64) 128 = some root_mem)
    (h9 : pread img (((inode_to_host (inode_of_mem h root_mem)).direct.getD 0 0 * BS) % 2 ^ 32)
      BS = some root_dir_block0)
    (h10 : scan_root_dir h file_name (BS / 64) 0 root_dir_block0 (-1) =
      (root_dir_block, free_entry, false))
    (h11 : free_entry ≠ -1) :
    ∃ p, adder_read_phase h img file_name (some content) = Except.ok p := by
  unfold adder_read_phase
  rw [h1]
  simp only []
  rw [if_neg (by rw [h2]; simp), h3]
  simp only []
  rw [h4]
  simp only []
  rw [if_neg h5, if_neg (by omega), h7]
  simp only []
  rw [h8]
  simp only []
  rw [h9]
  simp only []
  rw [h10]
  simp only [Bool.false_eq_true, if_false]
  rw [if_neg h11]
  exact ⟨_, rfl⟩

theorem drop_mem_store_after (buf : List Nat) (off : Nat) (src : List Nat) (k : Nat)
    (ho : off + src.length ≤ buf.length) (hk : off + src.length ≤ k) :
    (mem_store buf off src).drop k = buf.drop k := by
  unfold mem_store
  have hl : (buf.take off ++ src).length = off + src.length := by
    rw [List.length_append, List.length_take]
    omega
  have e : k = (buf.take off ++ src).length + (k - (off + src.length)) := by omega
  rw [e, ← List.drop_drop, List.drop_left, List.drop_drop, hl]

/-- The scan reports no duplicate when every slot from `i` on either has a zero inode number
or a name other than `file_name`. -/
theorem scan_root_dir_no_dup (h : Endian) (file_name : List Nat) :
    ∀ n i blk (fe : Int), blk.length = BS → i + n = 64 →
      (∀ i2, i ≤ i2 → i2 < 64 →
        dir_ino_bytes blk i2 = host_bytes h 4 0 ∨ c_str (blk.drop (64 * i2 + 5)) ≠ file_name) →
      (scan_root_dir h file_name n i blk fe).2.2 = false := by
  intro n
  induction n with
  | zero =>
    intro i blk fe _ _ _
    rfl
  | succ n ih =>
    intro i blk fe hlen hin hnd
    have hBS : BS = 4096 := rfl
    have hlb : (host_bytes h 4 (from_le32 (field_at h blk (64 * i) 4))).length = 4 :=
      length_host_bytes _ _ _
    have hlen1 : (dirent_to_host_at h blk i).length = BS := by
      unfold dirent_to_host_at
      rw [length_mem_store _ _ _ (by rw [hlb, hlen, hBS]; omega), hlen]
    have hdrop : ∀ i2, i ≤ i2 →
        (dirent_to_host_at h blk i).drop (64 * i2 + 5) = blk.drop (64 * i2 + 5) := by
      intro i2 hi2
      unfold dirent_to_host_at
      exact drop_mem_store_after _ _ _ _ (by rw [hlb, hlen, hBS]; omega) (by rw [hlb]; omega)
    simp only [scan_root_dir]
    split
    · rename_i hc
      exfalso
      obtain ⟨hc1, hc2⟩ := hc
      rcases hnd i (Nat.le_refl _) (by omega) with hz | hne
      · apply hc1
        have hf : field_at h blk (64 * i) 4 = 0 := by
          rw [field_at_dir, hz]
          exact host_val_host_bytes_of_lt h 4 0 (by norm_num)
        unfold dirent_to_host_at
        rw [hf, field_at_dir,
          dir_ino_bytes_store_same _ _ _ hlen (by omega) (by rw [length_host_bytes])
            (by rw [length_host_bytes]; omega),
          List.take_of_length_le (by rw [length_host_bytes])]
        have : from_le32 0 = 0 := by decide
        rw [this]
        exact host_val_host_bytes_of_lt h 4 0 (by norm_num)
      · rw [hdrop i (Nat.le_refl _)] at hc2
        exact hne hc2
    · apply ih (i + 1) _ _ hlen1 (by omega)
      intro i2 hi2 hi3
      rcases hnd i2 (by omega) hi3 with hz | hne
      · left
        unfold dirent_to_host_at
        rw [dir_ino_bytes_store_other _ _ _ _ hlen (by omega) hi3 (by omega)
          (by rw [length_host_bytes]; omega)]
        exact hz
      · right
        rw [hdrop i2 (by omega)]
        exact hne

/-- The allocation loop succeeds when the bitmap has a clear tail long enough. -/
theorem alloc_data_blocks_succeeds (D : Nat) :
    ∀ n i bm blocks m, bm.length = BS → (∀ b ∈ bm, b < 256) →
      (∀ k, m ≤ k → k < 8 * BS → is_bit_set bm k = false) → m + n ≤ 8 * BS →
      ∃ r, alloc_data_blocks D n i bm blocks = some r := by
  intro n
  induction n with
  | zero =>
    intro i bm blocks m _ _ _ _
    exact ⟨_, rfl⟩
  | succ n ih =>
    intro i bm blocks m hlen hb hclear hm
    simp only [alloc_data_blocks]
    rcases find_free_bit_lowest bm BS (by omega) hb with ⟨_, h2⟩ | ⟨r, hr1, hr2, hr3, hr4⟩
    · have := h2 m (by omega)
      rw [hclear m (Nat.le_refl _) (by omega)] at this
      exact absurd this (by simp)
    · have hne : ¬ (find_free_bit bm BS = -1) := by rw [hr2]; omega
      rw [if_neg hne, hr2, Int.toNat_ofNat]
      have hrm : r ≤ m := by
        by_contra hc
        have := hr4 m (by omega)
        rw [hclear m (Nat.le_refl _) (by omega)] at this
        exact absurd this (by simp)
      apply ih (i + 1) _ _ (m + 1) (by rw [length_set_bit]; exact hlen) (set_bit_lt bm r hb)
      · intro k hk1 hk2
        rw [is_bit_set_set_bit bm r k (by rw [hlen]; omega), hclear k (by omega) hk2]
        have : ¬ (k = r) := by omega
        simp [this]
      · omega

theorem c_str_cons_nul (a : Nat) (ha : a ≠ 0) (xs : List Nat) : c_str (a :: 0 :: xs) = [a] := by
  simp [c_str, List.takeWhile, ha]

theorem c_str_cons_cons_nul (a b : Nat) (ha : a ≠ 0) (hb : b ≠ 0) (xs : List Nat) :
    c_str (a :: b :: 0 :: xs) = [a, b] := by
  simp [c_str, List.takeWhile, ha, hb]

theorem dirent_mem_drop_5 (h : Endian) (de : dirent64_t) (rest : List Nat) :
    (dirent_mem h de ++ rest).drop 5 = de.name ++ (host_bytes h 1 de.checksum ++ rest) := by
  unfold dirent_mem
  rw [List.append_assoc, List.append_assoc]
  exact List.drop_left' (by simp [length_host_bytes])

theorem builder_dirent_name (h : Endian) (s : List Nat) :
    (builder_dirent h s).name = strncpy_into 58 s 58 := rfl

/-- In the root directory block of a fresh image no slot holds a name other than `.` and
`..` with a non-zero inode number. -/
theorem fresh_dir_no_dup (h : Endian) (file_name : List Nat) (hn1 : file_name ≠ [46])
    (hn2 : file_name ≠ [46, 46]) (i : Nat) (hi : i < 64) :
    dir_ino_bytes (dirent_mem h (builder_dirent h [46]) ++
        dirent_mem h (builder_dirent h [46, 46]) ++ List.replicate (BS - 128) 0) i =
      host_bytes h 4 0 ∨
    c_str ((dirent_mem h (builder_dirent h [46]) ++
        dirent_mem h (builder_dirent h [46, 46]) ++ List.replicate (BS - 128) 0).drop
          (64 * i + 5)) ≠ file_name := by
  have hl1 := length_dirent_mem h _ (builder_dirent_name_length h [46] (by decide))
  have hl2 := length_dirent_mem h _ (builder_dirent_name_length h [46, 46] (by decide))
  by_cases h0 : i = 0
  · right
    subst h0
    rw [List.append_assoc, Nat.mul_zero, Nat.zero_add, dirent_mem_drop_5, builder_dirent_name]
    have : strncpy_into 58 [46] 58 = 46 :: 0 :: List.replicate 56 0 := by decide
    rw [this, List.cons_append, List.cons_append, c_str_cons_nul 46 (by norm_num)]
    exact fun e => hn1 e.symm
  · by_cases h1 : i = 1
    · right
      subst h1
      have e : 64 * 1 + 5 = (dirent_mem h (builder_dirent h [46])).length + 5 := by rw [hl1]
      rw [List.append_assoc, e, ← List.drop_drop, List.drop_left, dirent_mem_drop_5,
        builder_dirent_name]
      have : strncpy_into 58 [46, 46] 58 = 46 :: 46 :: 0 :: List.replicate 55 0 := by decide
      rw [this, List.cons_append, List.cons_append, List.cons_append,
        c_str_cons_cons_nul 46 46 (by norm_num) (by norm_num)]
      exact fun e => hn2 e.symm
    · left
      exact dir_ino_bytes_zero_tail h _ (by rw [List.length_append, hl1, hl2]) i (by omega) hi

/-- Inserting a file of at most 49152 bytes whose name is neither `.` nor `..` into a fresh
image succeeds. -/
theorem adder_succeeds_fresh (h : Endian) (after after2 : List Nat) (clock : Nat → Nat)
    (now size_kib inode_count : Nat) (file_name content : List Nat)
    (hv : builder_valid size_kib inode_count = true) (hname : file_name.length ≤ 57)
    (hn1 : file_name ≠ [46]) (hn2 : file_name ≠ [46, 46]) (hlen : content.length ≤ 49152) :
    ∃ out, mkfs_adder h after2 clock (builder_image h after now size_kib inode_count) file_name
      (some content) = { status := none, output := some out } := by
  have hBS : BS = 4096 := rfl
  have hinv := builder_image_inv h after now size_kib inode_count hv
  obtain ⟨_, _, k2, _, _, k5, _, _⟩ := builder_image_reads h after now size_kib inode_count hv
  obtain ⟨_, _, ⟨sbd, t, c, i1, i2, i3⟩, ⟨ibm, i4, i5, i6⟩, _, ⟨rd, i10, i11, i12⟩, ⟨d, i13, i14⟩⟩ :=
    hinv
  obtain ⟨f1, f2, f3, f4, f5⟩ := host_superblock_fields size_kib inode_count t c
  obtain ⟨g1, g2, g3, g4, g5, g6, g7, g8, g9, g10, g11⟩ :=
    builder_geometry_bounds size_kib inode_count hv
  have hsb : superblock_to_host (superblock_of_mem h (superblock_mem h sbd)) =
      host_superblock size_kib inode_count t c := by
    rw [superblock_of_mem_self h sbd i1, i3]
  have hroot : inode_to_host (inode_of_mem h (inode_mem h rd)) = inode_to_host rd := by
    rw [inode_of_mem_self h rd i10]
  have hneed : ((content.length % 2 ^ 64 + BS - 1) % 2 ^ 64) / BS ≤ 12 := by
    rw [hBS]; omega
  obtain ⟨⟨dbm2, blocks2⟩, hal⟩ := alloc_data_blocks_succeeds
    (builder_geometry size_kib inode_count).data_region_start
    (((content.length % 2 ^ 64 + BS - 1) % 2 ^ 64) / BS) 0 first_bit_block
    (List.replicate DIRECT_MAX 0) 1 length_first_bit_block first_bit_block_lt
    (by
      intro k hk1 _
      rw [is_bit_set_first_bit_block]
      have : ¬ (k = 0) := by omega
      simp [this])
    (by rw [hBS]; omega)
  have hd : d = dirent_mem h (builder_dirent h [46]) ++
      dirent_mem h (builder_dirent h [46, 46]) ++ List.replicate (BS - 128) 0 := by
    rw [k5] at i13
    exact (Option.some.inj i13).symm
  have hdlen : d.length = BS := length_pread _ _ _ _ i13
  have hnd := scan_root_dir_no_dup h file_name 64 0 d (-1) hdlen (by omega)
    (by
      intro i2 _ hi2
      rw [hd]
      exact fresh_dir_no_dup h file_name hn1 hn2 i2 hi2)
  obtain ⟨_, _, s3⟩ := scan_root_dir_spec h file_name 0 64 0 d (-1) hdlen i14 (by omega)
    (by rw [if_pos (by omega)])
  have s4 := s3 hnd
  rw [if_neg (by omega)] at s4
  have h64 : BS / 64 = 64 := by rw [hBS]
  obtain ⟨p, hp⟩ := adder_read_phase_intro h (builder_image h after now size_kib inode_count)
    file_name content (superblock_mem h sbd) ibm first_bit_block dbm2 blocks2 (inode_mem h rd) d
    (scan_root_dir h file_name 64 0 d (-1)).1 (scan_root_dir h file_name 64 0 d (-1)).2.1
    i2 (by rw [hsb, f1])
    (by rw [hsb, f2, hBS]; exact i4)
    (by rw [hsb, f3]
        have : (2 * BS) % 2 ^ 64 = 2 * BS := by rw [hBS]; norm_num
        rw [this]
        exact k2)
    (by rw [free_inode_of_inv ibm 0 (length_pread _ _ _ _ i4) i5 (by omega) i6]; omega)
    (by simpa [DIRECT_MAX] using hneed)
    (by rw [hsb, f5]; exact hal)
    (by rw [hsb, f4]
        have : (3 * BS) % 2 ^ 64 = 3 * BS := by rw [hBS]; norm_num
        rw [this]
        exact i11)
    (by rw [hroot, i12]
        have : ((builder_geometry size_kib inode_count).data_region_start * BS) % 2 ^ 32 =
            (builder_geometry size_kib inode_count).data_region_start * BS := by
          rw [hBS]; omega
        rw [this]
        exact i13)
    (by rw [h64, ← hnd])
    (by rw [s4]; omega)
  refine ⟨adder_write_phase h after2 clock file_name p
    (builder_image h after now size_kib inode_count), ?_⟩
  unfold mkfs_adder
  rw [if_neg (by omega), copy_image_eq]
  simp only []
  rw [hp]

/-! ## File content round trip -/

theorem blocks_needed_eq (content : List Nat) (hL : content.length < 2 ^ 63) :
    content.length % 2 ^ 64 = content.length ∧
    ((content.length % 2 ^ 64 + BS - 1) % 2 ^ 64) / BS = (content.length + BS - 1) / BS := by
  have hBS : BS = 4096 := rfl
  have e : content.length % 2 ^ 64 = content.length := Nat.mod_eq_of_lt (by omega)
  refine ⟨e, ?_⟩
  rw [e, hBS, Nat.mod_eq_of_lt (by omega)]

theorem flatMap_congr_range (n : Nat) (g1 g2 : Nat → List Nat)
    (hg : ∀ k, k < n → g1 k = g2 k) :
    (List.range n).flatMap g1 = (List.range n).flatMap g2 := by
  induction n with
  | zero => rfl
  | succ n ih =>
    rw [List.range_succ, List.flatMap_append, List.flatMap_append,
      ih (fun k hk => hg k (by omega))]
    simp only [List.flatMap_cons, List.flatMap_nil, List.append_nil]
    rw [hg n (by omega)]

/-- The new inode and the data blocks of a successful insert into an image that satisfies
the invariant. -/
theorem insert_roundtrip_of_inv (h : Endian) (after : List Nat) (clock : Nat → Nat)
    (size_kib inode_count j : Nat) (img file_name content out : List Nat)
    (hinv : image_inv h size_kib inode_count j img) (hL : content.length < 2 ^ 63)
    (hs : mkfs_adder h after clock img file_name (some content) =
      { status := none, output := some out }) :
    ∃ inode_bitmap m,
      pread img BS BS = some inode_bitmap ∧
      pread out (3 * BS + (find_free_bit inode_bitmap BS).toNat * INODE_SIZE) INODE_SIZE =
        some m ∧
      (inode_to_host (inode_of_mem h m)).size_bytes = content.length ∧
      (inode_to_host (inode_of_mem h m)).direct.length = 12 ∧
      (∀ k, k < (content.length + BS - 1) / BS →
        pread out ((inode_to_host (inode_of_mem h m)).direct.getD k 0 * BS) BS =
          some (file_block content k)) ∧
      (∀ k, (content.length + BS - 1) / BS ≤ k →
        (inode_to_host (inode_of_mem h m)).direct.getD k 0 = 0) ∧
      ((List.range ((content.length + BS - 1) / BS)).flatMap
        (fun k => (out.drop ((inode_to_host (inode_of_mem h m)).direct.getD k 0 * BS)).take
          BS)).take content.length = content := by
  have hBS : BS = 4096 := rfl
  obtain ⟨_, p, hp1, hp2⟩ := mkfs_adder_ok h after clock img file_name (some content) out hs
  obtain ⟨hpf, hfile⟩ :=
    plan_facts_of_inv h size_kib inode_count j img file_name (some content) p hinv hp1
  have hpc : p.file = content := (Option.some.inj hfile).symm
  obtain ⟨_, _, _, _, k5, _, k7⟩ :=
    adder_write_reads h after clock size_kib inode_count j img file_name p hinv.valid hpf
  rw [← hp2] at k5 k7
  obtain ⟨d1, d2, d3, _, _, _⟩ :=
    adder_new_inode_decode h clock size_kib inode_count j img p hinv.valid hpf
  obtain ⟨e1, e2⟩ := blocks_needed_eq content hL
  have hsize : p.file_size = content.length := by rw [hpf.file_size, hpc, e1]
  have hneed : p.blocks_needed = (content.length + BS - 1) / BS := by
    rw [hpf.needed, hpf.file_size, hpc, e2]
  have hslot : (find_free_bit p.inode_bitmap BS).toNat = j + 1 := by
    rw [free_inode_of_inv p.inode_bitmap j (length_pread _ _ _ _ hpf.ibm) hpf.ibm_lt
      (by have := hpf.j_le; omega) hpf.ibm_bits, Int.toNat_ofNat]
  have hdec : inode_to_host (inode_of_mem h (inode_mem h (adder_new_inode h clock p))) =
      inode_to_host (adder_new_inode h clock p) := by
    rw [inode_of_mem_self h _ d1]
  have hblocks : ∀ k, k < (content.length + BS - 1) / BS →
      pread out (p.data_blocks.getD k 0 * BS) BS = some (file_block content k) := by
    intro k hk
    rw [← hpc]
    exact k7 k (by rw [hneed]; exact hk)
  refine ⟨p.inode_bitmap, inode_mem h (adder_new_inode h clock p), hpf.ibm, ?_, ?_, ?_, ?_, ?_,
    ?_⟩
  · rw [hslot]
    exact k5
  · rw [hdec, d2, hsize]
  · rw [hdec, d3, hpf.blocks_len]
  · intro k hk
    rw [hdec, d3]
    exact hblocks k hk
  · intro k hk
    rw [hdec, d3]
    exact hpf.blocks_rest k (by rw [hneed]; exact hk)
  · rw [hdec, d3]
    rw [flatMap_congr_range _ _ (file_block content) (by
      intro k hk
      have := ((pread_eq_some _ _ _ _).1 (hblocks k hk)).2
      exact this.symm)]
    apply flatMap_file_block_take
    rw [hBS]
    omega

/-- C1.  File content round trip.  For every image produced by the formatter, possibly
followed by successful inserts, and every file (of a length `ftell` can report) on which
the inserter succeeds: in the output image the inode in the table slot the inserter
allocated (the lowest clear bit of the input's inode bitmap) decodes to `size_bytes` = the
file length and a `direct` array whose first `ceil (L / 4096)` entries name blocks that hold
the file's bytes in order, the last one padded with zeros to 4096 bytes, and whose other
entries are 0; concatenating those blocks and truncating to `L` bytes gives the file. -/
theorem insert_file_roundtrip (h : Endian) (after : List Nat) (clock : Nat → Nat)
    (img file_name content out : List Nat)
    (hr : Reachable h img) (hL : content.length < 2 ^ 63)
    (hs : mkfs_adder h after clock img file_name (some content) =
      { status := none, output := some out }) :
    ∃ inode_bitmap m,
      pread img BS BS = some inode_bitmap ∧
      pread out (3 * BS + (find_free_bit inode_bitmap BS).toNat * INODE_SIZE) INODE_SIZE =
        some m ∧
      (inode_to_host (inode_of_mem h m)).size_bytes = content.length ∧
      (inode_to_host (inode_of_mem h m)).direct.length = 12 ∧
      (∀ k, k < (content.length + BS - 1) / BS →
        pread out ((inode_to_host (inode_of_mem h m)).direct.getD k 0 * BS) BS =
          some (file_block content k)) ∧
      (∀ k, (content.length + BS - 1) / BS ≤ k →
        (inode_to_host (inode_of_mem h m)).direct.getD k 0 = 0) ∧
      ((List.range ((content.length + BS - 1) / BS)).flatMap
        (fun k => (out.drop ((inode_to_host (inode_of_mem h m)).direct.getD k 0 * BS)).take
          BS)).take content.length = content := by
  obtain ⟨size_kib, inode_count, j, hinv⟩ := reachable_inv h img hr
  exact insert_roundtrip_of_inv h after clock size_kib inode_count j img file_name content out
    hinv hL hs

/-- Witness for C1: the three-byte file `a` inserted into the smallest fresh image. -/
theorem insert_file_roundtrip_witness :
    ∃ out, mkfs_adder Endian.little [] (fun _ => 0) (builder_image Endian.little [] 0 180 128)
        [97] (some [1, 2, 3]) = { status := none, output := some out } ∧
      ∃ inode_bitmap m,
        pread (builder_image Endian.little [] 0 180 128) BS BS = some inode_bitmap ∧
        pread out (3 * BS + (find_free_bit inode_bitmap BS).toNat * INODE_SIZE) INODE_SIZE =
          some m ∧
        (inode_to_host (inode_of_mem Endian.little m)).size_bytes = [1, 2, 3].length ∧
        (inode_to_host (inode_of_mem Endian.little m)).direct.length = 12 ∧
        (∀ k, k < ([1, 2, 3].length + BS - 1) / BS →
          pread out ((inode_to_host (inode_of_mem Endian.little m)).direct.getD k 0 * BS) BS =
            some (file_block [1, 2, 3] k)) ∧
        (∀ k, ([1, 2, 3].length + BS - 1) / BS ≤ k →
          (inode_to_host (inode_of_mem Endian.little m)).direct.getD k 0 = 0) ∧
        ((List.range (([1, 2, 3].length + BS - 1) / BS)).flatMap
          (fun k => (out.drop
            ((inode_to_host (inode_of_mem Endian.little m)).direct.getD k 0 * BS)).take
              BS)).take [1, 2, 3].length = [1, 2, 3] := by
  obtain ⟨out, hs⟩ := adder_succeeds_fresh Endian.little [] [] (fun _ => 0) 0 180 128 [97]
    [1, 2, 3] (by decide) (by decide) (by decide) (by decide) (by decide)
  exact ⟨out, hs, insert_file_roundtrip Endian.little [] (fun _ => 0)
    (builder_image Endian.little [] 0 180 128) [97] [1, 2, 3] out
    (Reachable.format [] 0 180 128 _ (by simp [mkfs_builder, builder_valid])) (by decide) hs⟩

/-! ## Rejection leaves the copy untouched -/

/-- Whatever the read phase answers, the output of a run that got past the name check is
the copy when the run fails. -/
theorem mkfs_adder_error_output (h : Endian) (after : List Nat) (clock : Nat → Nat)
    (img file_name : List Nat) (file : Option (List Nat)) (e : adder_error)
    (hst : (mkfs_adder h after clock img file_name file).status = some e)
    (hne : e ≠ adder_error.name_too_long) :
    (mkfs_adder h after clock img file_name file).output = some img := by
  unfold mkfs_adder at hst ⊢
  by_cases hn : file_name.length > 57
  · rw [if_pos hn] at hst
    simp only [Option.some.injEq] at hst
    exact absurd hst.symm hne
  · rw [if_neg hn, copy_image_eq] at hst ⊢
    simp only [] at hst ⊢
    cases hr : adder_read_phase h img file_name file with
    | error e2 => rfl
    | ok p =>
      rw [hr] at hst
      exact absurd hst (by simp)

/-- The read phase up to the scan of the root directory, when every step before it
succeeds: what is left is the outcome of the scan. -/
theorem adder_read_phase_to_scan (h : Endian) (img file_name content : List Nat)
    (sb_mem inode_bitmap data_bitmap0 data_bitmap data_blocks root_mem root_dir_block0 : List Nat)
    (h1 : pread img 0 116 = some sb_mem)
    (h2 : (superblock_to_host (superblock_of_mem h sb_mem)).magic = 0x4D565346)
    (h3 : pread img (((superblock_to_host (superblock_of_mem h sb_mem)).inode_bitmap_start * BS)
      % 2 ^ 64) BS = some inode_bitmap)
    (h4 : pread img (((superblock_to_host (superblock_of_mem h sb_mem)).data_bitmap_start * BS)
      % 2 ^ 64) BS = some data_bitmap0)
    (h5 : find_free_bit inode_bitmap BS ≠ -1)
    (h6 : ((content.length % 2 ^ 64 + BS - 1) % 2 ^ 64) / BS ≤ DIRECT_MAX)
    (h7 : alloc_data_blocks (superblock_to_host (superblock_of_mem h sb_mem)).data_region_start
      (((content.length % 2 ^ 64 + BS - 1) % 2 ^ 64) / BS) 0 data_bitmap0
      (List.replicate DIRECT_MAX 0) = some (data_bitmap, data_blocks))
    (h8 : pread img (((superblock_to_host (superblock_of_mem h sb_mem)).inode_table_start * BS)
      % 2 ^ 64) 128 = some root_mem)
    (h9 : pread img (((inode_to_host (inode_of_mem h root_mem)).direct.getD 0 0 * BS) % 2 ^ 32)
      BS = some root_dir_block0) :
    ((scan_root_dir h file_name (BS / 64) 0 root_dir_block0 (-1)).2.2 = true →
      adder_read_phase h img file_name (some content) =
        Except.error adder_error.duplicate_name) ∧
    ((scan_root_dir h file_name (BS / 64) 0 root_dir_block0 (-1)).2.2 = false →
      (scan_root_dir h file_name (BS / 64) 0 root_dir_block0 (-1)).2.1 = -1 →
      adder_read_phase h img file_name (some content) = Except.error adder_error.dir_full) := by
  have key : adder_read_phase h img file_name (some content) =
      (match scan_root_dir h file_name (BS / 64) 0 root_dir_block0 (-1) with
      | (root_dir_block, free_entry, file_exists) =>
        if file_exists then Except.error adder_error.duplicate_name else
        if free_entry = -1 then Except.error adder_error.dir_full else
        Except.ok
          { sb := superblock_to_host (superblock_of_mem h sb_mem)
            inode_bitmap := inode_bitmap
            data_bitmap := data_bitmap
            free_inode := (find_free_bit inode_bitmap BS).toNat
            file := content
            file_size := content.length % 2 ^ 64
            blocks_needed := ((content.length % 2 ^ 64 + BS - 1) % 2 ^ 64) / BS
            data_blocks := data_blocks
            root_inode := inode_to_host (inode_of_mem h root_mem)
            root_dir_block := root_dir_block
            free_entry := free_entry.toNat }) := by
    unfold adder_read_phase
    rw [h1]
    simp only []
    rw [if_neg (by rw [h2]; simp), h3]
    simp only []
    rw [h4]
    simp only []
    rw [if_neg h5, if_neg (by omega), h7]
    simp only []
    rw [h8]
    simp only []
    rw [h9]
  rw [key]
  rcases scan_root_dir h file_name (BS / 64) 0 root_dir_block0 (-1) with ⟨blk, fe, ex⟩
  constructor
  · intro hex
    simp only at hex
    simp only [hex, if_true]
  · intro hex hfe
    simp only at hex hfe
    simp only [hex, hfe, Bool.false_eq_true, if_false, if_true]

/-- On an image that satisfies the invariant, a file that needs more than 12 blocks is
rejected as too large. -/
theorem adder_read_phase_too_large (h : Endian) (size_kib inode_count j : Nat)
    (img file_name content : List Nat) (hinv : image_inv h size_kib inode_count j img)
    (hbig : 49152 < content.length) (hL : content.length < 2 ^ 63) :
    adder_read_phase h img file_name (some content) =
      Except.error adder_error.file_too_large := by
  have hBS : BS = 4096 := rfl
  obtain ⟨hv, hj, ⟨sbd, t, c, i1, i2, i3⟩, ⟨ibm, i4, i5, i6⟩, ⟨dbm, i7, i8, i9⟩, _, _⟩ := hinv
  obtain ⟨f1, f2, f3, f4, f5⟩ := host_superblock_fields size_kib inode_count t c
  have hsb : superblock_to_host (superblock_of_mem h (superblock_mem h sbd)) =
      host_superblock size_kib inode_count t c := by
    rw [superblock_of_mem_self h sbd i1, i3]
  unfold adder_read_phase
  rw [i2]
  simp only []
  rw [hsb, if_neg (by rw [f1]; simp), f2, f3]
  have o1 : (1 * BS) % 2 ^ 64 = BS := by rw [hBS]; norm_num
  have o2 : (2 * BS) % 2 ^ 64 = 2 * BS := by rw [hBS]; norm_num
  rw [o1, o2, i4]
  simp only []
  rw [i7]
  simp only []
  rw [if_neg (by
    rw [free_inode_of_inv ibm j (length_pread _ _ _ _ i4) i5 hj i6]; omega)]
  rw [if_pos (by
    simp only [DIRECT_MAX, hBS]
    omega)]

/-- Inserting a file named `.` into a fresh image is rejected as a duplicate. -/
theorem adder_read_phase_dup_fresh (h : Endian) (after : List Nat)
    (now size_kib inode_count : Nat) (content : List Nat)
    (hv : builder_valid size_kib inode_count = true) (hlen : content.length ≤ 49152) :
    adder_read_phase h (builder_image h after now size_kib inode_count) [46] (some content) =
      Except.error adder_error.duplicate_name := by
  have hBS : BS = 4096 := rfl
  have hinv := builder_image_inv h after now size_kib inode_count hv
  obtain ⟨_, _, k2, _, _, k5, _, _⟩ := builder_image_reads h after now size_kib inode_count hv
  obtain ⟨_, _, ⟨sbd, t, c, i1, i2, i3⟩, ⟨ibm, i4, i5, i6⟩, _, ⟨rd, i10, i11, i12⟩, ⟨d, i13, i14⟩⟩ :=
    hinv
  obtain ⟨f1, f2, f3, f4, f5⟩ := host_superblock_fields size_kib inode_count t c
  obtain ⟨g1, g2, g3, g4, g5, g6, g7, g8, g9, g10, g11⟩ :=
    builder_geometry_bounds size_kib inode_count hv
  have hsb : superblock_to_host (superblock_of_mem h (superblock_mem h sbd)) =
      host_superblock size_kib inode_count t c := by
    rw [superblock_of_mem_self h sbd i1, i3]
  have hroot : inode_to_host (inode_of_mem h (inode_mem h rd)) = inode_to_host rd := by
    rw [inode_of_mem_self h rd i10]
  have hneed : ((content.length % 2 ^ 64 + BS - 1) % 2 ^ 64) / BS ≤ 12 := by
    rw [hBS]; omega
  obtain ⟨⟨dbm2, blocks2⟩, hal⟩ := alloc_data_blocks_succeeds
    (builder_geometry size_kib inode_count).data_region_start
    (((content.length % 2 ^ 64 + BS - 1) % 2 ^ 64) / BS) 0 first_bit_block
    (List.replicate DIRECT_MAX 0) 1 length_first_bit_block first_bit_block_lt
    (by
      intro k hk1 _
      rw [is_bit_set_first_bit_block]
      have : ¬ (k = 0) := by omega
      simp [this])
    (by rw [hBS]; omega)
  have hd : d = dirent_mem h (builder_dirent h [46]) ++
      dirent_mem h (builder_dirent h [46, 46]) ++ List.replicate (BS - 128) 0 := by
    rw [k5] at i13
    exact (Option.some.inj i13).symm
  have hdlen : d.length = BS := length_pread _ _ _ _ i13
  obtain ⟨_, _, s3⟩ := dirent_to_host_at_spec h 0 d 0 hdlen i14 (by omega)
  have hino : field_at h (dirent_to_host_at h d 0) (64 * 0) 4 ≠ 0 := by
    intro hz
    have := s3.1 hz
    omega
  have hname : c_str ((dirent_to_host_at h d 0).drop (64 * 0 + 5)) = [46] := by
    unfold dirent_to_host_at
    rw [drop_mem_store_after _ _ _ _ (by rw [length_host_bytes, hdlen, hBS]; omega)
      (by rw [length_host_bytes]; omega), hd, List.append_assoc, Nat.mul_zero, Nat.zero_add,
      dirent_mem_drop_5, builder_dirent_name]
    have : strncpy_into 58 [46] 58 = 46 :: 0 :: List.replicate 56 0 := by decide
    rw [this, List.cons_append, List.cons_append, c_str_cons_nul 46 (by norm_num)]
  have hscan : (scan_root_dir h [46] (BS / 64) 0 d (-1)).2.2 = true := by
    have h64 : BS / 64 = 63 + 1 := by rw [hBS]
    rw [h64, scan_root_dir]
    simp only []
    rw [if_pos ⟨hino, hname⟩]
  exact (adder_read_phase_to_scan h (builder_image h after now size_kib inode_count)
    [46] content (superblock_mem h sbd) ibm first_bit_block dbm2 blocks2 (inode_mem h rd) d
    i2 (by rw [hsb, f1])
    (by rw [hsb, f2, hBS]; exact i4)
    (by rw [hsb, f3]
        have : (2 * BS) % 2 ^ 64 = 2 * BS := by rw [hBS]; norm_num
        rw [this]
        exact k2)
    (by rw [free_inode_of_inv ibm 0 (length_pread _ _ _ _ i4) i5 (by omega) i6]; omega)
    (by simpa [DIRECT_MAX] using hneed)
    (by rw [hsb, f5]; exact hal)
    (by rw [hsb, f4]
        have : (3 * BS) % 2 ^ 64 = 3 * BS := by rw [hBS]; norm_num
        rw [this]
        exact i11)
    (by rw [hroot, i12]
        have : ((builder_geometry size_kib inode_count).data_region_start * BS) % 2 ^ 32 =
            (builder_geometry size_kib inode_count).data_region_start * BS := by
          rw [hBS]; omega
        rw [this]
        exact i13)).1 hscan

theorem mkfs_adder_of_read_error (h : Endian) (after : List Nat) (clock : Nat → Nat)
    (img file_name : List Nat) (file : Option (List Nat)) (e : adder_error)
    (hn : file_name.length ≤ 57)
    (hr : adder_read_phase h img file_name file = Except.error e) :
    mkfs_adder h after clock img file_name file = { status := some e, output := some img } := by
  unfold mkfs_adder
  rw [if_neg (by omega), copy_image_eq]
  simp only []
  rw [hr]

/-- C2.  Atomicity on rejection.  Whenever the inserter fails with a capacity error (no free
inode, file needing more than 12 blocks, data bitmap exhausted, no free directory slot), a
bad-magic error or a duplicate-name error, nothing has been written after the initial copy:
the output image is byte-identical to the input image. -/
theorem adder_rejection_atomic (h : Endian) (after : List Nat) (clock : Nat → Nat)
    (img file_name : List Nat) (file : Option (List Nat)) (e : adder_error)
    (hst : (mkfs_adder h after clock img file_name file).status = some e)
    (he : e = adder_error.no_free_inode ∨ e = adder_error.file_too_large ∨
      e = adder_error.no_free_data ∨ e = adder_error.dir_full ∨ e = adder_error.bad_magic ∨
      e = adder_error.duplicate_name) :
    (mkfs_adder h after clock img file_name file).output = some img := by
  apply mkfs_adder_error_output h after clock img file_name file e hst
  rcases he with he | he | he | he | he | he <;> rw [he] <;> decide

/-- Witness for C2: on the smallest fresh image, a 49153-byte file is rejected as too large
and a file named `.` is rejected as a duplicate, and in both runs the output is the input
image. -/
theorem adder_rejection_atomic_witness :
    ((mkfs_adder Endian.little [] (fun _ => 0) (builder_image Endian.little [] 0 180 128) [97]
        (some (List.replicate 49153 0))).status = some adder_error.file_too_large ∧
      (mkfs_adder Endian.little [] (fun _ => 0) (builder_image Endian.little [] 0 180 128) [97]
        (some (List.replicate 49153 0))).output =
          some (builder_image Endian.little [] 0 180 128)) ∧
    ((mkfs_adder Endian.little [] (fun _ => 0) (builder_image Endian.little [] 0 180 128) [46]
        (some [1, 2, 3])).status = some adder_error.duplicate_name ∧
      (mkfs_adder Endian.little [] (fun _ => 0) (builder_image Endian.little [] 0 180 128) [46]
        (some [1, 2, 3])).output = some (builder_image Endian.little [] 0 180 128)) := by
  have hv : builder_valid 180 128 = true := by decide
  have r1 := adder_read_phase_too_large Endian.little 180 128 0
    (builder_image Endian.little [] 0 180 128) [97] (List.replicate 49153 0)
    (builder_image_inv Endian.little [] 0 180 128 hv)
    (by rw [List.length_replicate]; norm_num) (by rw [List.length_replicate]; norm_num)
  have r2 := adder_read_phase_dup_fresh Endian.little [] 0 180 128 [1, 2, 3] hv (by decide)
  have h1 := mkfs_adder_of_read_error Endian.little [] (fun _ => 0)
    (builder_image Endian.little [] 0 180 128) [97] (some (List.replicate 49153 0))
    adder_error.file_too_large (by decide) r1
  have h2 := mkfs_adder_of_read_error Endian.little [] (fun _ => 0)
    (builder_image Endian.little [] 0 180 128) [46] (some [1, 2, 3])
    adder_error.duplicate_name (by decide) r2
  have s1 := congrArg adder_result.status h1
  have s2 := congrArg adder_result.status h2
  exact ⟨⟨s1, adder_rejection_atomic Endian.little [] (fun _ => 0)
      (builder_image Endian.little [] 0 180 128) [97] (some (List.replicate 49153 0))
      adder_error.file_too_large s1 (Or.inr (Or.inl rfl))⟩,
    ⟨s2, adder_rejection_atomic Endian.little [] (fun _ => 0)
      (builder_image Endian.little [] 0 180 128) [46] (some [1, 2, 3])
      adder_error.duplicate_name s2 (Or.inr (Or.inr (Or.inr (Or.inr (Or.inr rfl)))))⟩⟩

/-! ## Superblock checksum -/

theorem superblock_mem_split (h : Endian) (sb : superblock_t) :
    ∃ a, a.length = 112 ∧ (∀ c, superblock_mem h { sb with checksum := c } =
      a ++ host_bytes h 4 c) := by
  refine ⟨host_bytes h 4 sb.magic ++ host_bytes h 4 sb.version ++ host_bytes h 4 sb.block_size ++
    host_bytes h 8 sb.total_blocks ++ host_bytes h 8 sb.inode_count ++
    host_bytes h 8 sb.inode_bitmap_start ++ host_bytes h 8 sb.inode_bitmap_blocks ++
    host_bytes h 8 sb.data_bitmap_start ++ host_bytes h 8 sb.data_bitmap_blocks ++
    host_bytes h 8 sb.inode_table_start ++ host_bytes h 8 sb.inode_table_blocks ++
    host_bytes h 8 sb.data_region_start ++ host_bytes h 8 sb.data_region_blocks ++
    host_bytes h 8 sb.root_inode ++ host_bytes h 8 sb.mtime_epoch ++
    host_bytes h 4 sb.flags, ?_, ?_⟩
  · simp [length_host_bytes]
  · intro c
    rfl

theorem crc32_tail_dependent (a : List Nat) (ha : a.length = 116) :
    crc32 (a ++ (List.replicate 3975 0 ++ [1])) 4092 ≠
      crc32 (a ++ List.replicate 3980 0) 4092 := by
  have hlen : (a ++ List.replicate 3975 0).length = 4091 := by
    rw [List.length_append, ha, List.length_replicate]
  have key := crc32_last_byte (a ++ List.replicate 3975 0)
  rw [hlen] at key
  have t1 : ((a ++ List.replicate 3975 0) ++ [0]).length = 4092 := by
    rw [List.length_append, hlen]; rfl
  have t2 : List.replicate 3980 (0 : Nat) = (List.replicate 3975 0 ++ [0]) ++ List.replicate 4 0 := by
    have : 3980 = 3975 + 1 + 4 := rfl
    rw [this, List.replicate_add, List.replicate_add]
    rfl
  have e2 : crc32 (a ++ List.replicate 3980 0) 4092 =
      crc32 ((a ++ List.replicate 3975 0) ++ [0]) 4092 := by
    rw [← crc32_of_take, t2, ← List.append_assoc, ← List.append_assoc, List.take_left' t1]
  rw [e2, ← List.append_assoc]
  exact fun e => key e.symm

/-- The checksum `superblock_crc_finalize` stores changes with the last byte it reads, which
lies 3975 bytes past the end of the struct. -/
theorem superblock_crc_reads_past_struct (h : Endian) (sb : superblock_t) :
    (superblock_crc_finalize h (List.replicate 3975 0 ++ [1]) sb).checksum ≠
      crc32 (superblock_mem h { sb with checksum := 0 } ++ List.replicate (BS - 116) 0)
        (BS - 4) :=
  crc32_tail_dependent (superblock_mem h { sb with checksum := 0 }) (length_superblock_mem h _)

theorem finalized_block_checksum (h : Endian) (after : List Nat) (sb : superblock_t)
    (rest : List Nat) :
    field_at h (superblock_mem h (superblock_crc_finalize h after sb) ++ rest) 112 4 =
        (superblock_crc_finalize h after sb).checksum ∧
      mem_store (superblock_mem h (superblock_crc_finalize h after sb) ++ rest) 112
          [0, 0, 0, 0] =
        superblock_mem h { sb with checksum := 0 } ++ rest := by
  obtain ⟨a, ha, hsplit⟩ := superblock_mem_split h sb
  have m1 := hsplit 0
  have m2 : superblock_mem h (superblock_crc_finalize h after sb) =
      a ++ host_bytes h 4 (superblock_crc_finalize h after sb).checksum := hsplit _
  have hc : (superblock_crc_finalize h after sb).checksum < 256 ^ 4 := crc32_lt _ _
  rw [m1, m2]
  generalize (superblock_crc_finalize h after sb).checksum = c at hc
  constructor
  · rw [List.append_assoc, field_at_skip h a _ 112 4 (Nat.le_of_eq ha), ha, Nat.sub_self,
      field_at_head, Nat.mod_eq_of_lt hc]
  · unfold mem_store
    have hl : (a ++ host_bytes h 4 c).length = 112 + [0, 0, 0, (0 : Nat)].length := by
      rw [List.length_append, ha, length_host_bytes]; rfl
    rw [List.append_assoc a, List.take_left' ha, ← List.append_assoc a,
      List.drop_left' hl, host_bytes_zero]

theorem builder_block0_checksum (h : Endian) (after : List Nat) (now size_kib inode_count : Nat)
    (hv : builder_valid size_kib inode_count = true) :
    ∃ block0 sb0, pread (builder_image h after now size_kib inode_count) 0 BS = some block0 ∧
      field_at h block0 112 4 = (superblock_crc_finalize h after sb0).checksum ∧
      mem_store block0 112 [0, 0, 0, 0] =
        superblock_mem h { sb0 with checksum := 0 } ++ List.replicate (BS - 116) 0 := by
  obtain ⟨k0, _⟩ := builder_image_reads h after now size_kib inode_count hv
  unfold builder_superblock at k0
  simp only [] at k0
  exact ⟨_, _, k0, finalized_block_checksum h after _ _⟩

/-- C8 (code defect).  The checksum stored in block 0 is not a function of block 0.
`superblock_crc_finalize` runs `crc32` over `BS - 4` bytes starting at the 116-byte struct
`sb`, so 3976 of the bytes it sums are whatever follows `sb` in memory; they never reach the
image.  With a non-zero byte there (here the last one read), the checksum field of the image
the formatter writes for `size_kib = 180`, `inode_count = 128` differs from CRC32 of the
first 4092 bytes of block 0 taken with the checksum field zeroed. -/
theorem superblock_checksum_not_of_block :
    ∃ block0, pread (builder_image Endian.little (List.replicate 3975 0 ++ [1]) 0 180 128) 0
        BS = some block0 ∧
      field_at Endian.little block0 112 4 ≠
        crc32 (mem_store block0 112 [0, 0, 0, 0]) (BS - 4) := by
  obtain ⟨block0, sb0, h1, h2, h3⟩ := builder_block0_checksum Endian.little
    (List.replicate 3975 0 ++ [1]) 0 180 128 (by decide)
  refine ⟨block0, h1, ?_⟩
  rw [h2, h3]
  exact superblock_crc_reads_past_struct Endian.little sb0

/-! ## Inode checksum -/

/-- The 128 bytes of a finalized inode: the last eight hold, in the byte order of the host,
the CRC32 of the first 120. -/
theorem finalized_inode_bytes (h : Endian) (ino : inode_t) (hd : ino.direct.length = 12) :
    (inode_mem h (inode_crc_finalize h ino)).drop 120 =
        host_bytes h 8 (crc32 (inode_mem h (inode_crc_finalize h ino)) 120) ∧
      field_at h (inode_mem h (inode_crc_finalize h ino)) 120 8 =
        crc32 (inode_mem h (inode_crc_finalize h ino)) 120 := by
  obtain ⟨_, p2, _, _, p5, p6⟩ := inode_crc_finalize_props h ino hd
  refine ⟨?_, p6⟩
  rw [p5, ← crc32_of_take (inode_mem h (inode_crc_finalize h ino)), p2]

theorem inode_to_disk_direct_length (ino : inode_t) :
    (inode_to_disk ino).direct.length = ino.direct.length := by
  simp [inode_to_disk]

theorem builder_root_inode_bytes (h : Endian) (sb : superblock_t) (d : Nat) :
    (inode_mem h (builder_root_inode h sb d)).drop 120 =
        host_bytes h 8 (crc32 (inode_mem h (builder_root_inode h sb d)) 120) ∧
      field_at h (inode_mem h (builder_root_inode h sb d)) 120 8 =
        crc32 (inode_mem h (builder_root_inode h sb d)) 120 := by
  unfold builder_root_inode
  apply finalized_inode_bytes
  rw [inode_to_disk_direct_length]
  simp

theorem adder_new_inode_bytes (h : Endian) (clock : Nat → Nat) (p : adder_plan)
    (hl : p.data_blocks.length = 12) :
    (inode_mem h (adder_new_inode h clock p)).drop 120 =
        host_bytes h 8 (crc32 (inode_mem h (adder_new_inode h clock p)) 120) ∧
      field_at h (inode_mem h (adder_new_inode h clock p)) 120 8 =
        crc32 (inode_mem h (adder_new_inode h clock p)) 120 := by
  unfold adder_new_inode
  apply finalized_inode_bytes
  rw [inode_to_disk_direct_length]
  exact hl

theorem adder_root_inode_bytes (h : Endian) (clock : Nat → Nat) (p : adder_plan)
    (hl : p.root_inode.direct.length = 12) :
    (inode_mem h (adder_root_inode h clock p)).drop 120 =
        host_bytes h 8 (crc32 (inode_mem h (adder_root_inode h clock p)) 120) ∧
      field_at h (inode_mem h (adder_root_inode h clock p)) 120 8 =
        crc32 (inode_mem h (adder_root_inode h clock p)) 120 := by
  unfold adder_root_inode
  apply finalized_inode_bytes
  rw [inode_to_disk_direct_length]
  exact hl

/-- The two inodes a successful insert writes, on an image that satisfies the invariant. -/
theorem insert_inode_crc_of_inv (h : Endian) (after : List Nat) (clock : Nat → Nat)
    (size_kib inode_count j : Nat) (img file_name : List Nat) (file : Option (List Nat))
    (out : List Nat) (hinv : image_inv h size_kib inode_count j img)
    (hs : mkfs_adder h after clock img file_name file =
      { status := none, output := some out }) :
    ∃ inode_bitmap m_new m_root,
      pread img BS BS = some inode_bitmap ∧
      pread out (3 * BS + (find_free_bit inode_bitmap BS).toNat * INODE_SIZE) INODE_SIZE =
        some m_new ∧
      pread out (3 * BS) INODE_SIZE = some m_root ∧
      m_new.drop 120 = host_bytes h 8 (crc32 m_new 120) ∧
      field_at h m_new 120 8 = crc32 m_new 120 ∧
      m_root.drop 120 = host_bytes h 8 (crc32 m_root 120) ∧
      field_at h m_root 120 8 = crc32 m_root 120 := by
  obtain ⟨_, p, hp1, hp2⟩ := mkfs_adder_ok h after clock img file_name file out hs
  obtain ⟨hpf, _⟩ := plan_facts_of_inv h size_kib inode_count j img file_name file p hinv hp1
  obtain ⟨_, _, _, k4, k5, _, _⟩ :=
    adder_write_reads h after clock size_kib inode_count j img file_name p hinv.valid hpf
  rw [← hp2] at k4 k5
  have hslot : (find_free_bit p.inode_bitmap BS).toNat = j + 1 := by
    rw [free_inode_of_inv p.inode_bitmap j (length_pread _ _ _ _ hpf.ibm) hpf.ibm_lt
      (by have := hpf.j_le; omega) hpf.ibm_bits, Int.toNat_ofNat]
  obtain ⟨a1, a2⟩ := adder_new_inode_bytes h clock p hpf.blocks_len
  obtain ⟨b1, b2⟩ := adder_root_inode_bytes h clock p
    (plan_root_direct_length h size_kib inode_count j img p hpf)
  refine ⟨p.inode_bitmap, inode_mem h (adder_new_inode h clock p),
    inode_mem h (adder_root_inode h clock p), hpf.ibm, ?_, k4, a1, a2, b1, b2⟩
  rw [hslot]
  exact k5

/-- C9.  Inode checksum.  For every inode record (128 bytes in memory), `inode_crc_finalize`
leaves bytes 0..119 as they were and sets `inode_crc` to the CRC32 of those 120 bytes, a value
below `2 ^ 32`; the result does not depend on the previous `inode_crc`, and a second
application changes nothing.  Consequently, in the image the formatter writes for valid
parameters the root inode (at `3 * BS`), and in the output of a successful insert into an
image the tools produced both the new inode (in the slot of the lowest clear bit of the
input's inode bitmap) and the rewritten root inode, hold in bytes 120..127 the CRC32 of their
bytes 0..119; the eight bytes are the 64-bit value in the byte order of the host, as the
program never converts this field when it writes. -/
theorem inode_crc_finalize_correct (h : Endian) (after : List Nat) (clock : Nat → Nat)
    (now size_kib inode_count : Nat) (img file_name : List Nat) (file : Option (List Nat))
    (out : List Nat) (ino : inode_t)
    (hd : ino.direct.length = DIRECT_MAX)
    (hv : builder_valid size_kib inode_count = true)
    (hr : Reachable h img)
    (hs : mkfs_adder h after clock img file_name file =
      { status := none, output := some out }) :
    ((inode_mem h (inode_crc_finalize h ino)).length = INODE_SIZE ∧
      (inode_mem h (inode_crc_finalize h ino)).take 120 = (inode_mem h ino).take 120 ∧
      (inode_crc_finalize h ino).inode_crc = crc32 (inode_mem h ino) 120 ∧
      (inode_crc_finalize h ino).inode_crc < 2 ^ 32 ∧
      (∀ c, inode_crc_finalize h { ino with inode_crc := c } = inode_crc_finalize h ino) ∧
      inode_crc_finalize h (inode_crc_finalize h ino) = inode_crc_finalize h ino) ∧
    (∃ m, pread (builder_image h after now size_kib inode_count) (3 * BS) INODE_SIZE = some m ∧
      m.drop 120 = host_bytes h 8 (crc32 m 120) ∧
      field_at h m 120 8 = crc32 m 120) ∧
    (∃ inode_bitmap m_new m_root,
      pread img BS BS = some inode_bitmap ∧
      pread out (3 * BS + (find_free_bit inode_bitmap BS).toNat * INODE_SIZE) INODE_SIZE =
        some m_new ∧
      pread out (3 * BS) INODE_SIZE = some m_root ∧
      m_new.drop 120 = host_bytes h 8 (crc32 m_new 120) ∧
      field_at h m_new 120 8 = crc32 m_new 120 ∧
      m_root.drop 120 = host_bytes h 8 (crc32 m_root 120) ∧
      field_at h m_root 120 8 = crc32 m_root 120) := by
  have hBS : BS = 4096 := rfl
  refine ⟨?_, ?_, ?_⟩
  · obtain ⟨p1, p2, p3, p4, _, _⟩ := inode_crc_finalize_props h ino hd
    obtain ⟨i1, i2⟩ := inode_crc_finalize_idem h ino hd
    refine ⟨p1, p2, ?_, p4, i1, i2⟩
    rw [p3, crc32_of_take]
  · obtain ⟨_, _, _, k3, _⟩ := builder_image_reads h after now size_kib inode_count hv
    have hl : (builder_root_inode h (builder_superblock h after now size_kib inode_count)
        (builder_geometry size_kib inode_count).data_region_start).direct.length = 12 :=
      builder_root_direct_length h _ _
    have hsub := pread_sub _ (3 * BS) BS _ 0 128 k3 (by rw [hBS]; omega)
    rw [List.drop_zero, List.take_left' (length_inode_mem h _ hl), Nat.add_zero] at hsub
    obtain ⟨a1, a2⟩ := builder_root_inode_bytes h
      (builder_superblock h after now size_kib inode_count)
      (builder_geometry size_kib inode_count).data_region_start
    exact ⟨inode_mem h (builder_root_inode h
      (builder_superblock h after now size_kib inode_count)
      (builder_geometry size_kib inode_count).data_region_start), hsub, a1, a2⟩
  · obtain ⟨sk, ic, j, hinv⟩ := reachable_inv h img hr
    exact insert_inode_crc_of_inv h after clock sk ic j img file_name file out hinv hs

/-- Witness for C9: an empty regular-file inode with a stale checksum, the smallest fresh
image and a three-byte file. -/
theorem inode_crc_finalize_correct_witness :
    ∃ out, mkfs_adder Endian.little [] (fun _ => 0) (builder_image Endian.little [] 0 180 128)
        [97] (some [1, 2, 3]) = { status := none, output := some out } ∧
      (inode_crc_finalize Endian.little
          { mode := 32768, links := 1, uid := 0, gid := 0, size_bytes := 0, atime := 0,
            mtime := 0, ctime := 0, direct := List.replicate 12 0, reserved_0 := 0,
            reserved_1 := 0, reserved_2 := 0, proj_id := PROJECT_ID, uid16_gid16 := 0,
            xattr_ptr := 0, inode_crc := 7 }).inode_crc < 2 ^ 32 ∧
      (∃ m, pread (builder_image Endian.little [] 0 180 128) (3 * BS) INODE_SIZE = some m ∧
        field_at Endian.little m 120 8 = crc32 m 120) ∧
      (∃ inode_bitmap m_new m_root,
        pread (builder_image Endian.little [] 0 180 128) BS BS = some inode_bitmap ∧
        pread out (3 * BS + (find_free_bit inode_bitmap BS).toNat * INODE_SIZE) INODE_SIZE =
          some m_new ∧
        pread out (3 * BS) INODE_SIZE = some m_root ∧
        field_at Endian.little m_new 120 8 = crc32 m_new 120 ∧
        field_at Endian.little m_root 120 8 = crc32 m_root 120) := by
  obtain ⟨out, hs⟩ := adder_succeeds_fresh Endian.little [] [] (fun _ => 0) 0 180 128 [97]
    [1, 2, 3] (by decide) (by decide) (by decide) (by decide) (by decide)
  obtain ⟨⟨_, _, _, a4, _, _⟩, ⟨m, b1, _, b3⟩, ibm, mn, mr, c1, c2, c3, _, c5, _, c7⟩ :=
    inode_crc_finalize_correct Endian.little [] (fun _ => 0) 0 180 128
      (builder_image Endian.little [] 0 180 128) [97] (some [1, 2, 3]) out
      { mode := 32768, links := 1, uid := 0, gid := 0, size_bytes := 0, atime := 0,
        mtime := 0, ctime := 0, direct := List.replicate 12 0, reserved_0 := 0,
        reserved_1 := 0, reserved_2 := 0, proj_id := PROJECT_ID, uid16_gid16 := 0,
        xattr_ptr := 0, inode_crc := 7 }
      (by decide) (by decide)
      (Reachable.format [] 0 180 128 (builder_image Endian.little [] 0 180 128)
        (by simp [mkfs_builder, builder_valid])) hs
  exact ⟨out, hs, a4, ⟨m, b1, b3⟩, ibm, mn, mr, c1, c2, c3, c5, c7⟩

/-! ## Validation of the formatter -/

/-- C17.  Formatter validation.  Given an image path, the formatter stops with status 1
before any file is opened or created (no image is written) if and only if `size_kib < 180`,
`size_kib > 4096`, `size_kib` is not a multiple of 4, `inode_count < 128` or
`inode_count > 512`; for every other pair it goes on and writes the image. -/
theorem builder_validation (h : Endian) (after : List Nat) (now size_kib inode_count : Nat) :
    (mkfs_builder h after now size_kib inode_count = none ↔
      size_kib < 180 ∨ size_kib > 4096 ∨ size_kib % 4 ≠ 0 ∨ inode_count < 128 ∨
        inode_count > 512) ∧
    (¬ (size_kib < 180 ∨ size_kib > 4096 ∨ size_kib % 4 ≠ 0 ∨ inode_count < 128 ∨
        inode_count > 512) →
      mkfs_builder h after now size_kib inode_count =
        some (builder_image h after now size_kib inode_count)) := by
  have hiff := builder_valid_iff size_kib inode_count
  unfold mkfs_builder
  by_cases hv : builder_valid size_kib inode_count = true
  · have hc := hiff.1 hv
    rw [if_pos hv]
    refine ⟨⟨fun e => absurd e (by simp), fun e => ?_⟩, fun _ => rfl⟩
    omega
  · rw [if_neg hv]
    have hn : ¬ (180 ≤ size_kib ∧ size_kib ≤ 4096 ∧ size_kib % 4 = 0 ∧ 128 ≤ inode_count ∧
        inode_count ≤ 512) := fun hc => hv (hiff.2 hc)
    refine ⟨⟨fun _ => ?_, fun _ => rfl⟩, fun hc => ?_⟩
    · omega
    · exfalso
      omega

/-! ## `set_bit` -/

theorem set_bit_set_bit (bm : List Nat) (k : Nat) (hk : k / 8 < bm.length) :
    set_bit (set_bit bm k) k = set_bit bm k := by
  have h1 : (set_bit bm k).getD (k / 8) 0 = (bm.getD (k / 8) 0 ||| (1 <<< (k % 8))) % 256 := by
    rw [getD_set_bit bm k (k / 8) hk, if_pos rfl]
  have hor : ((bm.getD (k / 8) 0 ||| (1 <<< (k % 8))) % 256 ||| (1 <<< (k % 8))) % 256 =
      (bm.getD (k / 8) 0 ||| (1 <<< (k % 8))) % 256 := by
    generalize bm.getD (k / 8) 0 = b
    have e256 : (256 : Nat) = 2 ^ 8 := rfl
    apply Nat.eq_of_testBit_eq
    intro i
    rw [e256]
    simp only [Nat.testBit_mod_two_pow, Nat.testBit_or]
    by_cases hi : i < 8 <;> simp [hi]
  have e : set_bit (set_bit bm k) k = (set_bit bm k).set (k / 8)
      (((set_bit bm k).getD (k / 8) 0 ||| (1 <<< (k % 8))) % 256) := rfl
  rw [e, h1, hor]
  unfold set_bit
  rw [List.set_set]

theorem find_free_bit_after_set (bm : List Nat) (n k : Nat) (hn : n ≤ bm.length)
    (hb : ∀ b ∈ bm, b < 256) (hk : k < 8 * n) (hf : find_free_bit bm n = (k : Int)) :
    find_free_bit (set_bit bm k) n = -1 ∨
      ∃ r, find_free_bit (set_bit bm k) n = (r : Int) ∧ k < r := by
  have hk8 : k / 8 < bm.length := by omega
  have hlow : ∀ m, m < k → is_bit_set bm m = true := by
    rcases find_free_bit_lowest bm n hn hb with ⟨e, _⟩ | ⟨r, _, e, _, hr⟩
    · rw [e] at hf
      omega
    · rw [e] at hf
      have : r = k := by omega
      rw [← this]
      exact hr
  rcases find_free_bit_lowest (set_bit bm k) n (by rw [length_set_bit]; exact hn)
      (set_bit_lt bm k hb) with ⟨e, _⟩ | ⟨r, _, e, hclear, _⟩
  · exact Or.inl e
  · refine Or.inr ⟨r, e, ?_⟩
    rw [is_bit_set_set_bit bm k r hk8] at hclear
    by_contra hle
    have hrk : r ≤ k := by omega
    by_cases heq : r = k
    · simp [heq] at hclear
    · have := hlow r (by omega)
      simp [this] at hclear

/-- C19.  `set_bit` is an idempotent single-bit update.  For every bitmap (an array of
bytes) and every bit index `k` inside it: after `set_bit` bit `k` is set, every other bit and
every byte other than byte `k / 8` is as before, the size is the same, a second `set_bit` of
the same index changes nothing, and if `find_free_bit` returned `k` before, it returns
afterwards either -1 or an index strictly above `k`. -/
theorem set_bit_single_idempotent (bm : List Nat) (k : Nat) (hb : ∀ b ∈ bm, b < 256)
    (hk : k < 8 * bm.length) :
    is_bit_set (set_bit bm k) k = true ∧
    (∀ k2, k2 ≠ k → is_bit_set (set_bit bm k) k2 = is_bit_set bm k2) ∧
    (∀ i, i ≠ k / 8 → (set_bit bm k).getD i 0 = bm.getD i 0) ∧
    (set_bit bm k).length = bm.length ∧
    (∀ b ∈ set_bit bm k, b < 256) ∧
    set_bit (set_bit bm k) k = set_bit bm k ∧
    (∀ n, n ≤ bm.length → find_free_bit bm n = (k : Int) →
      find_free_bit (set_bit bm k) n = -1 ∨
        ∃ r, find_free_bit (set_bit bm k) n = (r : Int) ∧ k < r) := by
  have hk8 : k / 8 < bm.length := by omega
  refine ⟨?_, ?_, ?_, length_set_bit bm k, set_bit_lt bm k hb, set_bit_set_bit bm k hk8, ?_⟩
  · rw [is_bit_set_set_bit bm k k hk8]
    simp
  · intro k2 hne
    rw [is_bit_set_set_bit bm k k2 hk8]
    simp [hne]
  · intro i hne
    rw [getD_set_bit bm k i hk8, if_neg hne]
  · intro n hn hf
    have hkn : k < 8 * n := by
      rcases find_free_bit_lowest bm n hn hb with ⟨e, _⟩ | ⟨r, hr, e, _, _⟩
      · rw [e] at hf
        omega
      · rw [e] at hf
        omega
    exact find_free_bit_after_set bm n k hn hb hkn hf

/-- Witness for C19: bit 3 of the two-byte bitmap `07 00`. -/
theorem set_bit_single_idempotent_witness :
    is_bit_set (set_bit [7, 0] 3) 3 = true ∧
    (∀ k2, k2 ≠ 3 → is_bit_set (set_bit [7, 0] 3) k2 = is_bit_set [7, 0] k2) ∧
    (∀ i, i ≠ 3 / 8 → (set_bit [7, 0] 3).getD i 0 = [7, 0].getD i 0) ∧
    (set_bit [7, 0] 3).length = [7, 0].length ∧
    (∀ b ∈ set_bit [7, 0] 3, b < 256) ∧
    set_bit (set_bit [7, 0] 3) 3 = set_bit [7, 0] 3 ∧
    (∀ n, n ≤ [7, 0].length → find_free_bit [7, 0] n = ((3 : Nat) : Int) →
      find_free_bit (set_bit [7, 0] 3) n = -1 ∨
        ∃ r, find_free_bit (set_bit [7, 0] 3) n = (r : Int) ∧ 3 < r) :=
  set_bit_single_idempotent [7, 0] 3 (by decide) (by decide)

/-! ## CRC32 against its bit-by-bit definition -/

theorem crc32_init_step_eq (c : Nat) : crc32_init_step c = crc32_bit_step c := by
  unfold crc32_init_step crc32_bit_step
  rw [Nat.and_one_is_mod, Nat.shiftRight_one, Nat.xor_comm]
  by_cases hc : c % 2 = 1
  · rw [if_pos (by omega), if_pos hc]
  · rw [if_neg (by omega), if_neg hc]

/-- A bit step ignores an even summand but for its shift. -/
theorem crc32_bit_step_xor (a b : Nat) (hb : b % 2 = 0) :
    crc32_bit_step (a ^^^ b) = crc32_bit_step a ^^^ (b / 2) := by
  have hmod : (a ^^^ b) % 2 = a % 2 := by
    rw [Nat.xor_mod_two_eq]
    omega
  have hdiv : (a ^^^ b) / 2 = a / 2 ^^^ b / 2 := Nat.xor_div_two
  unfold crc32_bit_step
  rw [hmod, hdiv]
  by_cases hc : a % 2 = 1
  · rw [if_pos hc, if_pos hc, Nat.xor_assoc, Nat.xor_assoc, Nat.xor_comm (b / 2)]
  · rw [if_neg hc, if_neg hc]

theorem crc32_bit_steps_xor (n : Nat) :
    ∀ a b, Nat.iterate crc32_bit_step n (a ^^^ b * 2 ^ n) = Nat.iterate crc32_bit_step n a ^^^ b := by
  induction n with
  | zero =>
    intro a b
    simp
  | succ n ih =>
    intro a b
    rw [Function.iterate_succ_apply, Function.iterate_succ_apply]
    have he : b * 2 ^ (n + 1) = (b * 2 ^ n) * 2 := by rw [pow_succ, Nat.mul_assoc]
    rw [he, crc32_bit_step_xor a (b * 2 ^ n * 2) (by omega)]
    have hd : b * 2 ^ n * 2 / 2 = b * 2 ^ n := by omega
    rw [hd, ih]

theorem CRC32_TAB_getD (i : Nat) (hi : i < 256) :
    CRC32_TAB.getD i 0 = Nat.iterate crc32_bit_step 8 i := by
  unfold CRC32_TAB
  rw [List.getD_eq_getElem?_getD, List.getElem?_map, List.getElem?_range hi]
  simp only [Option.map_some', Option.getD_some, crc32_init_entry, crc32_init_step_eq,
    Function.iterate_succ_apply, Function.iterate_zero, id_eq]

/-- The table step of `crc32` is the byte step of the bit-by-bit CRC. -/
theorem crc32_table_step (c p : Nat) (hp : p < 256) :
    CRC32_TAB.getD ((c ^^^ p) &&& 0xFF) 0 ^^^ (c >>> 8) = crc32_bitwise_byte c p := by
  have hm : (c ^^^ p) &&& 0xFF = (c ^^^ p) % 256 := Nat.and_pow_two_sub_one_eq_mod _ 8
  have hlt : (c ^^^ p) % 256 < 256 := Nat.mod_lt _ (by norm_num)
  rw [hm, CRC32_TAB_getD _ hlt]
  unfold crc32_bitwise_byte
  have hsplit : c ^^^ p = (c ^^^ p) % 256 ^^^ (c >>> 8) * 2 ^ 8 := by
    apply Nat.eq_of_testBit_eq
    intro i
    have e256 : (256 : Nat) = 2 ^ 8 := rfl
    have hp8 : p < 2 ^ 8 := hp
    rw [e256, ← Nat.shiftLeft_eq, Nat.testBit_xor, Nat.testBit_xor, Nat.testBit_mod_two_pow,
      Nat.testBit_xor, Nat.testBit_shiftLeft, Nat.testBit_shiftRight]
    by_cases hi : i < 8
    · have hnge : ¬ 8 ≤ i := by omega
      simp [hi, hnge]
    · have hge : 8 ≤ i := by omega
      have hpi : p.testBit i = false :=
        Nat.testBit_lt_two_pow (Nat.lt_of_lt_of_le hp8 (Nat.pow_le_pow_right (by norm_num) hge))
      have : 8 + (i - 8) = i := by omega
      simp [hi, hge, hpi, this]
  conv => rhs; rw [hsplit]
  rw [crc32_bit_steps_xor 8]

theorem crc32_loop_eq_foldl (data : List Nat) (hd : ∀ b ∈ data, b < 256) :
    ∀ c, crc32_loop c data = data.foldl crc32_bitwise_byte c := by
  induction data with
  | nil =>
    intro c
    rfl
  | cons p ps ih =>
    intro c
    rw [crc32_loop, List.foldl_cons, crc32_table_step c p (hd p (List.mem_cons_self _ _))]
    exact ih (fun b hb => hd b (List.mem_cons_of_mem _ hb)) _

/-- C18.  `crc32` is the classic CRC-32.  For every byte sequence the table-driven `crc32`
of its first `n` bytes equals the bit-by-bit reflected CRC with polynomial `0xEDB88320`,
initial value `0xFFFFFFFF` and final xor `0xFFFFFFFF` of those bytes; every entry
`CRC32_TAB[i]` is `i` after eight shift/xor steps; the CRC of the nine bytes `123456789` is
`0xCBF43926` and the CRC of the empty sequence is 0. -/
theorem crc32_is_classic (data : List Nat) (n : Nat) (hd : ∀ b ∈ data, b < 256) :
    crc32 data n = crc32_bitwise (data.take n) ∧
    CRC32_TAB.length = 256 ∧
    (∀ i, i < 256 → CRC32_TAB.getD i 0 = Nat.iterate crc32_bit_step 8 i) ∧
    crc32 [49, 50, 51, 52, 53, 54, 55, 56, 57] 9 = 0xCBF43926 ∧
    crc32 [] 0 = 0 := by
  refine ⟨?_, by simp [CRC32_TAB], CRC32_TAB_getD, by decide!, by decide⟩
  unfold crc32 crc32_bitwise
  rw [crc32_loop_eq_foldl _ (fun b hb => hd b (List.mem_of_mem_take hb))]

/-- Witness for C18: the first four bytes of `a b c d e`. -/
theorem crc32_is_classic_witness :
    crc32 [97, 98, 99, 100, 101] 4 = crc32_bitwise ([97, 98, 99, 100, 101].take 4) ∧
    CRC32_TAB.length = 256 ∧
    (∀ i, i < 256 → CRC32_TAB.getD i 0 = Nat.iterate crc32_bit_step 8 i) ∧
    crc32 [49, 50, 51, 52, 53, 54, 55, 56, 57] 9 = 0xCBF43926 ∧
    crc32 [] 0 = 0 :=
  crc32_is_classic [97, 98, 99, 100, 101] 4 (by decide)

/-! ## The direct-block cap -/

/-- The read phase reports a file as too large only at the size check. -/
theorem adder_read_phase_too_large_inv (h : Endian) (img file_name : List Nat)
    (file : Option (List Nat))
    (hr : adder_read_phase h img file_name file = Except.error adder_error.file_too_large) :
    ∃ content, file = some content ∧
      DIRECT_MAX < ((content.length % 2 ^ 64 + BS - 1) % 2 ^ 64) / BS := by
  unfold adder_read_phase at hr
  cases h1 : pread img 0 116 with
  | none => rw [h1] at hr; exact absurd hr (by simp)
  | some sb_mem =>
    rw [h1] at hr
    simp only [] at hr
    by_cases hm : (superblock_to_host (superblock_of_mem h sb_mem)).magic ≠ 0x4D565346
    · rw [if_pos hm] at hr; exact absurd hr (by simp)
    · rw [if_neg hm] at hr
      cases h2 : pread img (((superblock_to_host (superblock_of_mem h sb_mem)).inode_bitmap_start
          * BS) % 2 ^ 64) BS with
      | none => rw [h2] at hr; exact absurd hr (by simp)
      | some inode_bitmap =>
        rw [h2] at hr
        simp only [] at hr
        cases h3 : pread img (((superblock_to_host (superblock_of_mem h sb_mem)).data_bitmap_start
            * BS) % 2 ^ 64) BS with
        | none => rw [h3] at hr; exact absurd hr (by simp)
        | some data_bitmap0 =>
          rw [h3] at hr
          simp only [] at hr
          by_cases hfi : find_free_bit inode_bitmap BS = -1
          · rw [if_pos hfi] at hr; exact absurd hr (by simp)
          · rw [if_neg hfi] at hr
            cases file with
            | none => exact absurd hr (by simp)
            | some content =>
              simp only [] at hr
              by_cases hbn : ((content.length % 2 ^ 64 + BS - 1) % 2 ^ 64) / BS > DIRECT_MAX
              · exact ⟨content, rfl, hbn⟩
              · rw [if_neg hbn] at hr
                cases h4 : alloc_data_blocks
                    (superblock_to_host (superblock_of_mem h sb_mem)).data_region_start
                    (((content.length % 2 ^ 64 + BS - 1) % 2 ^ 64) / BS) 0 data_bitmap0
                    (List.replicate DIRECT_MAX 0) with
                | none => rw [h4] at hr; exact absurd hr (by simp)
                | some pr =>
                  obtain ⟨data_bitmap, data_blocks⟩ := pr
                  rw [h4] at hr
                  simp only [] at hr
                  cases h5 : pread img
                      (((superblock_to_host (superblock_of_mem h sb_mem)).inode_table_start * BS)
                        % 2 ^ 64) 128 with
                  | none => rw [h5] at hr; exact absurd hr (by simp)
                  | some root_mem =>
                    rw [h5] at hr
                    simp only [] at hr
                    cases h6 : pread img
                        (((inode_to_host (inode_of_mem h root_mem)).direct.getD 0 0 * BS)
                          % 2 ^ 32) BS with
                    | none => rw [h6] at hr; exact absurd hr (by simp)
                    | some root_dir_block0 =>
                      rw [h6] at hr
                      simp only [] at hr
                      cases h7 : scan_root_dir h file_name (BS / 64) 0 root_dir_block0 (-1) with
                      | mk blk rest =>
                        obtain ⟨fe, ex⟩ := rest
                        rw [h7] at hr
                        simp only [] at hr
                        cases ex with
                        | true => exact absurd hr (by simp)
                        | false =>
                          simp only [Bool.false_eq_true, if_false] at hr
                          by_cases hfe : fe = -1
                          · rw [if_pos hfe] at hr; exact absurd hr (by simp)
                          · rw [if_neg hfe] at hr; exact absurd hr (by simp)

/-- On an image that satisfies the invariant the run reaches the size check, and a file
whose block count exceeds `DIRECT_MAX` is rejected there. -/
theorem adder_read_phase_size_check (h : Endian) (size_kib inode_count j : Nat)
    (img file_name content : List Nat) (hinv : image_inv h size_kib inode_count j img)
    (hbig : DIRECT_MAX < ((content.length % 2 ^ 64 + BS - 1) % 2 ^ 64) / BS) :
    adder_read_phase h img file_name (some content) =
      Except.error adder_error.file_too_large := by
  have hBS : BS = 4096 := rfl
  obtain ⟨hv, hj, ⟨sbd, t, c, i1, i2, i3⟩, ⟨ibm, i4, i5, i6⟩, ⟨dbm, i7, i8, i9⟩, _, _⟩ := hinv
  obtain ⟨f1, f2, f3, f4, f5⟩ := host_superblock_fields size_kib inode_count t c
  have hsb : superblock_to_host (superblock_of_mem h (superblock_mem h sbd)) =
      host_superblock size_kib inode_count t c := by
    rw [superblock_of_mem_self h sbd i1, i3]
  unfold adder_read_phase
  rw [i2]
  simp only []
  rw [hsb, if_neg (by rw [f1]; simp), f2, f3]
  have o1 : (1 * BS) % 2 ^ 64 = BS := by rw [hBS]; norm_num
  have o2 : (2 * BS) % 2 ^ 64 = 2 * BS := by rw [hBS]; norm_num
  rw [o1, o2, i4]
  simp only []
  rw [i7]
  simp only []
  rw [if_neg (by
    rw [free_inode_of_inv ibm j (length_pread _ _ _ _ i4) i5 hj i6]; omega)]
  rw [if_pos hbig]

theorem blocks_needed_ceil (L : Nat) (hL : L + 4095 < 2 ^ 64) :
    L % 2 ^ 64 = L ∧
    ((L % 2 ^ 64 + BS - 1) % 2 ^ 64) / BS = (L + BS - 1) / BS ∧
    (DIRECT_MAX < (L + BS - 1) / BS ↔ 49152 < L) ∧
    L ≤ (L + BS - 1) / BS * BS ∧ (L + BS - 1) / BS * BS < L + BS := by
  have hBS : BS = 4096 := rfl
  have e : L % 2 ^ 64 = L := Nat.mod_eq_of_lt (by omega)
  refine ⟨e, ?_, ?_, ?_, ?_⟩
  · rw [e, hBS, Nat.mod_eq_of_lt (by omega)]
  · simp only [DIRECT_MAX, hBS]
    omega
  · rw [hBS]
    omega
  · rw [hBS]
    omega

/-- C12.  Direct-block cap.  For every file length `L` with `L + 4095 < 2 ^ 64` the inserter
computes `blocks_needed = ceil (L / 4096)`, and on an image the tools produced it rejects the
file as too large if and only if `blocks_needed > 12`, that is if and only if `L > 49152`.
On any image whatever, a too-large rejection implies `L > 49152`, a file with `L > 49152` is
never accepted, and an accepted file is recorded with that block count, at most 12. -/
theorem direct_block_cap (h : Endian) (after : List Nat) (clock : Nat → Nat)
    (img file_name content : List Nat)
    (hL : content.length + 4095 < 2 ^ 64) (hr : Reachable h img)
    (hn : file_name.length ≤ 57) :
    ((mkfs_adder h after clock img file_name (some content)).status =
        some adder_error.file_too_large ↔ DIRECT_MAX < (content.length + BS - 1) / BS) ∧
    ((mkfs_adder h after clock img file_name (some content)).status =
        some adder_error.file_too_large ↔ 49152 < content.length) ∧
    (∀ img2 name2, (mkfs_adder h after clock img2 name2 (some content)).status =
        some adder_error.file_too_large → 49152 < content.length) ∧
    (∀ img2 name2, 49152 < content.length →
      (mkfs_adder h after clock img2 name2 (some content)).status ≠ none) ∧
    (∀ img2 name2 p, adder_read_phase h img2 name2 (some content) = Except.ok p →
      p.file_size = content.length ∧ p.blocks_needed = (content.length + BS - 1) / BS ∧
      content.length ≤ p.blocks_needed * BS ∧ p.blocks_needed * BS < content.length + BS ∧
      p.blocks_needed ≤ DIRECT_MAX) := by
  obtain ⟨e1, e2, e3, e4, e5⟩ := blocks_needed_ceil content.length hL
  have hinvs : ∀ img2 name2, (mkfs_adder h after clock img2 name2 (some content)).status =
      some adder_error.file_too_large → DIRECT_MAX < (content.length + BS - 1) / BS := by
    intro img2 name2 hst
    unfold mkfs_adder at hst
    by_cases hn2 : name2.length > 57
    · rw [if_pos hn2] at hst
      exact absurd hst (by simp)
    · rw [if_neg hn2] at hst
      simp only [] at hst
      cases hrp : adder_read_phase h (copy_image img2) name2 (some content) with
      | ok p =>
        rw [hrp] at hst
        exact absurd hst (by simp)
      | error e =>
        rw [hrp] at hst
        simp only [Option.some.injEq] at hst
        rw [hst] at hrp
        obtain ⟨c2, hc2, hbig⟩ := adder_read_phase_too_large_inv h _ name2 _ hrp
        rw [← Option.some.inj hc2, e2] at hbig
        exact hbig
  have hplan : ∀ img2 name2 p, adder_read_phase h img2 name2 (some content) = Except.ok p →
      p.file_size = content.length ∧ p.blocks_needed = (content.length + BS - 1) / BS ∧
      p.blocks_needed ≤ DIRECT_MAX := by
    intro img2 name2 p hok
    obtain ⟨_, _, _, _, _, _, _, _, _, _, _, _, r8, r9, r10, r11, _⟩ :=
      adder_read_phase_ok h img2 name2 (some content) p hok
    have hc : p.file = content := (Option.some.inj r8).symm
    have hfs : p.file_size = content.length := by rw [r9, hc, e1]
    refine ⟨hfs, ?_, r11⟩
    rw [r10, r9, hc, e2]
  have hiff : (mkfs_adder h after clock img file_name (some content)).status =
      some adder_error.file_too_large ↔ DIRECT_MAX < (content.length + BS - 1) / BS := by
    refine ⟨hinvs img file_name, fun hbig => ?_⟩
    obtain ⟨sk, ic, j, hinv⟩ := reachable_inv h img hr
    rw [← e2] at hbig
    have := adder_read_phase_size_check h sk ic j img file_name content hinv hbig
    rw [mkfs_adder_of_read_error h after clock img file_name (some content)
      adder_error.file_too_large hn this]
  refine ⟨hiff, hiff.trans e3, fun img2 name2 hst => e3.1 (hinvs img2 name2 hst), ?_, ?_⟩
  · intro img2 name2 hbig hst
    unfold mkfs_adder at hst
    by_cases hn2 : name2.length > 57
    · rw [if_pos hn2] at hst
      exact absurd hst (by simp)
    · rw [if_neg hn2] at hst
      simp only [] at hst
      cases hrp : adder_read_phase h (copy_image img2) name2 (some content) with
      | ok p =>
        obtain ⟨_, hb, hle⟩ := hplan _ name2 p hrp
        rw [hb] at hle
        exact absurd (e3.2 hbig) (by omega)
      | error e =>
        rw [hrp] at hst
        exact absurd hst (by simp)
  · intro img2 name2 p hok
    obtain ⟨a1, a2, a3⟩ := hplan img2 name2 p hok
    refine ⟨a1, a2, ?_, ?_, a3⟩
    · rw [a2]; exact e4
    · rw [a2]; exact e5

/-- Witness for C12, on the smallest fresh image: a file of 49153 bytes is rejected as too
large, a file of 49152 bytes is accepted with 12 blocks, an empty file with 0 blocks. -/
theorem direct_block_cap_witness :
    (mkfs_adder Endian.little [] (fun _ => 0) (builder_image Endian.little [] 0 180 128) [97]
      (some (List.replicate 49153 0))).status = some adder_error.file_too_large ∧
    (∃ p, adder_read_phase Endian.little (builder_image Endian.little [] 0 180 128) [97]
      (some (List.replicate 49152 0)) = Except.ok p ∧ p.blocks_needed = 12) ∧
    (∃ p, adder_read_phase Endian.little (builder_image Endian.little [] 0 180 128) [97]
      (some []) = Except.ok p ∧ p.blocks_needed = 0) := by
  have hBS : BS = 4096 := rfl
  have hr : Reachable Endian.little (builder_image Endian.little [] 0 180 128) :=
    Reachable.format [] 0 180 128 (builder_image Endian.little [] 0 180 128)
      (by simp [mkfs_builder, builder_valid])
  have t1 := direct_block_cap Endian.little [] (fun _ => 0)
    (builder_image Endian.little [] 0 180 128) [97] (List.replicate 49153 0)
    (by rw [List.length_replicate]; norm_num) hr (by decide)
  have t2 := direct_block_cap Endian.little [] (fun _ => 0)
    (builder_image Endian.little [] 0 180 128) [97] (List.replicate 49152 0)
    (by rw [List.length_replicate]; norm_num) hr (by decide)
  have t3 := direct_block_cap Endian.little [] (fun _ => 0)
    (builder_image Endian.little [] 0 180 128) [97] []
    (by rw [List.length_nil]; norm_num) hr (by decide)
  refine ⟨t1.2.1.2 (by rw [List.length_replicate]; norm_num), ?_, ?_⟩
  · obtain ⟨out, hs⟩ := adder_succeeds_fresh Endian.little [] [] (fun _ => 0) 0 180 128 [97]
      (List.replicate 49152 0) (by decide) (by decide) (by decide) (by decide)
      (by rw [List.length_replicate])
    obtain ⟨_, p, hp, _⟩ := mkfs_adder_ok Endian.little [] (fun _ => 0)
      (builder_image Endian.little [] 0 180 128) [97] (some (List.replicate 49152 0)) out hs
    obtain ⟨_, _, a3, a4, _⟩ := t2.2.2.2.2 _ _ p hp
    rw [List.length_replicate, hBS] at a3 a4
    exact ⟨p, hp, by omega⟩
  · obtain ⟨out, hs⟩ := adder_succeeds_fresh Endian.little [] [] (fun _ => 0) 0 180 128 [97]
      [] (by decide) (by decide) (by decide) (by decide) (by decide)
    obtain ⟨_, p, hp, _⟩ := mkfs_adder_ok Endian.little [] (fun _ => 0)
      (builder_image Endian.little [] 0 180 128) [97] (some []) out hs
    obtain ⟨_, _, a3, a4, _⟩ := t3.2.2.2.2 _ _ p hp
    rw [List.length_nil, hBS] at a3 a4
    exact ⟨p, hp, by omega⟩

/-! ## The allocation loop, exactly -/

/-- The allocation loop sets exactly the bits it hands out, and hands out, in increasing
order, the lowest clear bits of the bitmap it starts from. -/
theorem alloc_data_blocks_exact (D : Nat) :
    ∀ n i bm blocks bm2 blocks2, bm.length = BS → (∀ b ∈ bm, b < 256) →
      alloc_data_blocks D n i bm blocks = some (bm2, blocks2) →
      ∃ f : Nat → Nat,
        (∀ k, i ≤ k → k < i + n → f k < 8 * BS ∧ is_bit_set bm (f k) = false ∧
          (k < blocks.length → blocks2.getD k 0 = (D + f k) % 2 ^ 64 % 2 ^ 32) ∧
          (∀ m, m < f k → is_bit_set bm m = true ∨ ∃ k2, i ≤ k2 ∧ k2 < k ∧ m = f k2)) ∧
        (∀ k k2, i ≤ k → k < k2 → k2 < i + n → f k < f k2) ∧
        (∀ m, is_bit_set bm2 m = true ↔
          is_bit_set bm m = true ∨ ∃ k, i ≤ k ∧ k < i + n ∧ m = f k) := by
  intro n
  induction n with
  | zero =>
    intro i bm blocks bm2 blocks2 hlen hb hal
    simp only [alloc_data_blocks, Option.some.injEq, Prod.mk.injEq] at hal
    obtain ⟨rfl, rfl⟩ := hal
    refine ⟨fun _ => 0, ?_, ?_, ?_⟩
    · intro k h1 h2; omega
    · intro k k2 h1 h2 h3; omega
    · intro m
      constructor
      · exact fun hm => Or.inl hm
      · rintro (hm | ⟨k, h1, h2, _⟩)
        · exact hm
        · omega
  | succ n ih =>
    intro i bm blocks bm2 blocks2 hlen hb hal
    simp only [alloc_data_blocks] at hal
    rcases find_free_bit_lowest bm BS (by omega) hb with ⟨h1, _⟩ | ⟨r, hr1, hr2, hr3, hr4⟩
    · rw [if_pos h1] at hal
      exact absurd hal (by simp)
    · have hne : ¬ (find_free_bit bm BS = -1) := by rw [hr2]; omega
      rw [if_neg hne, hr2, Int.toNat_ofNat] at hal
      have hr8 : r / 8 < bm.length := by rw [hlen]; omega
      obtain ⟨_, _, _, a4, a5, _⟩ := alloc_data_blocks_spec D n (i + 1) (set_bit bm r)
        (blocks.set i ((D + r) % 2 ^ 64 % 2 ^ 32)) bm2 blocks2
        (by rw [length_set_bit]; exact hlen) (set_bit_lt bm r hb) hal
      obtain ⟨f, a6, a7, a8⟩ := ih (i + 1) (set_bit bm r)
        (blocks.set i ((D + r) % 2 ^ 64 % 2 ^ 32)) bm2 blocks2
        (by rw [length_set_bit]; exact hlen) (set_bit_lt bm r hb) hal
      have hsb : ∀ m, is_bit_set (set_bit bm r) m = true ↔ m = r ∨ is_bit_set bm m = true := by
        intro m
        rw [is_bit_set_set_bit bm r m hr8]
        simp
      have hclear : ∀ k, i + 1 ≤ k → k < i + 1 + n →
          f k ≠ r ∧ is_bit_set bm (f k) = false := by
        intro k h1 h2
        obtain ⟨_, b2, _, _⟩ := a6 k h1 h2
        have hns : ¬ (is_bit_set (set_bit bm r) (f k) = true) := by rw [b2]; simp
        rw [hsb] at hns
        refine ⟨fun e => hns (Or.inl e), ?_⟩
        cases hbs : is_bit_set bm (f k) with
        | false => rfl
        | true => exact absurd (Or.inr hbs) hns
      have hgt : ∀ k, i + 1 ≤ k → k < i + 1 + n → r < f k := by
        intro k h1 h2
        obtain ⟨c1, c2⟩ := hclear k h1 h2
        by_contra hle
        have := hr4 (f k) (by omega)
        rw [this] at c2
        exact absurd c2 (by simp)
      obtain ⟨g, hgi, hgo⟩ : ∃ g : Nat → Nat, g i = r ∧ ∀ k, k ≠ i → g k = f k :=
        ⟨fun k => if k = i then r else f k, by simp, fun k hk => by simp [hk]⟩
      refine ⟨g, ?_, ?_, ?_⟩
      · intro k hk1 hk2
        by_cases hki : k = i
        · subst hki
          rw [hgi]
          refine ⟨hr1, hr3, ?_, fun m hm => Or.inl (hr4 m hm)⟩
          intro hkl
          rw [a5 k (by omega), getD_set, if_pos ⟨rfl, hkl⟩]
        · rw [hgo k hki]
          obtain ⟨b1, _, b3, b4⟩ := a6 k (by omega) (by omega)
          refine ⟨b1, (hclear k (by omega) (by omega)).2, ?_, ?_⟩
          · intro hkl
            exact b3 (by rw [List.length_set]; exact hkl)
          · intro m hm
            rcases b4 m hm with hs | ⟨k2, c1, c2, c3⟩
            · rcases (hsb m).1 hs with e | hs2
              · exact Or.inr ⟨i, Nat.le_refl _, by omega, by rw [hgi]; exact e⟩
              · exact Or.inl hs2
            · exact Or.inr ⟨k2, by omega, c2, by rw [hgo k2 (by omega)]; exact c3⟩
      · intro k k2 hk1 hk2 hk3
        rw [hgo k2 (by omega)]
        by_cases hki : k = i
        · rw [hki, hgi]
          exact hgt k2 (by omega) (by omega)
        · rw [hgo k hki]
          exact a7 k k2 (by omega) hk2 (by omega)
      · intro m
        rw [a8 m, hsb m]
        constructor
        · rintro ((e | hm) | ⟨k, c1, c2, c3⟩)
          · exact Or.inr ⟨i, Nat.le_refl _, by omega, by rw [hgi]; exact e⟩
          · exact Or.inl hm
          · exact Or.inr ⟨k, by omega, by omega, by rw [hgo k (by omega)]; exact c3⟩
        · rintro (hm | ⟨k, c1, c2, c3⟩)
          · exact Or.inl (Or.inr hm)
          · by_cases hki : k = i
            · rw [hki, hgi] at c3
              exact Or.inl (Or.inl c3)
            · rw [hgo k hki] at c3
              exact Or.inr ⟨k, by omega, by omega, c3⟩

/-- When every bit from `M` on is clear, the `k`-th of the lowest clear bits is at most
`M + k`. -/
theorem lowest_bits_bound (bm : List Nat) (f : Nat → Nat) (n M : Nat)
    (hfree : ∀ k, M ≤ k → is_bit_set bm k = false)
    (hlow : ∀ k, k < n → ∀ m, m < f k → is_bit_set bm m = true ∨ ∃ k2, k2 < k ∧ m = f k2) :
    ∀ k, k < n → f k ≤ M + k := by
  intro k
  induction k using Nat.strong_induction_on with
  | _ k ih =>
    intro hk
    by_contra hgt
    rcases hlow k hk (M + k) (by omega) with hs | ⟨k2, c1, c2⟩
    · rw [hfree (M + k) (by omega)] at hs
      exact absurd hs (by simp)
    · have := ih k2 c1 (by omega)
      omega

/-! ## What the read phase read, on an image that satisfies the invariant -/

theorem plan_reads_of_inv (h : Endian) (size_kib inode_count j : Nat)
    (img file_name : List Nat) (file : Option (List Nat)) (p : adder_plan)
    (hinv : image_inv h size_kib inode_count j img)
    (hok : adder_read_phase h img file_name file = Except.ok p) :
    ∃ dbm d fe, pread img (2 * BS) BS = some dbm ∧ (∀ b ∈ dbm, b < 256) ∧
      alloc_data_blocks (builder_geometry size_kib inode_count).data_region_start
        p.blocks_needed 0 dbm (List.replicate DIRECT_MAX 0) =
          some (p.data_bitmap, p.data_blocks) ∧
      pread img ((builder_geometry size_kib inode_count).data_region_start * BS) BS = some d ∧
      dir_inv h j d ∧
      scan_root_dir h file_name 64 0 d (-1) = (p.root_dir_block, fe, false) ∧
      fe ≠ -1 ∧ p.free_entry = fe.toNat := by
  have hBS : BS = 4096 := rfl
  obtain ⟨sb_mem, dbm0, root_mem, dir0, fe, r1, r2, r3, r4, r5, r6, r7, r8, r9, r10, r11, r12, r13,
    r14, r15, r16, r17, r18⟩ := adder_read_phase_ok h img file_name file p hok
  obtain ⟨hv, hj, ⟨sbd, t, c, i1, i2, i3⟩, ⟨ibm, i4, i5, i6⟩, ⟨dbm, i7, i8, i9⟩,
    ⟨rd, i10, i11, i12⟩, ⟨d, i13, i14⟩⟩ := hinv
  rw [i2] at r1
  have e1 : sb_mem = superblock_mem h sbd := (Option.some.inj r1).symm
  have hsb : p.sb = host_superblock size_kib inode_count t c := by
    rw [r2, e1, superblock_of_mem_self h sbd i1, i3]
  obtain ⟨_, f2, f3, f4, f5⟩ := host_superblock_fields size_kib inode_count t c
  obtain ⟨g1, g2, g3, g4, g5, g6, g7, g8, g9, g10, g11⟩ :=
    builder_geometry_bounds size_kib inode_count hv
  have o2 : (p.sb.data_bitmap_start * BS) % 2 ^ 64 = 2 * BS := by rw [hsb, f3, hBS]; norm_num
  rw [o2, i7] at r5
  have e3 : dbm0 = dbm := (Option.some.inj r5).symm
  rw [e3, hsb, f5] at r12
  have o3 : (p.sb.inode_table_start * BS) % 2 ^ 64 = 3 * BS := by rw [hsb, f4, hBS]; norm_num
  rw [o3, i11] at r13
  have e4 : root_mem = inode_mem h rd := (Option.some.inj r13).symm
  have hroot : p.root_inode = inode_to_host rd := by
    rw [r14, e4, inode_of_mem_self h rd i10]
  have hdirect : p.root_inode.direct.getD 0 0 =
      (builder_geometry size_kib inode_count).data_region_start := by rw [hroot, i12]
  have o4 : (p.root_inode.direct.getD 0 0 * BS) % 2 ^ 32 =
      (builder_geometry size_kib inode_count).data_region_start * BS := by
    rw [hdirect, hBS]; omega
  rw [o4, i13] at r15
  have e5 : dir0 = d := (Option.some.inj r15).symm
  have h64 : BS / 64 = 64 := by rw [hBS]
  rw [e5, h64] at r16
  exact ⟨dbm, d, fe, i7, i8, r12, i13, i14, r16, r17, r18⟩

/-! ## Counts on reachable images -/

theorem builder_image_counts (h : Endian) (after : List Nat) (now size_kib inode_count : Nat)
    (hv : builder_valid size_kib inode_count = true) :
    image_counts h 0 (builder_image h after now size_kib inode_count) := by
  have hBS : BS = 4096 := rfl
  obtain ⟨_, _, k2, k3, _⟩ := builder_image_reads h after now size_kib inode_count hv
  obtain ⟨g1, g2, g3, g4, g5, g6, g7, g8, g9, g10, g11⟩ :=
    builder_geometry_bounds size_kib inode_count hv
  have hsbwf := builder_superblock_wf h after now size_kib inode_count
  have hrwf := builder_root_inode_wf h (builder_superblock h after now size_kib inode_count)
    (builder_geometry size_kib inode_count).data_region_start
  have hl := length_inode_mem h _ (builder_root_direct_length h
    (builder_superblock h after now size_kib inode_count)
    (builder_geometry size_kib inode_count).data_region_start)
  have hsub := pread_sub _ (3 * BS) BS _ 0 128 k3 (by rw [hBS]; omega)
  rw [List.drop_zero, List.take_left' hl, Nat.add_zero] at hsub
  refine ⟨⟨first_bit_block, k2, ?_⟩, ⟨_, hsub, ?_⟩⟩
  · intro k hk
    rw [is_bit_set_first_bit_block]
    simp
    omega
  · rw [inode_of_mem_self h _ hrwf,
      builder_root_inode_decode h _ _ hsbwf.2.2.2.2.2.2.2.2.2.2.2.2.2.2.1 (by omega)]
    exact ⟨rfl, rfl⟩

theorem adder_write_counts (h : Endian) (after : List Nat) (clock : Nat → Nat)
    (size_kib inode_count j : Nat) (img file_name : List Nat) (file : Option (List Nat))
    (p : adder_plan) (hinv : image_inv h size_kib inode_count j img)
    (hc : image_counts h j img)
    (hok : adder_read_phase h img file_name file = Except.ok p) :
    image_counts h (j + 1) (adder_write_phase h after clock file_name p img) := by
  have hBS : BS = 4096 := rfl
  obtain ⟨hpf, _⟩ := plan_facts_of_inv h size_kib inode_count j img file_name file p hinv hok
  obtain ⟨_, _, k3, k4, _⟩ :=
    adder_write_reads h after clock size_kib inode_count j img file_name p hinv.valid hpf
  obtain ⟨dbm, _, _, q1, q2, q3, _⟩ :=
    plan_reads_of_inv h size_kib inode_count j img file_name file p hinv hok
  obtain ⟨⟨bm, c1, c2⟩, ⟨m, c3, c4, c5⟩⟩ := hc
  rw [q1] at c1
  have ebm : bm = dbm := (Option.some.inj c1).symm
  rw [ebm] at c2
  obtain ⟨f, a1, _, a3⟩ := alloc_data_blocks_exact _ _ _ _ _ _ _ (length_pread _ _ _ _ q1) q2 q3
  have hbound := lowest_bits_bound dbm f p.blocks_needed (1 + 12 * j) c2 (by
    intro k hk m2 hm2
    rcases (a1 k (Nat.zero_le _) (by omega)).2.2.2 m2 hm2 with hs | ⟨k2, _, d2, d3⟩
    · exact Or.inl hs
    · exact Or.inr ⟨k2, d2, d3⟩)
  have hneed := hpf.needed_le
  obtain ⟨rd, r1, r2, r3⟩ := hpf.root
  rw [r2] at c3
  have em : m = inode_mem h rd := (Option.some.inj c3).symm
  rw [em, inode_of_mem_self h rd r1, ← r3] at c4 c5
  obtain ⟨t1, t2⟩ := adder_root_inode_decode h clock size_kib inode_count j img p hpf
  have hj := hpf.j_le
  refine ⟨⟨p.data_bitmap, k3, ?_⟩, ⟨_, k4, ?_⟩⟩
  · intro k hk
    cases hbs : is_bit_set p.data_bitmap k with
    | false => rfl
    | true =>
      exfalso
      rcases (a3 k).1 hbs with hs | ⟨k2, _, d2, d3⟩
      · rw [c2 k (by omega)] at hs
        exact absurd hs (by simp)
      · have := hbound k2 (by omega)
        omega
  · rw [inode_of_mem_self h _ t1, t2]
    constructor
    · show (p.root_inode.size_bytes + 64) % 2 ^ 64 = 128 + 64 * (j + 1)
      rw [c4, Nat.mod_eq_of_lt (by omega)]
      omega
    · show (p.root_inode.links + 1) % 2 ^ 16 = 2 + (j + 1)
      rw [c5, Nat.mod_eq_of_lt (by omega)]
      omega

/-- Every image the tools produce satisfies the invariant and the counts, for the same
number of inserts. -/
theorem reachable_counts (h : Endian) (img : List Nat) (hr : Reachable h img) :
    ∃ size_kib inode_count j, image_inv h size_kib inode_count j img ∧
      image_counts h j img := by
  induction hr with
  | format after now size_kib inode_count img hb =>
    unfold mkfs_builder at hb
    by_cases hv : builder_valid size_kib inode_count = true
    · rw [if_pos hv] at hb
      have := Option.some.inj hb
      subst this
      exact ⟨size_kib, inode_count, 0, builder_image_inv h after now size_kib inode_count hv,
        builder_image_counts h after now size_kib inode_count hv⟩
    · rw [if_neg hv] at hb
      exact absurd hb (by simp)
  | insert after clock img file_name file out _ hs ih =>
    obtain ⟨size_kib, inode_count, j, hinv, hc⟩ := ih
    obtain ⟨_, p, hp1, hp2⟩ := mkfs_adder_ok h after clock img file_name file out hs
    obtain ⟨hpf, _⟩ := plan_facts_of_inv h size_kib inode_count j img file_name file p hinv hp1
    rw [hp2]
    exact ⟨size_kib, inode_count, j + 1,
      adder_write_inv h after clock size_kib inode_count j img file_name p hinv.valid hpf,
      adder_write_counts h after clock size_kib inode_count j img file_name file p hinv hc hp1⟩

/-! ## The directory scan, exactly -/

theorem le_val_lt (bs : List Nat) (hb : ∀ b ∈ bs, b < 256) : le_val bs < 256 ^ bs.length := by
  induction bs with
  | nil => simp [le_val]
  | cons b bs ih =>
    have h1 := hb b (List.mem_cons_self _ _)
    have h2 := ih (fun c hc => hb c (List.mem_cons_of_mem _ hc))
    simp only [le_val, List.length_cons, pow_succ]
    omega

theorem host_val_lt (h : Endian) (bs : List Nat) (hb : ∀ b ∈ bs, b < 256) :
    host_val h bs < 256 ^ bs.length := by
  cases h
  · exact le_val_lt bs hb
  · have := le_val_lt bs.reverse (by simpa using hb)
    rw [List.length_reverse] at this
    exact this

theorem field_at_lt (h : Endian) (m : List Nat) (off w : Nat) (hb : ∀ b ∈ m, b < 256) :
    field_at h m off w < 256 ^ w := by
  unfold field_at
  have h1 := host_val_lt h ((m.drop off).take w)
    (fun b hbm => hb b (List.mem_of_mem_drop (List.mem_of_mem_take hbm)))
  have h2 : ((m.drop off).take w).length ≤ w := by
    rw [List.length_take]
    omega
  exact Nat.lt_of_lt_of_le h1 (Nat.pow_le_pow_right (by norm_num) h2)

theorem mem_store_lt (buf : List Nat) (off : Nat) (src : List Nat) (hb : ∀ b ∈ buf, b < 256)
    (hs : ∀ b ∈ src, b < 256) : ∀ b ∈ mem_store buf off src, b < 256 := by
  intro b hm
  unfold mem_store at hm
  rw [List.mem_append, List.mem_append] at hm
  rcases hm with (hm | hm) | hm
  · exact hb b (List.mem_of_mem_take hm)
  · exact hs b hm
  · exact hb b (List.mem_of_mem_drop hm)

/-- One conversion step of the scan: only the inode number of slot `i` changes, to its
byte-swapped value. -/
theorem dirent_to_host_at_exact (h : Endian) (blk : List Nat) (i : Nat)
    (hlen : blk.length = BS) (hi : i < 64) :
    (dirent_to_host_at h blk i).length = BS ∧
    field_at h (dirent_to_host_at h blk i) (64 * i) 4 =
      from_le32 (field_at h blk (64 * i) 4) ∧
    (∀ i2, i2 < 64 → i2 ≠ i →
      field_at h (dirent_to_host_at h blk i) (64 * i2) 4 = field_at h blk (64 * i2) 4) ∧
    (∀ k, 64 * i + 4 ≤ k → (dirent_to_host_at h blk i).drop k = blk.drop k) := by
  have hBS : BS = 4096 := rfl
  have hlb : (host_bytes h 4 (from_le32 (field_at h blk (64 * i) 4))).length = 4 :=
    length_host_bytes _ _ _
  refine ⟨?_, ?_, ?_, ?_⟩
  · unfold dirent_to_host_at
    rw [length_mem_store _ _ _ (by rw [hlb, hlen, hBS]; omega), hlen]
  · rw [field_at_dir]
    unfold dirent_to_host_at
    rw [dir_ino_bytes_store_same _ _ _ hlen hi (by rw [hlb]) (by rw [hlb]; omega),
      List.take_of_length_le (by rw [hlb])]
    exact host_val_host_bytes_of_lt h 4 _ (to_le32_lt _)
  · intro i2 hi2 hne
    rw [field_at_dir, field_at_dir]
    unfold dirent_to_host_at
    rw [dir_ino_bytes_store_other _ _ _ _ hlen hi hi2 hne (by rw [hlb]; omega)]
  · intro k hk
    unfold dirent_to_host_at
    exact drop_mem_store_after _ _ _ _ (by rw [hlb, hlen, hBS]; omega) (by rw [hlb]; omega)

/-- The directory scan on any directory block.  It reports a duplicate exactly when some
slot from `i` on has a non-zero inode number and a name equal to the target; otherwise it
keeps a free slot found earlier, or else reports the lowest slot from `i` on whose inode
number is zero, or -1 when there is none. -/
theorem scan_root_dir_exact (h : Endian) (file_name : List Nat) :
    ∀ n i blk (fe : Int), blk.length = BS →
      (∀ i2, i2 < 64 → field_at h blk (64 * i2) 4 < 2 ^ 32) → i + n = 64 →
      ((scan_root_dir h file_name n i blk fe).2.2 = true ↔
        ∃ i2, i ≤ i2 ∧ i2 < 64 ∧ field_at h blk (64 * i2) 4 ≠ 0 ∧
          c_str (blk.drop (64 * i2 + 5)) = file_name) ∧
      ((scan_root_dir h file_name n i blk fe).2.2 = false →
        (fe ≠ -1 → (scan_root_dir h file_name n i blk fe).2.1 = fe) ∧
        (fe = -1 →
          ((scan_root_dir h file_name n i blk fe).2.1 = -1 ∧
            ∀ i2, i ≤ i2 → i2 < 64 → field_at h blk (64 * i2) 4 ≠ 0) ∨
          ∃ s : Nat, (scan_root_dir h file_name n i blk fe).2.1 = (s : Int) ∧ i ≤ s ∧ s < 64 ∧
            field_at h blk (64 * s) 4 = 0 ∧
            ∀ i2, i ≤ i2 → i2 < s → field_at h blk (64 * i2) 4 ≠ 0)) := by
  intro n
  induction n with
  | zero =>
    intro i blk fe _ _ hin
    have e : scan_root_dir h file_name 0 i blk fe = (blk, fe, false) := rfl
    rw [e]
    refine ⟨⟨fun e => absurd e (by simp), ?_⟩, fun _ => ⟨fun _ => rfl, fun e => Or.inl ⟨e, ?_⟩⟩⟩
    · rintro ⟨i2, h1, h2, _⟩
      omega
    · intro i2 h1 h2
      omega
  | succ n ih =>
    intro i blk fe hlen hb hin
    have hi : i < 64 := by omega
    obtain ⟨d1, d3, d4, d5⟩ := dirent_to_host_at_exact h blk i hlen hi
    have hv : field_at h blk (64 * i) 4 < 2 ^ 32 := hb i hi
    have hz := from_le32_eq_zero _ hv
    have d2 : ∀ i2, i2 < 64 → field_at h (dirent_to_host_at h blk i) (64 * i2) 4 < 2 ^ 32 := by
      intro i2 hi2
      by_cases he : i2 = i
      · rw [he, d3]
        exact to_le32_lt _
      · rw [d4 i2 hi2 he]
        exact hb i2 hi2
    obtain ⟨ih1, ih2⟩ := ih (i + 1) (dirent_to_host_at h blk i)
      (if field_at h (dirent_to_host_at h blk i) (64 * i) 4 = 0 ∧ fe = -1 then (i : Int) else fe)
      d1 d2 (by omega)
    have hino : ∀ i2, i + 1 ≤ i2 → i2 < 64 →
        field_at h (dirent_to_host_at h blk i) (64 * i2) 4 = field_at h blk (64 * i2) 4 :=
      fun i2 h1 h2 => d4 i2 h2 (by omega)
    have hname : ∀ i2, i ≤ i2 →
        (dirent_to_host_at h blk i).drop (64 * i2 + 5) = blk.drop (64 * i2 + 5) :=
      fun i2 h1 => d5 _ (by omega)
    rw [scan_root_dir]
    simp only []
    by_cases hc : field_at h (dirent_to_host_at h blk i) (64 * i) 4 ≠ 0 ∧
        c_str ((dirent_to_host_at h blk i).drop (64 * i + 5)) = file_name
    · rw [if_pos hc]
      refine ⟨⟨fun _ => ⟨i, Nat.le_refl _, hi, ?_, ?_⟩, fun _ => rfl⟩,
        fun e => absurd e (by simp)⟩
      · intro e
        apply hc.1
        rw [d3, hz]
        exact e
      · rw [← hname i (Nat.le_refl _)]
        exact hc.2
    · rw [if_neg hc]
      have hnot : ¬ (field_at h blk (64 * i) 4 ≠ 0 ∧ c_str (blk.drop (64 * i + 5)) = file_name) := by
        rintro ⟨e1, e2⟩
        apply hc
        refine ⟨?_, by rw [hname i (Nat.le_refl _)]; exact e2⟩
        rw [d3]
        intro e
        exact e1 (hz.1 e)
      constructor
      · rw [ih1]
        constructor
        · rintro ⟨i2, h1, h2, h3, h4⟩
          refine ⟨i2, by omega, h2, ?_, ?_⟩
          · rw [← hino i2 h1 h2]; exact h3
          · rw [← hname i2 (by omega)]; exact h4
        · rintro ⟨i2, h1, h2, h3, h4⟩
          have hne : i2 ≠ i := by
            intro e
            rw [e] at h3 h4
            exact hnot ⟨h3, h4⟩
          refine ⟨i2, by omega, h2, ?_, ?_⟩
          · rw [hino i2 (by omega) h2]; exact h3
          · rw [hname i2 (by omega)]; exact h4
      · intro hfalse
        obtain ⟨b1, b2⟩ := ih2 hfalse
        constructor
        · intro hfe
          have := b1 (by rw [if_neg (fun c => hfe c.2)]; exact hfe)
          rw [this, if_neg (fun c => hfe c.2)]
        · intro hfe
          by_cases hv0 : field_at h blk (64 * i) 4 = 0
          · have hcond : field_at h (dirent_to_host_at h blk i) (64 * i) 4 = 0 ∧ fe = -1 :=
              ⟨by rw [d3, hz]; exact hv0, hfe⟩
            have := b1 (by rw [if_pos hcond]; omega)
            rw [this, if_pos hcond]
            exact Or.inr ⟨i, rfl, Nat.le_refl _, hi, hv0, fun i2 h1 h2 => by omega⟩
          · have hcond : ¬ (field_at h (dirent_to_host_at h blk i) (64 * i) 4 = 0 ∧ fe = -1) := by
              rintro ⟨e, _⟩
              rw [d3, hz] at e
              exact hv0 e
            rw [if_neg hcond] at b2 ⊢
            rcases b2 hfe with ⟨c1, c2⟩ | ⟨s, c1, c2, c3, c4, c5⟩
            · refine Or.inl ⟨c1, fun i2 h1 h2 => ?_⟩
              by_cases he : i2 = i
              · rw [he]; exact hv0
              · rw [← hino i2 (by omega) h2]
                exact c2 i2 (by omega) h2
            · refine Or.inr ⟨s, c1, by omega, c3, ?_, fun i2 h1 h2 => ?_⟩
              · rw [← hino s c2 c3]; exact c4
              · by_cases he : i2 = i
                · rw [he]; exact hv0
                · rw [← hino i2 (by omega) (by omega)]
                  exact c5 i2 (by omega) h2

/-! ## The new directory entry -/

theorem set_replicate_self (n i : Nat) (a : Nat) :
    (List.replicate n a).set i a = List.replicate n a := by
  apply List.ext_getElem
  · simp
  · intro k h1 h2
    rw [List.getElem_set]
    split <;> simp

theorem adder_new_entry_name (h : Endian) (file_name : List Nat) (p : adder_plan)
    (hn : file_name.length ≤ 57) :
    (adder_new_entry h file_name p).name =
      file_name ++ List.replicate (58 - file_name.length) 0 := by
  have e : (adder_new_entry h file_name p).name = (strncpy_into 58 file_name 57).set 57 0 := rfl
  rw [e]
  unfold strncpy_into
  rw [List.take_of_length_le hn, List.set_append, if_neg (by omega), set_replicate_self]

/-- A C string followed by a NUL reads back as itself. -/
theorem c_str_append_nul (s rest : List Nat) (hs : ∀ c ∈ s, c ≠ 0) :
    c_str (s ++ 0 :: rest) = s := by
  unfold c_str
  rw [List.takeWhile_append_of_pos (by
    intro a ha
    simpa using hs a ha)]
  simp

theorem mem_store_read (buf : List Nat) (off : Nat) (src : List Nat) (ho : off ≤ buf.length) :
    ((mem_store buf off src).drop off).take src.length = src := by
  unfold mem_store
  have hl : (buf.take off).length = off := by rw [List.length_take]; omega
  rw [List.append_assoc, List.drop_left' hl, List.take_left' rfl]

theorem mem_store_drop (buf : List Nat) (off : Nat) (src : List Nat) (ho : off ≤ buf.length) :
    (mem_store buf off src).drop off = src ++ buf.drop (off + src.length) := by
  unfold mem_store
  have hl : (buf.take off).length = off := by rw [List.length_take]; omega
  rw [List.append_assoc, List.drop_left' hl]

/-- The bytes of the new directory entry, field by field. -/
theorem adder_new_entry_layout (h : Endian) (file_name : List Nat) (p : adder_plan)
    (hn : file_name.length ≤ 57) (rest : List Nat) :
    (dirent_mem h (adder_new_entry h file_name p)).length = 64 ∧
    field_at h (dirent_mem h (adder_new_entry h file_name p) ++ rest) 0 4 =
      to_le32 ((p.free_inode + 1) % 2 ^ 32) ∧
    (dirent_to_host (dirent_of_mem h
      (dirent_mem h (adder_new_entry h file_name p) ++ rest))).ino =
        (p.free_inode + 1) % 2 ^ 32 ∧
    (dirent_of_mem h (dirent_mem h (adder_new_entry h file_name p) ++ rest)).type = 1 ∧
    (dirent_of_mem h (dirent_mem h (adder_new_entry h file_name p) ++ rest)).name =
      file_name ++ List.replicate (58 - file_name.length) 0 ∧
    (dirent_mem h (adder_new_entry h file_name p) ++ rest).drop 5 =
      (file_name ++ List.replicate (58 - file_name.length) 0) ++
        (host_bytes h 1 (adder_new_entry h file_name p).checksum ++ rest) := by
  have hname := adder_new_entry_name h file_name p hn
  have hnl : (adder_new_entry h file_name p).name.length = 58 :=
    adder_new_entry_name_length h file_name p
  have hlen := length_dirent_mem h _ hnl
  have hmem : dirent_mem h (adder_new_entry h file_name p) =
      host_bytes h 4 (to_le32 ((p.free_inode + 1) % 2 ^ 32)) ++ (host_bytes h 1 1 ++
        ((adder_new_entry h file_name p).name ++
          host_bytes h 1 (adder_new_entry h file_name p).checksum)) := by
    simp only [dirent_mem, adder_new_entry, dirent_checksum_finalize, dirent_to_disk,
      List.append_assoc]
  have hino : field_at h (dirent_mem h (adder_new_entry h file_name p) ++ rest) 0 4 =
      to_le32 ((p.free_inode + 1) % 2 ^ 32) := by
    rw [hmem, List.append_assoc, field_at_head]
    exact Nat.mod_eq_of_lt (to_le32_lt _)
  have hdrop := dirent_mem_drop_5 h (adder_new_entry h file_name p) rest
  refine ⟨hlen, hino, ?_, ?_, ?_, ?_⟩
  · show from_le32 (field_at h (dirent_mem h (adder_new_entry h file_name p) ++ rest) 0 4) = _
    rw [hino]
    exact to_le32_to_le32 _ (Nat.mod_lt _ (by norm_num))
  · show field_at h (dirent_mem h (adder_new_entry h file_name p) ++ rest) 4 1 = 1
    rw [hmem, List.append_assoc, field_at_skip h _ _ 4 1 (by rw [length_host_bytes]),
      length_host_bytes, Nat.sub_self, List.append_assoc, field_at_head]
    norm_num
  · show ((dirent_mem h (adder_new_entry h file_name p) ++ rest).drop 5).take 58 = _
    rw [hdrop, List.take_left' hnl, hname]
  · rw [hdrop, hname]

/-! ## The read phase on reachable images -/

/-- On an image that satisfies the invariant and the counts, a file of at most 12 blocks
passes every check before the directory scan, and the scan of the root directory block of
the image decides the outcome. -/
theorem adder_read_phase_by_scan (h : Endian) (size_kib inode_count j : Nat)
    (img file_name content : List Nat) (hinv : image_inv h size_kib inode_count j img)
    (hc : image_counts h j img)
    (hneed : ((content.length % 2 ^ 64 + BS - 1) % 2 ^ 64) / BS ≤ DIRECT_MAX) :
    ∃ d, pread img ((builder_geometry size_kib inode_count).data_region_start * BS) BS =
        some d ∧ dir_inv h j d ∧
      ((scan_root_dir h file_name 64 0 d (-1)).2.2 = true →
        adder_read_phase h img file_name (some content) =
          Except.error adder_error.duplicate_name) ∧
      ((scan_root_dir h file_name 64 0 d (-1)).2.2 = false →
        (scan_root_dir h file_name 64 0 d (-1)).2.1 = -1 →
        adder_read_phase h img file_name (some content) = Except.error adder_error.dir_full) ∧
      ((scan_root_dir h file_name 64 0 d (-1)).2.2 = false →
        (scan_root_dir h file_name 64 0 d (-1)).2.1 ≠ -1 →
        ∃ p, adder_read_phase h img file_name (some content) = Except.ok p) := by
  have hBS : BS = 4096 := rfl
  have h64 : BS / 64 = 64 := by rw [hBS]
  obtain ⟨hv, hj, ⟨sbd, t, c, i1, i2, i3⟩, ⟨ibm, i4, i5, i6⟩, ⟨dbm, i7, i8, i9⟩,
    ⟨rd, i10, i11, i12⟩, ⟨d, i13, i14⟩⟩ := hinv
  obtain ⟨⟨bm, c1, c2⟩, _⟩ := hc
  rw [i7] at c1
  have ebm : bm = dbm := (Option.some.inj c1).symm
  rw [ebm] at c2
  obtain ⟨f1, f2, f3, f4, f5⟩ := host_superblock_fields size_kib inode_count t c
  obtain ⟨g1, g2, g3, g4, g5, g6, g7, g8, g9, g10, g11⟩ :=
    builder_geometry_bounds size_kib inode_count hv
  have hsb : superblock_to_host (superblock_of_mem h (superblock_mem h sbd)) =
      host_superblock size_kib inode_count t c := by
    rw [superblock_of_mem_self h sbd i1, i3]
  have hroot : inode_to_host (inode_of_mem h (inode_mem h rd)) = inode_to_host rd := by
    rw [inode_of_mem_self h rd i10]
  have hneed2 : ((content.length % 2 ^ 64 + BS - 1) % 2 ^ 64) / BS ≤ 12 := hneed
  obtain ⟨⟨dbm2, blocks2⟩, hal⟩ := alloc_data_blocks_succeeds
    (builder_geometry size_kib inode_count).data_region_start
    (((content.length % 2 ^ 64 + BS - 1) % 2 ^ 64) / BS) 0 dbm
    (List.replicate DIRECT_MAX 0) (1 + 12 * j) (length_pread _ _ _ _ i7) i8
    (fun k hk1 _ => c2 k hk1)
    (by
      generalize ((content.length % 2 ^ 64 + BS - 1) % 2 ^ 64) / BS = b at hneed2
      rw [hBS]
      omega)
  have e1 : pread img (((superblock_to_host (superblock_of_mem h
      (superblock_mem h sbd))).inode_bitmap_start * BS) % 2 ^ 64) BS = some ibm := by
    rw [hsb, f2, hBS]; exact i4
  have e2 : pread img (((superblock_to_host (superblock_of_mem h
      (superblock_mem h sbd))).data_bitmap_start * BS) % 2 ^ 64) BS = some dbm := by
    rw [hsb, f3]
    have : (2 * BS) % 2 ^ 64 = 2 * BS := by rw [hBS]; norm_num
    rw [this]
    exact i7
  have e3 : find_free_bit ibm BS ≠ -1 := by
    rw [free_inode_of_inv ibm j (length_pread _ _ _ _ i4) i5 hj i6]; omega
  have e4 : alloc_data_blocks (superblock_to_host (superblock_of_mem h
      (superblock_mem h sbd))).data_region_start
      (((content.length % 2 ^ 64 + BS - 1) % 2 ^ 64) / BS) 0 dbm
      (List.replicate DIRECT_MAX 0) = some (dbm2, blocks2) := by
    rw [hsb, f5]; exact hal
  have e5 : pread img (((superblock_to_host (superblock_of_mem h
      (superblock_mem h sbd))).inode_table_start * BS) % 2 ^ 64) 128 =
      some (inode_mem h rd) := by
    rw [hsb, f4]
    have : (3 * BS) % 2 ^ 64 = 3 * BS := by rw [hBS]; norm_num
    rw [this]
    exact i11
  have e6 : pread img (((inode_to_host (inode_of_mem h (inode_mem h rd))).direct.getD 0 0 * BS)
      % 2 ^ 32) BS = some d := by
    rw [hroot, i12]
    have : ((builder_geometry size_kib inode_count).data_region_start * BS) % 2 ^ 32 =
        (builder_geometry size_kib inode_count).data_region_start * BS := by
      rw [hBS]; omega
    rw [this]
    exact i13
  obtain ⟨s1, s2⟩ := adder_read_phase_to_scan h img file_name content (superblock_mem h sbd)
    ibm dbm dbm2 blocks2 (inode_mem h rd) d i2 (by rw [hsb, f1]) e1 e2 e3 hneed e4 e5 e6
  rw [h64] at s1 s2
  refine ⟨d, i13, i14, s1, s2, ?_⟩
  intro hnd hfe
  exact adder_read_phase_intro h img file_name content (superblock_mem h sbd) ibm dbm dbm2
    blocks2 (inode_mem h rd) d (scan_root_dir h file_name 64 0 d (-1)).1
    (scan_root_dir h file_name 64 0 d (-1)).2.1 i2 (by rw [hsb, f1]) e1 e2 e3 hneed e4 e5 e6
    (by rw [h64, ← hnd]) hfe

/-! ## The root inode after an insert -/

/-- C14.  Root inode update.  For every successful insert into an image the tools produced,
the root inode in slot 0 of the inode table of the output decodes to `size_bytes` = the
input's plus 64 and `links` = the input's plus 1; `mode`, `uid`, `gid`, `atime`, the twelve
`direct` entries, `proj_id`, the reserved fields, `uid16_gid16` and `xattr_ptr` decode to the
values they have in the input; `mtime` and `ctime` are the clock readings; and the
`inode_crc` field (bytes 120..127, the 64-bit value in the byte order of the host) holds the
CRC32 of the first 120 bytes of the record on disk. -/
theorem root_inode_update (h : Endian) (after : List Nat) (clock : Nat → Nat)
    (img file_name : List Nat) (file : Option (List Nat)) (out : List Nat)
    (hr : Reachable h img)
    (hs : mkfs_adder h after clock img file_name file =
      { status := none, output := some out }) :
    ∃ m_in m_out,
      pread img (3 * BS) INODE_SIZE = some m_in ∧
      pread out (3 * BS) INODE_SIZE = some m_out ∧
      (inode_to_host (inode_of_mem h m_out)).size_bytes =
        (inode_to_host (inode_of_mem h m_in)).size_bytes + 64 ∧
      (inode_to_host (inode_of_mem h m_out)).links =
        (inode_to_host (inode_of_mem h m_in)).links + 1 ∧
      (inode_to_host (inode_of_mem h m_out)).mode =
        (inode_to_host (inode_of_mem h m_in)).mode ∧
      (inode_to_host (inode_of_mem h m_out)).uid = (inode_to_host (inode_of_mem h m_in)).uid ∧
      (inode_to_host (inode_of_mem h m_out)).gid = (inode_to_host (inode_of_mem h m_in)).gid ∧
      (inode_to_host (inode_of_mem h m_out)).atime =
        (inode_to_host (inode_of_mem h m_in)).atime ∧
      (inode_to_host (inode_of_mem h m_out)).direct =
        (inode_to_host (inode_of_mem h m_in)).direct ∧
      (inode_to_host (inode_of_mem h m_out)).direct.length = DIRECT_MAX ∧
      (inode_to_host (inode_of_mem h m_out)).proj_id =
        (inode_to_host (inode_of_mem h m_in)).proj_id ∧
      (inode_to_host (inode_of_mem h m_out)).reserved_0 =
        (inode_to_host (inode_of_mem h m_in)).reserved_0 ∧
      (inode_to_host (inode_of_mem h m_out)).reserved_1 =
        (inode_to_host (inode_of_mem h m_in)).reserved_1 ∧
      (inode_to_host (inode_of_mem h m_out)).reserved_2 =
        (inode_to_host (inode_of_mem h m_in)).reserved_2 ∧
      (inode_to_host (inode_of_mem h m_out)).uid16_gid16 =
        (inode_to_host (inode_of_mem h m_in)).uid16_gid16 ∧
      (inode_to_host (inode_of_mem h m_out)).xattr_ptr =
        (inode_to_host (inode_of_mem h m_in)).xattr_ptr ∧
      (inode_to_host (inode_of_mem h m_out)).mtime = clock 3 % 2 ^ 64 ∧
      (inode_to_host (inode_of_mem h m_out)).ctime = clock 4 % 2 ^ 64 ∧
      m_out.drop 120 = host_bytes h 8 (crc32 m_out 120) ∧
      field_at h m_out 120 8 = crc32 m_out 120 := by
  obtain ⟨sk, ic, j, hinv, hc⟩ := reachable_counts h img hr
  obtain ⟨_, p, hp1, hp2⟩ := mkfs_adder_ok h after clock img file_name file out hs
  obtain ⟨hpf, _⟩ := plan_facts_of_inv h sk ic j img file_name file p hinv hp1
  obtain ⟨_, _, _, k4, _⟩ :=
    adder_write_reads h after clock sk ic j img file_name p hinv.valid hpf
  rw [← hp2] at k4
  obtain ⟨_, ⟨m, c3, c4, c5⟩⟩ := hc
  obtain ⟨rd, r1, r2, r3⟩ := hpf.root
  rw [r2] at c3
  have em : m = inode_mem h rd := (Option.some.inj c3).symm
  rw [em, inode_of_mem_self h rd r1, ← r3] at c4 c5
  obtain ⟨t1, t2⟩ := adder_root_inode_decode h clock sk ic j img p hpf
  have hj := hpf.j_le
  have hdl := plan_root_direct_length h sk ic j img p hpf
  obtain ⟨hbytes, hcrc⟩ := adder_root_inode_bytes h clock p hdl
  refine ⟨inode_mem h rd, inode_mem h (adder_root_inode h clock p), r2, k4, ?_⟩
  rw [inode_of_mem_self h rd r1, inode_of_mem_self h _ t1, t2, ← r3]
  refine ⟨?_, ?_, rfl, rfl, rfl, rfl, rfl, hdl, rfl, rfl, rfl, rfl, rfl, rfl, rfl, rfl, hbytes,
    hcrc⟩
  · show (p.root_inode.size_bytes + 64) % 2 ^ 64 = p.root_inode.size_bytes + 64
    rw [c4, Nat.mod_eq_of_lt (by omega)]
  · show (p.root_inode.links + 1) % 2 ^ 16 = p.root_inode.links + 1
    rw [c5, Nat.mod_eq_of_lt (by omega)]

/-- Witness for C14: a three-byte file inserted into the smallest fresh image. -/
theorem root_inode_update_witness :
    ∃ out, mkfs_adder Endian.little [] (fun _ => 0) (builder_image Endian.little [] 0 180 128)
        [97] (some [1, 2, 3]) = { status := none, output := some out } ∧
      ∃ m_in m_out,
        pread (builder_image Endian.little [] 0 180 128) (3 * BS) INODE_SIZE = some m_in ∧
        pread out (3 * BS) INODE_SIZE = some m_out ∧
        (inode_to_host (inode_of_mem Endian.little m_out)).size_bytes =
          (inode_to_host (inode_of_mem Endian.little m_in)).size_bytes + 64 ∧
        (inode_to_host (inode_of_mem Endian.little m_out)).links =
          (inode_to_host (inode_of_mem Endian.little m_in)).links + 1 ∧
        (inode_to_host (inode_of_mem Endian.little m_out)).direct =
          (inode_to_host (inode_of_mem Endian.little m_in)).direct ∧
        field_at Endian.little m_out 120 8 = crc32 m_out 120 := by
  obtain ⟨out, hs⟩ := adder_succeeds_fresh Endian.little [] [] (fun _ => 0) 0 180 128 [97]
    [1, 2, 3] (by decide) (by decide) (by decide) (by decide) (by decide)
  obtain ⟨m_in, m_out, a1, a2, a3, a4, _, _, _, _, a9, _, _, _, _, _, _, _, _, _, _, a19⟩ :=
    root_inode_update Endian.little [] (fun _ => 0)
      (builder_image Endian.little [] 0 180 128) [97] (some [1, 2, 3]) out
      (Reachable.format [] 0 180 128 (builder_image Endian.little [] 0 180 128)
        (by simp [mkfs_builder, builder_valid])) hs
  exact ⟨out, hs, m_in, m_out, a1, a2, a3, a4, a9, a19⟩

/-! ## The first insert into a fresh image -/

theorem find_free_bit_first_bit_block : find_free_bit first_bit_block BS = 1 := by
  rcases find_free_bit_lowest first_bit_block BS (by rw [length_first_bit_block])
      first_bit_block_lt with ⟨_, hall⟩ | ⟨r, _, e, hclear, hlow⟩
  · have := hall 1 (by simp only [BS]; omega)
    rw [is_bit_set_first_bit_block] at this
    exact absurd this (by simp)
  · rw [is_bit_set_first_bit_block] at hclear
    have h0 : r ≠ 0 := by simpa using hclear
    have h1 : ¬ (1 < r) := by
      intro hlt
      have := hlow 1 hlt
      rw [is_bit_set_first_bit_block] at this
      exact absurd this (by simp)
    have : r = 1 := by omega
    rw [e, this]
    rfl

theorem is_bit_set_second_bit (k : Nat) :
    is_bit_set (set_bit first_bit_block 1) k = decide (k ≤ 1) := by
  rw [is_bit_set_set_bit _ _ _ (by rw [length_first_bit_block]; simp only [BS]; omega),
    is_bit_set_first_bit_block]
  by_cases h0 : k = 0
  · simp [h0]
  · by_cases h1 : k = 1
    · simp [h1]
    · have : ¬ (k ≤ 1) := by omega
      simp [h0, h1, this]

theorem alloc_one_first_bit_block (D : Nat) (blocks : List Nat) :
    alloc_data_blocks D 1 0 first_bit_block blocks =
      some (set_bit first_bit_block 1, blocks.set 0 ((D + 1) % 2 ^ 64 % 2 ^ 32)) := by
  rw [alloc_data_blocks]
  simp only []
  rw [find_free_bit_first_bit_block, if_neg (by decide)]
  rfl

/-- C13.  First insert into a fresh image.  For every image the formatter writes from valid
parameters and every file of 1 to 4096 bytes whose name, of at most 57 bytes, is neither `.`
nor `..`, the inserter succeeds; in its output the inode bitmap and the data bitmap both
have exactly bits 0 and 1 set, the inode in table slot 1 (inode number 2) has the file's
length and the single direct block `data_region_start + 1`, that block holds the file padded
with zeros, and slot 2 of the root directory holds an entry whose inode number decodes to 2,
whose type is 1 and whose name field is the file name padded with NUL bytes. -/
theorem first_insert_fresh (h : Endian) (after after2 : List Nat) (clock : Nat → Nat)
    (now size_kib inode_count : Nat) (file_name content : List Nat)
    (hv : builder_valid size_kib inode_count = true) (hname : file_name.length ≤ 57)
    (hn1 : file_name ≠ [46]) (hn2 : file_name ≠ [46, 46])
    (hl1 : 1 ≤ content.length) (hl2 : content.length ≤ 4096) :
    ∃ out, mkfs_adder h after2 clock (builder_image h after now size_kib inode_count) file_name
        (some content) = { status := none, output := some out } ∧
      find_free_bit first_bit_block BS = 1 ∧
      pread out BS BS = some (set_bit first_bit_block 1) ∧
      pread out (2 * BS) BS = some (set_bit first_bit_block 1) ∧
      (∀ k, is_bit_set (set_bit first_bit_block 1) k = decide (k ≤ 1)) ∧
      (∃ m, pread out (3 * BS + 1 * INODE_SIZE) INODE_SIZE = some m ∧
        (inode_to_host (inode_of_mem h m)).size_bytes = content.length ∧
        (inode_to_host (inode_of_mem h m)).direct =
          ((builder_geometry size_kib inode_count).data_region_start + 1) ::
            List.replicate 11 0) ∧
      pread out (((builder_geometry size_kib inode_count).data_region_start + 1) * BS) BS =
        some (file_block content 0) ∧
      (∃ e, pread out ((builder_geometry size_kib inode_count).data_region_start * BS + 2 * 64)
          64 = some e ∧
        (dirent_to_host (dirent_of_mem h e)).ino = 2 ∧
        (dirent_of_mem h e).type = 1 ∧
        (dirent_of_mem h e).name = file_name ++ List.replicate (58 - file_name.length) 0) := by
  have hBS : BS = 4096 := rfl
  obtain ⟨out, hs⟩ := adder_succeeds_fresh h after after2 clock now size_kib inode_count
    file_name content hv hname hn1 hn2 (by omega)
  have hinv := builder_image_inv h after now size_kib inode_count hv
  obtain ⟨_, k1, k2, _⟩ := builder_image_reads h after now size_kib inode_count hv
  obtain ⟨g1, g2, g3, g4, g5, g6, g7, g8, g9, g10, g11⟩ :=
    builder_geometry_bounds size_kib inode_count hv
  obtain ⟨_, p, hp1, hp2⟩ := mkfs_adder_ok h after2 clock _ file_name (some content) out hs
  obtain ⟨hpf, hfile⟩ := plan_facts_of_inv h size_kib inode_count 0 _ file_name (some content)
    p hinv hp1
  have hpc : p.file = content := (Option.some.inj hfile).symm
  obtain ⟨dbm, _, _, q1, _, q3, _⟩ :=
    plan_reads_of_inv h size_kib inode_count 0 _ file_name (some content) p hinv hp1
  rw [k2] at q1
  have edbm : dbm = first_bit_block := (Option.some.inj q1).symm
  have hsize : p.file_size = content.length := by
    rw [hpf.file_size, hpc, Nat.mod_eq_of_lt (by omega)]
  have hneed : p.blocks_needed = 1 := by
    rw [hpf.needed, hsize, hBS, Nat.mod_eq_of_lt (by omega)]
    omega
  rw [edbm, hneed, alloc_one_first_bit_block] at q3
  obtain ⟨hbm0, hbl0⟩ := Prod.mk.inj (Option.some.inj q3)
  have hbm : p.data_bitmap = set_bit first_bit_block 1 := hbm0.symm
  have hblocks : p.data_blocks =
      ((builder_geometry size_kib inode_count).data_region_start + 1) :: List.replicate 11 0 := by
    rw [← hbl0]
    have : ((builder_geometry size_kib inode_count).data_region_start + 1) % 2 ^ 64 % 2 ^ 32 =
        (builder_geometry size_kib inode_count).data_region_start + 1 := by omega
    show (List.replicate DIRECT_MAX 0).set 0 _ = _
    rw [this]
    rfl
  have hibm : p.inode_bitmap = first_bit_block := by
    have := hpf.ibm
    rw [k1] at this
    exact (Option.some.inj this).symm
  obtain ⟨_, r2, r3, _, r5, r6, r7⟩ :=
    adder_write_reads h after2 clock size_kib inode_count 0 _ file_name p hv hpf
  rw [← hp2] at r2 r3 r5 r6 r7
  obtain ⟨d1, d2, d3, _⟩ := adder_new_inode_decode h clock size_kib inode_count 0 _ p hv hpf
  obtain ⟨e1, _, e3, e4, e5, _⟩ := adder_new_entry_layout h file_name p hname []
  rw [List.append_nil] at e3 e4 e5
  refine ⟨out, hs, find_free_bit_first_bit_block, ?_, ?_, is_bit_set_second_bit,
    ⟨inode_mem h (adder_new_inode h clock p), ?_, ?_, ?_⟩, ?_,
    ⟨dirent_mem h (adder_new_entry h file_name p), ?_, ?_, e4, e5⟩⟩
  · rw [← hibm]
    exact r2
  · rw [← hbm]
    exact r3
  · exact r5
  · rw [inode_of_mem_self h _ d1, d2, hsize]
  · rw [inode_of_mem_self h _ d1, d3, hblocks]
  · have := r7 0 (by omega)
    rw [hblocks, hpc] at this
    exact this
  · have hsub := pread_sub _ _ BS _ (2 * 64) 64 r6 (by rw [hBS]; omega)
    rw [hsub]
    have hml := mem_store_read p.root_dir_block (64 * (0 + 2))
      (dirent_mem h (adder_new_entry h file_name p)) (by rw [hpf.dir_len, hBS]; omega)
    rw [e1] at hml
    exact congrArg some hml
  · rw [e3, hpf.free_inode]
    rfl

/-- Witness for C13 (scenario B of the specification): a 100-byte file named `hello.txt`
inserted into the image formatted with 180 KiB and 128 inodes. -/
theorem first_insert_fresh_witness :
    ∃ out, mkfs_adder Endian.little [] (fun _ => 0) (builder_image Endian.little [] 0 180 128)
        [104, 101, 108, 108, 111, 46, 116, 120, 116] (some (List.replicate 100 65)) =
          { status := none, output := some out } ∧
      pread out BS BS = some (set_bit first_bit_block 1) ∧
      pread out (2 * BS) BS = some (set_bit first_bit_block 1) ∧
      (∃ m, pread out (3 * BS + 1 * INODE_SIZE) INODE_SIZE = some m ∧
        (inode_to_host (inode_of_mem Endian.little m)).size_bytes = 100 ∧
        (inode_to_host (inode_of_mem Endian.little m)).direct =
          ((builder_geometry 180 128).data_region_start + 1) :: List.replicate 11 0) ∧
      (∃ e, pread out ((builder_geometry 180 128).data_region_start * BS + 2 * 64) 64 =
          some e ∧
        (dirent_to_host (dirent_of_mem Endian.little e)).ino = 2 ∧
        (dirent_of_mem Endian.little e).name =
          [104, 101, 108, 108, 111, 46, 116, 120, 116] ++ List.replicate 49 0) := by
  obtain ⟨out, a1, _, a3, a4, _, ⟨m, b1, b2, b3⟩, _, ⟨e, c1, c2, _, c4⟩⟩ :=
    first_insert_fresh Endian.little [] [] (fun _ => 0) 0 180 128
      [104, 101, 108, 108, 111, 46, 116, 120, 116] (List.replicate 100 65)
      (by decide) (by decide) (by decide) (by decide)
      (by rw [List.length_replicate]; norm_num) (by rw [List.length_replicate]; norm_num)
  rw [List.length_replicate] at b2
  exact ⟨out, a1, a3, a4, ⟨m, b1, b2, b3⟩, ⟨e, c1, c2, c4⟩⟩

/-! ## The directory entry an insert writes -/

theorem dir_inv_ino (h : Endian) (j : Nat) (d : List Nat) (hd : dir_inv h j d) (i : Nat)
    (hi : i < 64) :
    dir_entry_ino h d i < 2 ^ 32 ∧ (dir_entry_ino h d i ≠ 0 ↔ i ≤ j + 1) := by
  obtain ⟨v, hv, hb, hiff⟩ := hd i hi
  have e : dir_entry_ino h d i = v := by
    unfold dir_entry_ino
    rw [field_at_dir, hb]
    exact host_val_host_bytes_of_lt h 4 v hv
  rw [e]
  exact ⟨hv, hiff⟩

/-- Where a successful insert puts its directory entry, on an image that satisfies the
invariant: slot `j + 2` of the root directory block, the lowest slot whose inode number is
zero. -/
theorem insert_entry_of_inv (h : Endian) (after : List Nat) (clock : Nat → Nat)
    (size_kib inode_count j : Nat) (img file_name : List Nat) (file : Option (List Nat))
    (p : adder_plan) (hinv : image_inv h size_kib inode_count j img)
    (hok : adder_read_phase h img file_name file = Except.ok p) :
    j ≤ 61 ∧ p.free_inode = j + 1 ∧
    (∃ m_root, pread img (3 * BS) INODE_SIZE = some m_root ∧
      (inode_to_host (inode_of_mem h m_root)).direct.getD 0 0 =
        (builder_geometry size_kib inode_count).data_region_start) ∧
    (∃ d_in, pread img ((builder_geometry size_kib inode_count).data_region_start * BS) BS =
        some d_in ∧ dir_inv h j d_in) ∧
    p.root_dir_block.length = BS ∧
    pread (adder_write_phase h after clock file_name p img)
        ((builder_geometry size_kib inode_count).data_region_start * BS) BS =
      some (mem_store p.root_dir_block (64 * (j + 2))
        (dirent_mem h (adder_new_entry h file_name p))) ∧
    pread (adder_write_phase h after clock file_name p img)
        ((builder_geometry size_kib inode_count).data_region_start * BS + 64 * (j + 2)) 64 =
      some (dirent_mem h (adder_new_entry h file_name p)) := by
  have hBS : BS = 4096 := rfl
  obtain ⟨hpf, _⟩ := plan_facts_of_inv h size_kib inode_count j img file_name file p hinv hok
  obtain ⟨_, _, _, _, _, r6, _⟩ :=
    adder_write_reads h after clock size_kib inode_count j img file_name p hinv.valid hpf
  have hj := hpf.j_le
  obtain ⟨rd, w1, w2, w3⟩ := hinv.root
  have hnl := length_dirent_mem h _ (adder_new_entry_name_length h file_name p)
  refine ⟨hj, hpf.free_inode, ⟨inode_mem h rd, w2, ?_⟩, hinv.dir, hpf.dir_len, r6, ?_⟩
  · rw [inode_of_mem_self h rd w1]
    exact w3
  · have hsub := pread_sub _ _ BS _ (64 * (j + 2)) 64 r6 (by rw [hBS]; omega)
    rw [hsub]
    have hml := mem_store_read p.root_dir_block (64 * (j + 2))
      (dirent_mem h (adder_new_entry h file_name p)) (by rw [hpf.dir_len, hBS]; omega)
    rw [hnl] at hml
    exact congrArg some hml

/-- C16.  Filename handling.  A file name longer than 57 bytes is rejected before the input
image is opened and before the output file is created.  For every file name of at most 57
bytes on which the insert into an image the tools produced succeeds, the new directory entry
(in the lowest slot of the root directory whose inode number was zero) has a 58-byte name
field that consists of the bytes of the file name followed only by NUL bytes, at least one,
and its type byte is 1. -/
theorem filename_handling (h : Endian) (after : List Nat) (clock : Nat → Nat)
    (img file_name : List Nat) (file : Option (List Nat)) (out : List Nat) :
    (57 < file_name.length →
      ∀ img2 file2, mkfs_adder h after clock img2 file_name file2 =
        { status := some adder_error.name_too_long, output := none }) ∧
    (Reachable h img →
      mkfs_adder h after clock img file_name file = { status := none, output := some out } →
      file_name.length ≤ 57 ∧
      ∃ m_root d_in s e,
        pread img (3 * BS) INODE_SIZE = some m_root ∧
        pread img ((inode_to_host (inode_of_mem h m_root)).direct.getD 0 0 * BS) BS =
          some d_in ∧
        s < 64 ∧ dir_entry_ino h d_in s = 0 ∧ (∀ i, i < s → dir_entry_ino h d_in i ≠ 0) ∧
        pread out ((inode_to_host (inode_of_mem h m_root)).direct.getD 0 0 * BS + 64 * s) 64 =
          some e ∧
        (dirent_of_mem h e).name = file_name ++ List.replicate (58 - file_name.length) 0 ∧
        (dirent_of_mem h e).name.length = 58 ∧
        1 ≤ 58 - file_name.length ∧
        (dirent_of_mem h e).type = 1) := by
  constructor
  · intro hlong img2 file2
    unfold mkfs_adder
    rw [if_pos hlong]
  · intro hr hs
    obtain ⟨sk, ic, j, hinv⟩ := reachable_inv h img hr
    obtain ⟨hn, p, hp1, hp2⟩ := mkfs_adder_ok h after clock img file_name file out hs
    obtain ⟨hj, _, ⟨m_root, a1, a2⟩, ⟨d_in, b1, b2⟩, _, _, c2⟩ :=
      insert_entry_of_inv h after clock sk ic j img file_name file p hinv hp1
    rw [← hp2] at c2
    obtain ⟨_, _, _, e4, e5, _⟩ := adder_new_entry_layout h file_name p hn []
    rw [List.append_nil] at e4 e5
    refine ⟨hn, m_root, d_in, j + 2, dirent_mem h (adder_new_entry h file_name p), a1, ?_,
      by omega, ?_, ?_, ?_, e5, ?_, by omega, e4⟩
    · rw [a2]; exact b1
    · have := (dir_inv_ino h j d_in b2 (j + 2) (by omega)).2
      by_contra hne
      have := this.1 hne
      omega
    · intro i hi
      exact (dir_inv_ino h j d_in b2 i (by omega)).2.2 (by omega)
    · rw [a2]; exact c2
    · rw [e5, List.length_append, List.length_replicate]
      omega

/-- Witness for C16: a name of 58 bytes is rejected with no output, and the name `a` is
stored as `a` followed by 57 NUL bytes. -/
theorem filename_handling_witness :
    mkfs_adder Endian.little [] (fun _ => 0) (builder_image Endian.little [] 0 180 128)
        (List.replicate 58 97) (some [1, 2, 3]) =
      { status := some adder_error.name_too_long, output := none } ∧
    ∃ out e s, mkfs_adder Endian.little [] (fun _ => 0)
        (builder_image Endian.little [] 0 180 128) [97] (some [1, 2, 3]) =
          { status := none, output := some out } ∧
      (dirent_of_mem Endian.little e).name = [97] ++ List.replicate 57 0 ∧
      (dirent_of_mem Endian.little e).type = 1 ∧
      ∃ m_root, pread (builder_image Endian.little [] 0 180 128) (3 * BS) INODE_SIZE =
          some m_root ∧
        pread out ((inode_to_host (inode_of_mem Endian.little m_root)).direct.getD 0 0 * BS +
          64 * s) 64 = some e := by
  obtain ⟨out, hs⟩ := adder_succeeds_fresh Endian.little [] [] (fun _ => 0) 0 180 128 [97]
    [1, 2, 3] (by decide) (by decide) (by decide) (by decide) (by decide)
  have t1 := (filename_handling Endian.little [] (fun _ => 0)
    (builder_image Endian.little [] 0 180 128) (List.replicate 58 97) (some [1, 2, 3]) []).1
    (by rw [List.length_replicate]; norm_num) (builder_image Endian.little [] 0 180 128)
    (some [1, 2, 3])
  obtain ⟨_, m_root, d_in, s, e, a1, _, _, _, _, a6, a7, _, _, a10⟩ :=
    (filename_handling Endian.little [] (fun _ => 0)
      (builder_image Endian.little [] 0 180 128) [97] (some [1, 2, 3]) out).2
      (Reachable.format [] 0 180 128 (builder_image Endian.little [] 0 180 128)
        (by simp [mkfs_builder, builder_valid])) hs
  exact ⟨t1, out, e, s, hs, a7, a10, m_root, a1, a6⟩

/-! ## Monotonic allocation -/

theorem is_bit_set_beyond (bm : List Nat) (k : Nat) (hk : 8 * bm.length ≤ k) :
    is_bit_set bm k = false := by
  unfold is_bit_set
  have : bm.getD (k / 8) 0 = 0 := by
    rw [List.getD_eq_getElem?_getD, List.getElem?_eq_none (by omega)]
    rfl
  rw [this]
  simp

/-- The number of indices below `N` that are values of a strictly increasing `f` on
`0 .. b - 1` is `b`. -/
theorem card_filter_of_strict_mono (N b : Nat) (f : Nat → Nat) (P : Nat → Prop)
    [DecidablePred P] (hlt : ∀ k, k < b → f k < N)
    (hmono : ∀ k k2, k < k2 → k2 < b → f k < f k2)
    (hP : ∀ m, P m ↔ ∃ k, k < b ∧ m = f k) :
    ((Finset.range N).filter P).card = b := by
  have himg : (Finset.range N).filter P = (Finset.range b).image f := by
    ext m
    simp only [Finset.mem_filter, Finset.mem_range, Finset.mem_image]
    constructor
    · rintro ⟨_, hm⟩
      obtain ⟨k, hk, e⟩ := (hP m).1 hm
      exact ⟨k, hk, e.symm⟩
    · rintro ⟨k, hk, e⟩
      exact ⟨by rw [← e]; exact hlt k hk, (hP m).2 ⟨k, hk, e.symm⟩⟩
  rw [himg, Finset.card_image_of_injOn, Finset.card_range]
  intro a ha c hc e
  simp only [Finset.coe_range, Set.mem_Iio] at ha hc
  by_contra hne
  rcases Nat.lt_or_gt_of_ne hne with hlt2 | hlt2
  · have := hmono a c hlt2 hc
    omega
  · have := hmono c a hlt2 ha
    omega

/-- C15.  Monotonic, collision-free allocation.  For every successful insert, into an image
the tools produced, of a file that needs `b = ceil (L / 4096)` blocks: every bit set in the
inode bitmap and in the data bitmap of the input is set in the output; the output's inode
bitmap has exactly one more bit, the lowest clear bit of the input's; the output's data
bitmap has exactly `b` more bits `f 0 < f 1 < ... < f (b - 1)`, in the order of allocation
(direct entry `k` of the new inode is `data_region_start + f k`), each of them clear in the
input, and they are the `b` lowest clear bits of the input's data bitmap. -/
theorem allocation_monotonic (h : Endian) (after : List Nat) (clock : Nat → Nat)
    (img file_name content out : List Nat)
    (hr : Reachable h img) (hL : content.length + 4095 < 2 ^ 64)
    (hs : mkfs_adder h after clock img file_name (some content) =
      { status := none, output := some out }) :
    ∃ sb_mem ibm dbm ibm2 dbm2 m_new, ∃ i0 : Nat, ∃ f : Nat → Nat,
      pread img 0 116 = some sb_mem ∧
      pread img BS BS = some ibm ∧ pread img (2 * BS) BS = some dbm ∧
      pread out BS BS = some ibm2 ∧ pread out (2 * BS) BS = some dbm2 ∧
      (∀ k, is_bit_set ibm k = true → is_bit_set ibm2 k = true) ∧
      (∀ k, is_bit_set dbm k = true → is_bit_set dbm2 k = true) ∧
      find_free_bit ibm BS = (i0 : Int) ∧ is_bit_set ibm i0 = false ∧
      (∀ k, is_bit_set ibm2 k = true ↔ is_bit_set ibm k = true ∨ k = i0) ∧
      ((Finset.range (8 * BS)).filter
        (fun k => is_bit_set ibm2 k = true ∧ is_bit_set ibm k = false)).card = 1 ∧
      (∀ m, is_bit_set dbm2 m = true ↔
        is_bit_set dbm m = true ∨ ∃ k, k < (content.length + BS - 1) / BS ∧ m = f k) ∧
      ((Finset.range (8 * BS)).filter
        (fun k => is_bit_set dbm2 k = true ∧ is_bit_set dbm k = false)).card =
          (content.length + BS - 1) / BS ∧
      (∀ k, k < (content.length + BS - 1) / BS →
        f k < 8 * BS ∧ is_bit_set dbm (f k) = false) ∧
      (∀ k k2, k < k2 → k2 < (content.length + BS - 1) / BS → f k < f k2) ∧
      (∀ k, k < (content.length + BS - 1) / BS → ∀ m, m < f k →
        is_bit_set dbm m = true ∨ ∃ k2, k2 < k ∧ m = f k2) ∧
      pread out (3 * BS + i0 * INODE_SIZE) INODE_SIZE = some m_new ∧
      (∀ k, k < (content.length + BS - 1) / BS →
        (inode_to_host (inode_of_mem h m_new)).direct.getD k 0 =
          (superblock_to_host (superblock_of_mem h sb_mem)).data_region_start + f k) := by
  have hBS : BS = 4096 := rfl
  obtain ⟨sk, ic, j, hinv⟩ := reachable_inv h img hr
  obtain ⟨_, p, hp1, hp2⟩ := mkfs_adder_ok h after clock img file_name (some content) out hs
  obtain ⟨hpf, hfile⟩ := plan_facts_of_inv h sk ic j img file_name (some content) p hinv hp1
  have hpc : p.file = content := (Option.some.inj hfile).symm
  obtain ⟨dbm, _, _, q1, q2, q3, _⟩ :=
    plan_reads_of_inv h sk ic j img file_name (some content) p hinv hp1
  obtain ⟨e1, e2, _, _, _⟩ := blocks_needed_ceil content.length hL
  have hneed : p.blocks_needed = (content.length + BS - 1) / BS := by
    rw [hpf.needed, hpf.file_size, hpc, e2]
  have hneed12 := hpf.needed_le
  obtain ⟨f, a1', a2', a3'⟩ :=
    alloc_data_blocks_exact _ _ _ _ _ _ _ (length_pread _ _ _ _ q1) q2 q3
  rw [hneed, Nat.zero_add] at a1' a2' a3'
  rw [hneed] at hneed12
  have a1 : ∀ k, k < (content.length + BS - 1) / BS → f k < 8 * BS ∧
      is_bit_set dbm (f k) = false ∧
      (k < (List.replicate DIRECT_MAX 0).length → p.data_blocks.getD k 0 =
        ((builder_geometry sk ic).data_region_start + f k) % 2 ^ 64 % 2 ^ 32) ∧
      ∀ m, m < f k → is_bit_set dbm m = true ∨ ∃ k2, k2 < k ∧ m = f k2 := by
    intro k hk
    obtain ⟨b1, b2, b3, b4⟩ := a1' k (Nat.zero_le _) hk
    refine ⟨b1, b2, b3, fun m hm => ?_⟩
    rcases b4 m hm with hs1 | ⟨k2, _, c2, c3⟩
    · exact Or.inl hs1
    · exact Or.inr ⟨k2, c2, c3⟩
  have a2 : ∀ k k2, k < k2 → k2 < (content.length + BS - 1) / BS → f k < f k2 :=
    fun k k2 h1 h2 => a2' k k2 (Nat.zero_le _) h1 h2
  have a3 : ∀ m, is_bit_set p.data_bitmap m = true ↔
      is_bit_set dbm m = true ∨ ∃ k, k < (content.length + BS - 1) / BS ∧ m = f k := by
    intro m
    rw [a3' m]
    constructor
    · rintro (hs1 | ⟨k, _, c2, c3⟩)
      · exact Or.inl hs1
      · exact Or.inr ⟨k, c2, c3⟩
    · rintro (hs1 | ⟨k, c2, c3⟩)
      · exact Or.inl hs1
      · exact Or.inr ⟨k, Nat.zero_le _, c2, c3⟩
  obtain ⟨_, r2, r3, _, r5, _, _⟩ :=
    adder_write_reads h after clock sk ic j img file_name p hinv.valid hpf
  rw [← hp2] at r2 r3 r5
  obtain ⟨g1, g2, g3, g4, g5, g6, g7, g8, g9, g10, g11⟩ :=
    builder_geometry_bounds sk ic hinv.valid
  obtain ⟨sbd, t, c, s1, s2, s3⟩ := hinv.sb
  obtain ⟨_, _, _, _, f5⟩ := host_superblock_fields sk ic t c
  have hdrs : (superblock_to_host (superblock_of_mem h (superblock_mem h sbd))).data_region_start =
      (builder_geometry sk ic).data_region_start := by
    rw [superblock_of_mem_self h sbd s1, s3, f5]
  have hlenibm : p.inode_bitmap.length = BS := length_pread _ _ _ _ hpf.ibm
  have hj := hpf.j_le
  have hfree := free_inode_of_inv p.inode_bitmap j hlenibm hpf.ibm_lt (by omega) hpf.ibm_bits
  have hj8 : (j + 1) / 8 < p.inode_bitmap.length := by rw [hlenibm, hBS]; omega
  have hclear : is_bit_set p.inode_bitmap (j + 1) = false := by
    rw [hpf.ibm_bits (j + 1) (by rw [hBS]; omega)]
    simp
  have hibm2 : ∀ k, is_bit_set (set_bit p.inode_bitmap (j + 1)) k = true ↔
      is_bit_set p.inode_bitmap k = true ∨ k = j + 1 := by
    intro k
    rw [is_bit_set_set_bit _ _ _ hj8]
    simp only [Bool.or_eq_true, decide_eq_true_eq]
    exact Or.comm
  obtain ⟨d1, _, d3, _⟩ := adder_new_inode_decode h clock sk ic j img p hinv.valid hpf
  refine ⟨superblock_mem h sbd, p.inode_bitmap, dbm, set_bit p.inode_bitmap (j + 1),
    p.data_bitmap, inode_mem h (adder_new_inode h clock p), j + 1, f, s2, hpf.ibm, q1, r2, r3,
    fun k hk => (hibm2 k).2 (Or.inl hk), fun k hk => (a3 k).2 (Or.inl hk), hfree, hclear,
    hibm2, ?_, a3, ?_, fun k hk => ⟨(a1 k hk).1, (a1 k hk).2.1⟩, a2,
    fun k hk => (a1 k hk).2.2.2, r5, ?_⟩
  · apply card_filter_of_strict_mono (8 * BS) 1 (fun _ => j + 1)
    · intro k _
      rw [hBS]; omega
    · intro k k2 h1 h2
      omega
    · intro m
      rw [hibm2 m]
      constructor
      · rintro ⟨hs1 | hs1, hs2⟩
        · rw [hs1] at hs2
          exact absurd hs2 (by simp)
        · exact ⟨0, by omega, hs1⟩
      · rintro ⟨_, _, e⟩
        rw [e]
        exact ⟨Or.inr rfl, hclear⟩
  · apply card_filter_of_strict_mono (8 * BS) _ f
    · exact fun k hk => (a1 k hk).1
    · exact a2
    · intro m
      rw [a3 m]
      constructor
      · rintro ⟨hs1 | hs1, hs2⟩
        · rw [hs1] at hs2
          exact absurd hs2 (by simp)
        · exact hs1
      · rintro ⟨k, hk, e⟩
        refine ⟨Or.inr ⟨k, hk, e⟩, ?_⟩
        rw [e]
        exact (a1 k hk).2.1
  · intro k hk
    rw [inode_of_mem_self h _ d1, d3, hdrs]
    have hb := (a1 k hk).2.2.1 (by rw [List.length_replicate]; simp only [DIRECT_MAX]; omega)
    have hfk := (a1 k hk).1
    rw [hb, hBS] at *
    omega

/-- Witness for C15: a three-byte file (one block) inserted into the smallest fresh
image. -/
theorem allocation_monotonic_witness :
    ∃ out, mkfs_adder Endian.little [] (fun _ => 0) (builder_image Endian.little [] 0 180 128)
        [97] (some [1, 2, 3]) = { status := none, output := some out } ∧
      ∃ ibm dbm ibm2 dbm2,
        pread (builder_image Endian.little [] 0 180 128) BS BS = some ibm ∧
        pread (builder_image Endian.little [] 0 180 128) (2 * BS) BS = some dbm ∧
        pread out BS BS = some ibm2 ∧ pread out (2 * BS) BS = some dbm2 ∧
        (∀ k, is_bit_set ibm k = true → is_bit_set ibm2 k = true) ∧
        (∀ k, is_bit_set dbm k = true → is_bit_set dbm2 k = true) ∧
        ((Finset.range (8 * BS)).filter
          (fun k => is_bit_set ibm2 k = true ∧ is_bit_set ibm k = false)).card = 1 ∧
        ((Finset.range (8 * BS)).filter
          (fun k => is_bit_set dbm2 k = true ∧ is_bit_set dbm k = false)).card =
            ([1, 2, 3].length + BS - 1) / BS := by
  obtain ⟨out, hs⟩ := adder_succeeds_fresh Endian.little [] [] (fun _ => 0) 0 180 128 [97]
    [1, 2, 3] (by decide) (by decide) (by decide) (by decide) (by decide)
  obtain ⟨_, ibm, dbm, ibm2, dbm2, _, _, _, _, a2, a3, a4, a5, a6, a7, _, _, _, a11, _, a13,
      _⟩ :=
    allocation_monotonic Endian.little [] (fun _ => 0)
      (builder_image Endian.little [] 0 180 128) [97] [1, 2, 3] out
      (Reachable.format [] 0 180 128 (builder_image Endian.little [] 0 180 128)
        (by simp [mkfs_builder, builder_valid])) (by decide) hs
  exact ⟨out, hs, ibm, dbm, ibm2, dbm2, a2, a3, a4, a5, a6, a7, a11, a13⟩

/-! ## Directory slot selection -/

theorem mkfs_adder_of_read_ok (h : Endian) (after : List Nat) (clock : Nat → Nat)
    (img file_name : List Nat) (file : Option (List Nat)) (p : adder_plan)
    (hn : file_name.length ≤ 57)
    (hr : adder_read_phase h img file_name file = Except.ok p) :
    mkfs_adder h after clock img file_name file =
      { status := none, output := some (adder_write_phase h after clock file_name p img) } := by
  unfold mkfs_adder
  rw [if_neg (by omega), copy_image_eq]
  simp only []
  rw [hr]

/-- The scan of a whole directory block, in terms of its entries. -/
theorem scan_root_dir_entries (h : Endian) (file_name d : List Nat) (hd : d.length = BS)
    (h32 : ∀ i, i < 64 → dir_entry_ino h d i < 2 ^ 32) :
    ((scan_root_dir h file_name 64 0 d (-1)).2.2 = true ↔
      ∃ i, i < 64 ∧ dir_entry_ino h d i ≠ 0 ∧ dir_entry_name d i = file_name) ∧
    ((scan_root_dir h file_name 64 0 d (-1)).2.2 = false →
      ((scan_root_dir h file_name 64 0 d (-1)).2.1 = -1 ↔
        ∀ i, i < 64 → dir_entry_ino h d i ≠ 0) ∧
      ∀ s : Nat, (scan_root_dir h file_name 64 0 d (-1)).2.1 = (s : Int) ↔
        s < 64 ∧ dir_entry_ino h d s = 0 ∧ ∀ i, i < s → dir_entry_ino h d i ≠ 0) := by
  obtain ⟨e1, e2⟩ := scan_root_dir_exact h file_name 64 0 d (-1) hd h32 (by omega)
  constructor
  · rw [e1]
    constructor
    · rintro ⟨i, _, h2, h3, h4⟩
      exact ⟨i, h2, h3, h4⟩
    · rintro ⟨i, h2, h3, h4⟩
      exact ⟨i, Nat.zero_le _, h2, h3, h4⟩
  · intro hf
    rcases (e2 hf).2 rfl with ⟨c1, c2⟩ | ⟨s0, c1, _, c3, c4, c5⟩
    · refine ⟨⟨fun _ i hi => c2 i (Nat.zero_le _) hi, fun _ => c1⟩, fun s => ?_⟩
      rw [c1]
      constructor
      · intro e
        omega
      · rintro ⟨h1, h2, _⟩
        exact absurd h2 (c2 s (Nat.zero_le _) h1)
    · refine ⟨⟨fun e => ?_, fun hall => absurd c4 (hall s0 c3)⟩, fun s => ?_⟩
      · rw [c1] at e
        omega
      · rw [c1]
        constructor
        · intro e
          have : s0 = s := by omega
          rw [← this]
          exact ⟨c3, c4, fun i hi => c5 i (Nat.zero_le _) hi⟩
        · rintro ⟨h1, h2, h3⟩
          have : s0 = s := by
            by_contra hne
            rcases Nat.lt_or_gt_of_ne hne with hlt | hlt
            · exact h3 s0 hlt c4
            · exact c5 s (Nat.zero_le _) hlt h2
          rw [this]

/-- C20.  Directory slot selection.  On any directory block the scan reports a duplicate
exactly when some slot with a non-zero inode number holds the target name, and otherwise
reports the lowest slot whose inode number is zero, or -1 when none of the 64 slots has inode
number zero.  On an image the tools produced, for a name of at most 57 bytes and a file of at
most 12 blocks: the insert fails with the duplicate-name error exactly when some non-zero
entry of the root directory block has the target name, whether or not a slot is free; it
fails with the directory-full error exactly when there is no such entry and no slot has
inode number zero; it succeeds exactly when there is no such entry and some slot has inode
number zero, and then writes the new entry into the lowest such slot. -/
theorem directory_slot_selection (h : Endian) (after : List Nat) (clock : Nat → Nat)
    (img file_name content : List Nat)
    (hr : Reachable h img) (hn : file_name.length ≤ 57) (hL : content.length ≤ 49152) :
    (∀ d0 : List Nat, d0.length = BS → (∀ b ∈ d0, b < 256) →
      ((scan_root_dir h file_name 64 0 d0 (-1)).2.2 = true ↔
        ∃ i, i < 64 ∧ dir_entry_ino h d0 i ≠ 0 ∧ dir_entry_name d0 i = file_name) ∧
      ((scan_root_dir h file_name 64 0 d0 (-1)).2.2 = false →
        ((scan_root_dir h file_name 64 0 d0 (-1)).2.1 = -1 ↔
          ∀ i, i < 64 → dir_entry_ino h d0 i ≠ 0) ∧
        ∀ s : Nat, (scan_root_dir h file_name 64 0 d0 (-1)).2.1 = (s : Int) ↔
          s < 64 ∧ dir_entry_ino h d0 s = 0 ∧ ∀ i, i < s → dir_entry_ino h d0 i ≠ 0)) ∧
    ∃ m_root d,
      pread img (3 * BS) INODE_SIZE = some m_root ∧
      pread img ((inode_to_host (inode_of_mem h m_root)).direct.getD 0 0 * BS) BS = some d ∧
      ((mkfs_adder h after clock img file_name (some content)).status =
          some adder_error.duplicate_name ↔
        ∃ i, i < 64 ∧ dir_entry_ino h d i ≠ 0 ∧ dir_entry_name d i = file_name) ∧
      ((mkfs_adder h after clock img file_name (some content)).status =
          some adder_error.dir_full ↔
        (¬ ∃ i, i < 64 ∧ dir_entry_ino h d i ≠ 0 ∧ dir_entry_name d i = file_name) ∧
          ∀ i, i < 64 → dir_entry_ino h d i ≠ 0) ∧
      ((mkfs_adder h after clock img file_name (some content)).status = none ↔
        (¬ ∃ i, i < 64 ∧ dir_entry_ino h d i ≠ 0 ∧ dir_entry_name d i = file_name) ∧
          ∃ s, s < 64 ∧ dir_entry_ino h d s = 0) ∧
      (∀ out, mkfs_adder h after clock img file_name (some content) =
          { status := none, output := some out } →
        ∃ s e, s < 64 ∧ dir_entry_ino h d s = 0 ∧ (∀ i, i < s → dir_entry_ino h d i ≠ 0) ∧
          pread out ((inode_to_host (inode_of_mem h m_root)).direct.getD 0 0 * BS + 64 * s)
            64 = some e ∧
          (dirent_of_mem h e).name = file_name ++ List.replicate (58 - file_name.length) 0 ∧
          (dirent_of_mem h e).type = 1 ∧
          (dirent_to_host (dirent_of_mem h e)).ino ≠ 0) := by
  have hBS : BS = 4096 := rfl
  constructor
  · intro d0 hd0 hb0
    exact scan_root_dir_entries h file_name d0 hd0
      (fun i _ => field_at_lt h d0 (64 * i) 4 hb0)
  obtain ⟨sk, ic, j, hinv, hc⟩ := reachable_counts h img hr
  have hneed : ((content.length % 2 ^ 64 + BS - 1) % 2 ^ 64) / BS ≤ DIRECT_MAX := by
    simp only [DIRECT_MAX, hBS]
    omega
  obtain ⟨d, b1, b2, s1, s2, s3⟩ :=
    adder_read_phase_by_scan h sk ic j img file_name content hinv hc hneed
  obtain ⟨rd, w1, w2, w3⟩ := hinv.root
  have hdir0 : (inode_to_host (inode_of_mem h (inode_mem h rd))).direct.getD 0 0 =
      (builder_geometry sk ic).data_region_start := by
    rw [inode_of_mem_self h rd w1]
    exact w3
  obtain ⟨e1, e2⟩ := scan_root_dir_entries h file_name d (length_pread _ _ _ _ b1)
    (fun i hi => (dir_inv_ino h j d b2 i hi).1)
  -- the three outcomes
  have hcases :
      ((∃ i, i < 64 ∧ dir_entry_ino h d i ≠ 0 ∧ dir_entry_name d i = file_name) ∧
        (mkfs_adder h after clock img file_name (some content)).status =
          some adder_error.duplicate_name) ∨
      ((¬ ∃ i, i < 64 ∧ dir_entry_ino h d i ≠ 0 ∧ dir_entry_name d i = file_name) ∧
        (∀ i, i < 64 → dir_entry_ino h d i ≠ 0) ∧
        (mkfs_adder h after clock img file_name (some content)).status =
          some adder_error.dir_full) ∨
      ((¬ ∃ i, i < 64 ∧ dir_entry_ino h d i ≠ 0 ∧ dir_entry_name d i = file_name) ∧
        (∃ s, s < 64 ∧ dir_entry_ino h d s = 0) ∧
        (mkfs_adder h after clock img file_name (some content)).status = none) := by
    cases hx : (scan_root_dir h file_name 64 0 d (-1)).2.2 with
    | true =>
      left
      refine ⟨e1.1 hx, ?_⟩
      rw [mkfs_adder_of_read_error h after clock img file_name (some content) _ hn (s1 hx)]
    | false =>
      right
      have hnd : ¬ ∃ i, i < 64 ∧ dir_entry_ino h d i ≠ 0 ∧ dir_entry_name d i = file_name := by
        intro hex
        have := e1.2 hex
        rw [hx] at this
        exact absurd this (by simp)
      obtain ⟨f1, f2⟩ := e2 hx
      by_cases hfe : (scan_root_dir h file_name 64 0 d (-1)).2.1 = -1
      · left
        refine ⟨hnd, f1.1 hfe, ?_⟩
        rw [mkfs_adder_of_read_error h after clock img file_name (some content) _ hn
          (s2 hx hfe)]
      · right
        obtain ⟨p, hp⟩ := s3 hx hfe
        refine ⟨hnd, ?_, ?_⟩
        · by_contra hno
          apply hfe
          apply f1.2
          intro i hi hz
          exact hno ⟨i, hi, hz⟩
        · rw [mkfs_adder_of_read_ok h after clock img file_name (some content) p hn hp]
  refine ⟨inode_mem h rd, d, w2, by rw [hdir0]; exact b1, ?_, ?_, ?_, ?_⟩
  · rcases hcases with ⟨c1, c2⟩ | ⟨c1, _, c3⟩ | ⟨c1, _, c3⟩
    · exact ⟨fun _ => c1, fun _ => c2⟩
    · rw [c3]
      exact ⟨fun e => absurd e (by simp), fun e => absurd e c1⟩
    · rw [c3]
      exact ⟨fun e => absurd e (by simp), fun e => absurd e c1⟩
  · rcases hcases with ⟨c1, c2⟩ | ⟨c1, c2, c3⟩ | ⟨c1, ⟨s, c4, c5⟩, c3⟩
    · rw [c2]
      exact ⟨fun e => absurd e (by simp), fun e => absurd c1 e.1⟩
    · exact ⟨fun _ => ⟨c1, c2⟩, fun _ => c3⟩
    · rw [c3]
      exact ⟨fun e => absurd e (by simp), fun e => absurd c5 (e.2 s c4)⟩
  · rcases hcases with ⟨c1, c2⟩ | ⟨c1, c2, c3⟩ | ⟨c1, c2, c3⟩
    · rw [c2]
      exact ⟨fun e => absurd e (by simp), fun e => absurd c1 e.1⟩
    · rw [c3]
      refine ⟨fun e => absurd e (by simp), ?_⟩
      rintro ⟨_, s, c4, c5⟩
      exact absurd c5 (c2 s c4)
    · exact ⟨fun _ => ⟨c1, c2⟩, fun _ => c3⟩
  · intro out hs
    obtain ⟨_, p, hp1, hp2⟩ := mkfs_adder_ok h after clock img file_name (some content) out hs
    obtain ⟨hj, hfi, _, ⟨d_in, k1, _⟩, _, _, k3⟩ :=
      insert_entry_of_inv h after clock sk ic j img file_name (some content) p hinv hp1
    rw [← hp2] at k3
    obtain ⟨_, _, l3, l4, l5, _⟩ := adder_new_entry_layout h file_name p hn []
    rw [List.append_nil] at l3 l4 l5
    refine ⟨j + 2, dirent_mem h (adder_new_entry h file_name p), by omega, ?_, ?_, ?_, l5, l4,
      ?_⟩
    · have := (dir_inv_ino h j d b2 (j + 2) (by omega)).2
      by_contra hne
      have := this.1 hne
      omega
    · intro i hi
      exact (dir_inv_ino h j d b2 i (by omega)).2.2 (by omega)
    · rw [hdir0]
      exact k3
    · rw [l3, hfi]
      omega

/-- Witness for C20, on the smallest fresh image: the name `.` is a duplicate, so the root
directory block has a non-zero entry of that name; the name `a` is inserted, so no non-zero
entry has that name and some slot has inode number zero. -/
theorem directory_slot_selection_witness :
    (∃ m_root d,
      pread (builder_image Endian.little [] 0 180 128) (3 * BS) INODE_SIZE = some m_root ∧
      pread (builder_image Endian.little [] 0 180 128)
        ((inode_to_host (inode_of_mem Endian.little m_root)).direct.getD 0 0 * BS) BS =
          some d ∧
      ∃ i, i < 64 ∧ dir_entry_ino Endian.little d i ≠ 0 ∧ dir_entry_name d i = [46]) ∧
    (∃ m_root d,
      pread (builder_image Endian.little [] 0 180 128) (3 * BS) INODE_SIZE = some m_root ∧
      pread (builder_image Endian.little [] 0 180 128)
        ((inode_to_host (inode_of_mem Endian.little m_root)).direct.getD 0 0 * BS) BS =
          some d ∧
      (¬ ∃ i, i < 64 ∧ dir_entry_ino Endian.little d i ≠ 0 ∧ dir_entry_name d i = [97]) ∧
      ∃ s, s < 64 ∧ dir_entry_ino Endian.little d s = 0) := by
  have hr : Reachable Endian.little (builder_image Endian.little [] 0 180 128) :=
    Reachable.format [] 0 180 128 (builder_image Endian.little [] 0 180 128)
      (by simp [mkfs_builder, builder_valid])
  constructor
  · obtain ⟨_, m_root, d, a1, a2, a3, _⟩ := directory_slot_selection Endian.little []
      (fun _ => 0) (builder_image Endian.little [] 0 180 128) [46] [1, 2, 3] hr (by decide)
      (by decide)
    have hdup := adder_read_phase_dup_fresh Endian.little [] 0 180 128 [1, 2, 3] (by decide)
      (by decide)
    have hst := mkfs_adder_of_read_error Endian.little [] (fun _ => 0)
      (builder_image Endian.little [] 0 180 128) [46] (some [1, 2, 3])
      adder_error.duplicate_name (by decide) hdup
    exact ⟨m_root, d, a1, a2, a3.1 (by rw [hst])⟩
  · obtain ⟨_, m_root, d, a1, a2, _, _, a5, _⟩ := directory_slot_selection Endian.little []
      (fun _ => 0) (builder_image Endian.little [] 0 180 128) [97] [1, 2, 3] hr (by decide)
      (by decide)
    obtain ⟨out, hs⟩ := adder_succeeds_fresh Endian.little [] [] (fun _ => 0) 0 180 128 [97]
      [1, 2, 3] (by decide) (by decide) (by decide) (by decide) (by decide)
    exact ⟨m_root, d, a1, a2, a5.1 (by rw [hs])⟩

/-! ## A second insert of the same name -/

theorem mkfs_adder_status_none (h : Endian) (after : List Nat) (clock : Nat → Nat)
    (img file_name : List Nat) (file : Option (List Nat))
    (hst : (mkfs_adder h after clock img file_name file).status = none) :
    file_name.length ≤ 57 ∧ ∃ p, adder_read_phase h img file_name file = Except.ok p := by
  unfold mkfs_adder at hst
  by_cases hn : file_name.length > 57
  · rw [if_pos hn] at hst
    exact absurd hst (by simp)
  · rw [if_neg hn, copy_image_eq] at hst
    simp only [] at hst
    refine ⟨by omega, ?_⟩
    cases hr : adder_read_phase h img file_name file with
    | error e =>
      rw [hr] at hst
      exact absurd hst (by simp)
    | ok p => exact ⟨p, rfl⟩

/-- After a successful insert of `file_name` the root directory block of the output has a
non-zero entry of that name, and a further insert of a file of at most 12 blocks under that
name stops at the scan with the duplicate-name error. -/
theorem insert_then_duplicate (h : Endian) (after : List Nat) (clock : Nat → Nat)
    (size_kib inode_count j : Nat) (img file_name : List Nat) (file : Option (List Nat))
    (p : adder_plan) (content2 : List Nat)
    (hinv : image_inv h size_kib inode_count j img) (hc : image_counts h j img)
    (hok : adder_read_phase h img file_name file = Except.ok p)
    (hn : file_name.length ≤ 57) (hnul : ∀ c ∈ file_name, c ≠ 0)
    (hneed : ((content2.length % 2 ^ 64 + BS - 1) % 2 ^ 64) / BS ≤ DIRECT_MAX) :
    adder_read_phase h (adder_write_phase h after clock file_name p img) file_name
        (some content2) = Except.error adder_error.duplicate_name ∧
    ∃ m_root d s,
      pread (adder_write_phase h after clock file_name p img) (3 * BS) INODE_SIZE =
        some m_root ∧
      pread (adder_write_phase h after clock file_name p img)
        ((inode_to_host (inode_of_mem h m_root)).direct.getD 0 0 * BS) BS = some d ∧
      s < 64 ∧ dir_entry_ino h d s ≠ 0 ∧ dir_entry_name d s = file_name := by
  have hBS : BS = 4096 := rfl
  obtain ⟨hpf, _⟩ := plan_facts_of_inv h size_kib inode_count j img file_name file p hinv hok
  have hinv2 := adder_write_inv h after clock size_kib inode_count j img file_name p
    hinv.valid hpf
  have hc2 := adder_write_counts h after clock size_kib inode_count j img file_name file p
    hinv hc hok
  obtain ⟨hj, _, _, _, hdl, k2, _⟩ :=
    insert_entry_of_inv h after clock size_kib inode_count j img file_name file p hinv hok
  obtain ⟨d, b1, b2, s1, _, _⟩ := adder_read_phase_by_scan h size_kib inode_count (j + 1)
    (adder_write_phase h after clock file_name p img) file_name content2 hinv2 hc2 hneed
  rw [k2] at b1
  have ed : d = mem_store p.root_dir_block (64 * (j + 2))
      (dirent_mem h (adder_new_entry h file_name p)) := (Option.some.inj b1).symm
  obtain ⟨e1, _⟩ := scan_root_dir_entries h file_name d
    (by rw [ed, length_mem_store _ _ _ (by
        rw [length_dirent_mem h _ (adder_new_entry_name_length h file_name p), hdl, hBS]
        omega), hdl])
    (fun i hi => (dir_inv_ino h (j + 1) d b2 i hi).1)
  have hino : dir_entry_ino h d (j + 2) ≠ 0 :=
    (dir_inv_ino h (j + 1) d b2 (j + 2) (by omega)).2.2 (by omega)
  have hname : dir_entry_name d (j + 2) = file_name := by
    unfold dir_entry_name
    obtain ⟨_, _, _, _, _, l6⟩ := adder_new_entry_layout h file_name p hn
      (p.root_dir_block.drop (64 * (j + 2) +
        (dirent_mem h (adder_new_entry h file_name p)).length))
    have hrep : List.replicate (58 - file_name.length) 0 =
        0 :: List.replicate (57 - file_name.length) 0 := by
      have : 58 - file_name.length = (57 - file_name.length) + 1 := by omega
      rw [this, List.replicate_succ]
    rw [← List.drop_drop, ed,
      mem_store_drop _ _ _ (by rw [hdl, hBS]; omega), l6, hrep, List.append_assoc,
      List.cons_append]
    exact c_str_append_nul file_name _ hnul
  obtain ⟨rd, w1, w2, w3⟩ := hinv2.root
  refine ⟨s1 (e1.2 ⟨j + 2, by omega, hino, hname⟩), inode_mem h rd, d, j + 2, w2, ?_, by omega,
    hino, hname⟩
  rw [inode_of_mem_self h rd w1, w3, ed]
  exact k2

/-- C11.  Duplicate names are rejected after an insert.  For every image the tools produced
and every file name (a C string of at most 57 bytes) on which the inserter succeeds, giving
`out`: the root directory block of `out` holds an entry with a non-zero inode number whose
name compares equal to the file name; a further insert into `out` under the same name, of
the same file or of any file of at most 12 blocks, fails with the duplicate-name error and
leaves `out` as it is; and no further insert under that name succeeds, whatever the file. -/
theorem duplicate_after_insert (h : Endian) (after after2 : List Nat) (clock clock2 : Nat → Nat)
    (img file_name : List Nat) (file : Option (List Nat)) (content2 out : List Nat)
    (hr : Reachable h img) (hnul : ∀ c ∈ file_name, c ≠ 0)
    (hs : mkfs_adder h after clock img file_name file =
      { status := none, output := some out })
    (hL2 : content2.length ≤ 49152) :
    file_name.length ≤ 57 ∧
    mkfs_adder h after2 clock2 out file_name (some content2) =
      { status := some adder_error.duplicate_name, output := some out } ∧
    mkfs_adder h after2 clock2 out file_name file =
      { status := some adder_error.duplicate_name, output := some out } ∧
    (∀ file2, (mkfs_adder h after2 clock2 out file_name file2).status ≠ none) ∧
    ∃ m_root d s,
      pread out (3 * BS) INODE_SIZE = some m_root ∧
      pread out ((inode_to_host (inode_of_mem h m_root)).direct.getD 0 0 * BS) BS = some d ∧
      s < 64 ∧ dir_entry_ino h d s ≠ 0 ∧ dir_entry_name d s = file_name := by
  have hBS : BS = 4096 := rfl
  obtain ⟨sk, ic, j, hinv, hc⟩ := reachable_counts h img hr
  obtain ⟨hn, p, hp1, hp2⟩ := mkfs_adder_ok h after clock img file_name file out hs
  obtain ⟨hpf, hfile⟩ := plan_facts_of_inv h sk ic j img file_name file p hinv hp1
  have hdup : ∀ c2 : List Nat, ((c2.length % 2 ^ 64 + BS - 1) % 2 ^ 64) / BS ≤ DIRECT_MAX →
      mkfs_adder h after2 clock2 out file_name (some c2) =
        { status := some adder_error.duplicate_name, output := some out } := by
    intro c2 hneed
    obtain ⟨d1, _⟩ := insert_then_duplicate h after clock sk ic j img file_name file p c2 hinv
      hc hp1 hn hnul hneed
    rw [← hp2] at d1
    exact mkfs_adder_of_read_error h after2 clock2 out file_name (some c2) _ hn d1
  have hneed1 : ((p.file.length % 2 ^ 64 + BS - 1) % 2 ^ 64) / BS ≤ DIRECT_MAX := by
    have := hpf.needed_le
    rw [hpf.needed, hpf.file_size] at this
    exact this
  obtain ⟨_, m_root, d, s, a1, a2, a3, a4, a5⟩ := insert_then_duplicate h after clock sk ic j
    img file_name file p p.file hinv hc hp1 hn hnul hneed1
  rw [← hp2] at a1 a2
  refine ⟨hn, hdup content2 (by simp only [DIRECT_MAX, hBS]; omega), ?_, ?_,
    m_root, d, s, a1, a2, a3, a4, a5⟩
  · rw [hfile]
    exact hdup p.file hneed1
  · intro file2 hst
    obtain ⟨_, p2, hok2⟩ := mkfs_adder_status_none h after2 clock2 out file_name file2 hst
    obtain ⟨_, _, _, _, _, _, _, _, _, _, _, _, r8, r9, r10, r11, _⟩ :=
      adder_read_phase_ok h out file_name file2 p2 hok2
    rw [r10, r9] at r11
    rw [r8, hdup p2.file r11] at hst
    exact absurd hst (by simp)

/-- Witness for C11: the file `a` inserted into the smallest fresh image, then inserted
again. -/
theorem duplicate_after_insert_witness :
    ∃ out, mkfs_adder Endian.little [] (fun _ => 0) (builder_image Endian.little [] 0 180 128)
        [97] (some [1, 2, 3]) = { status := none, output := some out } ∧
      mkfs_adder Endian.little [] (fun _ => 0) out [97] (some [4, 5]) =
        { status := some adder_error.duplicate_name, output := some out } ∧
      mkfs_adder Endian.little [] (fun _ => 0) out [97] (some [1, 2, 3]) =
        { status := some adder_error.duplicate_name, output := some out } := by
  obtain ⟨out, hs⟩ := adder_succeeds_fresh Endian.little [] [] (fun _ => 0) 0 180 128 [97]
    [1, 2, 3] (by decide) (by decide) (by decide) (by decide) (by decide)
  obtain ⟨_, a2, a3, _⟩ := duplicate_after_insert Endian.little [] [] (fun _ => 0)
    (fun _ => 0) (builder_image Endian.little [] 0 180 128) [97] (some [1, 2, 3]) [4, 5] out
    (Reachable.format [] 0 180 128 (builder_image Endian.little [] 0 180 128)
      (by simp [mkfs_builder, builder_valid])) (by decide) hs (by decide)
  exact ⟨out, hs, a2, a3⟩

/-! ## Length and layout of the image the formatter writes -/

/-- C25.  Image length.  For every valid `(size_kib, inode_count)` the formatter writes, in
order, one superblock block, the two bitmap blocks, `1 + (inode_table_blocks - 1)` blocks of
inode table and `1 + (data_region_blocks - 1)` data blocks, each of 4096 bytes:
`3 + inode_table_blocks + data_region_blocks = total_blocks` blocks in all, so the image is
exactly `size_kib * 1024` bytes long; and the offset at which each region begins in the image
is the block number the superblock records for it, times 4096. -/
theorem builder_image_length (h : Endian) (after : List Nat) (now size_kib inode_count : Nat)
    (h1 : 180 ≤ size_kib) (h2 : size_kib ≤ 4096) (h3 : size_kib % 4 = 0)
    (h4 : 128 ≤ inode_count) (h5 : inode_count ≤ 512) :
    ∃ img r0 r3 r5 sbm,
      mkfs_builder h after now size_kib inode_count = some img ∧
      img = r0 ++ first_bit_block ++ first_bit_block ++ r3 ++
        List.replicate (((builder_geometry size_kib inode_count).inode_table_blocks - 1) * BS) 0 ++
        r5 ++
        List.replicate (((builder_geometry size_kib inode_count).data_region_blocks - 1) * BS) 0 ∧
      r0.length = BS ∧ first_bit_block.length = BS ∧ r3.length = BS ∧ r5.length = BS ∧
      1 ≤ (builder_geometry size_kib inode_count).inode_table_blocks ∧
      1 ≤ (builder_geometry size_kib inode_count).data_region_blocks ∧
      3 + (builder_geometry size_kib inode_count).inode_table_blocks +
          (builder_geometry size_kib inode_count).data_region_blocks =
        (builder_geometry size_kib inode_count).total_blocks ∧
      img.length = (builder_geometry size_kib inode_count).total_blocks * BS ∧
      img.length = size_kib * 1024 ∧
      pread img 0 116 = some sbm ∧
      (superblock_to_host (superblock_of_mem h sbm)).block_size = BS ∧
      (superblock_to_host (superblock_of_mem h sbm)).total_blocks =
        (builder_geometry size_kib inode_count).total_blocks ∧
      (superblock_to_host (superblock_of_mem h sbm)).inode_table_blocks =
        (builder_geometry size_kib inode_count).inode_table_blocks ∧
      (superblock_to_host (superblock_of_mem h sbm)).data_region_blocks =
        (builder_geometry size_kib inode_count).data_region_blocks ∧
      (superblock_to_host (superblock_of_mem h sbm)).inode_bitmap_blocks = 1 ∧
      (superblock_to_host (superblock_of_mem h sbm)).data_bitmap_blocks = 1 ∧
      r0.length = (superblock_to_host (superblock_of_mem h sbm)).inode_bitmap_start * BS ∧
      (r0 ++ first_bit_block).length =
        (superblock_to_host (superblock_of_mem h sbm)).data_bitmap_start * BS ∧
      (r0 ++ first_bit_block ++ first_bit_block).length =
        (superblock_to_host (superblock_of_mem h sbm)).inode_table_start * BS ∧
      (r0 ++ first_bit_block ++ first_bit_block ++ r3 ++
        List.replicate (((builder_geometry size_kib inode_count).inode_table_blocks - 1) * BS)
          0).length =
        (superblock_to_host (superblock_of_mem h sbm)).data_region_start * BS ∧
      img.length = (superblock_to_host (superblock_of_mem h sbm)).total_blocks * BS := by
  have hBS : BS = 4096 := rfl
  have hv : builder_valid size_kib inode_count = true :=
    (builder_valid_iff size_kib inode_count).2 ⟨h1, h2, h3, h4, h5⟩
  obtain ⟨k0, _, _, _, _, _, _, klen⟩ := builder_image_reads h after now size_kib inode_count hv
  obtain ⟨g1, g2, g3, g4, g5, g6, g7, g8, g9, g10, g11⟩ :=
    builder_geometry_bounds size_kib inode_count hv
  have hsbwf := builder_superblock_wf h after now size_kib inode_count
  have hdec := builder_superblock_decode h after now size_kib inode_count hv
  have hl0 : (superblock_mem h (builder_superblock h after now size_kib inode_count) ++
      List.replicate (BS - 116) 0).length = BS := by
    rw [List.length_append, length_superblock_mem, List.length_replicate, hBS]
  have hl3 : (inode_mem h (builder_root_inode h
      (builder_superblock h after now size_kib inode_count)
      (builder_geometry size_kib inode_count).data_region_start) ++
      List.replicate (BS - 128) 0).length = BS := by
    rw [List.length_append, length_inode_mem h _ (builder_root_direct_length h _ _),
      List.length_replicate, hBS]
  have hl5 : (dirent_mem h (builder_dirent h [46]) ++ dirent_mem h (builder_dirent h [46, 46]) ++
      List.replicate (BS - 128) 0).length = BS := by
    rw [List.length_append, List.length_append,
      length_dirent_mem h _ (builder_dirent_name_length h [46] (by decide)),
      length_dirent_mem h _ (builder_dirent_name_length h [46, 46] (by decide)),
      List.length_replicate, hBS]
  have hsub := pread_sub _ 0 BS _ 0 116 k0 (by rw [hBS]; omega)
  rw [List.drop_zero, List.take_left' (length_superblock_mem h _), Nat.add_zero] at hsub
  have hsb : superblock_to_host (superblock_of_mem h
      (superblock_mem h (builder_superblock h after now size_kib inode_count))) =
      host_superblock size_kib inode_count (now % 2 ^ 64)
        (from_le32 (builder_superblock h after now size_kib inode_count).checksum) := by
    rw [superblock_of_mem_self h _ hsbwf, hdec]
  have hfb := length_first_bit_block
  refine ⟨builder_image h after now size_kib inode_count, _, _, _, _, ?_,
    builder_image_eq h after now size_kib inode_count, hl0, hfb, hl3, hl5, by omega, by omega,
    by omega, klen, ?_, hsub, ?_⟩
  · unfold mkfs_builder
    rw [if_pos hv]
  · rw [klen, hBS]
    omega
  · rw [hsb]
    refine ⟨rfl, rfl, rfl, rfl, rfl, rfl, ?_, ?_, ?_, ?_, klen⟩
    · rw [hl0]
      show BS = 1 * BS
      omega
    · rw [List.length_append, hl0, hfb]
      show BS + BS = 2 * BS
      omega
    · rw [List.length_append, List.length_append, hl0, hfb]
      show BS + BS + BS = 3 * BS
      omega
    · rw [List.length_append, List.length_append, List.length_append, List.length_append, hl0,
        hfb, hl3, List.length_replicate]
      show BS + BS + BS + BS +
        ((builder_geometry size_kib inode_count).inode_table_blocks - 1) * BS =
          (builder_geometry size_kib inode_count).data_region_start * BS
      rw [g8, hBS]
      omega

/-- Witness for C25: the smallest image, 180 KiB with 128 inodes, is 184320 bytes long. -/
theorem builder_image_length_witness :
    ∃ img, mkfs_builder Endian.little [] 0 180 128 = some img ∧ img.length = 180 * 1024 ∧
      3 + (builder_geometry 180 128).inode_table_blocks +
          (builder_geometry 180 128).data_region_blocks = (builder_geometry 180 128).total_blocks ∧
      img.length = (builder_geometry 180 128).total_blocks * BS := by
  obtain ⟨img, _, _, _, _, a1, _, _, _, _, _, _, _, a9, a10, a11, _⟩ :=
    builder_image_length Endian.little [] 0 180 128 (by decide) (by decide) (by decide)
      (by decide) (by decide)
  exact ⟨img, a1, a11, a9, a10⟩

/-! ## The invariant of reachable images, with the number of inserts -/

theorem reachable_in_reachable (h : Endian) (k : Nat) (img : List Nat)
    (hr : ReachableIn h k img) : Reachable h img := by
  induction hr with
  | format after now size_kib inode_count img hb =>
    exact Reachable.format after now size_kib inode_count img hb
  | insert after clock img file_name file out k _ hs ih =>
    exact Reachable.insert after clock img file_name file out ih hs

theorem reachable_in_of_reachable (h : Endian) (img : List Nat) (hr : Reachable h img) :
    ∃ k, ReachableIn h k img := by
  induction hr with
  | format after now size_kib inode_count img hb =>
    exact ⟨0, ReachableIn.format after now size_kib inode_count img hb⟩
  | insert after clock img file_name file out _ hs ih =>
    obtain ⟨k, hk⟩ := ih
    exact ⟨k + 1, ReachableIn.insert after clock img file_name file out k hk hs⟩

theorem reachable_in_inv (h : Endian) (k : Nat) (img : List Nat) (hr : ReachableIn h k img) :
    ∃ size_kib inode_count, image_inv h size_kib inode_count k img ∧ image_counts h k img := by
  induction hr with
  | format after now size_kib inode_count img hb =>
    unfold mkfs_builder at hb
    by_cases hv : builder_valid size_kib inode_count = true
    · rw [if_pos hv] at hb
      have := Option.some.inj hb
      subst this
      exact ⟨size_kib, inode_count, builder_image_inv h after now size_kib inode_count hv,
        builder_image_counts h after now size_kib inode_count hv⟩
    · rw [if_neg hv] at hb
      exact absurd hb (by simp)
  | insert after clock img file_name file out k _ hs ih =>
    obtain ⟨size_kib, inode_count, hinv, hc⟩ := ih
    obtain ⟨_, p, hp1, hp2⟩ := mkfs_adder_ok h after clock img file_name file out hs
    obtain ⟨hpf, _⟩ := plan_facts_of_inv h size_kib inode_count k img file_name file p hinv hp1
    rw [hp2]
    exact ⟨size_kib, inode_count,
      adder_write_inv h after clock size_kib inode_count k img file_name p hinv.valid hpf,
      adder_write_counts h after clock size_kib inode_count k img file_name file p hinv hc hp1⟩

/-- C24.  Reachable-image invariant bounding inode allocation.  In every image obtained from
a formatter output for valid parameters by `k` successful inserts: `k ≤ 62`; the set bits of
the inode bitmap are exactly bits `0 .. k`; the slots of the root directory block with a
non-zero inode number are exactly slots `0 .. k + 1`.  Hence every insert that succeeds on
such an image has `k ≤ 61` and allocates inode index `k + 1 ≤ 62`, below the `inode_count`
of the superblock, which is at least 128; the slot it writes, at
`inode_table_start * BS + (k + 1) * INODE_SIZE`, lies inside the inode table and ends before
the data region begins. -/
theorem reachable_inode_bound (h : Endian) (k : Nat) (img : List Nat)
    (hr : ReachableIn h k img) :
    k ≤ 62 ∧
    ∃ sbm ibm m_root d,
      pread img 0 116 = some sbm ∧ pread img BS BS = some ibm ∧
      pread img (3 * BS) INODE_SIZE = some m_root ∧
      pread img ((inode_to_host (inode_of_mem h m_root)).direct.getD 0 0 * BS) BS = some d ∧
      (∀ b, is_bit_set ibm b = true ↔ b ≤ k) ∧
      (∀ i, i < 64 → (dir_entry_ino h d i ≠ 0 ↔ i ≤ k + 1)) ∧
      128 ≤ (superblock_to_host (superblock_of_mem h sbm)).inode_count ∧
      (superblock_to_host (superblock_of_mem h sbm)).inode_count * INODE_SIZE ≤
        (superblock_to_host (superblock_of_mem h sbm)).inode_table_blocks * BS ∧
      (superblock_to_host (superblock_of_mem h sbm)).data_region_start =
        (superblock_to_host (superblock_of_mem h sbm)).inode_table_start +
          (superblock_to_host (superblock_of_mem h sbm)).inode_table_blocks ∧
      ∀ after clock file_name file out,
        mkfs_adder h after clock img file_name file = { status := none, output := some out } →
        k ≤ 61 ∧ find_free_bit ibm BS = ((k + 1 : Nat) : Int) ∧ k + 1 ≤ 62 ∧
        k + 1 < (superblock_to_host (superblock_of_mem h sbm)).inode_count ∧
        (superblock_to_host (superblock_of_mem h sbm)).inode_table_start * BS +
            (k + 1) * INODE_SIZE + INODE_SIZE ≤
          (superblock_to_host (superblock_of_mem h sbm)).data_region_start * BS ∧
        (∃ m, pread out ((superblock_to_host (superblock_of_mem h sbm)).inode_table_start * BS +
            (k + 1) * INODE_SIZE) INODE_SIZE = some m ∧
          (inode_to_host (inode_of_mem h m)).mode = 0o100000) ∧
        ReachableIn h (k + 1) out := by
  have hBS : BS = 4096 := rfl
  have hIS : INODE_SIZE = 128 := rfl
  obtain ⟨sk, ic, hinv, _⟩ := reachable_in_inv h k img hr
  obtain ⟨hv, hk, ⟨sbd, t, c, i1, i2, i3⟩, ⟨ibm, i4, i5, i6⟩, _, ⟨rd, i10, i11, i12⟩,
    ⟨d, i13, i14⟩⟩ := hinv
  obtain ⟨v1, v2, v3, v4, v5⟩ := (builder_valid_iff sk ic).1 hv
  obtain ⟨g1, g2, g3, g4, g5, g6, g7, g8, g9, g10, g11⟩ := builder_geometry_bounds sk ic hv
  have hsb : superblock_to_host (superblock_of_mem h (superblock_mem h sbd)) =
      host_superblock sk ic t c := by
    rw [superblock_of_mem_self h sbd i1, i3]
  have hlen : ibm.length = BS := length_pread _ _ _ _ i4
  have htab : ic * 128 ≤ (builder_geometry sk ic).inode_table_blocks * 4096 := by
    have e : (builder_geometry sk ic).inode_table_blocks =
        ((ic * INODE_SIZE) % 2 ^ 64 + BS - 1) % 2 ^ 64 / BS := rfl
    rw [e, hBS, hIS, Nat.mod_eq_of_lt (by omega), Nat.mod_eq_of_lt (by omega)]
    omega
  refine ⟨hk, superblock_mem h sbd, ibm, inode_mem h rd, d, i2, i4, i11, ?_, ?_, ?_, ?_⟩
  · rw [inode_of_mem_self h rd i10, i12]
    exact i13
  · intro b
    by_cases hb : b < 8 * BS
    · rw [i6 b hb]
      simp
    · rw [is_bit_set_beyond ibm b (by rw [hlen]; omega)]
      constructor
      · intro e
        exact absurd e (by simp)
      · intro e
        rw [hBS] at hb
        omega
  · intro i hi
    exact (dir_inv_ino h k d i14 i hi).2
  · rw [hsb]
    refine ⟨v4, ?_, ?_, ?_⟩
    · show ic * INODE_SIZE ≤ (builder_geometry sk ic).inode_table_blocks * BS
      rw [hIS, hBS]
      exact htab
    · show (builder_geometry sk ic).data_region_start =
        3 + (builder_geometry sk ic).inode_table_blocks
      exact g8
    · intro after clock file_name file out hs
      obtain ⟨_, p, hp1, hp2⟩ := mkfs_adder_ok h after clock img file_name file out hs
      have hinv2 : image_inv h sk ic k img :=
        ⟨hv, hk, ⟨sbd, t, c, i1, i2, i3⟩, ⟨ibm, i4, i5, i6⟩, by assumption,
          ⟨rd, i10, i11, i12⟩, ⟨d, i13, i14⟩⟩
      obtain ⟨hpf, _⟩ := plan_facts_of_inv h sk ic k img file_name file p hinv2 hp1
      have hj := hpf.j_le
      obtain ⟨_, _, _, _, r5, _, _⟩ :=
        adder_write_reads h after clock sk ic k img file_name p hv hpf
      rw [← hp2] at r5
      obtain ⟨d1, _, _, d4, _⟩ := adder_new_inode_decode h clock sk ic k img p hv hpf
      refine ⟨hj, free_inode_of_inv ibm k hlen i5 hk i6, by omega, ?_, ?_, ⟨_, r5, ?_⟩,
        ReachableIn.insert after clock img file_name file out k hr hs⟩
      · show k + 1 < ic
        omega
      · show 3 * BS + (k + 1) * INODE_SIZE + INODE_SIZE ≤
          (builder_geometry sk ic).data_region_start * BS
        rw [g8, hBS, hIS]
        omega
      · rw [inode_of_mem_self h _ d1]
        exact d4

/-! ## The slots of the directory block through the scan and the write -/

theorem dir_slot_of_pread (d : List Nat) (i : Nat) (v : List Nat)
    (hp : pread d (64 * i) 64 = some v) : dir_slot d i = v :=
  ((pread_eq_some _ _ _ _).1 hp).2.symm

theorem pread_dir_slot (d : List Nat) (i : Nat) (hd : d.length = BS) (hi : i < 64) :
    pread d (64 * i) 64 = some (dir_slot d i) := by
  rw [pread_eq_some]
  exact ⟨by rw [hd]; simp only [BS]; omega, rfl⟩

theorem length_dir_slot (d : List Nat) (i : Nat) (hd : d.length = BS) (hi : i < 64) :
    (dir_slot d i).length = 64 :=
  length_pread _ _ _ _ (pread_dir_slot d i hd hi)

theorem dir_slot_take_4 (d : List Nat) (i : Nat) : (dir_slot d i).take 4 = dir_ino_bytes d i := by
  unfold dir_slot dir_ino_bytes
  rw [List.take_take]
  rfl

theorem dir_slot_store_other (d : List Nat) (i i2 : Nat) (src : List Nat)
    (hd : d.length = BS) (hi : i < 64) (hi2 : i2 < 64) (hne : i2 ≠ i) (hs : src.length ≤ 64) :
    dir_slot (mem_store d (64 * i) src) i2 = dir_slot d i2 := by
  have hBS : BS = 4096 := rfl
  apply dir_slot_of_pread
  rw [mem_store_eq_pwrite _ _ _ (by rw [hd, hBS]; omega)]
  exact pread_pwrite_keep d (64 * i) src (64 * i2) 64 _ (pread_dir_slot d i2 hd hi2) (by omega)

theorem dir_slot_store_same (d : List Nat) (i : Nat) (src : List Nat)
    (hd : d.length = BS) (hi : i < 64) (hs : src.length ≤ 64) :
    dir_slot (mem_store d (64 * i) src) i = src ++ (dir_slot d i).drop src.length := by
  have hBS : BS = 4096 := rfl
  apply dir_slot_of_pread
  rw [mem_store_eq_pwrite _ _ _ (by rw [hd, hBS]; omega)]
  have h1 := pread_pwrite_same d (64 * i) src
  have h2 : pread (pwrite d (64 * i) src) (64 * i + src.length) (64 - src.length) =
      some ((dir_slot d i).drop src.length) := by
    apply pread_pwrite_keep d (64 * i) src _ _ _ _ (by omega)
    have := pread_sub d (64 * i) 64 _ src.length (64 - src.length) (pread_dir_slot d i hd hi)
      (by omega)
    rw [this]
    congr 1
    apply List.take_of_length_le
    rw [List.length_drop, length_dir_slot d i hd hi]
  have := pread_join _ _ _ _ _ _ h1 h2
  have e : src.length + (64 - src.length) = 64 := by omega
  rw [e] at this
  exact this

/-- The block the scan leaves behind when it finds no duplicate: in every slot it has
visited the four bytes of the inode number hold the converted value, and nothing else has
changed. -/
theorem scan_root_dir_block (h : Endian) (file_name : List Nat) :
    ∀ n i blk (fe : Int), blk.length = BS → i + n = 64 →
      (scan_root_dir h file_name n i blk fe).2.2 = false →
      (scan_root_dir h file_name n i blk fe).1.length = BS ∧
      (∀ i2, i2 < i → dir_slot (scan_root_dir h file_name n i blk fe).1 i2 = dir_slot blk i2) ∧
      (∀ i2, i ≤ i2 → i2 < 64 → dir_slot (scan_root_dir h file_name n i blk fe).1 i2 =
        host_bytes h 4 (from_le32 (field_at h blk (64 * i2) 4)) ++ (dir_slot blk i2).drop 4) := by
  intro n
  induction n with
  | zero =>
    intro i blk fe hlen hin _
    have e : scan_root_dir h file_name 0 i blk fe = (blk, fe, false) := rfl
    rw [e]
    exact ⟨hlen, fun _ _ => rfl, fun i2 h1 h2 => by omega⟩
  | succ n ih =>
    intro i blk fe hlen hin hnd
    have hi : i < 64 := by omega
    obtain ⟨d1, _, d4, _⟩ := dirent_to_host_at_exact h blk i hlen hi
    have hlb : (host_bytes h 4 (from_le32 (field_at h blk (64 * i) 4))).length = 4 :=
      length_host_bytes _ _ _
    have hother : ∀ i2, i2 < 64 → i2 ≠ i →
        dir_slot (dirent_to_host_at h blk i) i2 = dir_slot blk i2 := by
      intro i2 h1 h2
      unfold dirent_to_host_at
      exact dir_slot_store_other blk i i2 _ hlen hi h1 h2 (by rw [hlb]; omega)
    have hsame : dir_slot (dirent_to_host_at h blk i) i =
        host_bytes h 4 (from_le32 (field_at h blk (64 * i) 4)) ++ (dir_slot blk i).drop 4 := by
      unfold dirent_to_host_at
      rw [dir_slot_store_same blk i _ hlen hi (by rw [hlb]; omega), hlb]
    rw [scan_root_dir] at hnd ⊢
    simp only [] at hnd ⊢
    by_cases hc : field_at h (dirent_to_host_at h blk i) (64 * i) 4 ≠ 0 ∧
        c_str ((dirent_to_host_at h blk i).drop (64 * i + 5)) = file_name
    · rw [if_pos hc] at hnd
      exact absurd hnd (by simp)
    · rw [if_neg hc] at hnd ⊢
      obtain ⟨a1, a2, a3⟩ := ih (i + 1) (dirent_to_host_at h blk i) _ d1 (by omega) hnd
      refine ⟨a1, ?_, ?_⟩
      · intro i2 hi2
        rw [a2 i2 (by omega), hother i2 (by omega) (by omega)]
      · intro i2 h1 h2
        by_cases he : i2 = i
        · rw [he, a2 i (by omega), hsame]
        · rw [a3 i2 (by omega) h2, d4 i2 h2 he, hother i2 h2 he]

/-! ## The XOR checksum of a directory entry and the order of its bytes -/

theorem xor_fold_init (l : List Nat) :
    ∀ a, l.foldl (fun x b => x ^^^ b) a = a ^^^ l.foldl (fun x b => x ^^^ b) 0 := by
  induction l with
  | nil => intro a; simp
  | cons b bs ih =>
    intro a
    simp only [List.foldl_cons]
    rw [ih (a ^^^ b), ih (0 ^^^ b), Nat.zero_xor, Nat.xor_assoc]

theorem xor_fold_reverse (l : List Nat) (a : Nat) :
    l.reverse.foldl (fun x b => x ^^^ b) a = l.foldl (fun x b => x ^^^ b) a := by
  induction l generalizing a with
  | nil => rfl
  | cons b bs ih =>
    rw [List.reverse_cons, List.foldl_append, ih]
    simp only [List.foldl_cons, List.foldl_nil]
    rw [xor_fold_init bs a, xor_fold_init bs (a ^^^ b), Nat.xor_assoc, Nat.xor_assoc,
      Nat.xor_comm b]

/-- Reversing the four bytes of the inode number of a directory entry keeps its checksum
byte right. -/
theorem dirent_checksum_ok_swap (e : List Nat) (he : e.length = 64)
    (hok : dirent_checksum_ok e) : dirent_checksum_ok ((e.take 4).reverse ++ e.drop 4) := by
  unfold dirent_checksum_ok at hok ⊢
  have hl : ((e.take 4).reverse).length = 4 := by
    rw [List.length_reverse, List.length_take]; omega
  have e1 : ((e.take 4).reverse ++ e.drop 4).getD 63 0 = e.getD 63 0 := by
    rw [List.getD_append_right _ _ _ _ (by rw [hl]; omega), hl]
    simp only [List.getD_eq_getElem?_getD, List.getElem?_drop]
  have e2 : ((e.take 4).reverse ++ e.drop 4).take 63 =
      (e.take 4).reverse ++ (e.drop 4).take 59 := by
    rw [List.take_append_eq_append_take, hl, List.take_of_length_le (by rw [hl]; omega)]
  have e3 : e.take 63 = e.take 4 ++ (e.drop 4).take 59 := by
    have : e.take 63 = (e.take 63).take 4 ++ (e.take 63).drop 4 :=
      (List.take_append_drop 4 _).symm
    rw [this, List.take_take, List.drop_take]
    rfl
  rw [e1, e2, hok, e3, List.foldl_append, List.foldl_append, xor_fold_reverse]

/-- A finalized directory entry carries the XOR of its first 63 bytes in its last byte. -/
theorem finalized_dirent_checksum_ok (h : Endian) (de : dirent64_t) (hn : de.name.length = 58)
    (hc : ∀ c ∈ de.name, c < 256) :
    dirent_checksum_ok (dirent_mem h (dirent_checksum_finalize h de)) := by
  obtain ⟨_, _, e⟩ := dirent_checksum_finalize_spec h de hn hc
  have hl : ((dirent_mem h de).take 63).length = 63 := by
    rw [List.length_take, length_dirent_mem h de hn]
    rfl
  unfold dirent_checksum_ok
  rw [e, List.getD_append_right _ _ _ _ (by rw [hl]), hl, List.take_left' hl]
  rfl

theorem adder_new_entry_checksum_ok (h : Endian) (file_name : List Nat) (p : adder_plan)
    (hn : file_name.length ≤ 57) (hc : ∀ c ∈ file_name, c < 256) :
    dirent_checksum_ok (dirent_mem h (adder_new_entry h file_name p)) := by
  have hname := adder_new_entry_name h file_name p hn
  have hlen := adder_new_entry_name_length h file_name p
  unfold adder_new_entry
  apply finalized_dirent_checksum_ok
  · exact hlen
  · show ∀ c ∈ (adder_new_entry h file_name p).name, c < 256
    rw [hname]
    intro c hcm
    rcases List.mem_append.1 hcm with hcm | hcm
    · exact hc c hcm
    · rw [(List.mem_replicate.1 hcm).2]
      norm_num

/-- The root directory block a successful insert writes, slot by slot: the new entry in slot
`j + 2`; in every other slot the four bytes of the inode number in reverse order and the
other 60 bytes as they were. -/
theorem insert_dir_slots (h : Endian) (after : List Nat) (clock : Nat → Nat)
    (size_kib inode_count j : Nat) (img file_name : List Nat) (file : Option (List Nat))
    (p : adder_plan) (hinv : image_inv h size_kib inode_count j img)
    (hok : adder_read_phase h img file_name file = Except.ok p) :
    ∃ d d2, pread img ((builder_geometry size_kib inode_count).data_region_start * BS) BS =
        some d ∧ dir_inv h j d ∧
      pread (adder_write_phase h after clock file_name p img)
        ((builder_geometry size_kib inode_count).data_region_start * BS) BS = some d2 ∧
      d2.length = BS ∧ j ≤ 61 ∧
      dir_slot d2 (j + 2) = dirent_mem h (adder_new_entry h file_name p) ∧
      ∀ i, i < 64 → i ≠ j + 2 →
        dir_slot d2 i = (dir_ino_bytes d i).reverse ++ (dir_slot d i).drop 4 := by
  have hBS : BS = 4096 := rfl
  obtain ⟨_, d, fe, _, _, _, q4, q5, q6, _, _⟩ :=
    plan_reads_of_inv h size_kib inode_count j img file_name file p hinv hok
  obtain ⟨k1, _, _, _, k5, k6, _⟩ :=
    insert_entry_of_inv h after clock size_kib inode_count j img file_name file p hinv hok
  have hd : d.length = BS := length_pread _ _ _ _ q4
  have hs := scan_root_dir_block h file_name 64 0 d (-1) hd rfl (by rw [q6])
  rw [q6] at hs
  obtain ⟨_, _, s3⟩ := hs
  have hnl := length_dirent_mem h _ (adder_new_entry_name_length h file_name p)
  refine ⟨d, _, q4, q5, k6, length_pread _ _ _ _ k6, k1, ?_, ?_⟩
  · rw [dir_slot_store_same _ _ _ k5 (by omega) (by rw [hnl]), hnl,
      List.drop_of_length_le (by rw [length_dir_slot _ _ k5 (by omega)]), List.append_nil]
  · intro i hi hne
    rw [dir_slot_store_other _ _ _ _ k5 (by omega) hi hne (by rw [hnl]), s3 i (Nat.zero_le _) hi]
    obtain ⟨v, hv, hb, _⟩ := q5 i hi
    have e : field_at h d (64 * i) 4 = v := by
      rw [field_at_dir, hb]
      exact host_val_host_bytes_of_lt h 4 v hv
    rw [e, hb]
    unfold from_le32
    rw [host_bytes_to_le32]

/-! ## The directory checksums of the images the tools produce -/

theorem image_inv_root_dir (h : Endian) (size_kib inode_count j : Nat) (img : List Nat)
    (hinv : image_inv h size_kib inode_count j img) :
    ∃ m_root d, pread img (3 * BS) INODE_SIZE = some m_root ∧
      (inode_to_host (inode_of_mem h m_root)).direct.getD 0 0 =
        (builder_geometry size_kib inode_count).data_region_start ∧
      pread img ((builder_geometry size_kib inode_count).data_region_start * BS) BS = some d ∧
      dir_inv h j d := by
  obtain ⟨rd, w1, w2, w3⟩ := hinv.root
  obtain ⟨d, w4, w5⟩ := hinv.dir
  refine ⟨inode_mem h rd, d, w2, ?_, w4, w5⟩
  rw [inode_of_mem_self h rd w1]
  exact w3

theorem xor_fold_replicate_zero (n : Nat) :
    (List.replicate n 0).foldl (fun x b => x ^^^ b) 0 = 0 := by
  induction n with
  | zero => rfl
  | succ n ih =>
    rw [List.replicate_succ, List.foldl_cons]
    exact ih

theorem dirent_checksum_ok_zero (n : Nat) : dirent_checksum_ok (List.replicate n 0) := by
  unfold dirent_checksum_ok
  rw [List.take_replicate, xor_fold_replicate_zero, List.getD_eq_getElem?_getD,
    List.getElem?_replicate]
  split <;> rfl

theorem builder_dirent_checksum_ok (h : Endian) (s : List Nat) (hs : s.length ≤ 58)
    (hc : ∀ c ∈ s, c < 256) : dirent_checksum_ok (dirent_mem h (builder_dirent h s)) := by
  have hlen := builder_dirent_name_length h s hs
  have hname := builder_dirent_name h s
  unfold builder_dirent
  apply finalized_dirent_checksum_ok
  · exact hlen
  · show ∀ c ∈ (builder_dirent h s).name, c < 256
    rw [hname]
    unfold strncpy_into
    intro c hcm
    rcases List.mem_append.1 hcm with hcm | hcm
    · exact hc c (List.mem_of_mem_take hcm)
    · rw [(List.mem_replicate.1 hcm).2]
      norm_num

/-- The slots of the root directory block the formatter writes. -/
theorem fresh_dir_slots (h : Endian) :
    dir_slot (dirent_mem h (builder_dirent h [46]) ++ dirent_mem h (builder_dirent h [46, 46]) ++
      List.replicate (BS - 128) 0) 0 = dirent_mem h (builder_dirent h [46]) ∧
    dir_slot (dirent_mem h (builder_dirent h [46]) ++ dirent_mem h (builder_dirent h [46, 46]) ++
      List.replicate (BS - 128) 0) 1 = dirent_mem h (builder_dirent h [46, 46]) ∧
    ∀ i, 2 ≤ i → i < 64 →
      dir_slot (dirent_mem h (builder_dirent h [46]) ++
        dirent_mem h (builder_dirent h [46, 46]) ++ List.replicate (BS - 128) 0) i =
          List.replicate 64 0 := by
  have hBS : BS = 4096 := rfl
  have l1 := length_dirent_mem h _ (builder_dirent_name_length h [46] (by decide))
  have l2 := length_dirent_mem h _ (builder_dirent_name_length h [46, 46] (by decide))
  refine ⟨?_, ?_, ?_⟩
  · unfold dir_slot
    rw [List.append_assoc, Nat.mul_zero, List.drop_zero, List.take_left' l1]
  · unfold dir_slot
    rw [List.append_assoc, Nat.mul_one, List.drop_left' l1, List.take_left' l2]
  · intro i h2 hi
    unfold dir_slot
    rw [List.drop_append_eq_append_drop,
      List.drop_of_length_le (by rw [List.length_append, l1, l2]; omega), List.nil_append,
      List.drop_replicate, List.take_replicate, List.length_append, l1, l2]
    have e : min 64 (BS - 128 - (64 * i - (64 + 64))) = 64 := by rw [hBS]; omega
    rw [e]

theorem fresh_dir_checksum_ok (h : Endian) (i : Nat) (hi : i < 64) :
    dirent_checksum_ok (dir_slot (dirent_mem h (builder_dirent h [46]) ++
      dirent_mem h (builder_dirent h [46, 46]) ++ List.replicate (BS - 128) 0) i) := by
  obtain ⟨s0, s1, s2⟩ := fresh_dir_slots h
  by_cases h0 : i = 0
  · rw [h0, s0]
    exact builder_dirent_checksum_ok h [46] (by decide) (by decide)
  · by_cases h1 : i = 1
    · rw [h1, s1]
      exact builder_dirent_checksum_ok h [46, 46] (by decide) (by decide)
    · rw [s2 i (by omega) hi]
      exact dirent_checksum_ok_zero 64

/-- C22.  The directory checksum invariant is preserved by an insert.  On an image the
tools produced, with a file name of bytes: if each of the 64 entries of the root directory
block of the input image (the block the first direct pointer of the root inode names) has
its checksum byte equal to the XOR of its first 63 bytes, then after a successful insert the
root inode of the output names the same block and each of the 64 entries of that block in
the output, the new one and the ones rewritten by the whole-block write, has it too. -/
theorem dir_checksums_preserved (h : Endian) (after : List Nat) (clock : Nat → Nat)
    (img file_name : List Nat) (file : Option (List Nat)) (out m_root d : List Nat)
    (hr : Reachable h img) (hchars : ∀ c ∈ file_name, c < 256)
    (hs : mkfs_adder h after clock img file_name file = { status := none, output := some out })
    (hroot : pread img (3 * BS) INODE_SIZE = some m_root)
    (hd : pread img ((inode_to_host (inode_of_mem h m_root)).direct.getD 0 0 * BS) BS = some d)
    (hok : ∀ i, i < 64 → dirent_checksum_ok (dir_slot d i)) :
    ∃ m_root2 d2, pread out (3 * BS) INODE_SIZE = some m_root2 ∧
      (inode_to_host (inode_of_mem h m_root2)).direct.getD 0 0 =
        (inode_to_host (inode_of_mem h m_root)).direct.getD 0 0 ∧
      pread out ((inode_to_host (inode_of_mem h m_root2)).direct.getD 0 0 * BS) BS = some d2 ∧
      ∀ i, i < 64 → dirent_checksum_ok (dir_slot d2 i) := by
  obtain ⟨sk, ic, j, hinv, _⟩ := reachable_counts h img hr
  obtain ⟨hn, p, hp⟩ := mkfs_adder_status_none h after clock img file_name file
    (by rw [hs])
  have hout := mkfs_adder_of_read_ok h after clock img file_name file p hn hp
  rw [hs] at hout
  have eout : out = adder_write_phase h after clock file_name p img := by
    injection hout with _ e2
    exact Option.some.inj e2
  obtain ⟨hpf, _⟩ := plan_facts_of_inv h sk ic j img file_name file p hinv hp
  have hinv2 := adder_write_inv h after clock sk ic j img file_name p hinv.valid hpf
  obtain ⟨m0, d0, a1, a2, a3, _⟩ := image_inv_root_dir h sk ic j img hinv
  obtain ⟨m2, _, b1, b2, _, _⟩ := image_inv_root_dir h sk ic (j + 1) _ hinv2
  obtain ⟨d1, d2, c1, _, c3, c4, _, c6, c7⟩ :=
    insert_dir_slots h after clock sk ic j img file_name file p hinv hp
  rw [hroot] at a1
  have em : m0 = m_root := (Option.some.inj a1).symm
  rw [em] at a2
  rw [a2, c1] at hd
  have ed : d1 = d := Option.some.inj hd
  rw [ed] at c7
  rw [← eout] at b1 c3
  refine ⟨m2, d2, b1, by rw [b2, a2], by rw [b2]; exact c3, ?_⟩
  intro i hi
  by_cases hi2 : i = j + 2
  · rw [hi2, c6]
    exact adder_new_entry_checksum_ok h file_name p hn hchars
  · rw [c7 i hi hi2, ← dir_slot_take_4]
    exact dirent_checksum_ok_swap _ (length_dir_slot d i (length_pread _ _ _ _ (ed ▸ c1)) hi)
      (hok i hi)

/-- Witness for C22: a 3-byte file named `a` inserted into the image formatted with 180 KiB
and 128 inodes on a little-endian host. -/
theorem dir_checksums_preserved_witness :
    ∃ out, mkfs_adder Endian.little [] (fun _ => 0) (builder_image Endian.little [] 0 180 128)
        [97] (some [1, 2, 3]) = { status := none, output := some out } ∧
      ∃ m_root2 d2, pread out (3 * BS) INODE_SIZE = some m_root2 ∧
        pread out ((inode_to_host (inode_of_mem Endian.little m_root2)).direct.getD 0 0 * BS)
          BS = some d2 ∧
        ∀ i, i < 64 → dirent_checksum_ok (dir_slot d2 i) := by
  have hv : builder_valid 180 128 = true := by decide
  obtain ⟨out, hs⟩ := adder_succeeds_fresh Endian.little [] [] (fun _ => 0) 0 180 128 [97]
    [1, 2, 3] hv (by decide) (by decide) (by decide) (by decide)
  obtain ⟨m0, d0, a1, a2, a3, _⟩ := image_inv_root_dir Endian.little 180 128 0 _
    (builder_image_inv Endian.little [] 0 180 128 hv)
  obtain ⟨_, _, _, _, _, k5, _, _⟩ := builder_image_reads Endian.little [] 0 180 128 hv
  rw [k5] at a3
  have ed := Option.some.inj a3
  obtain ⟨m2, d2, b1, _, b3, b4⟩ := dir_checksums_preserved Endian.little [] (fun _ => 0)
    (builder_image Endian.little [] 0 180 128) [97] (some [1, 2, 3]) out m0 d0
    (Reachable.format [] 0 180 128 _ (by unfold mkfs_builder; rw [if_pos hv]))
    (by decide) hs a1 (by rw [a2, k5, ed])
    (fun i hi => by rw [← ed]; exact fresh_dir_checksum_ok Endian.little i hi)
  exact ⟨out, hs, m2, d2, b1, b3, b4⟩

/-! ## The entries an insert does not choose -/

/-- What a successful insert into an image the tools produced does to the entries of the
root directory block it did not choose: the four bytes of the inode number come back in
reverse order, the other 60 bytes are as they were. -/
theorem insert_other_slots (h : Endian) (after : List Nat) (clock : Nat → Nat)
    (img file_name : List Nat) (file : Option (List Nat)) (out : List Nat)
    (hr : Reachable h img)
    (hs : mkfs_adder h after clock img file_name file =
      { status := none, output := some out }) :
    ∃ sk ic j d d2, image_inv h sk ic j img ∧
      pread img ((builder_geometry sk ic).data_region_start * BS) BS = some d ∧
      pread out ((builder_geometry sk ic).data_region_start * BS) BS = some d2 ∧
      ∀ i, i < 64 → i ≠ j + 2 →
        dir_slot d2 i = (dir_ino_bytes d i).reverse ++ (dir_slot d i).drop 4 := by
  obtain ⟨sk, ic, j, hinv, _⟩ := reachable_counts h img hr
  obtain ⟨hn, p, hp⟩ := mkfs_adder_status_none h after clock img file_name file
    (by rw [hs])
  have hout := mkfs_adder_of_read_ok h after clock img file_name file p hn hp
  rw [hs] at hout
  have eout : out = adder_write_phase h after clock file_name p img := by
    injection hout with _ e2
    exact Option.some.inj e2
  obtain ⟨d1, d2, c1, _, c3, _, _, _, c7⟩ :=
    insert_dir_slots h after clock sk ic j img file_name file p hinv hp
  rw [← eout] at c3
  exact ⟨sk, ic, j, d1, d2, hinv, c1, c3, c7⟩

/-- C23, the code at the failing input.  A 3-byte file named `a` is inserted into the image
formatted with 180 KiB and 128 inodes on a little-endian host.  The insert succeeds and puts
its entry in slot 2 of the root directory block (block 7); the four on-disk bytes of the
inode number of `.` in slot 0 are `00 00 00 01` in the input and `01 00 00 00` in the
output. -/
theorem insert_rewrites_dot_entry :
    ∃ out, mkfs_adder Endian.little [] (fun _ => 0) (builder_image Endian.little [] 0 180 128)
        [97] (some [1, 2, 3]) = { status := none, output := some out } ∧
      (builder_geometry 180 128).data_region_start = 7 ∧
      (∃ e, pread out (7 * BS + 2 * 64) 64 = some e ∧
        (dirent_of_mem Endian.little e).name = [97] ++ List.replicate 57 0) ∧
      pread (builder_image Endian.little [] 0 180 128) (7 * BS) 4 = some [0, 0, 0, 1] ∧
      pread out (7 * BS) 4 = some [1, 0, 0, 0] := by
  have hBS : BS = 4096 := rfl
  have hv : builder_valid 180 128 = true := by decide
  have hg : (builder_geometry 180 128).data_region_start = 7 := by decide
  have hinv := builder_image_inv Endian.little [] 0 180 128 hv
  obtain ⟨out, hs⟩ := adder_succeeds_fresh Endian.little [] [] (fun _ => 0) 0 180 128 [97]
    [1, 2, 3] hv (by decide) (by decide) (by decide) (by decide)
  obtain ⟨hn, p, hp⟩ := mkfs_adder_status_none Endian.little [] (fun _ => 0) _ [97]
    (some [1, 2, 3]) (by rw [hs])
  have hout := mkfs_adder_of_read_ok Endian.little [] (fun _ => 0) _ [97] (some [1, 2, 3]) p hn hp
  rw [hs] at hout
  have eout : out = adder_write_phase Endian.little [] (fun _ => 0) [97] p
      (builder_image Endian.little [] 0 180 128) :=
    Option.some.inj (congrArg adder_result.output hout)
  obtain ⟨d1, d2, c1, _, c3, c4, _, _, c7⟩ :=
    insert_dir_slots Endian.little [] (fun _ => 0) 180 128 0 _ [97] (some [1, 2, 3]) p hinv hp
  obtain ⟨_, _, _, _, _, _, k7⟩ :=
    insert_entry_of_inv Endian.little [] (fun _ => 0) 180 128 0 _ [97] (some [1, 2, 3]) p hinv hp
  obtain ⟨_, _, _, _, _, k5, _, _⟩ := builder_image_reads Endian.little [] 0 180 128 hv
  rw [k5] at c1
  have ed := (Option.some.inj c1).symm
  have c3 : pread out (7 * BS) BS = some d2 := by
    rw [eout]
    exact hg ▸ c3
  have k7 : pread out (7 * BS + 64 * (0 + 2)) 64 =
      some (dirent_mem Endian.little (adder_new_entry Endian.little [97] p)) := by
    rw [eout]
    exact hg ▸ k7
  have k5 : pread (builder_image Endian.little [] 0 180 128) (7 * BS) BS = some d1 := by
    rw [ed]
    exact hg ▸ k5
  obtain ⟨r1, hr1, e1⟩ := builder_dirent_mem Endian.little [46] (by decide)
  have hb : host_bytes Endian.little 4 (to_le32 1) = [0, 0, 0, 1] := by decide
  have hin : dir_ino_bytes d1 0 = [0, 0, 0, 1] := by
    rw [ed, e1, hb]
    rfl
  obtain ⟨_, _, _, _, l5, _⟩ := adder_new_entry_layout Endian.little [97] p (by decide) []
  rw [List.append_nil] at l5
  refine ⟨out, hs, hg, ⟨_, k7, l5⟩, ?_, ?_⟩
  · have := pread_sub _ (7 * BS) BS _ 0 4 k5 (by rw [hBS]; omega)
    rw [Nat.add_zero] at this
    rw [this]
    exact congrArg some hin
  · have := pread_sub _ (7 * BS) BS _ 0 4 c3 (by rw [hBS]; omega)
    rw [Nat.add_zero] at this
    rw [this]
    have e2 : (d2.drop 0).take 4 = (dir_slot d2 0).take 4 := by
      rw [dir_slot_take_4]
      rfl
    rw [e2, c7 0 (by omega) (by omega), hin]
    rfl

/-! ## Sequences of inserts -/

theorem dir_entry_name_of_slot (d : List Nat) (i : Nat) (name : List Nat)
    (hd : d.length = BS) (hi : i < 64) (hs : slot_name d i name) :
    dir_entry_name d i = name := by
  have hBS : BS = 4096 := rfl
  obtain ⟨hc, rest, hr⟩ := hs
  have e : d.drop (64 * i + 5) = (dir_slot d i).drop 5 ++ d.drop (64 * i + 64) := by
    have e1 : d.drop (64 * i) = dir_slot d i ++ (d.drop (64 * i)).drop 64 :=
      (List.take_append_drop 64 _).symm
    have e2 : d.drop (64 * i + 5) = (d.drop (64 * i)).drop 5 := by rw [List.drop_drop]
    rw [e2, e1, List.drop_append_of_le_length (by rw [length_dir_slot d i hd hi]; omega),
      List.drop_drop]
  unfold dir_entry_name
  rw [e, hr, List.append_assoc, List.cons_append]
  exact c_str_append_nul name _ hc

theorem slot_name_of_drop_5 (d d2 : List Nat) (i : Nat) (name : List Nat)
    (he : (dir_slot d2 i).drop 5 = (dir_slot d i).drop 5) (hs : slot_name d i name) :
    slot_name d2 i name := by
  obtain ⟨hc, rest, hr⟩ := hs
  exact ⟨hc, rest, by rw [he, hr]⟩

/-- The image the formatter writes, as the start of a sequence of inserts. -/
theorem fresh_insert_state (h : Endian) (after : List Nat) (now size_kib inode_count : Nat)
    (hv : builder_valid size_kib inode_count = true) :
    insert_state h size_kib inode_count 0 1 [[46], [46, 46]]
      (builder_image h after now size_kib inode_count) := by
  obtain ⟨_, _, k2, _, _, k5, _, _⟩ := builder_image_reads h after now size_kib inode_count hv
  obtain ⟨s0, s1, _⟩ := fresh_dir_slots h
  refine ⟨builder_image_inv h after now size_kib inode_count hv,
    builder_image_counts h after now size_kib inode_count hv, ⟨_, k2, ?_⟩, rfl, ⟨_, k5, ?_⟩⟩
  · intro k
    rw [is_bit_set_first_bit_block]
    simp only [decide_eq_true_eq]
    omega
  · intro i name hn
    have h0 := dirent_mem_drop_5 h (builder_dirent h [46]) []
    have h1 := dirent_mem_drop_5 h (builder_dirent h [46, 46]) []
    rw [List.append_nil] at h0 h1
    have n0 : (builder_dirent h [46]).name = [46] ++ 0 :: List.replicate 56 0 := rfl
    have n1 : (builder_dirent h [46, 46]).name = [46, 46] ++ 0 :: List.replicate 55 0 := rfl
    match i, hn with
    | 0, hn =>
      have e : name = [46] := (Option.some.inj hn).symm
      rw [e]
      refine ⟨by decide, List.replicate 56 0 ++
        host_bytes h 1 (builder_dirent h [46]).checksum, ?_⟩
      rw [s0, h0, n0]
      simp only [List.append_assoc, List.cons_append, List.append_nil]
    | 1, hn =>
      have e : name = [46, 46] := (Option.some.inj hn).symm
      rw [e]
      refine ⟨by decide, List.replicate 55 0 ++
        host_bytes h 1 (builder_dirent h [46, 46]).checksum, ?_⟩
      rw [s1, h1, n1]
      simp only [List.append_assoc, List.cons_append, List.append_nil]
    | i + 2, hn => exact absurd hn (by simp)

/-- The lowest clear bits of a bitmap whose set bits are bits `0..n-1` are bits
`n, n + 1, ...`. -/
theorem lowest_bits_of_prefix (bm : List Nat) (f : Nat → Nat) (b n : Nat)
    (hbits : ∀ k, is_bit_set bm k = true ↔ k < n)
    (hclear : ∀ k, k < b → is_bit_set bm (f k) = false)
    (hmono : ∀ k k2, k < k2 → k2 < b → f k < f k2)
    (hlow : ∀ k, k < b → ∀ m, m < f k → is_bit_set bm m = true ∨ ∃ k2, k2 < k ∧ m = f k2) :
    ∀ k, k < b → f k = n + k := by
  have hfree : ∀ k, n ≤ k → is_bit_set bm k = false := by
    intro k hk
    cases hb : is_bit_set bm k with
    | false => rfl
    | true =>
      have := (hbits k).1 hb
      omega
  have hup := lowest_bits_bound bm f b n hfree hlow
  have hlo : ∀ k, k < b → n + k ≤ f k := by
    intro k
    induction k with
    | zero =>
      intro hk
      by_contra hlt
      have hset := (hbits (f 0)).2 (by omega)
      rw [hclear 0 hk] at hset
      exact absurd hset (by simp)
    | succ k ih =>
      intro hk
      have h1 := ih (by omega)
      have h2 := hmono k (k + 1) (by omega) hk
      omega
  intro k hk
  have h1 := hup k hk
  have h2 := hlo k hk
  omega

/-- One insert of a sequence.  Into an image after `j ≤ 61` inserts whose data bitmap has
bits `0..n-1` set, a file of at most 12 blocks under a name no entry carries is inserted
with success; the new inode `j + 2` receives the blocks
`data_region_start + n, data_region_start + n + 1, ...`, whatever the size of the data
region. -/
theorem insert_state_step (h : Endian) (after : List Nat) (clock : Nat → Nat)
    (size_kib inode_count j n : Nat) (names : List (List Nat))
    (img file_name content : List Nat)
    (hst : insert_state h size_kib inode_count j n names img) (hj : j ≤ 61)
    (hname : file_name.length ≤ 57) (hnul : ∀ c ∈ file_name, c ≠ 0)
    (hfresh : file_name ∉ names) (hlen : content.length ≤ 49152) :
    ∃ out m, mkfs_adder h after clock img file_name (some content) =
        { status := none, output := some out } ∧
      insert_state h size_kib inode_count (j + 1) (n + (content.length + BS - 1) / BS)
        (names ++ [file_name]) out ∧
      pread out (3 * BS + (j + 1) * INODE_SIZE) INODE_SIZE = some m ∧
      ∀ k, k < (content.length + BS - 1) / BS →
        (inode_to_host (inode_of_mem h m)).direct.getD k 0 =
          (builder_geometry size_kib inode_count).data_region_start + n + k := by
  have hBS : BS = 4096 := rfl
  obtain ⟨hinv, hc, ⟨bm, hb1, hb2⟩, hnl, ⟨d, hd1, hd2⟩⟩ := hst
  have hL : content.length + 4095 < 2 ^ 64 := by omega
  obtain ⟨_, e2, e3, _, _⟩ := blocks_needed_ceil content.length hL
  have hneed : ((content.length % 2 ^ 64 + BS - 1) % 2 ^ 64) / BS ≤ DIRECT_MAX := by
    rw [e2]
    by_contra hgt
    have := e3.1 (by omega)
    omega
  obtain ⟨d0, s1, s2, _, _, s5⟩ :=
    adder_read_phase_by_scan h size_kib inode_count j img file_name content hinv hc hneed
  rw [hd1] at s1
  have ed : d0 = d := (Option.some.inj s1).symm
  rw [ed] at s2 s5
  have hdl : d.length = BS := length_pread _ _ _ _ hd1
  obtain ⟨f1, f2⟩ := scan_root_dir_entries h file_name d hdl
    (fun i hi => (dir_inv_ino h j d s2 i hi).1)
  have hnd : (scan_root_dir h file_name 64 0 d (-1)).2.2 = false := by
    cases hb : (scan_root_dir h file_name 64 0 d (-1)).2.2 with
    | false => rfl
    | true =>
      exfalso
      obtain ⟨i, hi, hne, hnm⟩ := f1.1 hb
      have hle := (dir_inv_ino h j d s2 i hi).2.1 hne
      obtain ⟨name, hget⟩ : ∃ name, names[i]? = some name :=
        ⟨names[i], List.getElem?_eq_getElem (by omega)⟩
      have := dir_entry_name_of_slot d i name hdl hi (hd2 i name hget)
      rw [hnm] at this
      rw [this] at hfresh
      exact hfresh (List.getElem?_mem hget)
  have hfe : (scan_root_dir h file_name 64 0 d (-1)).2.1 ≠ -1 := by
    intro hcon
    have hall := ((f2 hnd).1.1 hcon) (j + 2) (by omega)
    have := (dir_inv_ino h j d s2 (j + 2) (by omega)).2.1 hall
    omega
  obtain ⟨p, hp⟩ := s5 hnd hfe
  have hout := mkfs_adder_of_read_ok h after clock img file_name (some content) p hname hp
  obtain ⟨hpf, hfile⟩ :=
    plan_facts_of_inv h size_kib inode_count j img file_name (some content) p hinv hp
  have hpc : p.file = content := (Option.some.inj hfile).symm
  have hb : p.blocks_needed = (content.length + BS - 1) / BS := by
    rw [hpf.needed, hpf.file_size, hpc, e2]
  obtain ⟨dbm, _, _, q1, q2, q3, _⟩ :=
    plan_reads_of_inv h size_kib inode_count j img file_name (some content) p hinv hp
  rw [hb1] at q1
  have ebm : dbm = bm := (Option.some.inj q1).symm
  rw [ebm] at q2 q3
  obtain ⟨f, a1, a2, a3⟩ :=
    alloc_data_blocks_exact _ _ _ _ _ _ _ (length_pread _ _ _ _ hb1) q2 q3
  rw [hb, Nat.zero_add] at a1 a2 a3
  have hfk := lowest_bits_of_prefix bm f ((content.length + BS - 1) / BS) n hb2
    (fun k hk => (a1 k (Nat.zero_le _) hk).2.1)
    (fun k k2 h1 h2 => a2 k k2 (Nat.zero_le _) h1 h2)
    (fun k hk m hm => by
      rcases (a1 k (Nat.zero_le _) hk).2.2.2 m hm with hs1 | ⟨k2, _, c2, c3⟩
      · exact Or.inl hs1
      · exact Or.inr ⟨k2, c2, c3⟩)
  obtain ⟨_, _, r3, _, r5, _, _⟩ :=
    adder_write_reads h after clock size_kib inode_count j img file_name p hinv.valid hpf
  obtain ⟨g1, g2, g3, g4, g5, g6, g7, g8, g9, g10, g11⟩ :=
    builder_geometry_bounds size_kib inode_count hinv.valid
  obtain ⟨w1, _, w3, _⟩ :=
    adder_new_inode_decode h clock size_kib inode_count j img p hinv.valid hpf
  obtain ⟨_, d2, c1, _, c3, c4, _, c6, c7⟩ :=
    insert_dir_slots h after clock size_kib inode_count j img file_name (some content) p hinv hp
  rw [hd1] at c1
  have ed1 := (Option.some.inj c1).symm
  rw [ed1] at c7
  refine ⟨_, inode_mem h (adder_new_inode h clock p), hout,
    ⟨adder_write_inv h after clock size_kib inode_count j img file_name p hinv.valid hpf,
      adder_write_counts h after clock size_kib inode_count j img file_name (some content) p
        hinv hc hp, ⟨_, r3, ?_⟩, by rw [List.length_append, hnl]; rfl, ⟨d2, c3, ?_⟩⟩, r5, ?_⟩
  · intro m
    rw [a3 m, hb2 m]
    constructor
    · rintro (hm | ⟨k, _, hk, e⟩)
      · omega
      · rw [e, hfk k hk]
        omega
    · intro hm
      by_cases hmn : m < n
      · exact Or.inl hmn
      · refine Or.inr ⟨m - n, Nat.zero_le _, by omega, ?_⟩
        rw [hfk (m - n) (by omega)]
        omega
  · intro i name hget
    by_cases hi : i < names.length
    · rw [List.getElem?_append_left hi] at hget
      apply slot_name_of_drop_5 d d2 i name _ (hd2 i name hget)
      rw [c7 i (by omega) (by omega)]
      have hl4 : ((dir_ino_bytes d i).reverse).length = 4 := by
        obtain ⟨v, _, hv, _⟩ := s2 i (by omega)
        rw [List.length_reverse, hv, length_host_bytes]
      rw [List.drop_append_eq_append_drop, List.drop_of_length_le (by rw [hl4]; omega), hl4,
        List.nil_append, List.drop_drop]
    · have hi2 : i = names.length := by
        by_contra hne
        rw [List.getElem?_eq_none (by rw [List.length_append, List.length_singleton]; omega)]
          at hget
        exact absurd hget (by simp)
      rw [hi2, List.getElem?_concat_length] at hget
      have en : name = file_name := (Option.some.inj hget).symm
      obtain ⟨_, _, _, _, _, l6⟩ := adder_new_entry_layout h file_name p hname []
      rw [List.append_nil] at l6
      rw [hi2, hnl, en]
      refine ⟨hnul, List.replicate (57 - file_name.length) 0 ++
        (host_bytes h 1 (adder_new_entry h file_name p).checksum ++ []), ?_⟩
      rw [c6, l6]
      have er : List.replicate (58 - file_name.length) 0 =
          0 :: List.replicate (57 - file_name.length) 0 := by
        have : 58 - file_name.length = (57 - file_name.length) + 1 := by omega
        rw [this, List.replicate_succ]
      rw [er]
      simp only [List.append_assoc, List.cons_append]
  · intro k hk
    rw [inode_of_mem_self h _ w1, w3]
    have h12 : (content.length + BS - 1) / BS ≤ 12 := by
      rw [← e2]
      exact hneed
    have hbk := (a1 k (Nat.zero_le _) hk).2.2.1
      (by rw [List.length_replicate]; simp only [DIRECT_MAX]; omega)
    have hlt := (a1 k (Nat.zero_le _) hk).1
    rw [hbk, hfk k hk]
    rw [hfk k hk, hBS] at hlt
    omega

/-- C21.  Unclamped allocation.  The image formatted with 180 KiB and 128 inodes has a data
region of 38 blocks, blocks 7..44 of 45.  Three inserts of 49152-byte files into it succeed
and leave data bits 0..36 set.  A fourth insert of a 49152-byte file into that image, which
the tools produced, succeeds as well: the search over all the bits of the bitmap block hands
out data bits 37..48, and inode 5 records the direct blocks 44..55, of which 45..55 are at or
past `total_blocks`, outside the data region and the image. -/
theorem unclamped_allocation :
    (builder_geometry 180 128).data_region_start = 7 ∧
    (builder_geometry 180 128).data_region_blocks = 38 ∧
    (builder_geometry 180 128).total_blocks = 45 ∧
    ∃ img1 img2 img3 out dbm dbm2 m,
      mkfs_adder Endian.little [] (fun _ => 0) (builder_image Endian.little [] 0 180 128) [97]
        (some (List.replicate 49152 0)) = { status := none, output := some img1 } ∧
      mkfs_adder Endian.little [] (fun _ => 0) img1 [98] (some (List.replicate 49152 0)) =
        { status := none, output := some img2 } ∧
      mkfs_adder Endian.little [] (fun _ => 0) img2 [99] (some (List.replicate 49152 0)) =
        { status := none, output := some img3 } ∧
      Reachable Endian.little img3 ∧
      mkfs_adder Endian.little [] (fun _ => 0) img3 [100] (some (List.replicate 49152 0)) =
        { status := none, output := some out } ∧
      pread img3 (2 * BS) BS = some dbm ∧ (∀ k, is_bit_set dbm k = true ↔ k < 37) ∧
      pread out (2 * BS) BS = some dbm2 ∧ (∀ k, is_bit_set dbm2 k = true ↔ k < 49) ∧
      pread out (3 * BS + 4 * INODE_SIZE) INODE_SIZE = some m ∧
      ∀ k, k < 12 →
        (inode_to_host (inode_of_mem Endian.little m)).direct.getD k 0 = 44 + k ∧
        (1 ≤ k → (builder_geometry 180 128).total_blocks ≤
          (inode_to_host (inode_of_mem Endian.little m)).direct.getD k 0) := by
  have hv : builder_valid 180 128 = true := by decide
  have hg : (builder_geometry 180 128).data_region_start = 7 := by decide
  have hgb : (builder_geometry 180 128).data_region_blocks = 38 := by decide
  have hgt : (builder_geometry 180 128).total_blocks = 45 := by decide
  have hlen : (List.replicate 49152 0).length ≤ 49152 := by rw [List.length_replicate]
  have e : ((List.replicate 49152 0).length + BS - 1) / BS = 12 := by
    rw [List.length_replicate]
    rfl
  have st0 := fresh_insert_state Endian.little [] 0 180 128 hv
  obtain ⟨img1, _, s1, st1, _, _⟩ := insert_state_step Endian.little [] (fun _ => 0) 180 128 0 1
    _ _ [97] (List.replicate 49152 0) st0 (by omega) (by decide) (by decide) (by decide) hlen
  rw [e] at st1
  obtain ⟨img2, _, s2, st2, _, _⟩ := insert_state_step Endian.little [] (fun _ => 0) 180 128 _ _
    _ _ [98] (List.replicate 49152 0) st1 (by omega) (by decide) (by decide) (by decide) hlen
  rw [e] at st2
  obtain ⟨img3, _, s3, st3, _, _⟩ := insert_state_step Endian.little [] (fun _ => 0) 180 128 _ _
    _ _ [99] (List.replicate 49152 0) st2 (by omega) (by decide) (by decide) (by decide) hlen
  rw [e] at st3
  obtain ⟨out, m, s4, st4, r1, r2⟩ := insert_state_step Endian.little [] (fun _ => 0) 180 128
    _ _ _ _ [100] (List.replicate 49152 0) st3 (by omega) (by decide) (by decide) (by decide)
    hlen
  rw [e] at st4 r2
  obtain ⟨dbm, b1, b2⟩ := st3.data_bits
  obtain ⟨dbm2, b3, b4⟩ := st4.data_bits
  have hr3 : Reachable Endian.little img3 :=
    Reachable.insert [] (fun _ => 0) img2 [99] _ img3
      (Reachable.insert [] (fun _ => 0) img1 [98] _ img2
        (Reachable.insert [] (fun _ => 0) _ [97] _ img1
          (Reachable.format [] 0 180 128 _ (by unfold mkfs_builder; rw [if_pos hv])) s1) s2) s3
  refine ⟨hg, hgb, hgt, img1, img2, img3, out, dbm, dbm2, m, s1, s2, s3, hr3, s4, b1, ?_, b3,
    ?_, r1, ?_⟩
  · intro k
    rw [b2 k]
  · intro k
    rw [b4 k]
  · intro k hk
    have := r2 k hk
    rw [hg] at this
    rw [this, hgt]
    exact ⟨by omega, fun h1 => by omega⟩

/-- Witness for C24: the image formatted with 180 KiB and 128 inodes on a little-endian host
after one insert (a 3-byte file named `a`), hence with `k = 1`, and a further successful
insert into it (a 2-byte file named `b`), which allocates inode index 2. -/
theorem reachable_inode_bound_witness :
    ∃ img1 out sbm ibm,
      mkfs_adder Endian.little [] (fun _ => 0) (builder_image Endian.little [] 0 180 128) [97]
        (some [1, 2, 3]) = { status := none, output := some img1 } ∧
      ReachableIn Endian.little 1 img1 ∧
      mkfs_adder Endian.little [] (fun _ => 0) img1 [98] (some [4, 5]) =
        { status := none, output := some out } ∧
      pread img1 0 116 = some sbm ∧ pread img1 BS BS = some ibm ∧
      (∀ b, is_bit_set ibm b = true ↔ b ≤ 1) ∧
      find_free_bit ibm BS = ((2 : Nat) : Int) ∧
      2 < (superblock_to_host (superblock_of_mem Endian.little sbm)).inode_count ∧
      (superblock_to_host (superblock_of_mem Endian.little sbm)).inode_table_start * BS +
          2 * INODE_SIZE + INODE_SIZE ≤
        (superblock_to_host (superblock_of_mem Endian.little sbm)).data_region_start * BS ∧
      (∃ m, pread out
          ((superblock_to_host (superblock_of_mem Endian.little sbm)).inode_table_start * BS +
            2 * INODE_SIZE) INODE_SIZE = some m ∧
        (inode_to_host (inode_of_mem Endian.little m)).mode = 0o100000) ∧
      ReachableIn Endian.little 2 out := by
  have hv : builder_valid 180 128 = true := by decide
  have st0 := fresh_insert_state Endian.little [] 0 180 128 hv
  obtain ⟨img1, _, s1, st1, _, _⟩ := insert_state_step Endian.little [] (fun _ => 0) 180 128 0 1
    _ _ [97] [1, 2, 3] st0 (by omega) (by decide) (by decide) (by decide) (by decide)
  obtain ⟨out, _, s2, _, _, _⟩ := insert_state_step Endian.little [] (fun _ => 0) 180 128 _ _
    _ _ [98] [4, 5] st1 (by omega) (by decide) (by decide) (by decide) (by decide)
  have hr1 : ReachableIn Endian.little 1 img1 :=
    ReachableIn.insert [] (fun _ => 0) _ [97] (some [1, 2, 3]) img1 0
      (ReachableIn.format [] 0 180 128 _ (by unfold mkfs_builder; rw [if_pos hv])) s1
  obtain ⟨_, sbm, ibm, _, _, a1, a2, _, _, a5, _, _, _, _, a10⟩ :=
    reachable_inode_bound Endian.little 1 img1 hr1
  obtain ⟨_, b2, _, b4, b5, b6, b7⟩ := a10 [] (fun _ => 0) [98] (some [4, 5]) out s2
  exact ⟨img1, out, sbm, ibm, s1, hr1, s2, a1, a2, a5, b2, b4, b5, b6, b7⟩

end MiniVSFS
